import Mathlib

/-!
# pyBPE (`fast.cpp`): byte-pair-encoding learner and applier

A shallow embedding of `src/fast.cpp`.

* A C++ `string` is a list of bytes (`Str`); a byte is a natural number below 256.
* `unordered_map` is an association list with distinct keys.  Its enumeration
  order (unspecified in C++, the order of the hash table in the program) is the
  order of the list: a new key goes to the end, an existing key is updated in
  place.  An `unordered_set` is a list without repetition, enumerated likewise.
  Lookups do not depend on the order; a concrete merge list stated for a map
  with several words, or a count stored under negative `int32_t` weights, is
  that of the order of the list.
* Behaviour the C++ leaves undefined or aborts on is an error value:
  `Err.assertion` for a failed `assert`, `Err.bounds` for `vector::operator[]`
  outside the vector, `Err.fuel` when a loop of the model ran out of fuel.
* `int32_t` values are integers in `[-2^31, 2^31)`; additions wrap (`wrap32`).
  `uint32_t` values are naturals taken `% 2^32`.
-/

namespace PyBPE

/-! ## Basic types -/

/-- A C++ `std::string`: a list of bytes. -/
abbrev Str := List Nat

/-- The ways a run of the program can end without a result. -/
inductive Err where
  | assertion
  | bounds
  | fuel
  deriving DecidableEq, Repr

deriving instance DecidableEq for Except

/-- An `unordered_map`: association list, enumeration order = list order. -/
abbrev Map (κ : Type) (ν : Type) := List (κ × ν)

/-- `m.find(k)`: the value stored under `k`, when there is one. -/
def Map.find? {κ ν : Type} [DecidableEq κ] : Map κ ν → κ → Option ν
  | [], _ => none
  | (k', v) :: rest, k => if k' = k then some v else Map.find? rest k

/-- `m[k] = v`: update in place, or add a new entry. -/
def Map.insert {κ ν : Type} [DecidableEq κ] : Map κ ν → κ → ν → Map κ ν
  | [], k, v => [(k, v)]
  | (k', v') :: rest, k, v =>
    if k' = k then (k, v) :: rest else (k', v') :: Map.insert rest k v

/-- `m.count(k) != 0`. -/
def Map.contains {κ ν : Type} [DecidableEq κ] (m : Map κ ν) (k : κ) : Bool :=
  (Map.find? m k).isSome

abbrev wMapCounts := Map Str Nat
abbrev tps := Str × Str
abbrev codesMap := Map tps Nat
abbrev reverseCodesMap := Map Str tps

/-- The literal `</w>`. -/
def kEndWord : Str := [60, 47, 119, 62]
def kEndWordLength : Nat := 4
/-- The literal `@@`. -/
def kTokenDelim : Str := [64, 64]
def kTokenDelimLength : Nat := 2

/-- The bytes of an ASCII string literal (used to write examples). -/
def asc (s : String) : Str := s.toList.map Char.toNat

/-! ## Word counting and text output -/

/-- `padText`: `text[l]` with `l = text.length()` reads the terminating NUL. -/
def padText (text : Str) : Str :=
  let c := text.getD text.length 0
  if c ≠ 32 ∨ c ≠ 10 then text ++ [10] else text

/-- The lambda `deal_with_char` of `readString`, on the state
`(cur_word, word_count)`. -/
def deal_with_char (st : Str × wMapCounts) (cur_char : Nat) : Str × wMapCounts :=
  if cur_char = 32 ∨ cur_char = 10 then
    if st.1.length = 0 then st
    else
      let count := match Map.find? st.2 st.1 with
        | some c => c
        | none => 0
      ([], Map.insert st.2 st.1 ((count + 1) % 2 ^ 32))
  else (st.1 ++ [cur_char], st.2)

/-- `readString`: the state after the scan; the map is its second component. -/
def readStringState (text : Str) (word_count : wMapCounts) : Str × wMapCounts :=
  text.foldl deal_with_char ([], word_count)

def readString (text : Str) (word_count : wMapCounts) : wMapCounts :=
  (readStringState text word_count).2

/-- `getvocabs`.  The map is the list of its entries in the order in which the
words first occur; the program enumerates its `unordered_map` in the order of
the hash table, which C++ leaves open.  Lookups do not depend on the order; the
ids that `tokenize` gives to the symbols of a map with several words do. -/
def getvocabs (text : Str) : wMapCounts :=
  readString (padText text) []

/-- One round of the loop of `outputString`, on the state `(cur_word, outputStr)`. -/
def outputStep (bpe : Map Str Str) (st : Str × Str) (cur_char : Nat) :
    Except Err (Str × Str) :=
  if cur_char = 32 ∨ cur_char = 10 then
    if st.1.length = 0 then .ok ([], st.2 ++ [cur_char])
    else
      match Map.find? bpe st.1 with
      | none => .error Err.assertion
      | some seg => .ok ([], st.2 ++ seg ++ [cur_char])
  else .ok (st.1 ++ [cur_char], st.2)

def outputLoop (bpe : Map Str Str) : List Nat → Str × Str → Except Err (Str × Str)
  | [], st => .ok st
  | c :: rest, st =>
    match outputStep bpe st c with
    | .error e => .error e
    | .ok st' => outputLoop bpe rest st'

def outputString (text : Str) (bpe : Map Str Str) : Except Err Str :=
  match outputLoop bpe text ([], []) with
  | .error e => .error e
  | .ok st => .ok st.2

/-! ## Initial tokenization -/

/-- The test `(c & 0xc0) != 0x80`: `c` is not a UTF-8 continuation byte. -/
def newChar (c : Nat) : Bool := (c &&& 0xc0) != 0x80

/-- The `while (word[pos])` loop shared by `tokenize` and `tokenize_str`.
`rest` is the word from `pos` on, `cur` the bytes from `lastStart` to `pos`,
`pos0` says `pos == 0`, `out` the tokens pushed so far.  The loop ends at the
end of the word or at a NUL byte; the last token is `word.substr(lastStart)`
followed by `</w>`. -/
def tokenizeLoop : List Nat → Str → Bool → List Str → List Str
  | [], cur, _, out => out ++ [cur ++ kEndWord]
  | c :: rest, cur, pos0, out =>
    if c = 0 then out ++ [cur ++ (c :: rest) ++ kEndWord]
    else if newChar c && !pos0 then tokenizeLoop rest [c] false (out ++ [cur])
    else tokenizeLoop rest (cur ++ [c]) false out

/-- The body of the loop of `tokenize_str` for one word. -/
def tokenize_word (word : Str) : List Str :=
  tokenizeLoop word [] true []

def tokenize_str (word_count : wMapCounts) : Map Str (List Str) :=
  word_count.foldl (fun words x => Map.insert words x.1 (tokenize_word x.1)) []

/-! ## Merge application -/

/-- The search loop of `process_bpe`: `best` is `(bestPairId, bestPair)`, absent
for `bestPairId == -1`.  `int pairRank = it->second` is negative for a rank
of `2^31` or more. -/
def bestPairLoop (codes : codesMap) :
    List Str → Nat → Option (Nat × tps × Nat) → Option (Nat × tps × Nat)
  | a :: b :: rest, i, best =>
    let best' :=
      match Map.find? codes (a, b) with
      | none => best
      | some r =>
        if r < 2 ^ 31 then
          match best with
          | none => some (i, (a, b), r)
          | some (j, p, rb) => if rb > r then some (i, (a, b), r) else some (j, p, rb)
        else best
    bestPairLoop codes (b :: rest) (i + 1) best'
  | _, _, best => best

/-- The rewriting loop of `process_bpe`; the flag is `justMerged`. -/
def mergePass (l r : Str) : List Str → Bool → List Str
  | [], _ => []
  | [a], jm => if jm then [] else [a]
  | a :: b :: rest, jm =>
    if !jm && a = l && b = r then (a ++ b) :: mergePass l r (b :: rest) true
    else if jm then mergePass l r (b :: rest) false
    else a :: mergePass l r (b :: rest) false

/-- The `while (subwords.size() > 1)` loop of `process_bpe`. -/
def mergeLoop (codes : codesMap) : Nat → List Str → Except Err (List Str)
  | fuel, subwords =>
    if subwords.length > 1 then
      match bestPairLoop codes subwords 0 none with
      | none => .ok subwords
      | some (_, (l, r), _) =>
        match fuel with
        | 0 => .error Err.fuel
        | f + 1 => mergeLoop codes f (mergePass l r subwords false)
    else .ok subwords

/-- `s.substr(0, s.size() - kEndWordLength)`: the subtraction is unsigned, so a
string shorter than four bytes is returned whole. -/
def stripEnd (s : Str) : Str :=
  if s.length < kEndWordLength then s else s.take (s.length - kEndWordLength)

/-- The number of bytes of `s` that are not continuation bytes. -/
def countLead (s : Str) : Nat := (s.filter newChar).length

/-- The string looked up in the vocabulary for a symbol (`query`): the symbol
without its last four bytes when it is final, the symbol followed by `@@`
otherwise. -/
def probe (isFinal : Bool) (s : Str) : Str :=
  if isFinal then stripEnd s else s ++ kTokenDelim

/-- The pattern `if (vocab.find(query) == vocab.end()) decompose(...) else
newSubwords.push_back(t)`; `k` is the result of the call of `decompose`. -/
def keepOr (vocab : wMapCounts) (query t : Str) (k : Except Err (List Str)) :
    Except Err (List Str) :=
  if Map.contains vocab query then .ok [t] else k

/-- `decompose`; the result is the list of symbols pushed onto `newSubwords`. -/
def decompose : Nat → Str → reverseCodesMap → wMapCounts → Bool → Except Err (List Str)
  | 0, _, _, _, _ => .error Err.fuel
  | f + 1, s, reversed_codes, vocab, isFinal =>
    match Map.find? reversed_codes s with
    | none =>
      let s2 := if isFinal then stripEnd s else s
      if countLead s2 = 1 then .ok [s] else .error Err.assertion
    | some (token1, token2) =>
      match keepOr vocab (token1 ++ kTokenDelim) token1
          (decompose f token1 reversed_codes vocab false) with
      | .error e => .error e
      | .ok p1 =>
        match keepOr vocab (probe isFinal token2) token2
            (decompose f token2 reversed_codes vocab isFinal) with
        | .error e => .error e
        | .ok p2 => .ok (p1 ++ p2)

/-- `limitVocab`; the list is `subwords` from index `i` on, and `isFinal` holds
on its last element. -/
def limitVocab (fuel : Nat) (reversed_codes : reverseCodesMap) (vocab : wMapCounts) :
    List Str → Except Err (List Str)
  | [] => .ok []
  | subword :: rest =>
    let isFinal := rest.isEmpty
    match keepOr vocab (probe isFinal subword) subword
        (decompose fuel subword reversed_codes vocab isFinal) with
    | .error e => .error e
    | .ok p =>
      match limitVocab fuel reversed_codes vocab rest with
      | .error e => .error e
      | .ok ps => .ok (p ++ ps)

/-- The first two parts of `process_bpe`: the final value of `subwords`. -/
def bpeSymbols (fuel : Nat) (subwords : List Str) (codes : codesMap)
    (reversed_codes : reverseCodesMap) (vocab : wMapCounts) : Except Err (List Str) :=
  match mergeLoop codes subwords.length subwords with
  | .error e => .error e
  | .ok merged =>
    if vocab.length > 0 then limitVocab fuel reversed_codes vocab merged
    else .ok merged

/-- The last part of `process_bpe`: `result.size() - 4 - 2 - 1` is unsigned. -/
def concatSubwords (subwords : List Str) : Str :=
  let result := subwords.foldl (fun result x => result ++ x ++ kTokenDelim ++ [32]) []
  if result.length < kEndWordLength + kTokenDelimLength + 1 then result
  else result.take (result.length - kEndWordLength - kTokenDelimLength - 1)

def process_bpe (fuel : Nat) (subwords : List Str) (codes : codesMap)
    (reversed_codes : reverseCodesMap) (vocab : wMapCounts) : Except Err Str :=
  match bpeSymbols fuel subwords codes reversed_codes vocab with
  | .error e => .error e
  | .ok final => .ok (concatSubwords final)

/-- The loop of one worker thread of `_buildbpes` over its words, on its private
map `bpe[this_thread]`. -/
def workerRun (fuel : Nat) (codes : codesMap) (reversed_codes : reverseCodesMap)
    (vocab : wMapCounts) : List (Str × List Str) → Map Str Str → Except Err (Map Str Str)
  | [], bpe => .ok bpe
  | x :: rest, bpe =>
    match process_bpe fuel x.2 codes reversed_codes vocab with
    | .error e => .error e
    | .ok out => workerRun fuel codes reversed_codes vocab rest (Map.insert bpe x.1 out)

/-- The entries of `bpeTokVec` visited by worker `this_thread`:
`w = this_thread; w < bpeTokVec.size(); w += kThreads`. -/
def workerItems (kThreads this_thread : Nat) (bpeTokVec : List (Str × List Str)) :
    List (Str × List Str) :=
  (bpeTokVec.enum.filter (fun jw => jw.1 % kThreads = this_thread)).map Prod.snd

/-- The private maps of the workers `this_thread, this_thread + 1, ...`
(`n` of them).  A failed assertion in any worker ends the program. -/
def runWorkers (fuel : Nat) (codes : codesMap) (reversed_codes : reverseCodesMap)
    (vocab : wMapCounts) (kThreads : Nat) (bpeTokVec : List (Str × List Str)) :
    Nat → Nat → Except Err (List (Map Str Str))
  | 0, _ => .ok []
  | n + 1, this_thread =>
    match workerRun fuel codes reversed_codes vocab
        (workerItems kThreads this_thread bpeTokVec) [] with
    | .error e => .error e
    | .ok bpe =>
      match runWorkers fuel codes reversed_codes vocab kThreads bpeTokVec n
          (this_thread + 1) with
      | .error e => .error e
      | .ok bpes => .ok (bpe :: bpes)

/-- The fold `final_bpe[x.first] = x.second` over the private maps. -/
def foldBpes (bpes : List (Map Str Str)) : Map Str Str :=
  bpes.foldl (fun final bpe => bpe.foldl (fun final x => Map.insert final x.1 x.2) final) []

/-- `_buildbpes`; `kThreads` is the size of the worker pool. -/
def _buildbpes (kThreads fuel : Nat) (word_count vocab : wMapCounts) (codes : codesMap)
    (reversed_codes : reverseCodesMap) : Except Err (Map Str Str) :=
  let bpeTokVec := tokenize_str word_count
  match runWorkers fuel codes reversed_codes vocab kThreads bpeTokVec kThreads 0 with
  | .error e => .error e
  | .ok bpes => .ok (foldBpes bpes)

/-- `convert_pyvocab_to_mapwc`; the dictionary is the list of its items. -/
def convert_pyvocab_to_mapwc (py_vocab : List (Str × Nat)) : wMapCounts :=
  py_vocab.foldl (fun word_count kv => Map.insert word_count kv.1 kv.2) []

/-- `convert_pycodes_to_mapcodes`. -/
def convert_pycodes_to_mapcodes (py_codes : List (tps × Nat)) : codesMap × reverseCodesMap :=
  py_codes.foldl
    (fun acc kv =>
      (Map.insert acc.1 kv.1 kv.2, Map.insert acc.2 (kv.1.1 ++ kv.1.2) kv.1))
    ([], [])

def _applybpe (kThreads fuel : Nat) (word_count : wMapCounts)
    (codes_tup : codesMap × reverseCodesMap) (vocab : wMapCounts) :
    Except Err (Map Str Str) :=
  _buildbpes kThreads fuel word_count vocab codes_tup.1 codes_tup.2

def apply_bpe (kThreads fuel : Nat) (text : Str) (py_codes : List (tps × Nat))
    (py_vocab : List (Str × Nat)) : Except Err Str :=
  let text_ := padText text
  let word_count := readString text_ []
  let codes := convert_pycodes_to_mapcodes py_codes
  let vocab := convert_pyvocab_to_mapwc py_vocab
  match _applybpe kThreads fuel word_count codes vocab with
  | .error e => .error e
  | .ok final_bpe => outputString text_ final_bpe

/-- Deleting every occurrence of the glue `@@ ` (leftmost first). -/
def stripGlue : Str → Str
  | [] => []
  | 64 :: 64 :: 32 :: rest => stripGlue rest
  | c :: rest => c :: stripGlue rest

/-! ## Merge learning -/

/-- A pair of symbol ids (`tp`). -/
abbrev tp := Nat × Nat

/-- A learned rule `(left, right, count)`. -/
abbrev triplet := Str × Str × Nat

/-- Conversion to `int32_t` (two's complement). -/
def wrap32 (x : Int) : Int := (x + 2 ^ 31) % 2 ^ 32 - 2 ^ 31

/-- Conversion of an `int32_t` to `uint32_t`. -/
def toU32 (x : Int) : Nat := (x % 2 ^ 32).toNat

/-- `operator<` of `std::pair`. -/
def tpLt (a b : tp) : Bool := a.1 < b.1 || (a.1 = b.1 && a.2 < b.2)

/-- Interning of one token in `tokenize`, on `(token_to_int, int_to_token)`;
returns the token's id as well. -/
def intern (tab : Map Str Nat × List Str) (new_token : Str) :
    (Map Str Nat × List Str) × Nat :=
  let tab' :=
    if Map.contains tab.1 new_token then tab
    else (Map.insert tab.1 new_token (tab.2 ++ [new_token]).length.pred, tab.2 ++ [new_token])
  (tab', (Map.find? tab'.1 new_token).getD 0)

/-- Interning of the tokens of one word, in the order `tokenize` meets them. -/
def internAll : List Str → Map Str Nat × List Str → List Nat →
    (Map Str Nat × List Str) × List Nat
  | [], tab, current_word => (tab, current_word)
  | t :: rest, tab, current_word =>
    let r := intern tab t
    internAll rest r.1 (current_word ++ [r.2])

/-- The tables filled by `tokenize`. -/
structure Tokenized where
  token_to_int : Map Str Nat
  int_to_token : List Str
  words : List (List Nat)
  counts : List Int

/-- `tokenize`: the words are taken in the enumeration order of `word_count`;
`counts.push_back(x.second)` converts the `uint32_t` weight to `int32_t`. -/
def tokenize : wMapCounts → Tokenized → Tokenized
  | [], t => t
  | x :: rest, t =>
    let r := internAll (tokenize_word x.1) (t.token_to_int, t.int_to_token) []
    tokenize rest
      { token_to_int := r.1.1, int_to_token := r.1.2,
        words := t.words ++ [r.2], counts := t.counts ++ [wrap32 x.2] }

/-- The pair index: the vector `contiguous_counts` and the map `where_to_update`.
The hash map `pair_counts` sends a pair to the address of its record in
`contiguous_counts`; the model finds the record by its pair.  A set of word ids
is a list without repetition, enumerated in insertion order; a pair without an
entry in `where_to_update` has the empty set. -/
structure PairIndex where
  contiguous_counts : List (Int × tp)
  where_to_update : Map tp (List Nat)

/-- `pair_counts.find(pair)`: the count of the record of `pair`. -/
def ccFind : List (Int × tp) → tp → Option Int
  | [], _ => none
  | x :: rest, p => if x.2 = p then some x.1 else ccFind rest p

/-- `pair_counts[pair]->first = f(pair_counts[pair]->first)`. -/
def ccModify (f : Int → Int) : List (Int × tp) → tp → List (Int × tp)
  | [], _ => []
  | x :: rest, p => if x.2 = p then (f x.1, x.2) :: rest else x :: ccModify f rest p

def setInsert (s : List Nat) (x : Nat) : List Nat := if x ∈ s then s else s ++ [x]

def setErase (s : List Nat) (x : Nat) : List Nat := s.filter (fun y => y ≠ x)

/-- `where[pair]`, the empty set when there is no entry. -/
def whereGet (w : Map tp (List Nat)) (p : tp) : List Nat := (Map.find? w p).getD []

/-- `where[pair].op(...)`. -/
def whereUpdate (w : Map tp (List Nat)) (p : tp) (f : List Nat → List Nat) :
    Map tp (List Nat) :=
  Map.insert w p (f (whereGet w p))

/-- The block `if (second)` of `count_in_word` for the pair `cur_pair`.  For a
new pair `where[cur_pair].emplace()` puts the value-initialised id `0` into the
set. -/
def count_pair (wi count : Nat) (cur_pair : tp) (idx : PairIndex) : PairIndex :=
  let idx1 : PairIndex :=
    if (ccFind idx.contiguous_counts cur_pair).isNone then
      { contiguous_counts := idx.contiguous_counts ++ [(0, cur_pair)],
        where_to_update := whereUpdate idx.where_to_update cur_pair (fun s => setInsert s 0) }
    else idx
  let idx2 : PairIndex :=
    { idx1 with
      where_to_update :=
        if count > 0 then whereUpdate idx1.where_to_update cur_pair (fun s => setInsert s wi)
        else whereUpdate idx1.where_to_update cur_pair (fun s => setErase s wi) }
  { idx2 with
    contiguous_counts :=
      ccModify (fun c => wrap32 (c + count)) idx2.contiguous_counts cur_pair }

/-- The loop of `count_in_word` once `second` is true; `prev` is
`cur_pair.second` before the shift. -/
def count_in_word_loop (wi count : Nat) : List Nat → Nat → PairIndex → PairIndex
  | [], _, idx => idx
  | token :: rest, prev, idx =>
    count_in_word_loop wi count rest token (count_pair wi count (prev, token) idx)

/-- `count_in_word`; `count` is the `uint32_t` parameter. -/
def count_in_word (word : List Nat) (wi count : Nat) (idx : PairIndex) : PairIndex :=
  match word with
  | [] => idx
  | token :: rest => count_in_word_loop wi count rest token idx

/-- The loop of `find_maxp`; the comparisons of `x.first` with `max_c` are
unsigned. -/
def find_maxp_loop : List (Int × tp) → tp → Nat → tp × Nat
  | [], maxp, max_c => (maxp, max_c)
  | x :: rest, maxp, max_c =>
    if toU32 x.1 > max_c then find_maxp_loop rest x.2 (toU32 x.1)
    else if toU32 x.1 = max_c ∧ tpLt x.2 maxp then find_maxp_loop rest x.2 max_c
    else find_maxp_loop rest maxp max_c

/-- `find_maxp`; `maxp` is the value the output variable holds on entry. -/
def find_maxp (contiguous_counts : List (Int × tp)) (maxp : tp) : tp × Nat :=
  find_maxp_loop contiguous_counts maxp 0

/-- The lambda `change_count` of `_learnbpe`. -/
def change_count (idx : PairIndex) (pair : tp) (v : Int) (wi : Nat) : PairIndex :=
  let idx1 : PairIndex :=
    match ccFind idx.contiguous_counts pair with
    | some _ =>
      { idx with
        contiguous_counts := ccModify (fun c => wrap32 (c + v)) idx.contiguous_counts pair }
    | none =>
      if v > 0 then
        { contiguous_counts := idx.contiguous_counts ++ [(v, pair)],
          where_to_update := Map.insert idx.where_to_update pair [] }
      else idx
  if v > 0 then
    { idx1 with
      where_to_update := whereUpdate idx1.where_to_update pair (fun s => setInsert s wi) }
  else idx1

/-- The block `if (it != cur_word.begin())` of `_learnbpe`: `pre` holds the
symbols before the pair, nearest first; `first` is `cur_pair.first`. -/
def updateBefore (idx : PairIndex) (pre : List Nat) (first new_token_id : Nat) (c : Int)
    (wi : Nat) : PairIndex :=
  match pre with
  | [] => idx
  | before :: _ =>
    change_count (change_count idx (before, first) (wrap32 (-c)) wi)
      (before, new_token_id) c wi

/-- The block `if (it != cur_word.end())` of `_learnbpe`: `rest` holds the
symbols after the pair; `second` is `cur_pair.second`. -/
def updateAfter (idx : PairIndex) (rest : List Nat) (second new_token_id : Nat) (c : Int)
    (wi : Nat) : PairIndex :=
  match rest with
  | [] => idx
  | after :: _ =>
    change_count (change_count idx (second, after) (wrap32 (-c)) wi)
      (new_token_id, after) c wi

/-- The `while (it != cur_word.end())` loop of `_learnbpe` once `second` is
true.  The word is `pre.reverse ++ [a] ++ rest` with `it` at the head of `rest`;
`cur` is `cur_pair.second` before the shift; `c` is `counts[wi]`. -/
def sweepLoop (max_p : tp) (new_token_id : Nat) (c : Int) (wi : Nat) :
    List Nat → Nat → List Nat → Nat → PairIndex → List Nat × PairIndex
  | pre, a, [], _, idx => ((a :: pre).reverse, idx)
  | pre, a, x :: rest, cur, idx =>
    let cur_pair : tp := (cur, x)
    if cur_pair = max_p then
      let idx1 := updateBefore idx pre cur_pair.1 new_token_id c wi
      let idx2 := updateAfter idx1 rest cur_pair.2 new_token_id c wi
      sweepLoop max_p new_token_id c wi pre new_token_id rest new_token_id idx2
    else sweepLoop max_p new_token_id c wi (a :: pre) x rest x idx

/-- The rewriting of the word `wi`. -/
def sweepWord (max_p : tp) (new_token_id : Nat) (c : Int) (wi : Nat)
    (cur_word : List Nat) (idx : PairIndex) : List Nat × PairIndex :=
  match cur_word with
  | [] => ([], idx)
  | x :: rest => sweepLoop max_p new_token_id c wi [] x rest x idx

/-- The loop `for (auto wi : where_to_update[max_p])`.  The program visits the
words of the `unordered_set` in the order of its hash table, which C++ leaves
open; the list is visited from its head, that is in insertion order.  For
weights from `0` to `2^31 - 1` the updates of two words commute and the order is
immaterial; with a negative `int32_t` weight the counts stored can depend on
it. -/
def sweepWords (max_p : tp) (new_token_id : Nat) (counts : List Int) :
    List Nat → List (List Nat) × PairIndex → Except Err (List (List Nat) × PairIndex)
  | [], st => .ok st
  | wi :: rest, st =>
    match st.1.get? wi, counts.get? wi with
    | some cur_word, some c =>
      let r := sweepWord max_p new_token_id c wi cur_word st.2
      sweepWords max_p new_token_id counts rest (st.1.set wi r.1, r.2)
    | _, _ => .error Err.bounds

/-- The variables of `_learnbpe`. -/
structure LState where
  token_to_int : Map Str Nat
  int_to_token : List Str
  words : List (List Nat)
  counts : List Int
  idx : PairIndex
  max_p : tp
  max_c : Nat
  codes : List triplet

/-- The loop that fills the pair index before the first `find_maxp`. -/
def countAll (counts : List Int) : List (List Nat) → Nat → PairIndex → PairIndex
  | [], _, idx => idx
  | word :: rest, wi, idx =>
    countAll counts rest (wi + 1) (count_in_word word wi (toU32 (counts.getD wi 0)) idx)

/-- The state of `_learnbpe` on entry to its main loop; `max_p` is
value-initialised to `(0, 0)`. -/
def learnInit (word_count : wMapCounts) : LState :=
  let t := tokenize word_count
    { token_to_int := [], int_to_token := [], words := [], counts := [] }
  let idx := countAll t.counts t.words 0 { contiguous_counts := [], where_to_update := [] }
  let m := find_maxp idx.contiguous_counts (0, 0)
  { token_to_int := t.token_to_int, int_to_token := t.int_to_token, words := t.words,
    counts := t.counts, idx := idx, max_p := m.1, max_c := m.2, codes := [] }

/-- One round of the main loop of `_learnbpe`. -/
def learnStep (st : LState) : Except Err LState :=
  match st.int_to_token.get? st.max_p.1, st.int_to_token.get? st.max_p.2 with
  | some left, some right =>
    let new_token := left ++ right
    let codes := st.codes ++ [(left, right, st.max_c)]
    let new_token_id := st.int_to_token.length
    let int_to_token := st.int_to_token ++ [new_token]
    let token_to_int := Map.insert st.token_to_int new_token new_token_id
    match sweepWords st.max_p new_token_id st.counts
        (whereGet st.idx.where_to_update st.max_p) (st.words, st.idx) with
    | .error e => .error e
    | .ok (words, idx) =>
      let cc :=
        if (ccFind idx.contiguous_counts st.max_p).isSome then
          ccModify (fun _ => 0) idx.contiguous_counts st.max_p
        else idx.contiguous_counts
      let m := find_maxp cc st.max_p
      .ok { token_to_int := token_to_int, int_to_token := int_to_token, words := words,
            counts := st.counts,
            idx := { contiguous_counts := cc, where_to_update := idx.where_to_update },
            max_p := m.1, max_c := m.2, codes := codes }
  | _, _ => .error Err.bounds

/-- The main loop of `_learnbpe`, `n` rounds. -/
def learnLoop : Nat → LState → Except Err LState
  | 0, st => .ok st
  | n + 1, st =>
    match learnStep st with
    | .error e => .error e
    | .ok st' => learnLoop n st'

/-- `_learnbpe`: the state after `kNPairs` rounds. -/
def learnRun (kNPairs : Nat) (word_count : wMapCounts) : Except Err LState :=
  learnLoop kNPairs (learnInit word_count)

def _learnbpe (kNPairs : Nat) (word_count : wMapCounts) : Except Err (List triplet) :=
  match learnRun kNPairs word_count with
  | .error e => .error e
  | .ok st => .ok st.codes

def learnbpes (kNPairs : Nat) (text : Str) : Except Err (List triplet) :=
  _learnbpe kNPairs (getvocabs text)

/-! ## Properties used in the statements -/

def RevConsistent (rev : reverseCodesMap) : Prop :=
  ∀ k t1 t2, Map.find? rev k = some (t1, t2) → t1 ++ t2 = k

def RevKeepsEnd (rev : reverseCodesMap) : Prop :=
  ∀ k t1 t2, Map.find? rev k = some (t1, t2) → kEndWord <:+ k → kEndWord <:+ t2

/-- The last symbol of `l` ends with `x`. -/
def LastSuffix (x : Str) (l : List Str) : Prop := ∃ init pre, l = init ++ [pre ++ x]

def SymOk (vocab : wMapCounts) (isFinal : Bool) (s : Str) : Prop :=
  Map.contains vocab (probe isFinal s) = true ∨
    countLead (if isFinal then stripEnd s else s) = 1

def AllOk (vocab : wMapCounts) (isFinal : Bool) (l : List Str) : Prop :=
  ∃ init last, l = init ++ [last] ∧ (∀ s ∈ init, SymOk vocab false s) ∧ SymOk vocab isFinal last

def glueJoin (init : List Str) (t : Str) : Str :=
  (init.map (fun s => s ++ kTokenDelim ++ [32])).flatten ++ t

/-- The invariant of the loop of `outputString` on a text without `@@ `. -/
def OutInv (done : Str) (st : Str × Str) : Prop :=
  ∃ Q, done = Q ++ st.1 ∧ stripGlue st.2 = Q ∧ st.2.getLast? ≠ some 64 ∧ (32 ∉ st.1)


/-! ## Example data -/

/-- The codes of scenarios 2 and 3, as the items of the Python dictionary. -/
def pyCodesLow : List (tps × Nat) := [((asc "l", asc "o"), 0), ((asc "lo", asc "w</w>"), 1)]

def codesLow : codesMap := (convert_pycodes_to_mapcodes pyCodesLow).1

def reversedLow : reverseCodesMap := (convert_pycodes_to_mapcodes pyCodesLow).2

/-- The vocabulary of scenario 3. -/
def vocabLow : wMapCounts := [(asc "l@@", 1), (asc "ow", 1)]

/-- A rule whose right part is a proper suffix of `</w>`. -/
def pyCodesSplit : List (tps × Nat) := [((asc "x<", asc "/w>"), 0)]

def vocabSplit : wMapCounts := [(asc "x<@@", 1), (asc "/w>", 1)]

/-- The text with every maximal run of bytes other than space and newline
replaced by `seg run`, every space and newline kept in place; `cur` is the run
being read. -/
def replaceRuns (seg : Str → Str) : Str → Str → Str
  | cur, [] => if cur = [] then [] else seg cur
  | cur, c :: rest =>
    if c = 32 ∨ c = 10 then
      (if cur = [] then [] else seg cur) ++ c :: replaceRuns seg [] rest
    else replaceRuns seg (cur ++ [c]) rest

/-- The segmentation of a word: the string `process_bpe` returns for it (empty
when it does not return). -/
def segOf (fuel : Nat) (codes : codesMap) (reversed_codes : reverseCodesMap)
    (vocab : wMapCounts) (word : Str) : Str :=
  match process_bpe fuel (tokenize_word word) codes reversed_codes vocab with
  | .ok out => out
  | .error _ => []

/-! ## Quantities of the learner used in the statements -/

/-- The count stored for a pair in the pair index, `0` without a record. -/
def ccCount (cc : List (Int × tp)) (p : tp) : Int := (ccFind cc p).getD 0

/-- The number of adjacent occurrences of the pair `q` in a symbol sequence. -/
def occ (q : tp) : List Nat → Nat
  | a :: b :: rest => (if (a, b) = q then 1 else 0) + occ q (b :: rest)
  | _ => 0

/-- The weighted frequency of the pair `q`: the sum over the words of the
weight of the word times the number of adjacent occurrences of `q` in it. -/
def freq : List (List Nat) → List Int → tp → Int
  | w :: ws, c :: cs, q => c * (occ q w : Int) + freq ws cs q
  | _, _, _ => 0

/-- The weighted number of adjacent pairs: the sum over the words of the weight
times the number of symbols less one. -/
def pairTotal : List (List Nat) → List Int → Int
  | w :: ws, c :: cs => c * ((w.length - 1 : Nat) : Int) + pairTotal ws cs
  | _, _ => 0

/-- The weighted number of adjacent pairs of the initial tokenization of a
word-count map. -/
def initialPairTotal (word_count : wMapCounts) : Nat :=
  (word_count.map (fun x => x.2 * ((tokenize_word x.1).length - 1))).sum

/-- The ids of the symbol table are in range everywhere in the state. -/
structure BoundsInv (st : LState) : Prop where
  maxp : st.max_p.1 < st.int_to_token.length ∧ st.max_p.2 < st.int_to_token.length
  cc : ∀ x ∈ st.idx.contiguous_counts,
    x.2.1 < st.int_to_token.length ∧ x.2.2 < st.int_to_token.length
  words : ∀ w ∈ st.words, ∀ i ∈ w, i < st.int_to_token.length
  wh : ∀ p, ∀ wi ∈ whereGet st.idx.where_to_update p, wi < st.words.length
  len : st.counts.length = st.words.length

/-- The pairs of the index hold ids below `N`, its word ids are below `L`. -/
def IdxBounds (N L : Nat) (idx : PairIndex) : Prop :=
  (∀ x ∈ idx.contiguous_counts, x.2.1 < N ∧ x.2.2 < N) ∧
  (∀ p, ∀ wi ∈ whereGet idx.where_to_update p, wi < L)

/-- The vector `contiguous_counts` after `change_count`. -/
def ccAdd (cc : List (Int × tp)) (pair : tp) (v : Int) : List (Int × tp) :=
  match ccFind cc pair with
  | some _ => ccModify (fun c => wrap32 (c + v)) cc pair
  | none => if v > 0 then cc ++ [(v, pair)] else cc

/-- The vector `contiguous_counts` with a zero record added for `p` when it has
none. -/
def ccEnsure (cc : List (Int × tp)) (p : tp) : List (Int × tp) :=
  if (ccFind cc p).isNone then cc ++ [(0, p)] else cc

/-- Every id stored in `token_to_int` is an index of `int_to_token`. -/
def TabInv (tab : Map Str Nat × List Str) : Prop :=
  ∀ t i, Map.find? tab.1 t = some i → i < tab.2.length

/-- The vector `contiguous_counts` after the record of `max_p` is set to `0`. -/
def ccZero (cc : List (Int × tp)) (max_p : tp) : List (Int × tp) :=
  if (ccFind cc max_p).isSome then ccModify (fun _ => 0) cc max_p else cc

/-- Every stored count is a 32-bit signed value. -/
def InRange (cc : List (Int × tp)) : Prop := ∀ x ∈ cc, -(2 ^ 31) ≤ x.1 ∧ x.1 < 2 ^ 31

/-- The pair formed by the symbol before the position (the head of `pre`) and `y`
is `q`: `1` or `0`. -/
def beforePair (pre : List Nat) (y : Nat) (q : tp) : Nat :=
  match pre with
  | [] => 0
  | b :: _ => if (b, y) = q then 1 else 0

/-- The pair formed by `y` and the symbol after it (the head of `rest`) is `q`:
`1` or `0`. -/
def afterPair (y : Nat) (rest : List Nat) (q : tp) : Nat :=
  match rest with
  | [] => 0
  | z :: _ => if (y, z) = q then 1 else 0

/-- The pair `q` has a record and the word `wi` is in its occurrence set. -/
def Covers (idx : PairIndex) (wi : Nat) (q : tp) : Prop :=
  ccFind idx.contiguous_counts q ≠ none ∧ wi ∈ whereGet idx.where_to_update q

/-- The index `idx'` keeps the records of `idx`, the members of the occurrence
sets of recorded pairs, the range of the counts and the uniqueness of the
records. -/
def Ext (idx idx' : PairIndex) : Prop :=
  (∀ q, ccFind idx.contiguous_counts q ≠ none → ccFind idx'.contiguous_counts q ≠ none) ∧
  (∀ q wj, ccFind idx.contiguous_counts q ≠ none → wj ∈ whereGet idx.where_to_update q →
    wj ∈ whereGet idx'.where_to_update q) ∧
  (InRange idx.contiguous_counts → InRange idx'.contiguous_counts) ∧
  ((idx.contiguous_counts.map Prod.snd).Nodup → (idx'.contiguous_counts.map Prod.snd).Nodup)

/-- The invariant of the pair index: 32-bit counts, one record per pair, and
every pair adjacent in a word of positive weight is recorded with the word in
its occurrence set. -/
structure IndexInv (counts : List Int) (words : List (List Nat)) (idx : PairIndex) : Prop where
  range : InRange idx.contiguous_counts
  nodup : (idx.contiguous_counts.map Prod.snd).Nodup
  covered : ∀ j w c, words.get? j = some w → counts.get? j = some c → 0 < c →
    ∀ q, 0 < occ q w → Covers idx j q

/-- The stored count of every pair other than `max_p` is its weighted frequency,
as a 32-bit value. -/
def ExactOff (max_p : tp) (counts : List Int) (words : List (List Nat)) (idx : PairIndex) :
    Prop :=
  ∀ q, q ≠ max_p → ccCount idx.contiguous_counts q = wrap32 (freq words counts q)

/-- The invariant of the main loop of `_learnbpe` for weights below `2^31`: ids
in range, the invariant of the pair index, every stored count equal to the
weighted frequency of its pair as a 32-bit value, and `max_p`, `max_c` as
returned by `find_maxp` on the current index. -/
structure LearnInv (st : LState) : Prop where
  bounds : BoundsInv st
  weights : ∀ c ∈ st.counts, 0 ≤ c ∧ c < 2 ^ 31
  index : IndexInv st.counts st.words st.idx
  exact : ∀ q, ccCount st.idx.contiguous_counts q = wrap32 (freq st.words st.counts q)
  found : ∃ prior, st.max_p = (find_maxp st.idx.contiguous_counts prior).1 ∧
    st.max_c = (find_maxp st.idx.contiguous_counts prior).2

/-- As `Ext`, for the updates made by `count_in_word` for the word `wi`: the
word `wi` itself may be erased from an occurrence set when its weight is `0`. -/
def ExtW (wi count : Nat) (idx idx' : PairIndex) : Prop :=
  (∀ q, ccFind idx.contiguous_counts q ≠ none → ccFind idx'.contiguous_counts q ≠ none) ∧
  (∀ q wj, (wj ≠ wi ∨ 0 < count) → ccFind idx.contiguous_counts q ≠ none →
    wj ∈ whereGet idx.where_to_update q → wj ∈ whereGet idx'.where_to_update q) ∧
  (InRange idx.contiguous_counts → InRange idx'.contiguous_counts) ∧
  ((idx.contiguous_counts.map Prod.snd).Nodup → (idx'.contiguous_counts.map Prod.snd).Nodup)

/-- Three words whose weights are below `2^31` and whose pair `(a, b)` has the
weighted frequency `2^32`. -/
def wcOverflow : wMapCounts :=
  [(asc "abc", 2147483647), (asc "abd", 2147483647), (asc "abe", 2)]

/-- The string of a symbol id (`int_to_token[i]`), empty outside the table. -/
def tokOf (int_to_token : List Str) (i : Nat) : Str := int_to_token.getD i []

/-- The symbol table is a bijection: the strings are pairwise distinct and
`token_to_int` is the inverse of `int_to_token`. -/
def TabBij (tab : Map Str Nat × List Str) : Prop :=
  tab.2.Nodup ∧ ∀ t i, Map.find? tab.1 t = some i ↔ tab.2.get? i = some t

/-- The number of adjacent occurrences of a pair of strings in a sequence of
symbol strings. -/
def occS (q : Str × Str) : List Str → Nat
  | a :: b :: rest => (if (a, b) = q then 1 else 0) + occS q (b :: rest)
  | _ => 0

/-- The weighted frequency of a pair of strings in the initial tokenization of a
word-count map. -/
def freqStr (word_count : wMapCounts) (q : Str × Str) : Nat :=
  (word_count.map (fun x => x.2 * occS q (tokenize_word x.1))).sum

/-- The literal `</w>` appended to the last piece only. -/
def withEnd : List Str → List Str
  | [] => []
  | [p] => [p ++ kEndWord]
  | p :: q :: rest => p :: withEnd (q :: rest)

/-- Following the spec's words: the maximal runs of bytes other than space and
newline of a text, in their order of occurrence, a final run without separator
after it included; `cur` is the run being read. -/
def runsOf : Str → Str → List Str
  | cur, [] => if cur = [] then [] else [cur]
  | cur, c :: rest =>
    if c = 32 ∨ c = 10 then (if cur = [] then [] else [cur]) ++ runsOf [] rest
    else runsOf (cur ++ [c]) rest

/-- One word counted: `word_count[cur_word] = count + 1`. -/
def bump (m : wMapCounts) (w : Str) : wMapCounts :=
  Map.insert m w (((Map.find? m w).getD 0 + 1) % 2 ^ 32)

/-- The loop of `split`: `cur` is `text.substr(start, pos - start)` for the
position `pos` being read; a piece is pushed when it is not empty
(`end != start`, and `start < text.size()` after the loop). -/
def splitLoop (sep : Nat) : Str → Str → List Str
  | cur, [] => if cur = [] then [] else [cur]
  | cur, c :: rest =>
    if c = sep then (if cur = [] then [] else [cur]) ++ splitLoop sep [] rest
    else splitLoop sep (cur ++ [c]) rest

/-- `split(splits, text, sep)` on an empty vector `splits`. -/
def split (text : Str) (sep : Nat) : List Str := splitLoop sep [] text

/-- The lines that `getline(file, line)` delivers one after the other: the
pieces of the file between newlines, without a last empty piece; `cur` is the
line being read. -/
def getlines : Str → Str → List Str
  | cur, [] => if cur = [] then [] else [cur]
  | cur, c :: rest =>
    if c = 10 then cur :: getlines [] rest else getlines (cur ++ [c]) rest

/-- One round of the loop of `readCodes`.  In `codes[pair] = codes.size()` the
right operand is evaluated first (the order of C++17), so the rank is the number
of rules read before, converted to `uint32_t`. -/
def readCodesStep (st : codesMap × reverseCodesMap) (line : Str) :
    Except Err (codesMap × reverseCodesMap) :=
  let splits := split line 32
  if splits.length ≠ 3 then .error Err.assertion
  else
    let pair : tps := (splits.getD 0 [], splits.getD 1 [])
    let concat := splits.getD 0 [] ++ splits.getD 1 []
    if (Map.find? st.1 pair).isSome then .error Err.assertion
    else if (Map.find? st.2 concat).isSome then .error Err.assertion
    else .ok (Map.insert st.1 pair (st.1.length % 2 ^ 32), Map.insert st.2 concat pair)

def readCodesLoop : List Str → codesMap × reverseCodesMap →
    Except Err (codesMap × reverseCodesMap)
  | [], st => .ok st
  | line :: rest, st =>
    match readCodesStep st line with
    | .error e => .error e
    | .ok st' => readCodesLoop rest st'

/-- `readCodes` on the contents of the codes file, with the empty maps its
callers pass. -/
def readCodes (file : Str) : Except Err (codesMap × reverseCodesMap) :=
  readCodesLoop (getlines [] file) ([], [])

/-- The pair of the first two fields of a line of the codes file. -/
def linePair (line : Str) : tps := ((split line 32).getD 0 [], (split line 32).getD 1 [])

/-- The concatenation of the first two fields of a line of the codes file. -/
def lineCat (line : Str) : Str := (split line 32).getD 0 [] ++ (split line 32).getD 1 []

/-- The line `left␠right␠count` of a rule. -/
def ruleLine (r : Str × Str × Str) : Str := r.1 ++ [32] ++ r.2.1 ++ [32] ++ r.2.2

/-- The codes file made of the lines of the given rules. -/
def rulesFile (rules : List (Str × Str × Str)) : Str :=
  (rules.map (fun r => ruleLine r ++ [10])).flatten

/-- The rules `(left, b, 1)` whose left parts spell `1, 2, ..., n` in binary
with the letters `a` and `b`, lowest digit first. -/
def manyRules (n : Nat) : List (Str × Str × Str) :=
  (List.range n).map (fun i => ((Nat.digits 2 (i + 1)).map (fun d => d + 97), [98], [49]))

/-- The constant `kThreads`, `max(1, min(10, int(thread::hardware_concurrency())))`,
as a function of the `unsigned` value that `hardware_concurrency` returns; the
conversion to `int` wraps. -/
def kThreads (hardware_concurrency : Nat) : Nat :=
  (max 1 (min 10 (wrap32 ((hardware_concurrency % 2 ^ 32 : Nat) : Int)))).toNat

/-- The strings of the symbols of the words after `k` rounds of the learner. -/
def wordStrings (k : Nat) (word_count : wMapCounts) : Except Err (List (List Str)) :=
  match learnRun k word_count with
  | .error e => .error e
  | .ok st => .ok (st.words.map (fun w => w.map (tokOf st.int_to_token)))

/-- The weight of the word `wi` times the number of adjacent occurrences of the
pair `q` in its symbol sequence. -/
def wordTerm (counts : List Int) (words : List (List Nat)) (q : tp) (wi : Nat) : Int :=
  counts.getD wi 0 * (occ q (words.getD wi []) : Int)

/-- The order `a ≤ b` of `std::pair`: equal, or `a < b` lexicographically. -/
def tpLe (a b : tp) : Prop := a = b ∨ a.1 < b.1 ∨ (a.1 = b.1 ∧ a.2 < b.2)

/-- Every word of `ws'` is at most as long as the word of `ws` at its place, and
not empty when that word is not empty. -/
def Shrinks (ws ws' : List (List Nat)) : Prop :=
  ws'.length = ws.length ∧
  ∀ j w, ws.get? j = some w →
    ∃ w', ws'.get? j = some w' ∧ w'.length ≤ w.length ∧ (1 ≤ w.length → 1 ≤ w'.length)

/-- No occurrence set holds a word id twice. -/
def WhereNodup (idx : PairIndex) : Prop := ∀ p, (whereGet idx.where_to_update p).Nodup

/-- The adjacent pairs of a sequence, in order. -/
def adj {α : Type} (l : List α) : List (α × α) := l.zip l.tail

/-- Following the spec's words: every occurrence of the pair `p` is replaced by
the symbol `new`, left to right and without overlap. -/
def replacePairs {α : Type} [DecidableEq α] (p : α × α) (new : α) : List α → List α
  | a :: b :: rest =>
    if (a, b) = p then new :: replacePairs p new rest
    else a :: replacePairs p new (b :: rest)
  | l => l

/-- The replacements of a list of rules `((left, right), new)`, one after the
other, in the order of the list. -/
def applyRules {α : Type} [DecidableEq α] (rules : List ((α × α) × α)) (w : List α) : List α :=
  rules.foldl (fun w x => replacePairs x.1 x.2 w) w

/-- The decimal digits of `n` put before `acc`, lowest digit last; the fuel is
the number of digits at most. -/
def decimalLoop : Nat → Nat → Str → Str
  | 0, _, acc => acc
  | fuel + 1, n, acc =>
    if n < 10 then (n + 48) :: acc else decimalLoop fuel (n / 10) ((n % 10 + 48) :: acc)

/-- The decimal digits of a count, as `operator<<` prints it. -/
def decimal (n : Nat) : Str := decimalLoop (n + 1) n []

/-- The codes file the learner prints: one line `left␠right␠count` per rule. -/
def codesFile (codes : List triplet) : Str :=
  rulesFile (codes.map (fun r => (r.1, r.2.1, decimal r.2.2)))

/-- A word as the applier and the learner receive it from a text: not empty and
not starting with a continuation byte. -/
abbrev WordStart (w : Str) : Prop := w ≠ [] ∧ newChar (w.headD 0) = true

/-- The string of a symbol that the initial tokenization makes of a word: one
lead byte followed by continuation bytes, with or without the literal `</w>`
after them, or a string that starts with a lead byte and holds a NUL byte. -/
def TokStr (s : Str) : Prop :=
  (∃ c t, newChar c = true ∧ (∀ d ∈ t, newChar d = false) ∧
    (s = c :: t ∨ s = c :: t ++ kEndWord)) ∨
  (0 ∈ s ∧ ∃ c t, s = c :: t ∧ newChar c = true)

/-- The call `decompose(s, newSubwords, reversed_codes, vocab, isFinal)` is
safe: its assertion never fails, and it returns when the depth allowed is at
least the length of `s`. -/
def DecomposeSafe (rev : reverseCodesMap) (vocab : wMapCounts) (isFinal : Bool) (s : Str) :
    Prop :=
  (∀ f, decompose f s rev vocab isFinal ≠ .error Err.assertion) ∧
  (∀ f, s.length ≤ f → ∃ out, decompose f s rev vocab isFinal = .ok out)

/-- Every symbol of the list is safe for `decompose`, with `isFinal` set on the
last one as `limitVocab` sets it. -/
def SafeList (rev : reverseCodesMap) (vocab : wMapCounts) : List Str → Prop
  | [] => True
  | a :: rest => DecomposeSafe rev vocab rest.isEmpty a ∧ SafeList rev vocab rest

/-- The two rules learned from the corpus of the single word `low`; the maps
that `readCodes` reads from their codes file are `codesLow` and `reversedLow`. -/
def rulesLow : List triplet := [(asc "l", asc "o", 1), (asc "lo", asc "w</w>", 1)]

/-- Following the spec's words: applying `process_bpe` once to every word of
the list.  The mapping sends a word of the list to the string `process_bpe`
returns for its initial tokenization, and holds no other word. -/
def onceEach (fuel : Nat) (codes : codesMap) (reversed_codes : reverseCodesMap)
    (vocab : wMapCounts) (words : List Str) (w : Str) : Option Str :=
  if w ∈ words then
    match process_bpe fuel (tokenize_word w) codes reversed_codes vocab with
    | .ok seg => some seg
    | .error _ => none
  else none

/-! # Theorems -/

/-! ## Lemmas on maps -/

theorem Map.find?_insert_self {κ ν : Type} [DecidableEq κ] (m : Map κ ν) (k : κ) (v : ν) :
    Map.find? (Map.insert m k v) k = some v := by
  induction m with
  | nil => simp [Map.insert, Map.find?]
  | cons x rest ih =>
    obtain ⟨k', v'⟩ := x
    by_cases h : k' = k
    · simp [Map.insert, Map.find?, h]
    · simp [Map.insert, Map.find?, h, ih]

theorem Map.find?_insert_ne {κ ν : Type} [DecidableEq κ] (m : Map κ ν) (k k2 : κ) (v : ν)
    (h : k ≠ k2) : Map.find? (Map.insert m k v) k2 = Map.find? m k2 := by
  induction m with
  | nil => simp [Map.insert, Map.find?, h]
  | cons x rest ih =>
    obtain ⟨k', v'⟩ := x
    by_cases h1 : k' = k
    · subst h1
      simp [Map.insert, Map.find?, h]
    · by_cases h2 : k' = k2
      · subst h2
        simp [Map.insert, Map.find?, h1]
      · simp [Map.insert, Map.find?, h1, h2, ih]

/-! ## Concatenation is preserved -/

theorem tokenizeLoop_join (rest cur : Str) (pos0 : Bool) (out : List Str) :
    (tokenizeLoop rest cur pos0 out).flatten = out.flatten ++ cur ++ rest ++ kEndWord := by
  induction rest generalizing cur pos0 out with
  | nil => simp [tokenizeLoop]
  | cons c rest ih =>
    unfold tokenizeLoop
    split
    · simp
    · split
      · rw [ih]; simp
      · rw [ih]; simp

theorem tokenize_word_join (word : Str) :
    (tokenize_word word).flatten = word ++ kEndWord := by
  simp [tokenize_word, tokenizeLoop_join]

theorem mergePass_join (l r : Str) (xs : List Str) (jm : Bool) :
    (mergePass l r xs jm).flatten = if jm then xs.tail.flatten else xs.flatten := by
  induction xs generalizing jm with
  | nil => cases jm <;> simp [mergePass]
  | cons a rest ih =>
    cases rest with
    | nil => cases jm <;> simp [mergePass]
    | cons b rest =>
      unfold mergePass
      cases jm
      · by_cases h : a = l ∧ b = r
        · obtain ⟨rfl, rfl⟩ := h
          simp [ih]
        · have : ¬ (a = l ∧ b = r) := h
          simp only [Bool.not_false, Bool.true_and]
          split
          · rename_i h2; simp at h2; exact absurd h2 h
          · simp [ih]
      · simp [ih]

theorem mergeLoop_join (codes : codesMap) (fuel : Nat) (subwords out : List Str)
    (h : mergeLoop codes fuel subwords = .ok out) : out.flatten = subwords.flatten := by
  induction fuel generalizing subwords with
  | zero =>
    unfold mergeLoop at h
    split at h
    · split at h
      · cases h; rfl
      · simp at h
    · cases h; rfl
  | succ f ih =>
    unfold mergeLoop at h
    split at h
    · split at h
      · cases h; rfl
      · simp only at h
        rw [ih _ h, mergePass_join]; simp
    · cases h; rfl

theorem keepOr_ok (vocab : wMapCounts) (q t : Str) (k : Except Err (List Str)) (p : List Str)
    (h : keepOr vocab q t k = .ok p) :
    (Map.contains vocab q = true ∧ p = [t]) ∨ (Map.contains vocab q = false ∧ k = .ok p) := by
  unfold keepOr at h
  by_cases hc : Map.contains vocab q = true
  · simp [hc] at h; exact Or.inl ⟨hc, h.symm⟩
  · simp [hc] at h; exact Or.inr ⟨by simpa using hc, h⟩

theorem decompose_ok_inv (rev : reverseCodesMap) (vocab : wMapCounts) (f : Nat) (s : Str)
    (isFinal : Bool) (ps : List Str) (h : decompose (f + 1) s rev vocab isFinal = .ok ps) :
    (Map.find? rev s = none ∧ countLead (if isFinal then stripEnd s else s) = 1 ∧ ps = [s]) ∨
    (∃ t1 t2 p1 p2, Map.find? rev s = some (t1, t2) ∧
      keepOr vocab (t1 ++ kTokenDelim) t1 (decompose f t1 rev vocab false) = .ok p1 ∧
      keepOr vocab (probe isFinal t2) t2 (decompose f t2 rev vocab isFinal) = .ok p2 ∧
      ps = p1 ++ p2) := by
  unfold decompose at h
  split at h
  · rename_i hfind
    left
    by_cases hc : countLead (if isFinal then stripEnd s else s) = 1
    · simp [hc] at h; exact ⟨hfind, hc, h.symm⟩
    · simp [hc] at h
  · rename_i t1 t2 hfind
    right
    split at h
    · simp at h
    · rename_i p1 h1
      split at h
      · simp at h
      · rename_i p2 h2
        cases h
        exact ⟨t1, t2, p1, p2, hfind, h1, h2, rfl⟩

theorem limitVocab_cons_inv (fuel : Nat) (rev : reverseCodesMap) (vocab : wMapCounts)
    (a : Str) (rest ps : List Str) (h : limitVocab fuel rev vocab (a :: rest) = .ok ps) :
    ∃ p q, keepOr vocab (probe rest.isEmpty a) a (decompose fuel a rev vocab rest.isEmpty) = .ok p ∧
      limitVocab fuel rev vocab rest = .ok q ∧ ps = p ++ q := by
  unfold limitVocab at h
  simp only at h
  split at h
  · simp at h
  · rename_i p hp
    split at h
    · simp at h
    · rename_i q hq
      cases h
      exact ⟨p, q, hp, hq, rfl⟩

theorem decompose_join (rev : reverseCodesMap) (vocab : wMapCounts) (hrev : RevConsistent rev)
    (fuel : Nat) (s : Str) (isFinal : Bool) (ps : List Str)
    (h : decompose fuel s rev vocab isFinal = .ok ps) : ps.flatten = s := by
  induction fuel generalizing s isFinal ps with
  | zero => simp [decompose] at h
  | succ f ih =>
    rcases decompose_ok_inv _ _ _ _ _ _ h with ⟨_, _, rfl⟩ | ⟨t1, t2, p1, p2, hfind, h1, h2, rfl⟩
    · simp
    · have hc := hrev _ _ _ hfind
      have e1 : p1.flatten = t1 := by
        rcases keepOr_ok _ _ _ _ _ h1 with ⟨_, rfl⟩ | ⟨_, h1⟩
        · simp
        · exact ih _ _ _ h1
      have e2 : p2.flatten = t2 := by
        rcases keepOr_ok _ _ _ _ _ h2 with ⟨_, rfl⟩ | ⟨_, h2⟩
        · simp
        · exact ih _ _ _ h2
      simp [e1, e2, hc]

theorem limitVocab_join (rev : reverseCodesMap) (vocab : wMapCounts) (hrev : RevConsistent rev)
    (fuel : Nat) (subwords ps : List Str)
    (h : limitVocab fuel rev vocab subwords = .ok ps) : ps.flatten = subwords.flatten := by
  induction subwords generalizing ps with
  | nil => simp [limitVocab] at h; subst h; rfl
  | cons a rest ih =>
    obtain ⟨p, q, hp, hq, rfl⟩ := limitVocab_cons_inv _ _ _ _ _ _ h
    have e1 : p.flatten = a := by
      rcases keepOr_ok _ _ _ _ _ hp with ⟨_, rfl⟩ | ⟨_, hp⟩
      · simp
      · exact decompose_join rev vocab hrev _ _ _ _ hp
    simp [e1, ih _ hq]

theorem bpeSymbols_inv (fuel : Nat) (subwords : List Str) (codes : codesMap)
    (rev : reverseCodesMap) (vocab : wMapCounts) (out : List Str)
    (h : bpeSymbols fuel subwords codes rev vocab = .ok out) :
    ∃ merged, mergeLoop codes subwords.length subwords = .ok merged ∧
      ((vocab ≠ [] ∧ limitVocab fuel rev vocab merged = .ok out) ∨ (vocab = [] ∧ out = merged)) := by
  unfold bpeSymbols at h
  split at h
  · simp at h
  · rename_i merged hm
    refine ⟨merged, hm, ?_⟩
    cases vocab with
    | nil => right; simp at h; exact ⟨rfl, h.symm⟩
    | cons v vs => left; simp at h; exact ⟨by simp, h⟩

theorem bpeSymbols_join (fuel : Nat) (subwords : List Str) (codes : codesMap)
    (rev : reverseCodesMap) (vocab : wMapCounts) (out : List Str)
    (hrev : vocab = [] ∨ RevConsistent rev)
    (h : bpeSymbols fuel subwords codes rev vocab = .ok out) :
    out.flatten = subwords.flatten := by
  obtain ⟨merged, hm, hcase⟩ := bpeSymbols_inv _ _ _ _ _ _ h
  have e := mergeLoop_join _ _ _ _ hm
  rcases hcase with ⟨hv, hl⟩ | ⟨_, rfl⟩
  · rcases hrev with hv0 | hrev
    · exact absurd hv0 hv
    · rw [limitVocab_join rev vocab hrev _ _ _ hl, e]
  · exact e

/-! ## The last symbol keeps the end-of-word marker -/

theorem lastSuffix_cons {x : Str} {l : List Str} (a : Str) (h : LastSuffix x l) :
    LastSuffix x (a :: l) := by
  obtain ⟨init, pre, rfl⟩ := h
  exact ⟨a :: init, pre, rfl⟩

theorem lastSuffix_append {x : Str} {l : List Str} (l0 : List Str) (h : LastSuffix x l) :
    LastSuffix x (l0 ++ l) := by
  obtain ⟨init, pre, rfl⟩ := h
  exact ⟨l0 ++ init, pre, by simp⟩

theorem lastSuffix_ne_nil {x : Str} {l : List Str} (h : LastSuffix x l) : l ≠ [] := by
  obtain ⟨init, pre, rfl⟩ := h
  simp

theorem lastSuffix_of_cons {x a : Str} {l : List Str} (h : LastSuffix x (a :: l)) (hl : l ≠ []) :
    LastSuffix x l := by
  obtain ⟨init, pre, e⟩ := h
  cases init with
  | nil => simp at e; exact absurd e.2 hl
  | cons b init => simp at e; exact ⟨init, pre, e.2⟩

theorem lastSuffix_single {x a : Str} (h : LastSuffix x [a]) : ∃ pre, a = pre ++ x := by
  obtain ⟨init, pre, e⟩ := h
  cases init with
  | nil => simp at e; exact ⟨pre, e⟩
  | cons b init => simp at e

theorem tokenizeLoop_last (rest cur : Str) (pos0 : Bool) (out : List Str) :
    LastSuffix kEndWord (tokenizeLoop rest cur pos0 out) := by
  induction rest generalizing cur pos0 out with
  | nil => exact ⟨out, cur, by simp [tokenizeLoop]⟩
  | cons c rest ih =>
    unfold tokenizeLoop
    split
    · exact ⟨out, cur ++ c :: rest, by simp⟩
    · split
      · exact ih _ _ _
      · exact ih _ _ _

theorem mergePass_last (l r x : Str) (xs : List Str) :
    (LastSuffix x xs → LastSuffix x (mergePass l r xs false)) ∧
    (LastSuffix x xs.tail → LastSuffix x (mergePass l r xs true)) := by
  induction xs with
  | nil => simp [mergePass]
  | cons a rest ih =>
    cases rest with
    | nil =>
      constructor
      · intro h; simpa [mergePass] using h
      · intro h; exact absurd rfl (lastSuffix_ne_nil h)
    | cons b rest =>
      constructor
      · intro h
        have hb : LastSuffix x (b :: rest) := lastSuffix_of_cons h (by simp)
        unfold mergePass
        split
        · rename_i hm
          cases rest with
          | nil =>
            obtain ⟨pre, rfl⟩ := lastSuffix_single hb
            exact ⟨[], a ++ pre, by simp [mergePass]⟩
          | cons c rest =>
            exact lastSuffix_cons _ (ih.2 (lastSuffix_of_cons hb (by simp)))
        · simp only [Bool.false_eq_true, if_false]
          exact lastSuffix_cons _ (ih.1 hb)
      · intro h
        simp only [List.tail_cons] at h
        unfold mergePass
        simp
        exact ih.1 h

theorem mergeLoop_last (codes : codesMap) (x : Str) (fuel : Nat) (subwords out : List Str)
    (h : mergeLoop codes fuel subwords = .ok out) (hl : LastSuffix x subwords) :
    LastSuffix x out := by
  induction fuel generalizing subwords with
  | zero =>
    unfold mergeLoop at h
    split at h
    · split at h
      · cases h; exact hl
      · simp at h
    · cases h; exact hl
  | succ f ih =>
    unfold mergeLoop at h
    split at h
    · split at h
      · cases h; exact hl
      · simp only at h
        exact ih _ h ((mergePass_last _ _ _ _).1 hl)
    · cases h; exact hl

theorem decompose_last (rev : reverseCodesMap) (vocab : wMapCounts) (hk : RevKeepsEnd rev)
    (fuel : Nat) (s : Str) (ps : List Str)
    (h : decompose fuel s rev vocab true = .ok ps) (hs : kEndWord <:+ s) :
    LastSuffix kEndWord ps := by
  induction fuel generalizing s ps with
  | zero => simp [decompose] at h
  | succ f ih =>
    rcases decompose_ok_inv _ _ _ _ _ _ h with ⟨_, _, rfl⟩ | ⟨t1, t2, p1, p2, hfind, h1, h2, rfl⟩
    · obtain ⟨pre, rfl⟩ := hs
      exact ⟨[], pre, rfl⟩
    · have h2s := hk _ _ _ hfind hs
      apply lastSuffix_append
      rcases keepOr_ok _ _ _ _ _ h2 with ⟨_, rfl⟩ | ⟨_, h2⟩
      · obtain ⟨pre, rfl⟩ := h2s
        exact ⟨[], pre, rfl⟩
      · exact ih _ _ h2 h2s

theorem limitVocab_last (rev : reverseCodesMap) (vocab : wMapCounts) (hk : RevKeepsEnd rev)
    (fuel : Nat) (subwords ps : List Str)
    (h : limitVocab fuel rev vocab subwords = .ok ps) (hl : LastSuffix kEndWord subwords) :
    LastSuffix kEndWord ps := by
  induction subwords generalizing ps with
  | nil => exact absurd rfl (lastSuffix_ne_nil hl)
  | cons a rest ih =>
    obtain ⟨p, q, hp, hq, rfl⟩ := limitVocab_cons_inv _ _ _ _ _ _ h
    cases rest with
    | nil =>
      simp [limitVocab] at hq
      subst hq
      simp only [List.append_nil]
      obtain ⟨pre, rfl⟩ := lastSuffix_single hl
      rcases keepOr_ok _ _ _ _ _ hp with ⟨_, rfl⟩ | ⟨_, hp⟩
      · exact ⟨[], pre, rfl⟩
      · exact decompose_last rev vocab hk _ _ _ hp ⟨pre, rfl⟩
    | cons b rest =>
      exact lastSuffix_append _ (ih _ hq (lastSuffix_of_cons hl (by simp)))

theorem bpeSymbols_last (fuel : Nat) (word : Str) (codes : codesMap)
    (rev : reverseCodesMap) (vocab : wMapCounts) (out : List Str)
    (hrev : vocab = [] ∨ RevKeepsEnd rev)
    (h : bpeSymbols fuel (tokenize_word word) codes rev vocab = .ok out) :
    LastSuffix kEndWord out := by
  obtain ⟨merged, hm, hcase⟩ := bpeSymbols_inv _ _ _ _ _ _ h
  have e := mergeLoop_last _ _ _ _ _ hm (tokenizeLoop_last _ _ _ _)
  rcases hcase with ⟨hv, hl⟩ | ⟨_, rfl⟩
  · rcases hrev with hv0 | hrev
    · exact absurd hv0 hv
    · exact limitVocab_last rev vocab hrev _ _ _ hl e
  · exact e

/-! ## Vocabulary restriction -/

theorem allOk_single {vocab : wMapCounts} {isFinal : Bool} {s : Str}
    (h : SymOk vocab isFinal s) : AllOk vocab isFinal [s] :=
  ⟨[], s, rfl, by simp, h⟩

theorem allOk_append {vocab : wMapCounts} {isFinal : Bool} {l1 l2 : List Str}
    (h1 : AllOk vocab false l1) (h2 : AllOk vocab isFinal l2) :
    AllOk vocab isFinal (l1 ++ l2) := by
  obtain ⟨i1, x1, rfl, ha1, hx1⟩ := h1
  obtain ⟨i2, x2, rfl, ha2, hx2⟩ := h2
  refine ⟨i1 ++ [x1] ++ i2, x2, by simp, ?_, hx2⟩
  intro s hs
  simp only [List.mem_append, List.mem_singleton] at hs
  rcases hs with (hs | rfl) | hs
  · exact ha1 _ hs
  · exact hx1
  · exact ha2 _ hs

theorem decompose_allOk (rev : reverseCodesMap) (vocab : wMapCounts)
    (fuel : Nat) (s : Str) (isFinal : Bool) (ps : List Str)
    (h : decompose fuel s rev vocab isFinal = .ok ps) : AllOk vocab isFinal ps := by
  induction fuel generalizing s isFinal ps with
  | zero => simp [decompose] at h
  | succ f ih =>
    rcases decompose_ok_inv _ _ _ _ _ _ h with ⟨_, hc, rfl⟩ | ⟨t1, t2, p1, p2, hfind, h1, h2, rfl⟩
    · exact allOk_single (Or.inr hc)
    · have e1 : AllOk vocab false p1 := by
        rcases keepOr_ok _ _ _ _ _ h1 with ⟨hc, rfl⟩ | ⟨_, h1⟩
        · exact allOk_single (Or.inl (by simpa [probe] using hc))
        · exact ih _ _ _ h1
      have e2 : AllOk vocab isFinal p2 := by
        rcases keepOr_ok _ _ _ _ _ h2 with ⟨hc, rfl⟩ | ⟨_, h2⟩
        · exact allOk_single (Or.inl hc)
        · exact ih _ _ _ h2
      exact allOk_append e1 e2

theorem limitVocab_allOk (rev : reverseCodesMap) (vocab : wMapCounts)
    (fuel : Nat) (subwords ps : List Str)
    (h : limitVocab fuel rev vocab subwords = .ok ps) (hne : subwords ≠ []) :
    AllOk vocab true ps := by
  induction subwords generalizing ps with
  | nil => exact absurd rfl hne
  | cons a rest ih =>
    obtain ⟨p, q, hp, hq, rfl⟩ := limitVocab_cons_inv _ _ _ _ _ _ h
    have e1 : AllOk vocab rest.isEmpty p := by
      rcases keepOr_ok _ _ _ _ _ hp with ⟨hc, rfl⟩ | ⟨_, hp⟩
      · exact allOk_single (Or.inl hc)
      · exact decompose_allOk _ _ _ _ _ _ hp
    cases rest with
    | nil =>
      simp [limitVocab] at hq
      subst hq
      simpa using e1
    | cons b rest =>
      exact allOk_append (by simpa using e1) (ih _ hq (by simp))

/-! ## The output string -/

theorem foldl_glue (l : List Str) (acc : Str) :
    l.foldl (fun result x => result ++ x ++ kTokenDelim ++ [32]) acc =
      acc ++ (l.map (fun s => s ++ kTokenDelim ++ [32])).flatten := by
  induction l generalizing acc with
  | nil => simp
  | cons a rest ih =>
    simp only [List.foldl_cons, List.map_cons, List.flatten_cons]
    rw [ih]
    simp

theorem take_drop_seven (X Y : Str) (hY : Y.length = 7) :
    (if (X ++ Y).length < kEndWordLength + kTokenDelimLength + 1 then X ++ Y
      else (X ++ Y).take ((X ++ Y).length - kEndWordLength - kTokenDelimLength - 1)) = X := by
  have hlen : (X ++ Y).length = X.length + 7 := by simp [hY]
  rw [if_neg (by rw [hlen]; simp [kEndWordLength, kTokenDelimLength])]
  have : (X ++ Y).length - kEndWordLength - kTokenDelimLength - 1 = X.length := by
    rw [hlen]; simp [kEndWordLength, kTokenDelimLength]
  rw [this, List.take_left']
  rfl

theorem concatSubwords_glue (init : List Str) (t : Str) :
    concatSubwords (init ++ [t ++ kEndWord]) = glueJoin init t := by
  unfold concatSubwords
  simp only [foldl_glue, List.nil_append, List.map_append, List.flatten_append, List.map_cons,
    List.map_nil, List.flatten_cons, List.flatten_nil, List.append_nil]
  have e : ((init.map (fun s => s ++ kTokenDelim ++ [32])).flatten ++
      (t ++ kEndWord ++ kTokenDelim ++ [32])) =
      glueJoin init t ++ (kEndWord ++ kTokenDelim ++ [32]) := by simp [glueJoin]
  rw [e]
  exact take_drop_seven _ _ (by simp [kEndWord, kTokenDelim])

/-! ## Removing the glue -/

theorem stripGlue_cons_of_no_match (c : Nat) (rest : Str)
    (h : ¬ [64, 64, 32] <+: c :: rest) : stripGlue (c :: rest) = c :: stripGlue rest := by
  rw [stripGlue.eq_3]
  intro r hc hr
  subst hc hr
  exact h ⟨r, rfl⟩

theorem stripGlue_noMatch (l : Str) (h : ¬ [64, 64, 32] <:+: l) : stripGlue l = l := by
  induction l with
  | nil => rfl
  | cons c rest ih =>
    rw [stripGlue_cons_of_no_match, ih]
    · intro hin
      exact h (hin.trans (List.infix_cons (List.infix_refl _)))
    · intro hp
      exact h hp.isInfix

theorem stripGlue_glue (a Y : Str) (ha : 32 ∉ a) :
    stripGlue (a ++ 64 :: 64 :: 32 :: Y) = a ++ stripGlue Y := by
  induction a with
  | nil => simp [stripGlue]
  | cons c rest ih =>
    have hr : 32 ∉ rest := fun h => ha (List.mem_cons_of_mem _ h)
    rw [List.cons_append, stripGlue_cons_of_no_match, ih hr]
    · rfl
    · rintro ⟨r, hr2⟩
      cases rest with
      | nil => simp at hr2
      | cons d rest =>
        cases rest with
        | nil => simp at hr2
        | cons e rest =>
          simp at hr2
          apply ha
          simp [hr2.2.2.1]

theorem stripGlue_glueJoin (init : List Str) (Y : Str) (hi : ∀ a ∈ init, 32 ∉ a)
    (hY : ¬ [64, 64, 32] <:+: Y) :
    stripGlue ((init.map (fun s => s ++ kTokenDelim ++ [32])).flatten ++ Y) = init.flatten ++ Y := by
  induction init with
  | nil => simpa using stripGlue_noMatch Y hY
  | cons a rest ih =>
    have h1 := stripGlue_glue a ((rest.map (fun s => s ++ kTokenDelim ++ [32])).flatten ++ Y)
      (hi a (by simp))
    simp only [List.map_cons, List.flatten_cons, List.append_assoc, kTokenDelim,
      List.cons_append, List.nil_append] at h1 ⊢
    rw [h1]
    have := ih (fun b hb => hi b (List.mem_cons_of_mem _ hb))
    simp only [kTokenDelim, List.append_assoc, List.cons_append, List.nil_append] at this
    rw [this]

theorem stripGlue_append (out X : Str) (h : out.getLast? ≠ some 64) :
    stripGlue (out ++ X) = stripGlue out ++ stripGlue X := by
  induction out using stripGlue.induct with
  | case1 => simp [stripGlue]
  | case2 rest ih =>
    have : rest.getLast? ≠ some 64 := by
      intro hr
      apply h
      cases rest with
      | nil => simp at hr
      | cons d r => simpa [List.getLast?_cons_cons] using hr
    simpa [stripGlue] using ih this
  | case3 c rest hno ih =>
    have hr : rest.getLast? ≠ some 64 := by
      intro hr
      apply h
      cases rest with
      | nil => simp at hr
      | cons d r => simpa [List.getLast?_cons_cons] using hr
    rw [List.cons_append, stripGlue_cons_of_no_match, ih hr, stripGlue.eq_3 _ _ hno]
    · rfl
    · rintro ⟨r, hr2⟩
      cases rest with
      | nil => simp at hr2; simp [hr2.1] at h
      | cons d rest =>
        cases rest with
        | nil =>
          simp at hr2
          simp [hr2.2.1] at h
        | cons e rest =>
          simp at hr2
          exact hno rest hr2.1.symm (by simp [hr2.2.1, hr2.2.2.1])

/-! ## Entries of maps -/

theorem mapFind_mem {κ ν : Type} [DecidableEq κ] (m : Map κ ν) (k : κ) (v : ν)
    (h : Map.find? m k = some v) : (k, v) ∈ m := by
  induction m with
  | nil => simp [Map.find?] at h
  | cons x rest ih =>
    obtain ⟨k', v'⟩ := x
    by_cases hk : k' = k
    · simp [Map.find?, hk] at h
      simp [hk, h]
    · simp [Map.find?, hk] at h
      exact List.mem_cons_of_mem _ (ih h)

theorem mapInsert_mem {κ ν : Type} [DecidableEq κ] (m : Map κ ν) (k : κ) (v : ν)
    (x : κ × ν) (h : x ∈ Map.insert m k v) : x = (k, v) ∨ x ∈ m := by
  induction m with
  | nil => simp [Map.insert] at h; exact Or.inl h
  | cons y rest ih =>
    obtain ⟨k', v'⟩ := y
    by_cases hk : k' = k
    · simp [Map.insert, hk] at h
      rcases h with h | h
      · exact Or.inl h
      · exact Or.inr (List.mem_cons_of_mem _ h)
    · simp [Map.insert, hk] at h
      rcases h with h | h
      · exact Or.inr (by simp [h])
      · rcases ih h with h | h
        · exact Or.inl h
        · exact Or.inr (List.mem_cons_of_mem _ h)

theorem foldl_insert_mem {α κ ν : Type} [DecidableEq κ] (P : κ → ν → Prop)
    (key : α → κ) (val : α → ν) (l : List α) (m : Map κ ν)
    (hm : ∀ x ∈ m, P x.1 x.2) (hl : ∀ a ∈ l, P (key a) (val a)) :
    ∀ x ∈ l.foldl (fun acc a => Map.insert acc (key a) (val a)) m, P x.1 x.2 := by
  induction l generalizing m with
  | nil => simpa using hm
  | cons a rest ih =>
    simp only [List.foldl_cons]
    apply ih
    · intro x hx
      rcases mapInsert_mem _ _ _ _ hx with rfl | hx
      · exact hl a (by simp)
      · exact hm x hx
    · intro b hb
      exact hl b (List.mem_cons_of_mem _ hb)

theorem convert_pycodes_entries (py_codes : List (tps × Nat)) :
    ∀ x ∈ (convert_pycodes_to_mapcodes py_codes).2,
      x.1 = x.2.1 ++ x.2.2 ∧ ∃ r, (x.2, r) ∈ py_codes := by
  unfold convert_pycodes_to_mapcodes
  suffices h : ∀ (l : List (tps × Nat)) (acc : codesMap × reverseCodesMap),
      (∀ kv ∈ l, kv ∈ py_codes) →
      (∀ x ∈ acc.2, x.1 = x.2.1 ++ x.2.2 ∧ ∃ r, (x.2, r) ∈ py_codes) →
      ∀ x ∈ (l.foldl (fun acc kv =>
          (Map.insert acc.1 kv.1 kv.2, Map.insert acc.2 (kv.1.1 ++ kv.1.2) kv.1)) acc).2,
        x.1 = x.2.1 ++ x.2.2 ∧ ∃ r, (x.2, r) ∈ py_codes by
    exact h py_codes ([], []) (fun _ h => h) (by simp)
  intro l
  induction l with
  | nil => intro acc _ h; simpa using h
  | cons kv rest ih =>
    intro acc hl hacc
    simp only [List.foldl_cons]
    apply ih
    · intro b hb; exact hl b (List.mem_cons_of_mem _ hb)
    · intro x hx
      rcases mapInsert_mem _ _ _ _ hx with rfl | hx
      · exact ⟨rfl, kv.2, hl kv (by simp)⟩
      · exact hacc x hx

theorem convert_pycodes_consistent (py_codes : List (tps × Nat)) :
    RevConsistent (convert_pycodes_to_mapcodes py_codes).2 := by
  intro k t1 t2 h
  exact ((convert_pycodes_entries py_codes) _ (mapFind_mem _ _ _ h)).1.symm

theorem convert_pycodes_keepsEnd (py_codes : List (tps × Nat))
    (hc : ∀ kv ∈ py_codes, kEndWord <:+ kv.1.1 ++ kv.1.2 → kEndWord <:+ kv.1.2) :
    RevKeepsEnd (convert_pycodes_to_mapcodes py_codes).2 := by
  intro k t1 t2 h hk
  obtain ⟨e, r, hr⟩ := (convert_pycodes_entries py_codes) _ (mapFind_mem _ _ _ h)
  simp only at e
  subst e
  exact hc _ hr hk

/-! ## The word to segmentation map -/

theorem tokenize_str_entries (word_count : wMapCounts) :
    ∀ x ∈ tokenize_str word_count, x.2 = tokenize_word x.1 := by
  unfold tokenize_str
  exact foldl_insert_mem (fun w t => t = tokenize_word w) (fun x => x.1)
    (fun x => tokenize_word x.1) word_count [] (by simp) (by simp)

theorem workerRun_entries (fuel : Nat) (codes : codesMap) (rev : reverseCodesMap)
    (vocab : wMapCounts) (items : List (Str × List Str)) (bpe out : Map Str Str)
    (hi : ∀ x ∈ items, x.2 = tokenize_word x.1)
    (hb : ∀ x ∈ bpe, process_bpe fuel (tokenize_word x.1) codes rev vocab = .ok x.2)
    (h : workerRun fuel codes rev vocab items bpe = .ok out) :
    ∀ x ∈ out, process_bpe fuel (tokenize_word x.1) codes rev vocab = .ok x.2 := by
  induction items generalizing bpe with
  | nil => simp [workerRun] at h; subst h; exact hb
  | cons a rest ih =>
    unfold workerRun at h
    split at h
    · simp at h
    · rename_i seg hseg
      apply ih _ (fun x hx => hi x (List.mem_cons_of_mem _ hx)) _ h
      intro x hx
      rcases mapInsert_mem _ _ _ _ hx with rfl | hx
      · rw [← hi a (by simp)]; exact hseg
      · exact hb x hx

theorem workerItems_mem (k t : Nat) (vec : List (Str × List Str)) :
    ∀ x ∈ workerItems k t vec, x ∈ vec := by
  intro x hx
  unfold workerItems at hx
  simp only [List.mem_map, List.mem_filter] at hx
  obtain ⟨⟨j, y⟩, ⟨hm, _⟩, rfl⟩ := hx
  exact List.snd_mem_of_mem_enum hm

theorem runWorkers_entries (fuel : Nat) (codes : codesMap) (rev : reverseCodesMap)
    (vocab : wMapCounts) (k : Nat) (vec : List (Str × List Str))
    (hv : ∀ x ∈ vec, x.2 = tokenize_word x.1) (n t : Nat) (bpes : List (Map Str Str))
    (h : runWorkers fuel codes rev vocab k vec n t = .ok bpes) :
    ∀ bpe ∈ bpes, ∀ x ∈ bpe, process_bpe fuel (tokenize_word x.1) codes rev vocab = .ok x.2 := by
  induction n generalizing t bpes with
  | zero => simp [runWorkers] at h; subst h; simp
  | succ n ih =>
    unfold runWorkers at h
    split at h
    · simp at h
    · rename_i bpe hbpe
      split at h
      · simp at h
      · rename_i rest hrest
        cases h
        intro b hb
        rcases List.mem_cons.1 hb with rfl | hb
        · exact workerRun_entries _ _ _ _ _ _ _
            (fun x hx => hv x (workerItems_mem _ _ _ x hx)) (by simp) hbpe
        · exact ih _ _ hrest b hb

theorem foldBpes_entries (P : Str → Str → Prop) (bpes : List (Map Str Str))
    (h : ∀ bpe ∈ bpes, ∀ x ∈ bpe, P x.1 x.2) : ∀ x ∈ foldBpes bpes, P x.1 x.2 := by
  unfold foldBpes
  suffices hs : ∀ (l : List (Map Str Str)) (acc : Map Str Str),
      (∀ bpe ∈ l, ∀ x ∈ bpe, P x.1 x.2) → (∀ x ∈ acc, P x.1 x.2) →
      ∀ x ∈ l.foldl (fun final bpe =>
        bpe.foldl (fun final x => Map.insert final x.1 x.2) final) acc, P x.1 x.2 by
    exact hs bpes [] h (by simp)
  intro l
  induction l with
  | nil => intro acc _ ha; simpa using ha
  | cons b rest ih =>
    intro acc hl ha
    simp only [List.foldl_cons]
    apply ih _ (fun bpe hb => hl bpe (List.mem_cons_of_mem _ hb))
    exact foldl_insert_mem P (fun x => x.1) (fun x => x.2) b acc ha (hl b (by simp))

theorem buildbpes_entries (kThreads fuel : Nat) (word_count vocab : wMapCounts)
    (codes : codesMap) (rev : reverseCodesMap) (final : Map Str Str)
    (h : _buildbpes kThreads fuel word_count vocab codes rev = .ok final) :
    ∀ w seg, Map.find? final w = some seg →
      process_bpe fuel (tokenize_word w) codes rev vocab = .ok seg := by
  unfold _buildbpes at h
  simp only at h
  split at h
  · simp at h
  · rename_i bpes hb
    cases h
    intro w seg hf
    exact foldBpes_entries (fun w seg => process_bpe fuel (tokenize_word w) codes rev vocab = .ok seg)
      bpes (runWorkers_entries _ _ _ _ _ _ (tokenize_str_entries word_count) _ _ _ hb)
      (w, seg) (mapFind_mem _ _ _ hf)

theorem process_bpe_inv (fuel : Nat) (subwords : List Str) (codes : codesMap)
    (rev : reverseCodesMap) (vocab : wMapCounts) (out : Str)
    (h : process_bpe fuel subwords codes rev vocab = .ok out) :
    ∃ syms, bpeSymbols fuel subwords codes rev vocab = .ok syms ∧ out = concatSubwords syms := by
  unfold process_bpe at h
  split at h
  · simp at h
  · rename_i syms hs
    cases h
    exact ⟨syms, hs, rfl⟩

/-- The output of `process_bpe` for a word is the word cut into pieces and glued. -/
theorem process_bpe_glue (fuel : Nat) (word : Str) (codes : codesMap)
    (rev : reverseCodesMap) (vocab : wMapCounts) (out : Str)
    (hrev : vocab = [] ∨ (RevConsistent rev ∧ RevKeepsEnd rev))
    (h : process_bpe fuel (tokenize_word word) codes rev vocab = .ok out) :
    ∃ init t, out = glueJoin init t ∧ init.flatten ++ t = word := by
  obtain ⟨syms, hs, rfl⟩ := process_bpe_inv _ _ _ _ _ _ h
  have hj := bpeSymbols_join _ _ _ _ _ _ (hrev.imp id And.left) hs
  obtain ⟨init, t, rfl⟩ := bpeSymbols_last _ _ _ _ _ _ (hrev.imp id And.right) hs
  refine ⟨init, t, concatSubwords_glue init t, ?_⟩
  rw [tokenize_word_join] at hj
  simp only [List.flatten_append, List.flatten_cons, List.flatten_nil, List.append_nil] at hj
  rw [← List.append_assoc] at hj
  exact List.append_cancel_right hj

theorem stripGlue_segment (init : List Str) (t Y : Str) (h32 : 32 ∉ init.flatten ++ t)
    (hY : ¬ [64, 64, 32] <:+: t ++ Y) :
    stripGlue (glueJoin init t ++ Y) = init.flatten ++ t ++ Y := by
  have := stripGlue_glueJoin init (t ++ Y)
    (fun a ha h => h32 (List.mem_append_left _ (List.mem_flatten.2 ⟨a, ha, h⟩))) hY
  simpa [glueJoin] using this

theorem padText_eq (text : Str) : padText text = text ++ [10] := by
  unfold padText
  simp only
  rw [if_pos]
  omega

theorem outputLoop_append (bpe : Map Str Str) (a b : List Nat) (st : Str × Str) :
    outputLoop bpe (a ++ b) st =
      match outputLoop bpe a st with
      | .error e => .error e
      | .ok st' => outputLoop bpe b st' := by
  induction a generalizing st with
  | nil => simp [outputLoop]
  | cons c rest ih =>
    simp only [List.cons_append, outputLoop]
    cases outputStep bpe st c with
    | error e => rfl
    | ok st' => exact ih st'

theorem getLast?_append_singleton_ne (l : Str) (c : Nat) (h : c ≠ 64) :
    (l ++ [c]).getLast? ≠ some 64 := by
  simp [List.getLast?_append]
  exact h

theorem outputStep_inv (bpe : Map Str Str) (full done : Str) (c : Nat) (rest : Str)
    (st st' : Str × Str)
    (hbpe : ∀ w seg, Map.find? bpe w = some seg → ∃ init t, seg = glueJoin init t ∧ init.flatten ++ t = w)
    (hfull : full = done ++ c :: rest) (hglue : ¬ [64, 64, 32] <:+: full)
    (hinv : OutInv done st) (h : outputStep bpe st c = .ok st') :
    OutInv (done ++ [c]) st' := by
  obtain ⟨Q, hd, hs, hl, h32⟩ := hinv
  unfold outputStep at h
  by_cases hc : c = 32 ∨ c = 10
  · have hc64 : c ≠ 64 := by rcases hc with rfl | rfl <;> decide
    rw [if_pos hc] at h
    by_cases hcur : st.1.length = 0
    · rw [if_pos hcur] at h
      cases h
      have : st.1 = [] := List.length_eq_zero.1 hcur
      refine ⟨Q ++ [c], by simp [hd, this], ?_, getLast?_append_singleton_ne _ _ hc64, by simp⟩
      rw [stripGlue_append _ _ hl, hs, stripGlue_noMatch]
      intro hi
      have := hi.length_le
      simp at this
    · rw [if_neg hcur] at h
      split at h
      · simp at h
      · rename_i seg hseg
        cases h
        obtain ⟨init, t, rfl, hw⟩ := hbpe _ _ hseg
        refine ⟨Q ++ st.1 ++ [c], by simp [hd], ?_, ?_, by simp⟩
        · simp only [List.append_assoc]
          rw [stripGlue_append _ _ hl, hs,
            stripGlue_segment init t [c] (by rw [hw]; exact h32), hw]
          intro hi
          apply hglue
          rw [hfull, hd]
          refine hi.trans ?_
          refine ⟨Q ++ init.flatten, rest, ?_⟩
          rw [← hw]; simp
        · exact getLast?_append_singleton_ne _ _ hc64
  · rw [if_neg hc] at h
    cases h
    refine ⟨Q, by simp [hd], hs, hl, ?_⟩
    simp only [List.mem_append, List.mem_singleton, not_or]
    exact ⟨h32, fun e => hc (Or.inl e.symm)⟩

theorem outputLoop_inv (bpe : Map Str Str) (full : Str)
    (hbpe : ∀ w seg, Map.find? bpe w = some seg → ∃ init t, seg = glueJoin init t ∧ init.flatten ++ t = w)
    (hglue : ¬ [64, 64, 32] <:+: full) (rest done : Str) (st st' : Str × Str)
    (hfull : full = done ++ rest) (hinv : OutInv done st)
    (h : outputLoop bpe rest st = .ok st') : OutInv full st' := by
  induction rest generalizing done st with
  | nil =>
    simp [outputLoop] at h
    subst h
    simpa [hfull] using hinv
  | cons c rest ih =>
    unfold outputLoop at h
    split at h
    · simp at h
    · rename_i st1 hst1
      exact ih (done ++ [c]) st1 (by simp [hfull])
        (outputStep_inv bpe full done c rest st st1 hbpe hfull hglue hinv hst1) h

theorem glue_infix_of_append_newline (text : Str) (h : [64, 64, 32] <:+: text ++ [10]) :
    [64, 64, 32] <:+: text := by
  obtain ⟨A, B, hAB⟩ := h
  rcases List.eq_nil_or_concat B with rfl | ⟨B', b, rfl⟩
  · have := congrArg List.getLast? hAB
    simp at this
  · refine ⟨A, B', ?_⟩
    have h2 : (A ++ [64, 64, 32] ++ B') ++ [b] = text ++ [10] := by
      rw [← hAB]; simp
    exact (List.append_inj' h2 rfl).1

theorem outputLoop_newline_last (bpe : Map Str Str) (a : Str) (st st' : Str × Str)
    (h : outputLoop bpe (a ++ [10]) st = .ok st') : st'.1 = [] := by
  rw [outputLoop_append] at h
  split at h
  · simp at h
  · rename_i st1 _
    simp only [outputLoop] at h
    split at h
    · simp at h
    · rename_i st2 hst2
      cases h
      unfold outputStep at hst2
      simp only [or_true, if_true] at hst2
      split at hst2
      · cases hst2; rfl
      · split at hst2
        · simp at hst2
        · cases hst2; rfl

theorem replaceRuns_cons (f : Str → Str) (cur : Str) (c : Nat) (rest : Str) :
    replaceRuns f cur (c :: rest) =
      if c = 32 ∨ c = 10 then (if cur = [] then [] else f cur) ++ c :: replaceRuns f [] rest
      else replaceRuns f (cur ++ [c]) rest := by
  rw [replaceRuns]

theorem outputLoop_replace (bpe : Map Str Str) (f : Str → Str)
    (hf : ∀ w seg, Map.find? bpe w = some seg → seg = f w) (rest : Str) (st st' : Str × Str)
    (h : outputLoop bpe rest st = .ok st') :
    st'.2 ++ (if st'.1 = [] then [] else f st'.1) = st.2 ++ replaceRuns f st.1 rest := by
  induction rest generalizing st with
  | nil =>
    simp [outputLoop] at h
    subst h
    simp [replaceRuns]
  | cons c rest ih =>
    unfold outputLoop at h
    split at h
    · simp at h
    · rename_i st1 hst1
      rw [ih st1 h]
      unfold outputStep at hst1
      rw [replaceRuns_cons]
      by_cases hc : c = 32 ∨ c = 10
      · rw [if_pos hc] at hst1
        rw [if_pos hc]
        by_cases hcur : st.1.length = 0
        · rw [if_pos hcur] at hst1
          cases hst1
          simp [List.length_eq_zero.1 hcur]
        · rw [if_neg hcur] at hst1
          split at hst1
          · simp at hst1
          · rename_i seg hseg
            cases hst1
            have hne : st.1 ≠ [] := fun e => hcur (by simp [e])
            simp [hne, hf _ _ hseg]
      · rw [if_neg hc] at hst1
        rw [if_neg hc]
        cases hst1
        rfl

/-- C5 (as amended): scenario 3.  With the codes `("l","o")`, `("lo","w</w>")`,
the vocabulary `l@@`, `ow` and the word `low`, the applier returns `l@@ o@@ w`
(for every fuel of at least three): `low</w>` is decomposed along its merges into
`l`, `o`, `w</w>`; the symbol `ow</w>` never arises. -/
theorem scenario3_output :
    ∀ n, process_bpe (n + 3) (tokenize_word (asc "low")) codesLow reversedLow vocabLow =
      .ok (asc "l@@ o@@ w") := by
  intro n
  rfl

/-- C5 (counterexample): on scenario 3 the applier does not return `l@@ ow`,
whatever the fuel. -/
theorem scenario3_not_expected :
    ¬ ∃ fuel, process_bpe fuel (tokenize_word (asc "low")) codesLow reversedLow vocabLow =
      .ok (asc "l@@ ow") := by
  rintro ⟨fuel, h⟩
  match fuel, h with
  | 0, h => revert h; decide
  | 1, h => revert h; decide
  | 2, h => revert h; decide
  | n + 3, h =>
    have e : process_bpe (n + 3) (tokenize_word (asc "low")) codesLow reversedLow vocabLow =
        .ok (asc "l@@ o@@ w") := rfl
    rw [e] at h
    revert h
    decide

/-- C6: vocabulary restriction closure.  When the applier returns for a word
with a non-empty vocabulary, its final symbol list is `init ++ [last]`, every
non-final symbol `s` has `s ++ "@@"` in the vocabulary or holds exactly one code
point (one byte that is not a continuation byte), and the final symbol, with its
last four bytes (`</w>`) removed, is in the vocabulary or holds exactly one code
point. -/
theorem vocab_restriction_closure (fuel : Nat) (word : Str) (codes : codesMap)
    (rev : reverseCodesMap) (vocab : wMapCounts) (out : List Str)
    (hv : vocab ≠ [])
    (h : bpeSymbols fuel (tokenize_word word) codes rev vocab = .ok out) :
    ∃ init last, out = init ++ [last] ∧
      (∀ s ∈ init, Map.contains vocab (s ++ kTokenDelim) = true ∨ countLead s = 1) ∧
      (Map.contains vocab (stripEnd last) = true ∨ countLead (stripEnd last) = 1) := by
  obtain ⟨merged, hm, hcase⟩ := bpeSymbols_inv _ _ _ _ _ _ h
  rcases hcase with ⟨_, hl⟩ | ⟨hv0, _⟩
  · have hne : merged ≠ [] :=
      lastSuffix_ne_nil (mergeLoop_last _ _ _ _ _ hm (tokenizeLoop_last _ _ _ _))
    obtain ⟨init, last, rfl, hi, hlast⟩ := limitVocab_allOk _ _ _ _ _ hl hne
    refine ⟨init, last, rfl, ?_, ?_⟩
    · intro s hs
      simpa [SymOk, probe] using hi s hs
    · simpa [SymOk, probe] using hlast
  · exact absurd hv0 hv

/-- C6 (witness): scenario 3, whose final symbol list is `l`, `o`, `w</w>`. -/
theorem vocab_restriction_closure_witness :
    vocabLow ≠ [] ∧
    bpeSymbols 10 (tokenize_word (asc "low")) codesLow reversedLow vocabLow =
      .ok [asc "l", asc "o", asc "w</w>"] ∧
    ∃ init last, [asc "l", asc "o", asc "w</w>"] = init ++ [last] ∧
      (∀ s ∈ init, Map.contains vocabLow (s ++ kTokenDelim) = true ∨ countLead s = 1) ∧
      (Map.contains vocabLow (stripEnd last) = true ∨ countLead (stripEnd last) = 1) :=
  ⟨by decide, by decide,
    vocab_restriction_closure 10 (asc "low") codesLow reversedLow vocabLow _ (by decide)
      (by decide)⟩

/-- C7: symbol coverage.  When the reversed map sends each key to a pair that
concatenates to the key and the applier returns for a word, the concatenation of
its final symbol list is the word followed by `</w>`. -/
theorem symbol_coverage (fuel : Nat) (word : Str) (codes : codesMap)
    (rev : reverseCodesMap) (vocab : wMapCounts) (out : List Str)
    (hrev : RevConsistent rev)
    (h : bpeSymbols fuel (tokenize_word word) codes rev vocab = .ok out) :
    out.flatten = word ++ kEndWord := by
  rw [bpeSymbols_join _ _ _ _ _ _ (Or.inr hrev) h, tokenize_word_join]

/-- C7 (witness): scenario 3. -/
theorem symbol_coverage_witness :
    RevConsistent reversedLow ∧
    bpeSymbols 10 (tokenize_word (asc "low")) codesLow reversedLow vocabLow =
      .ok [asc "l", asc "o", asc "w</w>"] ∧
    [asc "l", asc "o", asc "w</w>"].flatten = asc "low" ++ kEndWord :=
  ⟨convert_pycodes_consistent pyCodesLow, by decide,
    symbol_coverage 10 (asc "low") codesLow reversedLow vocabLow _
      (convert_pycodes_consistent pyCodesLow) (by decide)⟩

/-- C8: output format.  When the final symbol list of the applier is
`s1, ..., sN` with `sN = t ++ "</w>"`, `process_bpe` returns
`s1 ++ "@@ " ++ ... ++ t`; and with the codes `("l","o")`, `("lo","w</w>")` and
no vocabulary the word `low` gives `low`. -/
theorem output_format :
    (∀ (fuel : Nat) (word : Str) (codes : codesMap) (rev : reverseCodesMap)
      (vocab : wMapCounts) (init : List Str) (t : Str),
      bpeSymbols fuel (tokenize_word word) codes rev vocab = .ok (init ++ [t ++ kEndWord]) →
      process_bpe fuel (tokenize_word word) codes rev vocab = .ok (glueJoin init t)) ∧
    (∀ fuel, process_bpe fuel (tokenize_word (asc "low")) codesLow reversedLow [] =
      .ok (asc "low")) := by
  constructor
  · intro fuel word codes rev vocab init t h
    unfold process_bpe
    rw [h]
    simp only
    rw [concatSubwords_glue]
  · intro fuel
    rfl

/-- C8 (witness): scenario 3, where the final symbols are `l`, `o`, `w</w>`. -/
theorem output_format_witness :
    bpeSymbols 10 (tokenize_word (asc "low")) codesLow reversedLow vocabLow =
      .ok ([asc "l", asc "o"] ++ [asc "w" ++ kEndWord]) ∧
    process_bpe 10 (tokenize_word (asc "low")) codesLow reversedLow vocabLow =
      .ok (glueJoin [asc "l", asc "o"] (asc "w")) :=
  ⟨by decide, output_format.1 10 (asc "low") codesLow reversedLow vocabLow _ _ (by decide)⟩

/-- C9 (as amended): idempotence at word level.  For a word without a space
byte, when the vocabulary is empty, or the reversed map sends each key to a pair
that concatenates to the key and whose right part ends in `</w>` whenever the
key does: if the applier returns `out`, deleting every `@@ ` from `out` gives the
word back, so the applier returns `out` again on it. -/
theorem word_idempotence (fuel : Nat) (w : Str) (codes : codesMap)
    (rev : reverseCodesMap) (vocab : wMapCounts) (out : Str)
    (hw : 32 ∉ w)
    (hrev : vocab = [] ∨ (RevConsistent rev ∧ RevKeepsEnd rev))
    (h : process_bpe fuel (tokenize_word w) codes rev vocab = .ok out) :
    stripGlue out = w ∧
    process_bpe fuel (tokenize_word (stripGlue out)) codes rev vocab = .ok out := by
  obtain ⟨init, t, rfl, hwt⟩ := process_bpe_glue _ _ _ _ _ _ hrev h
  have e : stripGlue (glueJoin init t) = w := by
    have := stripGlue_segment init t [] (by rw [hwt]; exact hw)
      (by
        intro hi
        apply hw
        rw [← hwt]
        have : (32 : Nat) ∈ [64, 64, 32] := by simp
        have := hi.subset this
        simp only [List.append_nil] at this
        exact List.mem_append_right _ this)
    simpa [hwt] using this
  rw [e]
  exact ⟨rfl, h⟩

/-- C9 (witness): scenario 3. -/
theorem word_idempotence_witness :
    32 ∉ asc "low" ∧
    (vocabLow = [] ∨ (RevConsistent reversedLow ∧ RevKeepsEnd reversedLow)) ∧
    process_bpe 10 (tokenize_word (asc "low")) codesLow reversedLow vocabLow =
      .ok (asc "l@@ o@@ w") ∧
    stripGlue (asc "l@@ o@@ w") = asc "low" ∧
    process_bpe 10 (tokenize_word (stripGlue (asc "l@@ o@@ w"))) codesLow reversedLow vocabLow =
      .ok (asc "l@@ o@@ w") :=
  have hrev : vocabLow = [] ∨ (RevConsistent reversedLow ∧ RevKeepsEnd reversedLow) :=
    Or.inr ⟨convert_pycodes_consistent pyCodesLow,
      convert_pycodes_keepsEnd pyCodesLow (by decide)⟩
  ⟨by decide, hrev, by decide,
    word_idempotence 10 (asc "low") codesLow reversedLow vocabLow _ (by decide) hrev (by decide)⟩

/-- C9 (counterexample): with the single rule `("x<", "/w>")` and the vocabulary
`x<@@`, `/w>`, the word `x` is segmented as `x<@@`; that string holds no `@@ `, and
the applier segments it as `x@@ <@@ @@@ @`. -/
theorem word_idempotence_fails :
    process_bpe 10 (tokenize_word (asc "x")) (convert_pycodes_to_mapcodes pyCodesSplit).1
        (convert_pycodes_to_mapcodes pyCodesSplit).2 vocabSplit = .ok (asc "x<@@") ∧
    process_bpe 10 (tokenize_word (stripGlue (asc "x<@@")))
        (convert_pycodes_to_mapcodes pyCodesSplit).1
        (convert_pycodes_to_mapcodes pyCodesSplit).2 vocabSplit ≠ .ok (asc "x<@@") := by
  decide

/-- C10 (as amended): text-level round trip.  When `apply_bpe` returns, its
result is the padded text (the input followed by the newline that `padText`
appended) with every maximal run of bytes other than space and newline replaced
by the segmentation `process_bpe` gives for that run, every space and newline
kept in place: this holds for every text, all codes and every vocabulary.  When
moreover the text holds no `@@ ` and the right part of a rule of the codes ends
in `</w>` whenever the concatenation of the rule does, deleting every `@@ ` from
the result gives the input text followed by that newline. -/
theorem apply_bpe_round_trip (kThreads fuel : Nat) (text : Str)
    (py_codes : List (tps × Nat)) (py_vocab : List (Str × Nat)) (res : Str)
    (h : apply_bpe kThreads fuel text py_codes py_vocab = .ok res) :
    res = replaceRuns
        (segOf fuel (convert_pycodes_to_mapcodes py_codes).1
          (convert_pycodes_to_mapcodes py_codes).2 (convert_pyvocab_to_mapwc py_vocab))
        [] (text ++ [10]) ∧
    (¬ [64, 64, 32] <:+: text →
      (∀ kv ∈ py_codes, kEndWord <:+ kv.1.1 ++ kv.1.2 → kEndWord <:+ kv.1.2) →
      stripGlue res = text ++ [10]) := by
  unfold apply_bpe at h
  simp only [padText_eq] at h
  split at h
  · simp at h
  · rename_i final hfinal
    have hent := buildbpes_entries _ _ _ _ _ _ _ hfinal
    unfold outputString at h
    split at h
    · simp at h
    · rename_i st hst
      cases h
      have hcur := outputLoop_newline_last _ _ _ _ hst
      constructor
      · have := outputLoop_replace final
          (segOf fuel (convert_pycodes_to_mapcodes py_codes).1
            (convert_pycodes_to_mapcodes py_codes).2 (convert_pyvocab_to_mapwc py_vocab))
          (fun w seg hf => by unfold segOf; rw [hent w seg hf]) _ _ _ hst
        simpa [hcur] using this
      · intro hglue hcodes
        have hbpe : ∀ w seg, Map.find? final w = some seg →
            ∃ init t, seg = glueJoin init t ∧ init.flatten ++ t = w := by
          intro w seg hf
          exact process_bpe_glue _ _ _ _ _ _
            (Or.inr ⟨convert_pycodes_consistent py_codes,
              convert_pycodes_keepsEnd py_codes hcodes⟩)
            (hent w seg hf)
        obtain ⟨Q, hQ, hs, _, _⟩ := outputLoop_inv final (text ++ [10]) hbpe
          (fun hi => hglue (glue_infix_of_append_newline text hi)) (text ++ [10]) [] ([], []) st
          (by simp) ⟨[], by simp, by simp [stripGlue], by simp, by simp⟩ hst
        rw [hcur] at hQ
        rw [hs, hQ]
        simp

/-- C10 (witness): the text `low lower` with the codes of scenario 2 and no
vocabulary, on two workers. -/
theorem apply_bpe_round_trip_witness :
    apply_bpe 2 10 (asc "low lower") pyCodesLow [] = .ok (asc "low lo@@ w@@ e@@ r" ++ [10]) ∧
    asc "low lo@@ w@@ e@@ r" ++ [10] = replaceRuns
        (segOf 10 (convert_pycodes_to_mapcodes pyCodesLow).1
          (convert_pycodes_to_mapcodes pyCodesLow).2 (convert_pyvocab_to_mapwc []))
        [] (asc "low lower" ++ [10]) ∧
    stripGlue (asc "low lo@@ w@@ e@@ r" ++ [10]) = asc "low lower" ++ [10] :=
  ⟨by decide,
    (apply_bpe_round_trip 2 10 (asc "low lower") pyCodesLow [] _ (by decide)).1,
    (apply_bpe_round_trip 2 10 (asc "low lower") pyCodesLow [] _ (by decide)).2
      (by decide) (by decide)⟩

/-- C10 (counterexample): for the text `a`, without codes or vocabulary,
`apply_bpe` returns `a` followed by a newline, and deleting `@@ ` from it does
not give back `a`. -/
theorem apply_bpe_round_trip_fails :
    apply_bpe 1 10 (asc "a") [] [] = .ok [97, 10] ∧ stripGlue [97, 10] ≠ asc "a" := by
  decide

/-! ## The pair index: elementary facts -/

theorem mapFind_insert {κ ν : Type} [DecidableEq κ] (m : Map κ ν) (k k2 : κ) (v : ν) :
    Map.find? (Map.insert m k v) k2 = if k = k2 then some v else Map.find? m k2 := by
  by_cases h : k = k2
  · subst h; simp [Map.find?_insert_self]
  · simp [h, Map.find?_insert_ne _ _ _ _ h]

theorem whereGet_insert (w : Map tp (List Nat)) (p q : tp) (s : List Nat) :
    whereGet (Map.insert w p s) q = if p = q then s else whereGet w q := by
  unfold whereGet
  rw [mapFind_insert]
  split <;> rfl

theorem whereGet_update (w : Map tp (List Nat)) (p q : tp) (f : List Nat → List Nat) :
    whereGet (whereUpdate w p f) q = if p = q then f (whereGet w p) else whereGet w q := by
  unfold whereUpdate
  exact whereGet_insert _ _ _ _

theorem mem_setInsert (s : List Nat) (x y : Nat) : y ∈ setInsert s x ↔ y = x ∨ y ∈ s := by
  unfold setInsert
  split
  · constructor
    · exact Or.inr
    · rintro (rfl | h)
      · assumption
      · exact h
  · simp [or_comm]

theorem mem_setErase (s : List Nat) (x y : Nat) : y ∈ setErase s x ↔ y ∈ s ∧ y ≠ x := by
  simp [setErase]

theorem ccModify_pairs (f : Int → Int) (cc : List (Int × tp)) (p : tp) :
    (ccModify f cc p).map Prod.snd = cc.map Prod.snd := by
  induction cc with
  | nil => rfl
  | cons x rest ih =>
    unfold ccModify
    split
    · simp
    · simp [ih]

theorem ccFind_isSome_iff (cc : List (Int × tp)) (p : tp) :
    (ccFind cc p).isSome = true ↔ p ∈ cc.map Prod.snd := by
  induction cc with
  | nil => simp [ccFind]
  | cons x rest ih =>
    unfold ccFind
    by_cases h : x.2 = p
    · simp [h]
    · simp only [h, if_false, ih, List.map_cons, List.mem_cons]
      constructor
      · exact Or.inr
      · rintro (e | e)
        · exact absurd e.symm h
        · exact e

theorem ccFind_append (cc : List (Int × tp)) (x : Int × tp) (p : tp) :
    ccFind (cc ++ [x]) p =
      match ccFind cc p with
      | some c => some c
      | none => if x.2 = p then some x.1 else none := by
  induction cc with
  | nil => simp [ccFind]
  | cons y rest ih =>
    simp only [List.cons_append, ccFind]
    split
    · rfl
    · exact ih

theorem ccFind_modify (f : Int → Int) (cc : List (Int × tp)) (p q : tp) :
    ccFind (ccModify f cc p) q =
      if p = q then (ccFind cc q).map f else ccFind cc q := by
  induction cc with
  | nil => simp [ccFind, ccModify]
  | cons x rest ih =>
    unfold ccModify
    by_cases h : x.2 = p
    · simp only [h, if_true]
      by_cases hq : p = q
      · subst hq
        simp [ccFind, h]
      · simp [ccFind, h, hq]
    · simp only [h, if_false]
      by_cases hq : p = q
      · subst hq
        simp only [ccFind, h, if_false, ih, if_true]
      · simp only [hq, if_false] at ih ⊢
        simp only [ccFind, ih]

/-! ## Bounds of the ids -/

theorem ccModify_bounds (N : Nat) (f : Int → Int) (cc : List (Int × tp)) (p : tp)
    (h : ∀ x ∈ cc, x.2.1 < N ∧ x.2.2 < N) :
    ∀ x ∈ ccModify f cc p, x.2.1 < N ∧ x.2.2 < N := by
  intro x hx
  have : x.2 ∈ (ccModify f cc p).map Prod.snd := List.mem_map_of_mem _ hx
  rw [ccModify_pairs] at this
  obtain ⟨y, hy, e⟩ := List.mem_map.1 this
  rw [← e]
  exact h y hy

theorem change_count_cc (idx : PairIndex) (pair : tp) (v : Int) (wi : Nat) :
    (change_count idx pair v wi).contiguous_counts = ccAdd idx.contiguous_counts pair v := by
  unfold change_count ccAdd
  cases ccFind idx.contiguous_counts pair with
  | some c => by_cases hv : v > 0 <;> simp [hv]
  | none => by_cases hv : v > 0 <;> simp [hv]

theorem change_count_where (idx : PairIndex) (pair : tp) (v : Int) (wi : Nat) (q : tp) :
    whereGet (change_count idx pair v wi).where_to_update q =
      if v > 0 ∧ pair = q then
        setInsert (if (ccFind idx.contiguous_counts pair).isSome
          then whereGet idx.where_to_update pair else []) wi
      else whereGet idx.where_to_update q := by
  unfold change_count
  cases ccFind idx.contiguous_counts pair with
  | some c =>
    by_cases hv : v > 0
    · simp only [hv, if_true, whereGet_update, true_and, Option.isSome_some]
    · simp [hv]
  | none =>
    by_cases hv : v > 0
    · simp only [hv, if_true, whereGet_update, whereGet_insert, true_and, Option.isSome_none]
      by_cases hq : pair = q
      · simp [hq]
      · simp [hq]
    · simp [hv]

theorem ccAdd_mem (cc : List (Int × tp)) (pair : tp) (v : Int) (x : Int × tp)
    (h : x ∈ ccAdd cc pair v) : x.2 = pair ∨ x.2 ∈ cc.map Prod.snd := by
  unfold ccAdd at h
  split at h
  · right
    have : x.2 ∈ (ccModify (fun c => wrap32 (c + v)) cc pair).map Prod.snd :=
      List.mem_map_of_mem _ h
    rwa [ccModify_pairs] at this
  · split at h
    · rcases List.mem_append.1 h with h | h
      · exact Or.inr (List.mem_map_of_mem _ h)
      · simp at h; subst h; exact Or.inl rfl
    · exact Or.inr (List.mem_map_of_mem _ h)

theorem change_count_bounds (N L : Nat) (idx : PairIndex) (pair : tp) (v : Int) (wi : Nat)
    (h : IdxBounds N L idx) (hp : pair.1 < N ∧ pair.2 < N) (hwi : wi < L) :
    IdxBounds N L (change_count idx pair v wi) := by
  obtain ⟨hcc, hwh⟩ := h
  constructor
  · intro x hx
    rw [change_count_cc] at hx
    rcases ccAdd_mem _ _ _ _ hx with e | e
    · rw [e]; exact hp
    · obtain ⟨y, hy, e⟩ := List.mem_map.1 e
      rw [← e]; exact hcc y hy
  · intro p w hw
    rw [change_count_where] at hw
    split at hw
    · rcases (mem_setInsert _ _ _).1 hw with rfl | hw
      · exact hwi
      · split at hw
        · exact hwh _ w hw
        · simp at hw
    · exact hwh p w hw

theorem updateBefore_bounds (N L : Nat) (idx : PairIndex) (pre : List Nat)
    (first new_token_id : Nat) (c : Int) (wi : Nat) (h : IdxBounds N L idx)
    (hpre : ∀ i ∈ pre, i < N) (hf : first < N) (hnew : new_token_id < N) (hwi : wi < L) :
    IdxBounds N L (updateBefore idx pre first new_token_id c wi) := by
  cases pre with
  | nil => exact h
  | cons b pre' =>
    have hb : b < N := hpre b (by simp)
    exact change_count_bounds _ _ _ _ _ _
      (change_count_bounds _ _ _ _ _ _ h ⟨hb, hf⟩ hwi) ⟨hb, hnew⟩ hwi

theorem updateAfter_bounds (N L : Nat) (idx : PairIndex) (rest : List Nat)
    (second new_token_id : Nat) (c : Int) (wi : Nat) (h : IdxBounds N L idx)
    (hrest : ∀ i ∈ rest, i < N) (hs : second < N) (hnew : new_token_id < N) (hwi : wi < L) :
    IdxBounds N L (updateAfter idx rest second new_token_id c wi) := by
  cases rest with
  | nil => exact h
  | cons y rest' =>
    have hy : y < N := hrest y (by simp)
    exact change_count_bounds _ _ _ _ _ _
      (change_count_bounds _ _ _ _ _ _ h ⟨hs, hy⟩ hwi) ⟨hnew, hy⟩ hwi

theorem sweepLoop_bounds (max_p : tp) (new_token_id : Nat) (c : Int) (wi N L : Nat)
    (hnew : new_token_id < N) (hwi : wi < L) (rest : List Nat) :
    ∀ (pre : List Nat) (a cur : Nat) (idx : PairIndex),
      (∀ i ∈ pre, i < N) → a < N → cur < N → (∀ i ∈ rest, i < N) → IdxBounds N L idx →
      (∀ i ∈ (sweepLoop max_p new_token_id c wi pre a rest cur idx).1, i < N) ∧
      IdxBounds N L (sweepLoop max_p new_token_id c wi pre a rest cur idx).2 := by
  induction rest with
  | nil =>
    intro pre a cur idx hpre ha _ _ hidx
    simp only [sweepLoop]
    refine ⟨?_, hidx⟩
    intro i hi
    simp only [List.reverse_cons, List.mem_append, List.mem_reverse, List.mem_singleton] at hi
    rcases hi with hi | rfl
    · exact hpre i hi
    · exact ha
  | cons x rest ih =>
    intro pre a cur idx hpre ha hcur hrest hidx
    have hx : x < N := hrest x (by simp)
    have hr : ∀ i ∈ rest, i < N := fun i hi => hrest i (List.mem_cons_of_mem _ hi)
    simp only [sweepLoop]
    split
    · exact ih pre new_token_id new_token_id _ hpre hnew hnew hr
        (updateAfter_bounds _ _ _ _ _ _ _ _
          (updateBefore_bounds _ _ _ _ _ _ _ _ hidx hpre hcur hnew hwi) hr hx hnew hwi)
    · apply ih (a :: pre) x x idx _ hx hx hr hidx
      intro i hi
      rcases List.mem_cons.1 hi with rfl | hi
      · exact ha
      · exact hpre i hi

theorem sweepWord_bounds (max_p : tp) (new_token_id : Nat) (c : Int) (wi N L : Nat)
    (hnew : new_token_id < N) (hwi : wi < L) (cur_word : List Nat) (idx : PairIndex)
    (hw : ∀ i ∈ cur_word, i < N) (hidx : IdxBounds N L idx) :
    (∀ i ∈ (sweepWord max_p new_token_id c wi cur_word idx).1, i < N) ∧
    IdxBounds N L (sweepWord max_p new_token_id c wi cur_word idx).2 := by
  cases cur_word with
  | nil => exact ⟨by simp [sweepWord], hidx⟩
  | cons x rest =>
    exact sweepLoop_bounds max_p new_token_id c wi N L hnew hwi rest [] x x idx (by simp)
      (hw x (by simp)) (hw x (by simp)) (fun i hi => hw i (List.mem_cons_of_mem _ hi)) hidx

theorem sweepWords_bounds (max_p : tp) (new_token_id : Nat) (counts : List Int) (N : Nat)
    (hnew : new_token_id < N) (wis : List Nat) :
    ∀ (st : List (List Nat) × PairIndex),
      counts.length = st.1.length → (∀ wi ∈ wis, wi < st.1.length) →
      (∀ w ∈ st.1, ∀ i ∈ w, i < N) → IdxBounds N st.1.length st.2 →
      ∃ st', sweepWords max_p new_token_id counts wis st = .ok st' ∧
        st'.1.length = st.1.length ∧ (∀ w ∈ st'.1, ∀ i ∈ w, i < N) ∧
        IdxBounds N st.1.length st'.2 := by
  induction wis with
  | nil =>
    intro st _ _ hw hidx
    exact ⟨st, rfl, rfl, hw, hidx⟩
  | cons wi rest ih =>
    intro st hlen hwis hw hidx
    have hwi : wi < st.1.length := hwis wi (by simp)
    have h1 : st.1.get? wi = some (st.1.get ⟨wi, hwi⟩) := List.get?_eq_get hwi
    have h2 : counts.get? wi = some (counts.get ⟨wi, hlen ▸ hwi⟩) := List.get?_eq_get _
    simp only [sweepWords, h1, h2]
    have hb := sweepWord_bounds max_p new_token_id (counts.get ⟨wi, hlen ▸ hwi⟩) wi N
      st.1.length hnew hwi (st.1.get ⟨wi, hwi⟩) st.2
      (hw _ (List.get_mem _ _ _)) hidx
    obtain ⟨st', hst', hl', hw', hi'⟩ := ih
      (st.1.set wi (sweepWord max_p new_token_id (counts.get ⟨wi, hlen ▸ hwi⟩) wi
          (st.1.get ⟨wi, hwi⟩) st.2).1,
        (sweepWord max_p new_token_id (counts.get ⟨wi, hlen ▸ hwi⟩) wi
          (st.1.get ⟨wi, hwi⟩) st.2).2)
      (by simpa using hlen)
      (by intro w hw2; simpa using hwis w (List.mem_cons_of_mem _ hw2))
      (by
        intro w hw2 i hi
        rcases List.mem_or_eq_of_mem_set hw2 with hw2 | rfl
        · exact hw w hw2 i hi
        · exact hb.1 i hi)
      (by simpa using hb.2)
    exact ⟨st', hst', by simpa using hl', hw', by simpa using hi'⟩

theorem find_maxp_loop_pair (cc : List (Int × tp)) (maxp : tp) (max_c : Nat) :
    (find_maxp_loop cc maxp max_c).1 = maxp ∨ (find_maxp_loop cc maxp max_c).1 ∈ cc.map Prod.snd := by
  induction cc generalizing maxp max_c with
  | nil => exact Or.inl rfl
  | cons x rest ih =>
    unfold find_maxp_loop
    split
    · rcases ih x.2 (toU32 x.1) with h | h
      · rw [h]; simp
      · exact Or.inr (List.mem_cons_of_mem _ h)
    · split
      · rcases ih x.2 max_c with h | h
        · rw [h]; simp
        · exact Or.inr (List.mem_cons_of_mem _ h)
      · rcases ih maxp max_c with h | h
        · exact Or.inl h
        · exact Or.inr (List.mem_cons_of_mem _ h)

theorem find_maxp_bounds (N : Nat) (cc : List (Int × tp)) (maxp : tp)
    (hcc : ∀ x ∈ cc, x.2.1 < N ∧ x.2.2 < N) (hm : maxp.1 < N ∧ maxp.2 < N) :
    (find_maxp cc maxp).1.1 < N ∧ (find_maxp cc maxp).1.2 < N := by
  unfold find_maxp
  rcases find_maxp_loop_pair cc maxp 0 with h | h
  · rw [h]; exact hm
  · obtain ⟨y, hy, e⟩ := List.mem_map.1 h
    rw [← e]; exact hcc y hy

/-- A round of the learner from a state with ids in range returns, keeps the ids
in range, and appends one rule carrying the count reported by the last
`find_maxp`. -/
theorem learnStep_bounds (st : LState) (h : BoundsInv st) :
    ∃ st' left right, learnStep st = .ok st' ∧ BoundsInv st' ∧
      st.int_to_token.get? st.max_p.1 = some left ∧
      st.int_to_token.get? st.max_p.2 = some right ∧
      st'.codes = st.codes ++ [(left, right, st.max_c)] ∧
      st'.counts = st.counts ∧ st'.words.length = st.words.length ∧
      st'.int_to_token = st.int_to_token ++ [left ++ right] := by
  obtain ⟨hmaxp, hcc, hwords, hwh, hlen⟩ := h
  have h1 : st.int_to_token.get? st.max_p.1 = some (st.int_to_token.get ⟨_, hmaxp.1⟩) :=
    List.get?_eq_get _
  have h2 : st.int_to_token.get? st.max_p.2 = some (st.int_to_token.get ⟨_, hmaxp.2⟩) :=
    List.get?_eq_get _
  have hidx : IdxBounds (st.int_to_token.length + 1) st.words.length st.idx :=
    ⟨fun x hx => ⟨Nat.lt_succ_of_lt (hcc x hx).1, Nat.lt_succ_of_lt (hcc x hx).2⟩, hwh⟩
  obtain ⟨r, hr, hl', hw', hi'⟩ := sweepWords_bounds st.max_p st.int_to_token.length st.counts
    (st.int_to_token.length + 1) (Nat.lt_succ_self _)
    (whereGet st.idx.where_to_update st.max_p) (st.words, st.idx) hlen
    (fun wi hwi => hwh _ wi hwi)
    (fun w hw i hi => Nat.lt_succ_of_lt (hwords w hw i hi)) hidx
  unfold learnStep
  simp only [h1, h2, hr]
  refine ⟨_, _, _, rfl, ?_, rfl, rfl, rfl, rfl, hl', rfl⟩
  have hcc2 : ∀ x ∈ (if (ccFind r.2.contiguous_counts st.max_p).isSome = true then
        ccModify (fun _ => 0) r.2.contiguous_counts st.max_p
      else r.2.contiguous_counts), x.2.1 < st.int_to_token.length + 1 ∧
        x.2.2 < st.int_to_token.length + 1 := by
    split
    · exact ccModify_bounds _ _ _ _ hi'.1
    · exact hi'.1
  constructor
  · simp only [List.length_append, List.length_singleton]
    exact find_maxp_bounds _ _ _ hcc2
      ⟨Nat.lt_succ_of_lt hmaxp.1, Nat.lt_succ_of_lt hmaxp.2⟩
  · simpa using hcc2
  · simpa using hw'
  · intro p wi hwi
    simp only at hwi ⊢
    rw [hl']
    exact hi'.2 p wi hwi
  · simp only
    rw [hl']
    exact hlen

theorem learnLoop_bounds (n : Nat) (st : LState) (h : BoundsInv st) :
    ∃ st', learnLoop n st = .ok st' ∧ BoundsInv st' ∧
      st'.codes.length = st.codes.length + n := by
  induction n generalizing st with
  | zero => exact ⟨st, rfl, h, rfl⟩
  | succ n ih =>
    obtain ⟨st1, l, r, hs, hb, _, _, hc, _⟩ := learnStep_bounds st h
    obtain ⟨st', hs', hb', hc'⟩ := ih st1 hb
    refine ⟨st', ?_, hb', ?_⟩
    · simp only [learnLoop, hs, hs']
    · rw [hc', hc]
      simp
      omega

theorem count_pair_cc (wi count : Nat) (p : tp) (idx : PairIndex) :
    (count_pair wi count p idx).contiguous_counts =
      ccModify (fun c => wrap32 (c + count)) (ccEnsure idx.contiguous_counts p) p := by
  unfold count_pair ccEnsure
  by_cases h : (ccFind idx.contiguous_counts p).isNone = true <;> simp [h]

theorem count_pair_where (wi count : Nat) (p : tp) (idx : PairIndex) (q : tp) :
    whereGet (count_pair wi count p idx).where_to_update q =
      if p = q then
        (if count > 0 then
          setInsert (if (ccFind idx.contiguous_counts p).isNone
            then setInsert (whereGet idx.where_to_update p) 0
            else whereGet idx.where_to_update p) wi
        else
          setErase (if (ccFind idx.contiguous_counts p).isNone
            then setInsert (whereGet idx.where_to_update p) 0
            else whereGet idx.where_to_update p) wi)
      else whereGet idx.where_to_update q := by
  unfold count_pair
  by_cases hq : p = q
  · subst hq
    by_cases h : ccFind idx.contiguous_counts p = none
    · by_cases hc : count > 0 <;> simp [h, hc, whereGet_update]
    · by_cases hc : count > 0 <;> simp [h, hc, whereGet_update]
  · by_cases h : ccFind idx.contiguous_counts p = none
    · by_cases hc : count > 0 <;> simp [h, hc, hq, whereGet_update]
    · by_cases hc : count > 0 <;> simp [h, hc, hq, whereGet_update]

theorem count_pair_bounds (N L wi count : Nat) (p : tp) (idx : PairIndex)
    (h : IdxBounds N L idx) (hp : p.1 < N ∧ p.2 < N) (hwi : wi < L) (hL : 0 < L) :
    IdxBounds N L (count_pair wi count p idx) := by
  obtain ⟨hcc, hwh⟩ := h
  constructor
  · rw [count_pair_cc]
    apply ccModify_bounds
    intro x hx
    unfold ccEnsure at hx
    split at hx
    · rcases List.mem_append.1 hx with hx | hx
      · exact hcc x hx
      · simp at hx; subst hx; exact hp
    · exact hcc x hx
  · intro q w hw
    rw [count_pair_where] at hw
    have hS : ∀ w ∈ (if (ccFind idx.contiguous_counts p).isNone
        then setInsert (whereGet idx.where_to_update p) 0
        else whereGet idx.where_to_update p), w < L := by
      intro w hw
      split at hw
      · rcases (mem_setInsert _ _ _).1 hw with rfl | hw
        · exact hL
        · exact hwh _ w hw
      · exact hwh _ w hw
    split at hw
    · split at hw
      · rcases (mem_setInsert _ _ _).1 hw with rfl | hw
        · exact hwi
        · exact hS w hw
      · exact hS w ((mem_setErase _ _ _).1 hw).1
    · exact hwh q w hw

theorem count_in_word_loop_bounds (N L wi count : Nat) (hwi : wi < L) (rest : List Nat) :
    ∀ (prev : Nat) (idx : PairIndex), IdxBounds N L idx → prev < N → (∀ i ∈ rest, i < N) →
      IdxBounds N L (count_in_word_loop wi count rest prev idx) := by
  induction rest with
  | nil => intro prev idx h _ _; exact h
  | cons t rest ih =>
    intro prev idx h hp hr
    have ht : t < N := hr t (by simp)
    exact ih t _ (count_pair_bounds N L wi count _ idx h ⟨hp, ht⟩ hwi (by omega)) ht
      (fun i hi => hr i (List.mem_cons_of_mem _ hi))

theorem count_in_word_bounds (N L wi count : Nat) (hwi : wi < L) (word : List Nat)
    (idx : PairIndex) (h : IdxBounds N L idx) (hw : ∀ i ∈ word, i < N) :
    IdxBounds N L (count_in_word word wi count idx) := by
  cases word with
  | nil => exact h
  | cons t rest =>
    exact count_in_word_loop_bounds N L wi count hwi rest t idx h (hw t (by simp))
      (fun i hi => hw i (List.mem_cons_of_mem _ hi))

theorem countAll_bounds (N L : Nat) (counts : List Int) (words : List (List Nat)) :
    ∀ (wi : Nat) (idx : PairIndex), IdxBounds N L idx → wi + words.length ≤ L →
      (∀ w ∈ words, ∀ i ∈ w, i < N) → IdxBounds N L (countAll counts words wi idx) := by
  induction words with
  | nil => intro wi idx h _ _; exact h
  | cons w rest ih =>
    intro wi idx h hL hw
    simp only [List.length_cons] at hL
    exact ih (wi + 1) _
      (count_in_word_bounds N L wi _ (by omega) w idx h (hw w (by simp)))
      (by omega) (fun w' hw' => hw w' (List.mem_cons_of_mem _ hw'))

/-! ## The symbol table after `tokenize` -/

theorem intern_inv (tab : Map Str Nat × List Str) (t : Str) (h : TabInv tab) :
    TabInv (intern tab t).1 ∧ (intern tab t).2 < (intern tab t).1.2.length ∧
      tab.2.length ≤ (intern tab t).1.2.length := by
  unfold intern
  by_cases hc : Map.contains tab.1 t = true
  · simp only [hc, if_true]
    unfold Map.contains at hc
    obtain ⟨i, hi⟩ := Option.isSome_iff_exists.1 hc
    refine ⟨h, ?_, le_refl _⟩
    rw [hi]
    exact h t i hi
  · simp only [hc]
    refine ⟨?_, ?_, ?_⟩
    · intro t' i hf
      simp only [Bool.false_eq_true, if_false] at hf ⊢
      rw [mapFind_insert] at hf
      split at hf
      · cases hf; simp
      · have := h t' i hf
        simp; omega
    · simp [Map.find?_insert_self]
    · simp

theorem internAll_inv (toks : List Str) :
    ∀ (tab : Map Str Nat × List Str) (cw : List Nat), TabInv tab →
      TabInv (internAll toks tab cw).1 ∧
      tab.2.length ≤ (internAll toks tab cw).1.2.length ∧
      (internAll toks tab cw).2.length = cw.length + toks.length ∧
      ((∀ i ∈ cw, i < tab.2.length) →
        ∀ i ∈ (internAll toks tab cw).2, i < (internAll toks tab cw).1.2.length) := by
  induction toks with
  | nil => intro tab cw h; exact ⟨h, le_refl _, rfl, fun h => h⟩
  | cons t rest ih =>
    intro tab cw h
    obtain ⟨h1, h2, h3⟩ := intern_inv tab t h
    obtain ⟨g1, g2, g3, g4⟩ := ih (intern tab t).1 (cw ++ [(intern tab t).2]) h1
    simp only [internAll]
    refine ⟨g1, le_trans h3 g2, ?_, ?_⟩
    · rw [g3]; simp; omega
    · intro hcw
      apply g4
      intro i hi
      rcases List.mem_append.1 hi with hi | hi
      · exact lt_of_lt_of_le (hcw i hi) h3
      · simp at hi; subst hi; exact h2

theorem tokenize_inv (word_count : wMapCounts) :
    ∀ (t : Tokenized), TabInv (t.token_to_int, t.int_to_token) →
      (∀ w ∈ t.words, ∀ i ∈ w, i < t.int_to_token.length) →
      (∀ w ∈ t.words, w ≠ []) → t.counts.length = t.words.length →
      TabInv ((tokenize word_count t).token_to_int, (tokenize word_count t).int_to_token) ∧
      (∀ w ∈ (tokenize word_count t).words, ∀ i ∈ w, i < (tokenize word_count t).int_to_token.length) ∧
      (∀ w ∈ (tokenize word_count t).words, w ≠ []) ∧
      (tokenize word_count t).counts.length = (tokenize word_count t).words.length ∧
      (tokenize word_count t).words.length = t.words.length + word_count.length := by
  induction word_count with
  | nil => intro t h1 h2 h3 h4; exact ⟨h1, h2, h3, h4, rfl⟩
  | cons x rest ih =>
    intro t h1 h2 h3 h4
    obtain ⟨g1, g2, g3, g4⟩ := internAll_inv (tokenize_word x.1) (t.token_to_int, t.int_to_token) [] h1
    simp only [tokenize]
    have := ih
      { token_to_int := (internAll (tokenize_word x.1) (t.token_to_int, t.int_to_token) []).1.1,
        int_to_token := (internAll (tokenize_word x.1) (t.token_to_int, t.int_to_token) []).1.2,
        words := t.words ++ [(internAll (tokenize_word x.1) (t.token_to_int, t.int_to_token) []).2],
        counts := t.counts ++ [wrap32 x.2] }
      g1
      (by
        intro w hw i hi
        rcases List.mem_append.1 hw with hw | hw
        · exact lt_of_lt_of_le (h2 w hw i hi) g2
        · simp at hw; subst hw; exact g4 (by simp) i hi)
      (by
        intro w hw
        rcases List.mem_append.1 hw with hw | hw
        · exact h3 w hw
        · simp at hw; subst hw
          intro e
          have hl := congrArg List.length e
          rw [g3] at hl
          have := lastSuffix_ne_nil (tokenizeLoop_last x.1 [] true [])
          cases ht : tokenize_word x.1 with
          | nil => exact this ht
          | cons a b => rw [ht] at hl; simp at hl)
      (by simp [h4])
    obtain ⟨k1, k2, k3, k4, k5⟩ := this
    refine ⟨k1, k2, k3, k4, ?_⟩
    rw [k5]; simp; omega

theorem learnInit_bounds (word_count : wMapCounts) (hne : word_count ≠ []) :
    BoundsInv (learnInit word_count) := by
  unfold learnInit
  simp only
  obtain ⟨_, k2, k3, k4, k5⟩ := tokenize_inv word_count
    { token_to_int := [], int_to_token := [], words := [], counts := [] }
    (by intro t i h; simp [Map.find?] at h) (by simp) (by simp) rfl
  simp only [List.length_nil, Nat.zero_add] at k5
  generalize tokenize word_count
    { token_to_int := [], int_to_token := [], words := [], counts := [] } = t at k2 k3 k4 k5 ⊢
  have hL : 0 < t.words.length := by
    rw [k5]; exact List.length_pos.2 hne
  have hN : 0 < t.int_to_token.length := by
    obtain ⟨w, hw⟩ := List.exists_mem_of_length_pos hL
    obtain ⟨i, hi⟩ := List.exists_mem_of_ne_nil _ (k3 w hw)
    exact lt_of_le_of_lt (Nat.zero_le _) (k2 w hw i hi)
  have hidx := countAll_bounds t.int_to_token.length t.words.length t.counts t.words 0
    { contiguous_counts := [], where_to_update := [] }
    (by constructor <;> simp [whereGet, Map.find?]) (by simp) k2
  exact ⟨find_maxp_bounds _ _ _ hidx.1 ⟨hN, hN⟩, hidx.1, k2, hidx.2, k4⟩

theorem learnLoop_add (a b : Nat) (st : LState) :
    learnLoop (a + b) st =
      match learnLoop a st with
      | .error e => .error e
      | .ok st' => learnLoop b st' := by
  induction a generalizing st with
  | zero => simp [learnLoop]
  | succ a ih =>
    rw [Nat.add_right_comm]
    simp only [learnLoop]
    cases learnStep st with
    | error e => rfl
    | ok st1 => exact ih st1

theorem learnStep_inv (st st' : LState) (h : learnStep st = .ok st') :
    ∃ left right r, st.int_to_token.get? st.max_p.1 = some left ∧
      st.int_to_token.get? st.max_p.2 = some right ∧
      sweepWords st.max_p st.int_to_token.length st.counts
        (whereGet st.idx.where_to_update st.max_p) (st.words, st.idx) = .ok r ∧
      st'.codes = st.codes ++ [(left, right, st.max_c)] ∧
      st'.int_to_token = st.int_to_token ++ [left ++ right] ∧
      st'.words = r.1 ∧ st'.counts = st.counts ∧
      st'.idx.contiguous_counts = ccZero r.2.contiguous_counts st.max_p ∧
      st'.idx.where_to_update = r.2.where_to_update ∧
      st'.max_p = (find_maxp (ccZero r.2.contiguous_counts st.max_p) st.max_p).1 ∧
      st'.max_c = (find_maxp (ccZero r.2.contiguous_counts st.max_p) st.max_p).2 := by
  unfold learnStep at h
  split at h
  · rename_i left right h1 h2
    simp only at h
    split at h
    · simp at h
    · rename_i words idx hr
      cases h
      exact ⟨left, right, (words, idx), h1, h2, hr, rfl, rfl, rfl, rfl, rfl, rfl, rfl, rfl⟩
  · simp at h

theorem learnStep_codes (st st' : LState) (h : learnStep st = .ok st') :
    ∃ left right, st.int_to_token.get? st.max_p.1 = some left ∧
      st.int_to_token.get? st.max_p.2 = some right ∧
      st'.codes = st.codes ++ [(left, right, st.max_c)] := by
  obtain ⟨l, r, _, h1, h2, _, h3, _⟩ := learnStep_inv st st' h
  exact ⟨l, r, h1, h2, h3⟩

theorem learnLoop_codes (n : Nat) (st st' : LState) (h : learnLoop n st = .ok st') :
    ∃ more, st'.codes = st.codes ++ more ∧ more.length = n := by
  induction n generalizing st with
  | zero => simp [learnLoop] at h; subst h; exact ⟨[], by simp, rfl⟩
  | succ n ih =>
    unfold learnLoop at h
    split at h
    · simp at h
    · rename_i st1 h1
      obtain ⟨l, r, _, _, hc⟩ := learnStep_codes _ _ h1
      obtain ⟨more, hm, hl⟩ := ih st1 h
      exact ⟨(l, r, st.max_c) :: more, by rw [hm, hc]; simp, by simp [hl]⟩

/-- The rule of rank `i` is the one appended by round `i`. -/
theorem learnRun_rule (k i : Nat) (word_count : wMapCounts) (st : LState)
    (codes : List triplet) (hi : i < k) (hst : learnRun i word_count = .ok st)
    (hk : _learnbpe k word_count = .ok codes) :
    ∃ left right, st.int_to_token.get? st.max_p.1 = some left ∧
      st.int_to_token.get? st.max_p.2 = some right ∧
      codes.get? i = some (left, right, st.max_c) := by
  unfold _learnbpe at hk
  split at hk
  · simp at hk
  · rename_i stk hstk
    cases hk
    unfold learnRun at hst hstk
    have e : k = i + (1 + (k - i - 1)) := by omega
    rw [e, learnLoop_add, hst] at hstk
    simp only at hstk
    rw [learnLoop_add] at hstk
    split at hstk
    · simp at hstk
    · rename_i st1 hst1
      simp only [learnLoop] at hst1
      split at hst1
      · simp at hst1
      · rename_i st1' hs1
        cases hst1
        obtain ⟨l, r, h1, h2, hc⟩ := learnStep_codes _ _ hs1
        obtain ⟨m0, hm0, hl0⟩ := learnLoop_codes _ _ _ hst
        obtain ⟨m1, hm1, _⟩ := learnLoop_codes _ _ _ hstk
        refine ⟨l, r, h1, h2, ?_⟩
        have hinit : (learnInit word_count).codes = [] := rfl
        rw [hm1, hc, hm0, hinit]
        simp only [List.nil_append, List.append_assoc, List.singleton_append]
        subst hl0
        rw [List.get?_eq_getElem?, List.getElem?_append_right (le_refl _)]
        simp

/-- C1 (as amended): the learner has no early stop.  For every non-empty
word-count map and every `k` it returns exactly `k` rules, and the rule of rank
`i` carries the count that `find_maxp` reported before round `i`, a count of `0`
included. -/
theorem learner_emits_k_rules (kNPairs : Nat) (word_count : wMapCounts)
    (hne : word_count ≠ []) :
    ∃ codes, _learnbpe kNPairs word_count = .ok codes ∧ codes.length = kNPairs ∧
      ∀ i, i < kNPairs → ∃ st left right, learnRun i word_count = .ok st ∧
        st.int_to_token.get? st.max_p.1 = some left ∧
        st.int_to_token.get? st.max_p.2 = some right ∧
        codes.get? i = some (left, right, st.max_c) := by
  obtain ⟨st, hst, _, hlen⟩ := learnLoop_bounds kNPairs _ (learnInit_bounds word_count hne)
  have hk : _learnbpe kNPairs word_count = .ok st.codes := by
    unfold _learnbpe learnRun
    rw [hst]
  refine ⟨st.codes, hk, ?_, ?_⟩
  · rw [hlen]
    show ([] : List triplet).length + kNPairs = kNPairs
    simp
  · intro i hi
    obtain ⟨sti, hsti, _, _⟩ := learnLoop_bounds i _ (learnInit_bounds word_count hne)
    obtain ⟨l, r, h1, h2, h3⟩ := learnRun_rule kNPairs i word_count sti st.codes hi hsti hk
    exact ⟨sti, l, r, hsti, h1, h2, h3⟩

/-- C1 (witness): the corpus `ab ab abc` and `k = 6`; the last three rules carry
the count `0`. -/
theorem learner_emits_k_rules_witness :
    getvocabs (asc "ab ab abc") ≠ [] ∧
    ∃ codes, _learnbpe 6 (getvocabs (asc "ab ab abc")) = .ok codes ∧ codes.length = 6 ∧
      ∀ i, i < 6 → ∃ st left right, learnRun i (getvocabs (asc "ab ab abc")) = .ok st ∧
        st.int_to_token.get? st.max_p.1 = some left ∧
        st.int_to_token.get? st.max_p.2 = some right ∧
        codes.get? i = some (left, right, st.max_c) :=
  ⟨by decide, learner_emits_k_rules 6 (getvocabs (asc "ab ab abc")) (by decide)⟩

/-- C1 (counterexample): for the corpus made of the single word `a`, whose only
symbol is `a</w>`, and `k = 1` the learner returns one rule, `(a</w>, a</w>, 0)`:
the list is not empty and its rule has the count `0`. -/
theorem learner_no_early_stop :
    _learnbpe 1 (getvocabs (asc "a")) = .ok [(asc "a</w>", asc "a</w>", 0)] := by
  decide

/-- C2 (the failing input): on the empty word-count map every `k ≥ 1` makes the
learner read `int_to_token[0]` in an empty symbol table. -/
theorem learner_empty_corpus_out_of_bounds :
    ∀ k, _learnbpe (k + 1) [] = .error Err.bounds := by
  intro k
  rfl

/-- C4 (counterexample): the mapping `ab ↦ 1, cd ↦ 1` enumerated in its two
orders gives two different merge lists for `k = 1`. -/
theorem learner_depends_on_enumeration_order :
    List.Perm [(asc "ab", 1), (asc "cd", 1)] [(asc "cd", 1), (asc "ab", 1)] ∧
    _learnbpe 1 [(asc "ab", 1), (asc "cd", 1)] = .ok [(asc "a", asc "b</w>", 1)] ∧
    _learnbpe 1 [(asc "cd", 1), (asc "ab", 1)] = .ok [(asc "c", asc "d</w>", 1)] ∧
    _learnbpe 1 [(asc "ab", 1), (asc "cd", 1)] ≠ _learnbpe 1 [(asc "cd", 1), (asc "ab", 1)] :=
  ⟨List.Perm.swap _ _ _, by decide, by decide, by decide⟩

/-! ## 32-bit arithmetic -/

theorem wrap32_wrap32_add (x y : Int) : wrap32 (wrap32 x + y) = wrap32 (x + y) := by
  unfold wrap32
  omega

theorem wrap32_of_range (x : Int) (h1 : -(2 ^ 31) ≤ x) (h2 : x < 2 ^ 31) : wrap32 x = x := by
  unfold wrap32
  omega

theorem wrap32_range (x : Int) : -(2 ^ 31) ≤ wrap32 x ∧ wrap32 x < 2 ^ 31 := by
  unfold wrap32
  omega

theorem toU32_wrap32 (x : Int) (h1 : 0 ≤ x) (h2 : x < 2 ^ 32) : (toU32 (wrap32 x) : Int) = x := by
  unfold toU32 wrap32
  omega

theorem ccFind_mem (cc : List (Int × tp)) (p : tp) (c : Int) (h : ccFind cc p = some c) :
    (c, p) ∈ cc := by
  induction cc with
  | nil => simp [ccFind] at h
  | cons x rest ih =>
    unfold ccFind at h
    split at h
    · rename_i hx
      cases h
      simp [← hx]
    · exact List.mem_cons_of_mem _ (ih h)

theorem ccCount_range (cc : List (Int × tp)) (h : InRange cc) (q : tp) :
    -(2 ^ 31) ≤ ccCount cc q ∧ ccCount cc q < 2 ^ 31 := by
  unfold ccCount
  cases hf : ccFind cc q with
  | none => simp
  | some c => exact h _ (ccFind_mem cc q c hf)

theorem ccModify_range (f : Int → Int) (cc : List (Int × tp)) (p : tp) (h : InRange cc)
    (hf : ∀ c, -(2 ^ 31) ≤ f c ∧ f c < 2 ^ 31) : InRange (ccModify f cc p) := by
  induction cc with
  | nil => simpa [ccModify] using h
  | cons x rest ih =>
    unfold ccModify
    split
    · intro y hy
      rcases List.mem_cons.1 hy with rfl | hy
      · exact hf _
      · exact h y (List.mem_cons_of_mem _ hy)
    · intro y hy
      rcases List.mem_cons.1 hy with rfl | hy
      · exact h _ (by simp)
      · exact ih (fun z hz => h z (List.mem_cons_of_mem _ hz)) y hy

theorem ccAdd_range (cc : List (Int × tp)) (pair : tp) (v : Int) (h : InRange cc)
    (hv : -(2 ^ 31) ≤ v ∧ v < 2 ^ 31) : InRange (ccAdd cc pair v) := by
  unfold ccAdd
  split
  · exact ccModify_range _ _ _ h (fun c => wrap32_range _)
  · split
    · intro y hy
      rcases List.mem_append.1 hy with hy | hy
      · exact h y hy
      · simp at hy; subst hy; exact hv
    · exact h

theorem ccCount_ccAdd (cc : List (Int × tp)) (pair q : tp) (v : Int) (h : InRange cc)
    (hv : -(2 ^ 31) ≤ v ∧ v < 2 ^ 31) (hrec : ccFind cc pair ≠ none ∨ 0 ≤ v) :
    ccCount (ccAdd cc pair v) q = wrap32 (ccCount cc q + if pair = q then v else 0) := by
  have hq := ccCount_range cc h q
  unfold ccAdd
  cases hf : ccFind cc pair with
  | some c0 =>
    simp only
    unfold ccCount
    rw [ccFind_modify]
    by_cases e : pair = q
    · subst e
      simp [hf]
    · simp only [e, if_false, add_zero]
      unfold ccCount at hq
      rw [wrap32_of_range _ hq.1 hq.2]
  | none =>
    simp only
    by_cases hpos : v > 0
    · simp only [hpos, if_true]
      unfold ccCount
      rw [ccFind_append]
      by_cases e : pair = q
      · subst e
        simp only [hf, if_true, Option.getD_some, Option.getD_none, zero_add]
        rw [wrap32_of_range _ hv.1 hv.2]
      · simp only [e, if_false, add_zero]
        unfold ccCount at hq
        cases hfq : ccFind cc q with
        | none => simp [wrap32]
        | some c1 =>
          rw [hfq] at hq
          simp only [Option.getD_some] at hq ⊢
          rw [wrap32_of_range _ hq.1 hq.2]
    · simp only [hpos, if_false]
      have hv0 : v = 0 := by
        rcases hrec with hr | hr
        · exact absurd hf hr
        · omega
      subst hv0
      simp only [ite_self, add_zero]
      rw [wrap32_of_range _ hq.1 hq.2]

theorem ccFind_ccAdd_ne_none (cc : List (Int × tp)) (pair q : tp) (v : Int)
    (h : ccFind cc q ≠ none ∨ (pair = q ∧ 0 < v)) : ccFind (ccAdd cc pair v) q ≠ none := by
  have key : q ∈ (ccAdd cc pair v).map Prod.snd := by
    unfold ccAdd
    rcases h with h | ⟨rfl, hv⟩
    · have hq : q ∈ cc.map Prod.snd :=
        (ccFind_isSome_iff cc q).1 (Option.isSome_iff_ne_none.2 h)
      split
      · rw [ccModify_pairs]; exact hq
      · split
        · simp only [List.map_append, List.mem_append]; exact Or.inl hq
        · exact hq
    · split
      · rename_i c hc
        rw [ccModify_pairs]
        exact (ccFind_isSome_iff cc pair).1 (by simp [hc])
      · simp [hv]
  exact Option.isSome_iff_ne_none.1 ((ccFind_isSome_iff _ q).2 key)

theorem ccAdd_nodup (cc : List (Int × tp)) (pair : tp) (v : Int)
    (h : (cc.map Prod.snd).Nodup) : ((ccAdd cc pair v).map Prod.snd).Nodup := by
  unfold ccAdd
  split
  · rw [ccModify_pairs]; exact h
  · rename_i hnone
    split
    · simp only [List.map_append, List.map_cons, List.map_nil]
      apply List.Nodup.append h (by simp)
      intro x hx hx2
      simp at hx2
      subst hx2
      have := (ccFind_isSome_iff cc x).2 hx
      simp [hnone] at this
    · exact h

/-! ## Occurrences of a pair -/

theorem occ_cons (q : tp) (y : Nat) (R : List Nat) :
    occ q (y :: R) = afterPair y R q + occ q R := by
  cases R with
  | nil => simp [occ, afterPair]
  | cons z R => simp [occ, afterPair]

theorem occ_append_cons (q : tp) (L : List Nat) (y : Nat) (R : List Nat) :
    occ q (L ++ y :: R) = occ q (L ++ [y]) + occ q (y :: R) := by
  induction L with
  | nil => simp [occ]
  | cons b L ih =>
    cases L with
    | nil =>
      simp only [List.cons_append, List.nil_append]
      rw [occ_cons q b (y :: R), occ_cons q b [y]]
      simp [afterPair, occ]
    | cons b2 L =>
      simp only [List.cons_append] at ih ⊢
      rw [occ_cons q b, occ_cons q b (b2 :: (L ++ [y])), ih]
      simp only [afterPair]
      omega

theorem occ_concat (q : tp) (pre : List Nat) (y : Nat) :
    occ q (pre.reverse ++ [y]) = occ q pre.reverse + beforePair pre y q := by
  cases pre with
  | nil => simp [occ, beforePair]
  | cons b pre =>
    simp only [List.reverse_cons, List.append_assoc, List.singleton_append, beforePair]
    rw [occ_append_cons q pre.reverse b [y]]
    simp [occ]

theorem occ_split (q : tp) (pre : List Nat) (y : Nat) (R : List Nat) :
    occ q (pre.reverse ++ y :: R) =
      occ q pre.reverse + beforePair pre y q + afterPair y R q + occ q R := by
  rw [occ_append_cons, occ_concat, occ_cons]
  omega

theorem occ_split_pair (q : tp) (pre : List Nat) (a x : Nat) (R : List Nat) :
    occ q (pre.reverse ++ a :: x :: R) =
      occ q pre.reverse + beforePair pre a q + (if (a, x) = q then 1 else 0) +
        afterPair x R q + occ q R := by
  rw [occ_split, occ_cons]
  simp only [afterPair]
  omega

theorem occ_le_length (q : tp) (w : List Nat) : occ q w ≤ w.length - 1 := by
  induction w with
  | nil => simp [occ]
  | cons a w ih =>
    rw [occ_cons]
    cases w with
    | nil => simp [afterPair, occ]
    | cons b w =>
      simp only [afterPair, List.length_cons] at ih ⊢
      split <;> omega

/-! ## Extension of the pair index -/

theorem ext_refl (idx : PairIndex) : Ext idx idx :=
  ⟨fun _ h => h, fun _ _ _ h => h, fun h => h, fun h => h⟩

theorem ext_trans {a b c : PairIndex} (h1 : Ext a b) (h2 : Ext b c) : Ext a c :=
  ⟨fun q h => h2.1 q (h1.1 q h),
    fun q wj hq h => h2.2.1 q wj (h1.1 q hq) (h1.2.1 q wj hq h),
    fun h => h2.2.2.1 (h1.2.2.1 h), fun h => h2.2.2.2 (h1.2.2.2 h)⟩

theorem covers_ext {a b : PairIndex} {wi : Nat} {q : tp} (h : Ext a b) (hc : Covers a wi q) :
    Covers b wi q :=
  ⟨h.1 q hc.1, h.2.1 q wi hc.1 hc.2⟩

theorem change_count_ext (idx : PairIndex) (pair : tp) (v : Int) (wi : Nat)
    (hv : -(2 ^ 31) ≤ v ∧ v < 2 ^ 31) : Ext idx (change_count idx pair v wi) := by
  refine ⟨?_, ?_, ?_, ?_⟩
  · intro q hq
    rw [change_count_cc]
    exact ccFind_ccAdd_ne_none _ _ _ _ (Or.inl hq)
  · intro q wj hq hw
    rw [change_count_where]
    split
    · rename_i hcond
      obtain ⟨_, rfl⟩ := hcond
      rw [(mem_setInsert _ _ _)]
      right
      simp [Option.isSome_iff_ne_none.2 hq, hw]
    · exact hw
  · intro h
    rw [change_count_cc]
    exact ccAdd_range _ _ _ h hv
  · intro h
    rw [change_count_cc]
    exact ccAdd_nodup _ _ _ h

theorem change_count_covers (idx : PairIndex) (pair : tp) (v : Int) (wi : Nat) (hv : 0 < v) :
    Covers (change_count idx pair v wi) wi pair := by
  constructor
  · rw [change_count_cc]
    exact ccFind_ccAdd_ne_none _ _ _ _ (Or.inr ⟨rfl, hv⟩)
  · rw [change_count_where]
    simp [hv, mem_setInsert]

theorem change_count_count (idx : PairIndex) (pair q : tp) (v : Int) (wi : Nat)
    (h : InRange idx.contiguous_counts) (hv : -(2 ^ 31) ≤ v ∧ v < 2 ^ 31)
    (hrec : ccFind idx.contiguous_counts pair ≠ none ∨ 0 ≤ v) :
    ccCount (change_count idx pair v wi).contiguous_counts q =
      wrap32 (ccCount idx.contiguous_counts q + if pair = q then v else 0) := by
  rw [change_count_cc]
  exact ccCount_ccAdd _ _ _ _ h hv hrec

/-! ## The two updates around a merged pair -/

theorem wrap32_neg_weight (c : Int) (h0 : 0 ≤ c) (h1 : c < 2 ^ 31) : wrap32 (-c) = -c := by
  unfold wrap32
  omega

theorem swap_count (idx : PairIndex) (p1 p2 q : tp) (c : Int) (wi : Nat)
    (h : InRange idx.contiguous_counts) (h0 : 0 ≤ c) (h1 : c < 2 ^ 31)
    (hrec : 0 < c → ccFind idx.contiguous_counts p1 ≠ none) :
    ccCount (change_count (change_count idx p1 (wrap32 (-c)) wi) p2 c wi).contiguous_counts q =
      wrap32 (ccCount idx.contiguous_counts q +
        c * (((if p2 = q then 1 else 0 : Nat) : Int) - ((if p1 = q then 1 else 0 : Nat) : Int))) := by
  have hneg := wrap32_neg_weight c h0 h1
  have hv1 : -(2 ^ 31) ≤ wrap32 (-c) ∧ wrap32 (-c) < 2 ^ 31 := wrap32_range _
  rw [change_count_count _ _ _ _ _ ((change_count_ext idx p1 _ wi hv1).2.2.1 h)
      ⟨by omega, h1⟩ (Or.inr h0),
    change_count_count _ _ _ _ _ h hv1
      (by
        rcases lt_or_ge 0 c with hc | hc
        · exact Or.inl (hrec hc)
        · right; rw [hneg]; omega),
    wrap32_wrap32_add, hneg]
  congr 1
  by_cases e1 : p1 = q <;> by_cases e2 : p2 = q <;> simp [e1, e2]

theorem swap_ext (idx : PairIndex) (p1 p2 : tp) (c : Int) (wi : Nat)
    (h0 : 0 ≤ c) (h1 : c < 2 ^ 31) :
    Ext idx (change_count (change_count idx p1 (wrap32 (-c)) wi) p2 c wi) :=
  ext_trans (change_count_ext idx p1 _ wi (wrap32_range _))
    (change_count_ext _ p2 c wi ⟨by omega, h1⟩)

theorem updateBefore_count (idx : PairIndex) (pre : List Nat) (first new_token_id : Nat)
    (c : Int) (wi : Nat) (q : tp)
    (h : InRange idx.contiguous_counts) (h0 : 0 ≤ c) (h1 : c < 2 ^ 31)
    (hrec : 0 < c → ∀ p, 0 < beforePair pre first p → ccFind idx.contiguous_counts p ≠ none) :
    ccCount (updateBefore idx pre first new_token_id c wi).contiguous_counts q =
      wrap32 (ccCount idx.contiguous_counts q +
        c * ((beforePair pre new_token_id q : Int) - (beforePair pre first q : Int))) := by
  cases pre with
  | nil =>
    have hq := ccCount_range _ h q
    simp [updateBefore, beforePair, wrap32_of_range _ hq.1 hq.2]
  | cons b pre =>
    simp only [updateBefore, beforePair]
    exact swap_count idx _ _ q c wi h h0 h1
      (fun hc => hrec hc (b, first) (by simp [beforePair]))

theorem updateAfter_count (idx : PairIndex) (rest : List Nat) (second new_token_id : Nat)
    (c : Int) (wi : Nat) (q : tp)
    (h : InRange idx.contiguous_counts) (h0 : 0 ≤ c) (h1 : c < 2 ^ 31)
    (hrec : 0 < c → ∀ p, 0 < afterPair second rest p → ccFind idx.contiguous_counts p ≠ none) :
    ccCount (updateAfter idx rest second new_token_id c wi).contiguous_counts q =
      wrap32 (ccCount idx.contiguous_counts q +
        c * ((afterPair new_token_id rest q : Int) - (afterPair second rest q : Int))) := by
  cases rest with
  | nil =>
    have hq := ccCount_range _ h q
    simp [updateAfter, afterPair, wrap32_of_range _ hq.1 hq.2]
  | cons y rest =>
    simp only [updateAfter, afterPair]
    exact swap_count idx _ _ q c wi h h0 h1
      (fun hc => hrec hc (second, y) (by simp [afterPair]))

theorem updateBefore_ext (idx : PairIndex) (pre : List Nat) (first new_token_id : Nat)
    (c : Int) (wi : Nat) (h0 : 0 ≤ c) (h1 : c < 2 ^ 31) :
    Ext idx (updateBefore idx pre first new_token_id c wi) := by
  cases pre with
  | nil => exact ext_refl _
  | cons b pre => exact swap_ext idx _ _ c wi h0 h1

theorem updateAfter_ext (idx : PairIndex) (rest : List Nat) (second new_token_id : Nat)
    (c : Int) (wi : Nat) (h0 : 0 ≤ c) (h1 : c < 2 ^ 31) :
    Ext idx (updateAfter idx rest second new_token_id c wi) := by
  cases rest with
  | nil => exact ext_refl _
  | cons y rest => exact swap_ext idx _ _ c wi h0 h1

theorem updateBefore_covers (idx : PairIndex) (pre : List Nat) (first new_token_id : Nat)
    (c : Int) (wi : Nat) (hc : 0 < c) (p : tp) (hp : 0 < beforePair pre new_token_id p) :
    Covers (updateBefore idx pre first new_token_id c wi) wi p := by
  cases pre with
  | nil => simp [beforePair] at hp
  | cons b pre =>
    simp only [beforePair] at hp
    split at hp
    · rename_i e
      subst e
      exact change_count_covers _ _ c wi hc
    · simp at hp

theorem updateAfter_covers (idx : PairIndex) (rest : List Nat) (second new_token_id : Nat)
    (c : Int) (wi : Nat) (hc : 0 < c) (p : tp) (hp : 0 < afterPair new_token_id rest p) :
    Covers (updateAfter idx rest second new_token_id c wi) wi p := by
  cases rest with
  | nil => simp [afterPair] at hp
  | cons y rest =>
    simp only [afterPair] at hp
    split at hp
    · rename_i e
      subst e
      exact change_count_covers _ _ c wi hc
    · simp at hp

/-! ## The rewriting of one word keeps the counts exact -/

theorem sweepLoop_exact (max_p : tp) (new_token_id : Nat) (c : Int) (wi : Nat)
    (h0 : 0 ≤ c) (h1 : c < 2 ^ 31) (rest : List Nat) :
    ∀ (pre : List Nat) (a : Nat) (idx : PairIndex) (E : tp → Int),
      InRange idx.contiguous_counts →
      (∀ q, q ≠ max_p → ccCount idx.contiguous_counts q = wrap32 (E q)) →
      (0 < c → ∀ q, 0 < occ q (pre.reverse ++ a :: rest) → Covers idx wi q) →
      Ext idx (sweepLoop max_p new_token_id c wi pre a rest a idx).2 ∧
      (∀ q, q ≠ max_p →
        ccCount (sweepLoop max_p new_token_id c wi pre a rest a idx).2.contiguous_counts q =
          wrap32 (E q + c * ((occ q (sweepLoop max_p new_token_id c wi pre a rest a idx).1 : Int) -
            (occ q (pre.reverse ++ a :: rest) : Int)))) ∧
      (0 < c → ∀ q, 0 < occ q (sweepLoop max_p new_token_id c wi pre a rest a idx).1 →
        Covers (sweepLoop max_p new_token_id c wi pre a rest a idx).2 wi q) := by
  induction rest with
  | nil =>
    intro pre a idx E _ hE hcov
    simp only [sweepLoop, List.reverse_cons]
    refine ⟨ext_refl _, ?_, hcov⟩
    intro q hq
    simp [hE q hq]
  | cons x rest ih =>
    intro pre a idx E hR hE hcov
    simp only [sweepLoop]
    by_cases hm : (a, x) = max_p
    · simp only [hm, if_true]
      have e1 := updateBefore_ext idx pre a new_token_id c wi h0 h1
      have e2 := updateAfter_ext (updateBefore idx pre a new_token_id c wi) rest x
        new_token_id c wi h0 h1
      have hR1 := e1.2.2.1 hR
      have hR2 := e2.2.2.1 hR1
      have hrecB : 0 < c → ∀ p, 0 < beforePair pre a p →
          ccFind idx.contiguous_counts p ≠ none := by
        intro hc p hp
        refine (hcov hc p ?_).1
        rw [occ_split_pair]; omega
      have hrecA : 0 < c → ∀ p, 0 < afterPair x rest p →
          ccFind (updateBefore idx pre a new_token_id c wi).contiguous_counts p ≠ none := by
        intro hc p hp
        refine e1.1 p (hcov hc p ?_).1
        rw [occ_split_pair]; omega
      obtain ⟨i1, i2, i3⟩ := ih pre new_token_id
        (updateAfter (updateBefore idx pre a new_token_id c wi) rest x new_token_id c wi)
        (fun q => E q + c * ((occ q (pre.reverse ++ new_token_id :: rest) : Int) -
          (occ q (pre.reverse ++ a :: x :: rest) : Int))) hR2
        (by
          intro q hq
          rw [updateAfter_count _ _ _ _ _ _ q hR1 h0 h1 hrecA,
            updateBefore_count _ _ _ _ _ _ q hR h0 h1 hrecB, wrap32_wrap32_add, hE q hq,
            add_assoc, wrap32_wrap32_add]
          beta_reduce
          rw [occ_split, occ_split_pair]
          have hne : ¬ (a, x) = q := fun e => hq (e.symm.trans hm)
          simp only [hne, if_false]
          congr 1
          push_cast
          ring)
        (by
          intro hc q hq
          rw [occ_split] at hq
          by_cases hb : 0 < beforePair pre new_token_id q
          · exact covers_ext e2 (updateBefore_covers idx pre a new_token_id c wi hc q hb)
          · by_cases ha : 0 < afterPair new_token_id rest q
            · exact updateAfter_covers _ rest x new_token_id c wi hc q ha
            · refine covers_ext (ext_trans e1 e2) (hcov hc q ?_)
              rw [occ_split_pair]; omega)
      refine ⟨ext_trans (ext_trans e1 e2) i1, ?_, i3⟩
      intro q hq
      rw [i2 q hq]
      congr 1
      ring
    · simp only [hm, if_false]
      have := ih (a :: pre) x idx E hR hE (by simpa using hcov)
      simpa using this

theorem sweepLoop_no_pair (max_p : tp) (new_token_id : Nat) (c : Int) (wi : Nat)
    (hnew : new_token_id ≠ max_p.2) (rest : List Nat) :
    ∀ (pre : List Nat) (a : Nat) (idx : PairIndex),
      occ max_p (pre.reverse ++ [a]) = 0 →
      occ max_p (sweepLoop max_p new_token_id c wi pre a rest a idx).1 = 0 := by
  induction rest with
  | nil =>
    intro pre a idx h
    simpa [sweepLoop] using h
  | cons x rest ih =>
    intro pre a idx h
    simp only [sweepLoop]
    by_cases hm : (a, x) = max_p
    · simp only [hm, if_true]
      apply ih
      rw [occ_concat] at h ⊢
      have hb : beforePair pre new_token_id max_p = 0 := by
        cases pre with
        | nil => rfl
        | cons b pre =>
          simp only [beforePair]
          rw [if_neg]
          intro e
          exact hnew (by rw [← e])
      omega
    · simp only [hm, if_false]
      apply ih
      have e : (a :: pre).reverse ++ [x] = pre.reverse ++ a :: [x] := by simp
      rw [e, occ_split]
      rw [occ_concat] at h
      simp [afterPair, hm, occ]
      omega

theorem sweepLoop_length (max_p : tp) (new_token_id : Nat) (c : Int) (wi : Nat)
    (rest : List Nat) :
    ∀ (pre : List Nat) (a cur : Nat) (idx : PairIndex),
      (sweepLoop max_p new_token_id c wi pre a rest cur idx).1.length ≤ pre.length + 1 + rest.length ∧
      1 ≤ (sweepLoop max_p new_token_id c wi pre a rest cur idx).1.length := by
  induction rest with
  | nil =>
    intro pre a cur idx
    simp [sweepLoop]
  | cons x rest ih =>
    intro pre a cur idx
    simp only [sweepLoop]
    split
    · have := ih pre new_token_id new_token_id
        (updateAfter (updateBefore idx pre cur new_token_id c wi) rest x new_token_id c wi)
      simp only [List.length_cons]
      omega
    · have := ih (a :: pre) x x idx
      simp only [List.length_cons] at this ⊢
      omega

/-- The rewriting of a word: the index is extended, the counts of the pairs other
than `max_p` follow the occurrences, the pairs of the new sequence are recorded
with the word in their sets, `max_p` no longer occurs, and the sequence is not
longer than before. -/
theorem sweepWord_exact (max_p : tp) (new_token_id : Nat) (c : Int) (wi : Nat)
    (h0 : 0 ≤ c) (h1 : c < 2 ^ 31) (hnew : new_token_id ≠ max_p.2)
    (w : List Nat) (idx : PairIndex) (E : tp → Int)
    (hR : InRange idx.contiguous_counts)
    (hE : ∀ q, q ≠ max_p → ccCount idx.contiguous_counts q = wrap32 (E q))
    (hcov : 0 < c → ∀ q, 0 < occ q w → Covers idx wi q) :
    Ext idx (sweepWord max_p new_token_id c wi w idx).2 ∧
    (∀ q, q ≠ max_p →
      ccCount (sweepWord max_p new_token_id c wi w idx).2.contiguous_counts q =
        wrap32 (E q + c * ((occ q (sweepWord max_p new_token_id c wi w idx).1 : Int) -
          (occ q w : Int)))) ∧
    (0 < c → ∀ q, 0 < occ q (sweepWord max_p new_token_id c wi w idx).1 →
      Covers (sweepWord max_p new_token_id c wi w idx).2 wi q) ∧
    occ max_p (sweepWord max_p new_token_id c wi w idx).1 = 0 ∧
    (sweepWord max_p new_token_id c wi w idx).1.length ≤ w.length ∧
    (w ≠ [] → (sweepWord max_p new_token_id c wi w idx).1 ≠ []) := by
  cases w with
  | nil =>
    simp only [sweepWord]
    refine ⟨ext_refl _, ?_, hcov, rfl, le_refl _, fun h => h⟩
    intro q hq
    simp [hE q hq]
  | cons x rest =>
    simp only [sweepWord]
    obtain ⟨a1, a2, a3⟩ := sweepLoop_exact max_p new_token_id c wi h0 h1 rest [] x idx E hR hE
      (by simpa using hcov)
    have l := sweepLoop_length max_p new_token_id c wi rest [] x x idx
    refine ⟨a1, by simpa using a2, a3,
      sweepLoop_no_pair max_p new_token_id c wi hnew rest [] x idx (by simp [occ]), ?_, ?_⟩
    · simp only [List.length_cons, List.length_nil] at l ⊢
      omega
    · intro _ e
      rw [e] at l
      simp at l

/-! ## Weighted frequencies -/

theorem freq_set (q : tp) (words : List (List Nat)) :
    ∀ (counts : List Int) (wi : Nat) (w w' : List Nat) (c : Int),
      words.get? wi = some w → counts.get? wi = some c →
      freq (words.set wi w') counts q =
        freq words counts q + c * ((occ q w' : Int) - (occ q w : Int)) := by
  induction words with
  | nil => intro counts wi w w' c h; simp at h
  | cons v words ih =>
    intro counts wi w w' c hw hc
    cases counts with
    | nil => simp at hc
    | cons d counts =>
      cases wi with
      | zero =>
        simp at hw hc
        subst hw hc
        simp only [List.set_cons_zero, freq]
        ring
      | succ wi =>
        simp at hw hc
        simp only [List.set_cons_succ, freq]
        rw [ih counts wi w w' c (by simpa using hw) (by simpa using hc)]
        ring

theorem pairTotal_set (words : List (List Nat)) :
    ∀ (counts : List Int) (wi : Nat) (w w' : List Nat) (c : Int),
      words.get? wi = some w → counts.get? wi = some c →
      pairTotal (words.set wi w') counts =
        pairTotal words counts + c * (((w'.length - 1 : Nat) : Int) - ((w.length - 1 : Nat) : Int)) := by
  induction words with
  | nil => intro counts wi w w' c h; simp at h
  | cons v words ih =>
    intro counts wi w w' c hw hc
    cases counts with
    | nil => simp at hc
    | cons d counts =>
      cases wi with
      | zero =>
        simp at hw hc
        subst hw hc
        simp only [List.set_cons_zero, pairTotal]
        ring
      | succ wi =>
        simp at hw hc
        simp only [List.set_cons_succ, pairTotal]
        rw [ih counts wi w w' c (by simpa using hw) (by simpa using hc)]
        ring

theorem freq_bounds (q : tp) (words : List (List Nat)) :
    ∀ (counts : List Int), (∀ c ∈ counts, 0 ≤ c) →
      0 ≤ freq words counts q ∧ freq words counts q ≤ pairTotal words counts := by
  induction words with
  | nil => intro counts _; simp [freq, pairTotal]
  | cons v words ih =>
    intro counts hc
    cases counts with
    | nil => simp [freq, pairTotal]
    | cons d counts =>
      have hd : 0 ≤ d := hc d (by simp)
      obtain ⟨i1, i2⟩ := ih counts (fun c h => hc c (List.mem_cons_of_mem _ h))
      simp only [freq, pairTotal]
      have hle : (occ q v : Int) ≤ ((v.length - 1 : Nat) : Int) := by
        exact_mod_cast occ_le_length q v
      have h1 : 0 ≤ d * (occ q v : Int) := mul_nonneg hd (by positivity)
      have h2 : d * (occ q v : Int) ≤ d * ((v.length - 1 : Nat) : Int) :=
        mul_le_mul_of_nonneg_left hle hd
      constructor <;> omega

theorem freq_eq_zero (q : tp) (words : List (List Nat)) :
    ∀ (counts : List Int), (∀ c ∈ counts, 0 ≤ c) →
      (∀ j w c, words.get? j = some w → counts.get? j = some c → 0 < c → occ q w = 0) →
      freq words counts q = 0 := by
  induction words with
  | nil => intro counts _ _; simp [freq]
  | cons v words ih =>
    intro counts hc h
    cases counts with
    | nil => simp [freq]
    | cons d counts =>
      simp only [freq]
      rw [ih counts (fun c hc' => hc c (List.mem_cons_of_mem _ hc'))
        (fun j w c hw hcj hpos => h (j + 1) w c (by simpa using hw) (by simpa using hcj) hpos)]
      have hd : 0 ≤ d := hc d (by simp)
      rcases lt_or_eq_of_le hd with hpos | hz
      · rw [h 0 v d (by simp) (by simp) hpos]; simp
      · rw [← hz]; simp

/-! ## The rewriting of all words of an occurrence set -/

theorem sweepWords_cons_inv (max_p : tp) (new_token_id : Nat) (counts : List Int) (wi : Nat)
    (rest : List Nat) (st st' : List (List Nat) × PairIndex)
    (h : sweepWords max_p new_token_id counts (wi :: rest) st = .ok st') :
    ∃ w c, st.1.get? wi = some w ∧ counts.get? wi = some c ∧
      sweepWords max_p new_token_id counts rest
        (st.1.set wi (sweepWord max_p new_token_id c wi w st.2).1,
          (sweepWord max_p new_token_id c wi w st.2).2) = .ok st' := by
  unfold sweepWords at h
  split at h
  · rename_i w c hw hc
    exact ⟨w, c, hw, hc, h⟩
  · simp at h

theorem get?_set_cases {α : Type} (l : List α) (i j : Nat) (x y : α)
    (h : (l.set i x).get? j = some y) : (j = i ∧ y = x) ∨ (j ≠ i ∧ l.get? j = some y) := by
  by_cases e : j = i
  · subst e
    left
    have hlt : j < l.length := by
      by_contra hge
      have : (l.set j x).get? j = none := by
        apply List.get?_eq_none.2
        simp; omega
      rw [this] at h; simp at h
    rw [List.get?_eq_getElem?, List.getElem?_set_self (by simpa using hlt)] at h
    simp at h
    exact ⟨rfl, h.symm⟩
  · right
    refine ⟨e, ?_⟩
    rw [List.get?_eq_getElem?, List.getElem?_set_ne (Ne.symm e)] at h
    simpa [List.get?_eq_getElem?] using h

theorem sweepWords_exact (max_p : tp) (new_token_id : Nat) (counts : List Int)
    (hc : ∀ c ∈ counts, 0 ≤ c ∧ c < 2 ^ 31) (hnew : new_token_id ≠ max_p.2)
    (wis : List Nat) :
    ∀ (st st' : List (List Nat) × PairIndex),
      IndexInv counts st.1 st.2 → ExactOff max_p counts st.1 st.2 →
      sweepWords max_p new_token_id counts wis st = .ok st' →
      IndexInv counts st'.1 st'.2 ∧ ExactOff max_p counts st'.1 st'.2 ∧
      (∀ j, (j ∈ wis ∨ ∀ w, st.1.get? j = some w → occ max_p w = 0) →
        ∀ w, st'.1.get? j = some w → occ max_p w = 0) ∧
      pairTotal st'.1 counts ≤ pairTotal st.1 counts ∧
      st'.1.length = st.1.length := by
  induction wis with
  | nil =>
    intro st st' hI hE h
    simp [sweepWords] at h
    subst h
    refine ⟨hI, hE, ?_, le_refl _, rfl⟩
    intro j hj w hw
    rcases hj with hj | hj
    · simp at hj
    · exact hj w hw
  | cons wi rest ih =>
    intro st st' hI hE h
    obtain ⟨w, c, hw, hcw, hrest⟩ := sweepWords_cons_inv _ _ _ _ _ _ _ h
    have hcr := hc c (List.get?_mem hcw)
    obtain ⟨s1, s2, s3, s4, s5, _⟩ := sweepWord_exact max_p new_token_id c wi hcr.1 hcr.2 hnew
      w st.2 (fun q => freq st.1 counts q) hI.range hE
      (fun hpos q hq => hI.covered wi w c hw hcw hpos q hq)
    have hI1 : IndexInv counts (st.1.set wi (sweepWord max_p new_token_id c wi w st.2).1)
        (sweepWord max_p new_token_id c wi w st.2).2 := by
      refine ⟨s1.2.2.1 hI.range, s1.2.2.2 hI.nodup, ?_⟩
      intro j w2 c2 hw2 hc2 hpos q hq
      rcases get?_set_cases _ _ _ _ _ hw2 with ⟨rfl, rfl⟩ | ⟨_, hw2'⟩
      · have : c2 = c := by rw [hcw] at hc2; cases hc2; rfl
        subst this
        exact s3 hpos q hq
      · exact covers_ext s1 (hI.covered j w2 c2 hw2' hc2 hpos q hq)
    have hE1 : ExactOff max_p counts (st.1.set wi (sweepWord max_p new_token_id c wi w st.2).1)
        (sweepWord max_p new_token_id c wi w st.2).2 := by
      intro q hq
      rw [s2 q hq, freq_set q st.1 counts wi w _ c hw hcw]
    obtain ⟨r1, r2, r3, r4, r5⟩ := ih _ st' hI1 hE1 hrest
    refine ⟨r1, r2, ?_, ?_, ?_⟩
    · intro j hj w2 hw2
      apply r3 j _ w2 hw2
      by_cases hjr : j ∈ rest
      · exact Or.inl hjr
      · right
        intro w3 hw3
        rcases get?_set_cases _ _ _ _ _ hw3 with ⟨_, rfl⟩ | ⟨hne, hw3'⟩
        · exact s4
        · rcases hj with hj | hj
          · rcases List.mem_cons.1 hj with e | e
            · exact absurd e hne
            · exact absurd e hjr
          · exact hj w3 hw3'
    · refine le_trans r4 ?_
      rw [pairTotal_set st.1 counts wi w _ c hw hcw]
      have : ((((sweepWord max_p new_token_id c wi w st.2).1.length - 1 : Nat) : Int) -
          ((w.length - 1 : Nat) : Int)) ≤ 0 := by omega
      have := mul_nonneg hcr.1 (neg_nonneg.2 this)
      linarith
    · rw [r5]; simp

/-! ## The argmax -/

theorem find_maxp_loop_spec (cc : List (Int × tp)) :
    ∀ (maxp : tp) (m0 : Nat),
      m0 ≤ (find_maxp_loop cc maxp m0).2 ∧
      (∀ x ∈ cc, toU32 x.1 ≤ (find_maxp_loop cc maxp m0).2) ∧
      (((find_maxp_loop cc maxp m0).1 = maxp ∧ (find_maxp_loop cc maxp m0).2 = m0) ∨
        ∃ x ∈ cc, x.2 = (find_maxp_loop cc maxp m0).1 ∧
          toU32 x.1 = (find_maxp_loop cc maxp m0).2) := by
  induction cc with
  | nil => intro maxp m0; simp [find_maxp_loop]
  | cons y rest ih =>
    intro maxp m0
    unfold find_maxp_loop
    split
    · rename_i hgt
      obtain ⟨i1, i2, i3⟩ := ih y.2 (toU32 y.1)
      refine ⟨by omega, ?_, Or.inr ?_⟩
      · intro x hx
        rcases List.mem_cons.1 hx with rfl | hx
        · exact i1
        · exact i2 x hx
      · rcases i3 with ⟨e1, e2⟩ | ⟨x, hx, e1, e2⟩
        · exact ⟨y, by simp, e1.symm, e2.symm⟩
        · exact ⟨x, List.mem_cons_of_mem _ hx, e1, e2⟩
    · rename_i hle
      have hyle : toU32 y.1 ≤ m0 := by omega
      split
      · rename_i htie
        obtain ⟨i1, i2, i3⟩ := ih y.2 m0
        refine ⟨i1, ?_, Or.inr ?_⟩
        · intro x hx
          rcases List.mem_cons.1 hx with rfl | hx
          · omega
          · exact i2 x hx
        · rcases i3 with ⟨e1, e2⟩ | ⟨x, hx, e1, e2⟩
          · exact ⟨y, by simp, e1.symm, by rw [e2]; exact htie.1⟩
          · exact ⟨x, List.mem_cons_of_mem _ hx, e1, e2⟩
      · obtain ⟨i1, i2, i3⟩ := ih maxp m0
        refine ⟨i1, ?_, ?_⟩
        · intro x hx
          rcases List.mem_cons.1 hx with rfl | hx
          · omega
          · exact i2 x hx
        · rcases i3 with h | ⟨x, hx, e1, e2⟩
          · exact Or.inl h
          · exact Or.inr ⟨x, List.mem_cons_of_mem _ hx, e1, e2⟩

theorem find_maxp_spec (cc : List (Int × tp)) (maxp : tp) :
    (∀ x ∈ cc, toU32 x.1 ≤ (find_maxp cc maxp).2) ∧
    (0 < (find_maxp cc maxp).2 →
      ∃ x ∈ cc, x.2 = (find_maxp cc maxp).1 ∧ toU32 x.1 = (find_maxp cc maxp).2) := by
  unfold find_maxp
  obtain ⟨_, i2, i3⟩ := find_maxp_loop_spec cc maxp 0
  refine ⟨i2, ?_⟩
  intro hpos
  rcases i3 with ⟨_, e⟩ | h
  · omega
  · exact h

theorem ccFind_of_mem_nodup (cc : List (Int × tp)) (h : (cc.map Prod.snd).Nodup)
    (x : Int × tp) (hx : x ∈ cc) : ccFind cc x.2 = some x.1 := by
  induction cc with
  | nil => simp at hx
  | cons y rest ih =>
    simp only [List.map_cons, List.nodup_cons] at h
    unfold ccFind
    rcases List.mem_cons.1 hx with rfl | hx
    · simp
    · have hne : y.2 ≠ x.2 := by
        intro e
        exact h.1 (e ▸ List.mem_map_of_mem _ hx)
      simp only [hne, if_false]
      exact ih h.2 hx

/-! ## The invariant of the learner -/

theorem ccCount_ccZero (cc : List (Int × tp)) (max_p q : tp) :
    ccCount (ccZero cc max_p) q = if max_p = q then 0 else ccCount cc q := by
  unfold ccZero ccCount
  by_cases hs : (ccFind cc max_p).isSome = true
  · simp only [hs, if_true]
    rw [ccFind_modify]
    by_cases e : max_p = q
    · subst e
      obtain ⟨c, hc⟩ := Option.isSome_iff_exists.1 hs
      simp [hc]
    · simp [e]
  · simp only [hs]
    by_cases e : max_p = q
    · subst e
      simp at hs
      simp [hs]
    · simp [e]

theorem ccZero_pairs (cc : List (Int × tp)) (max_p : tp) :
    (ccZero cc max_p).map Prod.snd = cc.map Prod.snd := by
  unfold ccZero
  split
  · exact ccModify_pairs _ _ _
  · rfl

theorem ccZero_range (cc : List (Int × tp)) (max_p : tp) (h : InRange cc) :
    InRange (ccZero cc max_p) := by
  unfold ccZero
  split
  · exact ccModify_range _ _ _ h (fun _ => by norm_num)
  · exact h

theorem ccFind_ne_none_congr (cc cc' : List (Int × tp))
    (h : cc'.map Prod.snd = cc.map Prod.snd) (q : tp) (hq : ccFind cc q ≠ none) :
    ccFind cc' q ≠ none := by
  apply Option.isSome_iff_ne_none.1
  rw [ccFind_isSome_iff, h, ← ccFind_isSome_iff]
  exact Option.isSome_iff_ne_none.2 hq

/-- A round of the learner keeps the invariant and does not increase the
weighted number of adjacent pairs. -/
theorem learnStep_learnInv (st st' : LState) (h : LearnInv st) (hs : learnStep st = .ok st') :
    LearnInv st' ∧ pairTotal st'.words st'.counts ≤ pairTotal st.words st.counts := by
  obtain ⟨st2, _, _, hs2, hb2, _⟩ := learnStep_bounds st h.bounds
  rw [hs] at hs2
  cases hs2
  obtain ⟨left, right, r, _, _, hr, _, _, hw, hc, hcc, hwh, hmp, hmc⟩ := learnStep_inv st st' hs
  have hnew : st.int_to_token.length ≠ st.max_p.2 := Nat.ne_of_gt h.bounds.maxp.2
  obtain ⟨r1, r2, r3, r4, _⟩ := sweepWords_exact st.max_p st.int_to_token.length st.counts
    h.weights hnew _ (st.words, st.idx) r h.index (fun q _ => h.exact q) hr
  refine ⟨⟨hb2, by rw [hc]; exact h.weights, ?_, ?_, ⟨st.max_p, by rw [hmp, hcc], by rw [hmc, hcc]⟩⟩,
    by rw [hw, hc]; exact r4⟩
  · rw [hc, hw]
    refine ⟨by rw [hcc]; exact ccZero_range _ _ r1.range,
      by rw [hcc, ccZero_pairs]; exact r1.nodup, ?_⟩
    intro j w c hjw hjc hpos q hq
    obtain ⟨c1, c2⟩ := r1.covered j w c hjw hjc hpos q hq
    exact ⟨by rw [hcc]; exact ccFind_ne_none_congr _ _ (ccZero_pairs _ _) q c1, by rw [hwh]; exact c2⟩
  · intro q
    rw [hcc, hw, hc, ccCount_ccZero]
    by_cases e : st.max_p = q
    · subst e
      simp only [if_true]
      rw [freq_eq_zero st.max_p r.1 st.counts (fun c hc' => (h.weights c hc').1)]
      · simp [wrap32]
      · intro j w c hjw hjc hpos
        apply r3 j _ w hjw
        by_cases hj : j ∈ whereGet st.idx.where_to_update st.max_p
        · exact Or.inl hj
        · right
          intro w0 hw0
          by_contra hocc
          exact hj (h.index.covered j w0 c hw0 hjc hpos st.max_p (Nat.pos_of_ne_zero hocc)).2
    · simp only [e, if_false]
      exact r2 q (Ne.symm e)

/-- In a state that satisfies the invariant and whose weighted number of adjacent
pairs is below `2^32`, a positive `max_c` is the weighted frequency of `max_p`,
and no pair has a larger weighted frequency. -/
theorem learnInv_max (st : LState) (h : LearnInv st)
    (hT : pairTotal st.words st.counts < 2 ^ 32) (hpos : 0 < st.max_c) :
    (st.max_c : Int) = freq st.words st.counts st.max_p ∧
    ∀ q, freq st.words st.counts q ≤ (st.max_c : Int) := by
  obtain ⟨prior, hp, hc⟩ := h.found
  obtain ⟨f1, f2⟩ := find_maxp_spec st.idx.contiguous_counts prior
  rw [← hp, ← hc] at f2
  rw [← hc] at f1
  have hfreq : ∀ q, (toU32 (ccCount st.idx.contiguous_counts q) : Int) = freq st.words st.counts q := by
    intro q
    rw [h.exact q]
    have hb := freq_bounds q st.words st.counts (fun c hc' => (h.weights c hc').1)
    exact toU32_wrap32 _ hb.1 (lt_of_le_of_lt hb.2 hT)
  constructor
  · obtain ⟨x, hx, e1, e2⟩ := f2 hpos
    have := ccFind_of_mem_nodup _ h.index.nodup x hx
    rw [← hfreq, ← e1, ← e2]
    simp [ccCount, this]
  · intro q
    rw [← hfreq]
    cases hf : ccFind st.idx.contiguous_counts q with
    | none =>
      simp only [ccCount, hf, Option.getD_none]
      have : toU32 0 = 0 := by simp [toU32]
      rw [this]
      exact_mod_cast Nat.zero_le _
    | some c =>
      simp only [ccCount, hf, Option.getD_some]
      exact_mod_cast f1 (c, q) (ccFind_mem _ _ _ hf)

/-! ## The initial population of the pair index -/

theorem extW_refl (wi count : Nat) (idx : PairIndex) : ExtW wi count idx idx :=
  ⟨fun _ h => h, fun _ _ _ _ h => h, fun h => h, fun h => h⟩

theorem extW_trans {wi count : Nat} {a b c : PairIndex} (h1 : ExtW wi count a b)
    (h2 : ExtW wi count b c) : ExtW wi count a c :=
  ⟨fun q h => h2.1 q (h1.1 q h),
    fun q wj hw hq h => h2.2.1 q wj hw (h1.1 q hq) (h1.2.1 q wj hw hq h),
    fun h => h2.2.2.1 (h1.2.2.1 h), fun h => h2.2.2.2 (h1.2.2.2 h)⟩

theorem ccFind_ccEnsure_self (cc : List (Int × tp)) (p : tp) :
    ccFind (ccEnsure cc p) p = some (ccCount cc p) := by
  unfold ccEnsure ccCount
  cases h : ccFind cc p with
  | none =>
    simp only [Option.isNone_none, if_true, Option.getD_none]
    rw [ccFind_append, h]
    simp
  | some c =>
    simp only [Option.isNone_some, Bool.false_eq_true, if_false, Option.getD_some]
    exact h

theorem ccFind_ccEnsure_ne (cc : List (Int × tp)) (p q : tp) (hne : p ≠ q) :
    ccFind (ccEnsure cc p) q = ccFind cc q := by
  unfold ccEnsure
  split
  · rw [ccFind_append]
    cases ccFind cc q with
    | none => simp [hne]
    | some c => rfl
  · rfl

theorem ccFind_ccEnsure_ne_none (cc : List (Int × tp)) (p q : tp)
    (h : ccFind cc q ≠ none ∨ p = q) : ccFind (ccEnsure cc p) q ≠ none := by
  by_cases e : p = q
  · subst e
    rw [ccFind_ccEnsure_self]
    simp
  · rw [ccFind_ccEnsure_ne _ _ _ e]
    rcases h with h | h
    · exact h
    · exact absurd h e

theorem ccEnsure_pairs_nodup (cc : List (Int × tp)) (p : tp)
    (h : (cc.map Prod.snd).Nodup) : ((ccEnsure cc p).map Prod.snd).Nodup := by
  unfold ccEnsure
  split
  · rename_i hn
    simp only [List.map_append, List.map_cons, List.map_nil]
    apply List.Nodup.append h (by simp)
    intro x hx hx2
    simp only [List.mem_singleton] at hx2
    subst hx2
    have h1 := (ccFind_isSome_iff cc x).2 hx
    cases hf : ccFind cc x with
    | none => rw [hf] at h1; simp at h1
    | some c => rw [hf] at hn; simp at hn
  · exact h

theorem ccEnsure_range (cc : List (Int × tp)) (p : tp) (h : InRange cc) :
    InRange (ccEnsure cc p) := by
  unfold ccEnsure
  split
  · intro y hy
    rcases List.mem_append.1 hy with hy | hy
    · exact h y hy
    · simp only [List.mem_singleton] at hy
      subst hy
      norm_num
  · exact h

theorem ccFind_modify_ne_none (f : Int → Int) (cc : List (Int × tp)) (p q : tp)
    (h : ccFind cc q ≠ none) : ccFind (ccModify f cc p) q ≠ none := by
  rw [ccFind_modify]
  split
  · cases hf : ccFind cc q with
    | none => exact absurd hf h
    | some c => simp
  · exact h

theorem count_pair_count (wi count : Nat) (p q : tp) (idx : PairIndex)
    (h : InRange idx.contiguous_counts) :
    ccCount (count_pair wi count p idx).contiguous_counts q =
      wrap32 (ccCount idx.contiguous_counts q + if p = q then (count : Int) else 0) := by
  have hq := ccCount_range _ h q
  rw [count_pair_cc]
  by_cases e : p = q
  · subst e
    unfold ccCount
    rw [ccFind_modify, if_pos rfl, ccFind_ccEnsure_self]
    simp [ccCount]
  · unfold ccCount
    rw [ccFind_modify, if_neg e, ccFind_ccEnsure_ne _ _ _ e, if_neg e, add_zero]
    exact (wrap32_of_range _ hq.1 hq.2).symm

theorem count_pair_ext (wi count : Nat) (p : tp) (idx : PairIndex) :
    ExtW wi count idx (count_pair wi count p idx) := by
  refine ⟨?_, ?_, ?_, ?_⟩
  · intro q hq
    rw [count_pair_cc]
    exact ccFind_modify_ne_none _ _ _ _ (ccFind_ccEnsure_ne_none _ _ _ (Or.inl hq))
  · intro q wj hw hq hmem
    rw [count_pair_where]
    by_cases e : p = q
    · subst e
      have hsome : (ccFind idx.contiguous_counts p).isNone = false := by
        cases hf : ccFind idx.contiguous_counts p with
        | none => exact absurd hf hq
        | some c => rfl
      rw [if_pos rfl]
      simp only [hsome, Bool.false_eq_true, if_false]
      by_cases hc : count > 0
      · rw [if_pos hc]
        exact (mem_setInsert _ _ _).2 (Or.inr hmem)
      · rw [if_neg hc]
        rcases hw with hw | hw
        · exact (mem_setErase _ _ _).2 ⟨hmem, hw⟩
        · exact absurd hw hc
    · rw [if_neg e]
      exact hmem
  · intro h
    rw [count_pair_cc]
    exact ccModify_range _ _ _ (ccEnsure_range _ _ h) (fun c => wrap32_range _)
  · intro h
    rw [count_pair_cc, ccModify_pairs]
    exact ccEnsure_pairs_nodup _ _ h

theorem count_pair_covers (wi count : Nat) (p : tp) (idx : PairIndex) (hc : 0 < count) :
    Covers (count_pair wi count p idx) wi p := by
  constructor
  · rw [count_pair_cc]
    exact ccFind_modify_ne_none _ _ _ _ (ccFind_ccEnsure_ne_none _ _ _ (Or.inr rfl))
  · rw [count_pair_where, if_pos rfl, if_pos hc]
    exact (mem_setInsert _ _ _).2 (Or.inl rfl)

theorem count_in_word_loop_exact (wi count : Nat) (rest : List Nat) :
    ∀ (prev : Nat) (idx : PairIndex), InRange idx.contiguous_counts →
      ExtW wi count idx (count_in_word_loop wi count rest prev idx) ∧
      (∀ q, ccCount (count_in_word_loop wi count rest prev idx).contiguous_counts q =
        wrap32 (ccCount idx.contiguous_counts q + (count : Int) * (occ q (prev :: rest) : Int))) ∧
      (0 < count → ∀ q, 0 < occ q (prev :: rest) →
        Covers (count_in_word_loop wi count rest prev idx) wi q) := by
  induction rest with
  | nil =>
    intro prev idx h
    refine ⟨extW_refl _ _ _, ?_, ?_⟩
    · intro q
      have hq := ccCount_range _ h q
      simp only [count_in_word_loop, occ, Nat.cast_zero, mul_zero, add_zero]
      exact (wrap32_of_range _ hq.1 hq.2).symm
    · intro _ q hq
      simp [occ] at hq
  | cons t rest ih =>
    intro prev idx h
    have e1 := count_pair_ext wi count (prev, t) idx
    obtain ⟨i1, i2, i3⟩ := ih t (count_pair wi count (prev, t) idx) (e1.2.2.1 h)
    simp only [count_in_word_loop]
    refine ⟨extW_trans e1 i1, ?_, ?_⟩
    · intro q
      rw [i2 q, count_pair_count _ _ _ _ _ h, wrap32_wrap32_add, occ_cons q prev (t :: rest)]
      congr 1
      simp only [afterPair]
      by_cases e : (prev, t) = q
      · rw [if_pos e, if_pos e]
        push_cast
        ring
      · rw [if_neg e, if_neg e]
        push_cast
        ring
    · intro hc q hq
      rw [occ_cons q prev (t :: rest)] at hq
      by_cases hb : 0 < occ q (t :: rest)
      · exact i3 hc q hb
      · have hp : (prev, t) = q := by
          simp only [afterPair] at hq
          by_contra hne
          rw [if_neg hne] at hq
          omega
        subst hp
        have := count_pair_covers wi count (prev, t) idx hc
        exact ⟨i1.1 _ this.1, i1.2.1 _ wi (Or.inr hc) this.1 this.2⟩

theorem count_in_word_exact (wi count : Nat) (word : List Nat) (idx : PairIndex)
    (h : InRange idx.contiguous_counts) :
    ExtW wi count idx (count_in_word word wi count idx) ∧
    (∀ q, ccCount (count_in_word word wi count idx).contiguous_counts q =
      wrap32 (ccCount idx.contiguous_counts q + (count : Int) * (occ q word : Int))) ∧
    (0 < count → ∀ q, 0 < occ q word → Covers (count_in_word word wi count idx) wi q) := by
  cases word with
  | nil =>
    refine ⟨extW_refl _ _ _, ?_, ?_⟩
    · intro q
      have hq := ccCount_range _ h q
      simp only [count_in_word, occ, Nat.cast_zero, mul_zero, add_zero]
      exact (wrap32_of_range _ hq.1 hq.2).symm
    · intro _ q hq
      simp [occ] at hq
  | cons t rest => exact count_in_word_loop_exact wi count rest t idx h

theorem freq_concat (q : tp) (done : List (List Nat)) :
    ∀ (counts : List Int) (w : List Nat) (c : Int), counts.get? done.length = some c →
      freq (done ++ [w]) counts q = freq done counts q + c * (occ q w : Int) := by
  induction done with
  | nil =>
    intro counts w c hc
    cases counts with
    | nil => simp at hc
    | cons d counts =>
      simp at hc
      subst hc
      simp [freq]
  | cons v done ih =>
    intro counts w c hc
    cases counts with
    | nil => simp at hc
    | cons d counts =>
      have e := ih counts w c (by simpa using hc)
      show d * (occ q v : Int) + freq (done ++ [w]) counts q =
        d * (occ q v : Int) + freq done counts q + c * (occ q w : Int)
      rw [e]
      ring

theorem toU32_weight (c : Int) (h0 : 0 ≤ c) (h1 : c < 2 ^ 31) : (toU32 c : Int) = c := by
  unfold toU32
  omega

theorem get?_append_singleton_cases {α : Type} (l : List α) (x y : α) (j : Nat)
    (h : (l ++ [x]).get? j = some y) :
    (j < l.length ∧ l.get? j = some y) ∨ (j = l.length ∧ y = x) := by
  rw [List.get?_eq_getElem?] at h
  by_cases hj : j < l.length
  · left
    rw [List.getElem?_append_left hj] at h
    exact ⟨hj, by rw [List.get?_eq_getElem?]; exact h⟩
  · right
    have hle : l.length ≤ j := by omega
    rw [List.getElem?_append_right hle] at h
    have hj0 : j - l.length = 0 := by
      by_contra hne
      have : [x][j - l.length]? = none := by
        apply List.getElem?_eq_none
        simp only [List.length_singleton]
        omega
      rw [this] at h
      exact Option.noConfusion h
    rw [hj0] at h
    simp only [List.getElem?_cons_zero, Option.some.injEq] at h
    exact ⟨by omega, h.symm⟩

theorem countAll_exact (counts : List Int) (hc : ∀ c ∈ counts, 0 ≤ c ∧ c < 2 ^ 31)
    (rest : List (List Nat)) :
    ∀ (done : List (List Nat)) (idx : PairIndex),
      done.length + rest.length ≤ counts.length →
      IndexInv counts done idx →
      (∀ q, ccCount idx.contiguous_counts q = wrap32 (freq done counts q)) →
      IndexInv counts (done ++ rest) (countAll counts rest done.length idx) ∧
      (∀ q, ccCount (countAll counts rest done.length idx).contiguous_counts q =
        wrap32 (freq (done ++ rest) counts q)) := by
  induction rest with
  | nil =>
    intro done idx _ hI hE
    simp only [countAll, List.append_nil]
    exact ⟨hI, hE⟩
  | cons w rest ih =>
    intro done idx hlen hI hE
    simp only [List.length_cons] at hlen
    have hlt : done.length < counts.length := by omega
    obtain ⟨c, hget⟩ : ∃ c, counts.get? done.length = some c :=
      ⟨_, List.get?_eq_get hlt⟩
    have hgD : counts.getD done.length 0 = c := by
      rw [List.getD_eq_getElem?_getD, ← List.get?_eq_getElem?, hget]
      rfl
    have hcr := hc c (List.get?_mem hget)
    have hcount : (toU32 c : Int) = c := toU32_weight c hcr.1 hcr.2
    obtain ⟨e1, e2, e3⟩ := count_in_word_exact done.length (toU32 c) w idx hI.range
    have hI1 : IndexInv counts (done ++ [w]) (count_in_word w done.length (toU32 c) idx) := by
      refine ⟨e1.2.2.1 hI.range, e1.2.2.2 hI.nodup, ?_⟩
      intro j w2 c2 hw2 hc2 hpos q hq
      rcases get?_append_singleton_cases done w w2 j hw2 with ⟨hj, hw2'⟩ | ⟨hj, hw2'⟩
      · obtain ⟨c1, c3⟩ := hI.covered j w2 c2 hw2' hc2 hpos q hq
        exact ⟨e1.1 q c1, e1.2.1 q j (Or.inl (by omega)) c1 c3⟩
      · subst hj hw2'
        rw [hget] at hc2
        cases hc2
        have hp : 0 < toU32 c := by
          have : (0 : Int) < (toU32 c : Int) := by rw [hcount]; exact hpos
          exact_mod_cast this
        exact e3 hp q hq
    have hE1 : ∀ q, ccCount (count_in_word w done.length (toU32 c) idx).contiguous_counts q =
        wrap32 (freq (done ++ [w]) counts q) := by
      intro q
      rw [e2 q, hE q, wrap32_wrap32_add, freq_concat q done counts w c hget, hcount]
    have key := ih (done ++ [w]) (count_in_word w done.length (toU32 c) idx)
      (by simp only [List.length_append, List.length_singleton]; omega) hI1 hE1
    have e : done ++ w :: rest = (done ++ [w]) ++ rest := by simp
    have el : (done ++ [w]).length = done.length + 1 := by simp
    rw [el] at key
    rw [e]
    simp only [countAll, hgD]
    exact key

/-! ## The state on entry to the main loop -/

theorem internAll_length (toks : List Str) :
    ∀ (tab : Map Str Nat × List Str) (cw : List Nat),
      (internAll toks tab cw).2.length = cw.length + toks.length := by
  induction toks with
  | nil => intro tab cw; simp [internAll]
  | cons t rest ih =>
    intro tab cw
    rw [internAll, ih]
    simp only [List.length_append, List.length_singleton, List.length_cons, List.length_nil]
    omega

theorem tokenize_counts (word_count : wMapCounts) :
    ∀ (t : Tokenized),
      (tokenize word_count t).counts = t.counts ++ word_count.map (fun x => wrap32 (x.2 : Int)) ∧
      (tokenize word_count t).words.map List.length =
        t.words.map List.length ++ word_count.map (fun x => (tokenize_word x.1).length) := by
  induction word_count with
  | nil => intro t; simp [tokenize]
  | cons x rest ih =>
    intro t
    simp only [tokenize]
    obtain ⟨i1, i2⟩ := ih
      { token_to_int := (internAll (tokenize_word x.1) (t.token_to_int, t.int_to_token) []).1.1,
        int_to_token := (internAll (tokenize_word x.1) (t.token_to_int, t.int_to_token) []).1.2,
        words := t.words ++ [(internAll (tokenize_word x.1) (t.token_to_int, t.int_to_token) []).2],
        counts := t.counts ++ [wrap32 x.2] }
    rw [i1, i2]
    simp [internAll_length]

theorem pairTotal_of_lengths (word_count : wMapCounts) :
    ∀ (words : List (List Nat)) (counts : List Int),
      words.map List.length = word_count.map (fun x => (tokenize_word x.1).length) →
      counts = word_count.map (fun x => (x.2 : Int)) →
      pairTotal words counts = (initialPairTotal word_count : Int) := by
  induction word_count with
  | nil =>
    intro words counts _ hc
    subst hc
    cases words <;> simp [pairTotal, initialPairTotal]
  | cons x rest ih =>
    intro words counts hw hc
    subst hc
    cases words with
    | nil => simp at hw
    | cons w words =>
      simp only [List.map_cons, List.cons.injEq] at hw
      simp only [List.map_cons, pairTotal]
      rw [ih words _ hw.2 rfl, hw.1]
      simp only [initialPairTotal, List.map_cons, List.sum_cons]
      push_cast
      ring

theorem wrap32_weight (n : Nat) (h : n < 2 ^ 31) : wrap32 (n : Int) = (n : Int) := by
  unfold wrap32
  omega

theorem map_wrap32_weights (word_count : wMapCounts) (hw : ∀ x ∈ word_count, x.2 < 2 ^ 31) :
    word_count.map (fun x => wrap32 (x.2 : Int)) = word_count.map (fun x => (x.2 : Int)) := by
  apply List.map_congr_left
  intro x hx
  exact wrap32_weight x.2 (hw x hx)

/-- The state on entry to the main loop satisfies the invariant, carries the
weights of the word-count map, and its weighted number of adjacent pairs is that
of the initial tokenization. -/
theorem learnInit_learnInv (word_count : wMapCounts) (hne : word_count ≠ [])
    (hw : ∀ x ∈ word_count, x.2 < 2 ^ 31) :
    LearnInv (learnInit word_count) ∧
    (learnInit word_count).counts = word_count.map (fun x => (x.2 : Int)) ∧
    pairTotal (learnInit word_count).words (learnInit word_count).counts =
      (initialPairTotal word_count : Int) := by
  have hb := learnInit_bounds word_count hne
  obtain ⟨hc, hl⟩ := tokenize_counts word_count
    { token_to_int := [], int_to_token := [], words := [], counts := [] }
  simp only [List.nil_append, List.map_nil] at hc hl
  rw [map_wrap32_weights word_count hw] at hc
  have hcounts : (learnInit word_count).counts = word_count.map (fun x => (x.2 : Int)) := hc
  have hwords : (learnInit word_count).words.map List.length =
      word_count.map (fun x => (tokenize_word x.1).length) := hl
  have hrange : ∀ c ∈ (learnInit word_count).counts, 0 ≤ c ∧ c < 2 ^ 31 := by
    intro c hcm
    rw [hcounts] at hcm
    obtain ⟨x, hx, rfl⟩ := List.mem_map.1 hcm
    have := hw x hx
    constructor
    · positivity
    · exact_mod_cast this
  have hlen : ([] : List (List Nat)).length + (learnInit word_count).words.length ≤
      (learnInit word_count).counts.length := by
    rw [hb.len]; simp
  obtain ⟨k1, k2⟩ := countAll_exact (learnInit word_count).counts hrange
    (learnInit word_count).words [] { contiguous_counts := [], where_to_update := [] } hlen
    ⟨by intro x hx; simp at hx, by simp, by intro j w c hj; simp at hj⟩
    (by intro q; simp [ccCount, ccFind, freq, wrap32])
  simp only [List.nil_append, List.length_nil] at k1 k2
  exact ⟨⟨hb, hrange, k1, k2, ⟨(0, 0), rfl, rfl⟩⟩, hcounts,
    pairTotal_of_lengths word_count _ _ hwords hcounts⟩

theorem learnLoop_learnInv (n : Nat) :
    ∀ (st st' : LState), LearnInv st → learnLoop n st = .ok st' →
      LearnInv st' ∧ st'.counts = st.counts ∧
      pairTotal st'.words st'.counts ≤ pairTotal st.words st.counts := by
  induction n with
  | zero =>
    intro st st' h hs
    simp [learnLoop] at hs
    subst hs
    exact ⟨h, rfl, le_refl _⟩
  | succ n ih =>
    intro st st' h hs
    unfold learnLoop at hs
    split at hs
    · simp at hs
    · rename_i st1 hs1
      obtain ⟨i1, i2⟩ := learnStep_learnInv st st1 h hs1
      obtain ⟨_, _, _, _, _, _, _, _, _, hc1, _⟩ := learnStep_inv st st1 hs1
      obtain ⟨j1, j2, j3⟩ := ih st1 st' i1 hs
      exact ⟨j1, by rw [j2, hc1], le_trans j3 i2⟩

theorem learnRun_ne_nil (i : Nat) (word_count : wMapCounts) (st : LState)
    (hst : learnRun i word_count = .ok st) (hpos : 0 < st.max_c) : word_count ≠ [] := by
  intro e
  subst e
  cases i with
  | zero =>
    have : st = learnInit [] := by
      have h : learnRun 0 [] = .ok (learnInit []) := rfl
      rw [h] at hst
      cases hst
      rfl
    subst this
    revert hpos
    decide
  | succ n =>
    have h : learnRun (n + 1) [] = .error Err.bounds := rfl
    rw [h] at hst
    cases hst

/-- The invariant holds after every number of rounds, for weights below `2^31`,
and the weighted number of adjacent pairs never exceeds its initial value. -/
theorem learnRun_learnInv (i : Nat) (word_count : wMapCounts) (st : LState)
    (hne : word_count ≠ []) (hw : ∀ x ∈ word_count, x.2 < 2 ^ 31)
    (hst : learnRun i word_count = .ok st) :
    LearnInv st ∧ st.counts = word_count.map (fun x => (x.2 : Int)) ∧
    pairTotal st.words st.counts ≤ (initialPairTotal word_count : Int) := by
  obtain ⟨h1, h2, h3⟩ := learnInit_learnInv word_count hne hw
  obtain ⟨j1, j2, j3⟩ := learnLoop_learnInv i _ st h1 hst
  exact ⟨j1, by rw [j2, h2], by rw [← h3]; exact j3⟩

/-! ## Symbols and their strings in the initial state -/

theorem tokOf_of_get? (itt : List Str) (i : Nat) (t : Str) (h : itt.get? i = some t) :
    tokOf itt i = t := by
  unfold tokOf
  rw [List.getD_eq_getElem?_getD, ← List.get?_eq_getElem?, h]
  rfl

theorem get?_stable {α : Type} (l l' : List α) (h : l <+: l') (i : Nat) (x : α)
    (hx : l.get? i = some x) : l'.get? i = some x := by
  obtain ⟨m, rfl⟩ := h
  rw [List.get?_eq_getElem?] at hx ⊢
  have hlt : i < l.length := by
    by_contra hge
    rw [List.getElem?_eq_none (by omega)] at hx
    exact Option.noConfusion hx
  rw [List.getElem?_append_left hlt]
  exact hx

theorem intern_bij (tab : Map Str Nat × List Str) (t : Str) (h : TabBij tab) :
    TabBij (intern tab t).1 ∧ (intern tab t).1.2.get? (intern tab t).2 = some t ∧
      tab.2 <+: (intern tab t).1.2 := by
  unfold intern
  by_cases hc : Map.contains tab.1 t = true
  · simp only [hc, if_true]
    unfold Map.contains at hc
    obtain ⟨i, hi⟩ := Option.isSome_iff_exists.1 hc
    refine ⟨h, ?_, List.prefix_refl _⟩
    rw [hi]
    exact (h.2 t i).1 hi
  · simp only [hc, Bool.false_eq_true, if_false]
    have hnot : t ∉ tab.2 := by
      intro hm
      obtain ⟨n, hn⟩ := List.get?_of_mem hm
      have := (h.2 t n).2 hn
      unfold Map.contains at hc
      rw [this] at hc
      exact hc rfl
    refine ⟨⟨?_, ?_⟩, ?_, List.prefix_append _ _⟩
    · exact List.Nodup.append h.1 (by simp) (by
        intro x hx hx2
        simp only [List.mem_singleton] at hx2
        subst hx2
        exact hnot hx)
    · intro t' i
      simp only
      rw [mapFind_insert]
      have hlen : (tab.2 ++ [t]).length.pred = tab.2.length := by simp
      rw [hlen]
      by_cases e : t = t'
      · subst e
        simp only [if_true, Option.some.injEq]
        constructor
        · intro hi
          subst hi
          rw [List.get?_eq_getElem?, List.getElem?_append_right (le_refl _)]
          simp
        · intro hg
          rw [List.get?_eq_getElem?] at hg
          by_cases hlt : i < tab.2.length
          · rw [List.getElem?_append_left hlt] at hg
            exact absurd (List.getElem?_mem hg) hnot
          · have hle : tab.2.length ≤ i := by omega
            rw [List.getElem?_append_right hle] at hg
            by_contra hne
            have : [t][i - tab.2.length]? = none := by
              apply List.getElem?_eq_none
              simp only [List.length_singleton]
              omega
            rw [this] at hg
            exact Option.noConfusion hg
      · simp only [e, if_false]
        rw [h.2 t' i]
        constructor
        · exact get?_stable _ _ (List.prefix_append _ _) i t'
        · intro hg
          rw [List.get?_eq_getElem?] at hg ⊢
          by_cases hlt : i < tab.2.length
          · rwa [List.getElem?_append_left hlt] at hg
          · have hle : tab.2.length ≤ i := by omega
            rw [List.getElem?_append_right hle] at hg
            have hm := List.getElem?_mem hg
            simp only [List.mem_singleton] at hm
            exact absurd hm.symm e
    · rw [Map.find?_insert_self]
      simp only [Option.getD_some, Nat.pred_eq_sub_one, List.length_append, List.length_singleton,
        Nat.add_sub_cancel]
      rw [List.get?_eq_getElem?, List.getElem?_append_right (le_refl _)]
      simp

theorem internAll_bij (toks : List Str) :
    ∀ (tab : Map Str Nat × List Str) (cw : List Nat), TabBij tab →
      TabBij (internAll toks tab cw).1 ∧ tab.2 <+: (internAll toks tab cw).1.2 ∧
      (internAll toks tab cw).2.map (tokOf (internAll toks tab cw).1.2) =
        cw.map (tokOf (internAll toks tab cw).1.2) ++ toks := by
  induction toks with
  | nil => intro tab cw h; exact ⟨h, List.prefix_refl _, by simp [internAll]⟩
  | cons t rest ih =>
    intro tab cw h
    obtain ⟨h1, h2, h3⟩ := intern_bij tab t h
    obtain ⟨g1, g2, g3⟩ := ih (intern tab t).1 (cw ++ [(intern tab t).2]) h1
    simp only [internAll]
    refine ⟨g1, List.IsPrefix.trans h3 g2, ?_⟩
    rw [g3]
    simp only [List.map_append, List.map_cons, List.map_nil, List.append_assoc,
      List.singleton_append]
    rw [tokOf_of_get? _ _ _ (get?_stable _ _ g2 _ _ h2)]

theorem tabInv_of_bij (tab : Map Str Nat × List Str) (h : TabBij tab) : TabInv tab := by
  intro t i hf
  have := (h.2 t i).1 hf
  rw [List.get?_eq_getElem?] at this
  by_contra hge
  rw [List.getElem?_eq_none (by omega)] at this
  exact Option.noConfusion this

theorem tokOf_stable (l l' : List Str) (h : l <+: l') (i : Nat) (hi : i < l.length) :
    tokOf l' i = tokOf l i := by
  have h1 : l.get? i = some (l.get ⟨i, hi⟩) := List.get?_eq_get hi
  rw [tokOf_of_get? l i _ h1, tokOf_of_get? l' i _ (get?_stable l l' h i _ h1)]

theorem tokenize_bij (word_count : wMapCounts) :
    ∀ (t : Tokenized), TabBij (t.token_to_int, t.int_to_token) →
      TabBij ((tokenize word_count t).token_to_int, (tokenize word_count t).int_to_token) ∧
      t.int_to_token <+: (tokenize word_count t).int_to_token ∧
      (tokenize word_count t).words.map
          (fun w => w.map (tokOf (tokenize word_count t).int_to_token)) =
        t.words.map (fun w => w.map (tokOf (tokenize word_count t).int_to_token)) ++
          word_count.map (fun x => tokenize_word x.1) := by
  induction word_count with
  | nil => intro t h; exact ⟨h, List.prefix_refl _, by simp [tokenize]⟩
  | cons x rest ih =>
    intro t h
    obtain ⟨g1, g2, g3⟩ := internAll_bij (tokenize_word x.1) (t.token_to_int, t.int_to_token) [] h
    obtain ⟨_, _, _, g4⟩ := internAll_inv (tokenize_word x.1) (t.token_to_int, t.int_to_token) []
      (tabInv_of_bij _ h)
    simp only [tokenize]
    obtain ⟨k1, k2, k3⟩ := ih
      { token_to_int := (internAll (tokenize_word x.1) (t.token_to_int, t.int_to_token) []).1.1,
        int_to_token := (internAll (tokenize_word x.1) (t.token_to_int, t.int_to_token) []).1.2,
        words := t.words ++ [(internAll (tokenize_word x.1) (t.token_to_int, t.int_to_token) []).2],
        counts := t.counts ++ [wrap32 x.2] }
      g1
    refine ⟨k1, List.IsPrefix.trans g2 k2, ?_⟩
    rw [k3]
    simp only [List.map_append, List.map_cons, List.map_nil, List.append_assoc,
      List.singleton_append, List.nil_append] at g3 ⊢
    congr 1
    congr 1
    refine Eq.trans ?_ g3
    apply List.map_congr_left
    intro i hi
    exact tokOf_stable _ _ k2 i (g4 (by simp) i hi)

theorem tokOf_inj (itt : List Str) (hnd : itt.Nodup) (i j : Nat) (hi : i < itt.length)
    (hj : j < itt.length) (e : tokOf itt i = tokOf itt j) : i = j := by
  have h1 : itt.get? i = some (itt.get ⟨i, hi⟩) := List.get?_eq_get hi
  have h2 : itt.get? j = some (itt.get ⟨j, hj⟩) := List.get?_eq_get hj
  rw [tokOf_of_get? itt i _ h1, tokOf_of_get? itt j _ h2] at e
  have := (List.nodup_iff_injective_get.1 hnd) e
  exact congrArg Fin.val this

theorem occ_map (g : Nat → Str) (N : Nat)
    (hinj : ∀ i j, i < N → j < N → g i = g j → i = j) (q : tp) (h1 : q.1 < N) (h2 : q.2 < N) :
    ∀ (w : List Nat), (∀ i ∈ w, i < N) → occ q w = occS (g q.1, g q.2) (w.map g) := by
  intro w
  induction w with
  | nil => intro _; rfl
  | cons a rest ih =>
    intro hw
    cases rest with
    | nil => rfl
    | cons b rest =>
      have ha : a < N := hw a (by simp)
      have hb : b < N := hw b (by simp)
      have e := ih (fun i hi => hw i (List.mem_cons_of_mem _ hi))
      simp only [List.map_cons] at e ⊢
      simp only [occ, occS]
      rw [e]
      congr 1
      by_cases hq : (a, b) = q
      · subst hq
        simp
      · rw [if_neg hq, if_neg]
        intro e2
        apply hq
        simp only [Prod.mk.injEq] at e2
        have e3 := hinj a q.1 ha h1 e2.1
        have e4 := hinj b q.2 hb h2 e2.2
        exact Prod.ext e3 e4

theorem occS_map_zero (g : Nat → Str) (N : Nat) (q : Str × Str)
    (hq : ¬ ∃ a b, a < N ∧ b < N ∧ g a = q.1 ∧ g b = q.2) :
    ∀ (w : List Nat), (∀ i ∈ w, i < N) → occS q (w.map g) = 0 := by
  intro w
  induction w with
  | nil => intro _; rfl
  | cons a rest ih =>
    intro hw
    cases rest with
    | nil => rfl
    | cons b rest =>
      have ha : a < N := hw a (by simp)
      have hb : b < N := hw b (by simp)
      have e := ih (fun i hi => hw i (List.mem_cons_of_mem _ hi))
      simp only [List.map_cons] at e ⊢
      simp only [occS]
      rw [e, if_neg]
      intro e2
      apply hq
      exact ⟨a, b, ha, hb, by rw [← e2], by rw [← e2]⟩

theorem freq_freqStr (g : Nat → Str) (N : Nat)
    (hinj : ∀ i j, i < N → j < N → g i = g j → i = j) (q : tp) (h1 : q.1 < N) (h2 : q.2 < N)
    (word_count : wMapCounts) :
    ∀ (words : List (List Nat)) (counts : List Int),
      counts = word_count.map (fun x => (x.2 : Int)) →
      words.map (fun w => w.map g) = word_count.map (fun x => tokenize_word x.1) →
      (∀ w ∈ words, ∀ i ∈ w, i < N) →
      freq words counts q = (freqStr word_count (g q.1, g q.2) : Int) := by
  induction word_count with
  | nil =>
    intro words counts hc _ _
    subst hc
    cases words <;> simp [freq, freqStr]
  | cons x rest ih =>
    intro words counts hc hw hb
    subst hc
    cases words with
    | nil => simp at hw
    | cons w words =>
      simp only [List.map_cons, List.cons.injEq] at hw
      simp only [List.map_cons, freq]
      rw [ih words _ rfl hw.2 (fun v hv => hb v (List.mem_cons_of_mem _ hv)),
        occ_map g N hinj q h1 h2 w (hb w (by simp)), hw.1]
      simp only [freqStr, List.map_cons, List.sum_cons]
      push_cast
      ring

theorem freqStr_zero (g : Nat → Str) (N : Nat) (q : Str × Str)
    (hq : ¬ ∃ a b, a < N ∧ b < N ∧ g a = q.1 ∧ g b = q.2)
    (word_count : wMapCounts) :
    ∀ (words : List (List Nat)),
      words.map (fun w => w.map g) = word_count.map (fun x => tokenize_word x.1) →
      (∀ w ∈ words, ∀ i ∈ w, i < N) →
      freqStr word_count q = 0 := by
  induction word_count with
  | nil => intro _ _ _; rfl
  | cons x rest ih =>
    intro words hw hb
    cases words with
    | nil => simp at hw
    | cons w words =>
      simp only [List.map_cons, List.cons.injEq] at hw
      have e := ih words hw.2 (fun v hv => hb v (List.mem_cons_of_mem _ hv))
      simp only [freqStr, List.map_cons, List.sum_cons] at e ⊢
      rw [e, ← hw.1, occS_map_zero g N q hq w (hb w (by simp))]
      simp

theorem freqStr_perm (a b : wMapCounts) (h : a.Perm b) (q : Str × Str) :
    freqStr a q = freqStr b q := by
  unfold freqStr
  exact List.Perm.sum_eq (List.Perm.map _ h)

theorem initialPairTotal_perm (a b : wMapCounts) (h : a.Perm b) :
    initialPairTotal a = initialPairTotal b := by
  unfold initialPairTotal
  exact List.Perm.sum_eq (List.Perm.map _ h)

/-- No pair has a weighted frequency above `max_c`. -/
theorem learnInv_le (st : LState) (h : LearnInv st)
    (hT : pairTotal st.words st.counts < 2 ^ 32) :
    ∀ q, freq st.words st.counts q ≤ (st.max_c : Int) := by
  obtain ⟨prior, hp, hc⟩ := h.found
  obtain ⟨f1, _⟩ := find_maxp_spec st.idx.contiguous_counts prior
  rw [← hc] at f1
  intro q
  have hfreq : (toU32 (ccCount st.idx.contiguous_counts q) : Int) = freq st.words st.counts q := by
    rw [h.exact q]
    have hb := freq_bounds q st.words st.counts (fun c hc' => (h.weights c hc').1)
    exact toU32_wrap32 _ hb.1 (lt_of_le_of_lt hb.2 hT)
  rw [← hfreq]
  cases hf : ccFind st.idx.contiguous_counts q with
  | none =>
    simp only [ccCount, hf, Option.getD_none]
    have : toU32 0 = 0 := by simp [toU32]
    rw [this]
    exact_mod_cast Nat.zero_le _
  | some c =>
    simp only [ccCount, hf, Option.getD_some]
    exact_mod_cast f1 (c, q) (ccFind_mem _ _ _ hf)

/-- The symbol table on entry to the main loop holds pairwise distinct strings,
and the strings of the ids of the words are the initial tokenizations. -/
theorem learnInit_strings (word_count : wMapCounts) :
    (learnInit word_count).int_to_token.Nodup ∧
    (learnInit word_count).words.map
        (fun w => w.map (tokOf (learnInit word_count).int_to_token)) =
      word_count.map (fun x => tokenize_word x.1) := by
  obtain ⟨k1, _, k3⟩ := tokenize_bij word_count
    { token_to_int := [], int_to_token := [], words := [], counts := [] }
    ⟨List.nodup_nil, by intro t i; simp [Map.find?]⟩
  exact ⟨k1.1, by simpa using k3⟩

/-- The count of the first rule is the largest weighted frequency of a pair of
strings in the initial tokenization: it bounds every frequency, and it is `0` or
the frequency of the pair of strings of `max_p`. -/
theorem learnInit_max (word_count : wMapCounts) (hne : word_count ≠ [])
    (hw : ∀ x ∈ word_count, x.2 < 2 ^ 31) (hT : initialPairTotal word_count < 2 ^ 32) :
    (∀ q, freqStr word_count q ≤ (learnInit word_count).max_c) ∧
    ((learnInit word_count).max_c = 0 ∨
      (learnInit word_count).max_c =
        freqStr word_count
          (tokOf (learnInit word_count).int_to_token (learnInit word_count).max_p.1,
            tokOf (learnInit word_count).int_to_token (learnInit word_count).max_p.2)) := by
  obtain ⟨h1, h2, h3⟩ := learnInit_learnInv word_count hne hw
  obtain ⟨s1, s2⟩ := learnInit_strings word_count
  have hT' : pairTotal (learnInit word_count).words (learnInit word_count).counts < 2 ^ 32 := by
    rw [h3]; exact_mod_cast hT
  have hle := learnInv_le _ h1 hT'
  have hinj := tokOf_inj (learnInit word_count).int_to_token s1
  have hb := h1.bounds
  constructor
  · intro q
    by_cases hq : ∃ a b, a < (learnInit word_count).int_to_token.length ∧
        b < (learnInit word_count).int_to_token.length ∧
        tokOf (learnInit word_count).int_to_token a = q.1 ∧
        tokOf (learnInit word_count).int_to_token b = q.2
    · obtain ⟨a, b, ha, hb', e1, e2⟩ := hq
      have := freq_freqStr _ _ hinj (a, b) ha hb' word_count _ _ h2 s2 hb.words
      simp only [e1, e2] at this
      have h4 := hle (a, b)
      rw [this] at h4
      exact_mod_cast h4
    · rw [freqStr_zero _ _ q hq word_count _ s2 hb.words]
      exact Nat.zero_le _
  · by_cases hpos : 0 < (learnInit word_count).max_c
    · right
      obtain ⟨m1, _⟩ := learnInv_max _ h1 hT' hpos
      rw [freq_freqStr _ _ hinj _ hb.maxp.1 hb.maxp.2 word_count _ _ h2 s2 hb.words] at m1
      exact_mod_cast m1
    · left
      omega

/-- For a non-empty word-count map and `k ≥ 1` the learner returns `k` rules, the
first of which carries the `max_c` of the state on entry to the main loop. -/
theorem learnbpe_first (k : Nat) (word_count : wMapCounts) (hne : word_count ≠ []) :
    ∃ codes left right, _learnbpe (k + 1) word_count = .ok codes ∧ codes.length = k + 1 ∧
      codes.head? = some (left, right, (learnInit word_count).max_c) := by
  obtain ⟨st, hst, _, hlen⟩ := learnLoop_bounds (k + 1) _ (learnInit_bounds word_count hne)
  have hk : _learnbpe (k + 1) word_count = .ok st.codes := by
    unfold _learnbpe learnRun
    rw [hst]
  obtain ⟨l, r, _, _, h3⟩ := learnRun_rule (k + 1) 0 word_count (learnInit word_count) st.codes
    (Nat.succ_pos k) rfl hk
  refine ⟨st.codes, l, r, hk, ?_, ?_⟩
  · rw [hlen]
    show ([] : List triplet).length + (k + 1) = k + 1
    simp
  · cases hc : st.codes with
    | nil => rw [hc] at h3; simp at h3
    | cons c rest =>
      rw [hc] at h3
      simp only [List.get?_cons_zero, Option.some.injEq] at h3
      rw [h3]
      rfl

/-- C4 (as amended): take a non-empty word-count map whose weights are below
`2^31` and whose weighted number of adjacent pairs is below `2^32`, and any two
orders `a`, `b` of enumeration of its entries.  For every `k ≥ 1` the learner
returns `k` rules in both orders, and the count of the first rule is the same;
the pairs and the later rules may differ. -/
theorem first_count_order_independent (k : Nat) (a b : wMapCounts) (hp : a.Perm b)
    (hne : a ≠ []) (hw : ∀ x ∈ a, x.2 < 2 ^ 31) (hT : initialPairTotal a < 2 ^ 32) :
    ∃ ca cb, _learnbpe (k + 1) a = .ok ca ∧ _learnbpe (k + 1) b = .ok cb ∧
      ca.length = k + 1 ∧ cb.length = k + 1 ∧
      ca.head?.map (fun r => r.2.2) = cb.head?.map (fun r => r.2.2) := by
  have hne' : b ≠ [] := by
    intro e
    subst e
    exact hne (List.Perm.eq_nil hp)
  have hw' : ∀ x ∈ b, x.2 < 2 ^ 31 := fun x hx => hw x (hp.mem_iff.2 hx)
  have hT' : initialPairTotal b < 2 ^ 32 := by
    rw [← initialPairTotal_perm a b hp]; exact hT
  obtain ⟨ca, la, ra, a1, a2, a3⟩ := learnbpe_first k a hne
  obtain ⟨cb, lb, rb, b1, b2, b3⟩ := learnbpe_first k b hne'
  obtain ⟨ma, ma'⟩ := learnInit_max a hne hw hT
  obtain ⟨mb, mb'⟩ := learnInit_max b hne' hw' hT'
  refine ⟨ca, cb, a1, b1, a2, b2, ?_⟩
  rw [a3, b3]
  simp only [Option.map_some', Option.some.injEq]
  apply le_antisymm
  · rcases ma' with e | e
    · omega
    · rw [e, freqStr_perm a b hp]
      exact mb _
  · rcases mb' with e | e
    · omega
    · rw [e, ← freqStr_perm a b hp]
      exact ma _

/-- C4 (witness): the two orders of the mapping `ab ↦ 1, cd ↦ 1`, `k = 1`. -/
theorem first_count_order_independent_witness :
    List.Perm [(asc "ab", 1), (asc "cd", 1)] [(asc "cd", 1), (asc "ab", 1)] ∧
    ∃ ca cb, _learnbpe (0 + 1) [(asc "ab", 1), (asc "cd", 1)] = .ok ca ∧
      _learnbpe (0 + 1) [(asc "cd", 1), (asc "ab", 1)] = .ok cb ∧
      ca.length = 0 + 1 ∧ cb.length = 0 + 1 ∧
      ca.head?.map (fun r => r.2.2) = cb.head?.map (fun r => r.2.2) :=
  ⟨List.Perm.swap _ _ _,
    first_count_order_independent 0 [(asc "ab", 1), (asc "cd", 1)] [(asc "cd", 1), (asc "ab", 1)]
      (List.Perm.swap _ _ _) (by decide) (by decide) (by decide)⟩

/-- C3 (as amended): for a word-count map whose weights are below `2^31` and
whose weighted number of adjacent pairs (weight times symbols less one, summed
over the words) is below `2^32`, let `st` be the state before round `i < k` and
let its `max_c` be positive.  The weights the learner holds are those of the
map; the rule of rank `i` is `(left, right, max_c)` with `left`, `right` the
strings of the two ids of `max_p`; `max_c` is the sum over the words of the
weight times the number of adjacent occurrences of `max_p` in the word's symbol
sequence before the rewrite of round `i`; no pair has a larger such sum; and
before round `0` the strings of the symbols of the words are the initial
per-code-point tokenizations. -/
theorem selected_pair_is_most_frequent (kNPairs i : Nat) (word_count : wMapCounts)
    (st : LState) (codes : List triplet)
    (hw : ∀ x ∈ word_count, x.2 < 2 ^ 31)
    (hT : initialPairTotal word_count < 2 ^ 32)
    (hi : i < kNPairs)
    (hst : learnRun i word_count = .ok st)
    (hk : _learnbpe kNPairs word_count = .ok codes)
    (hpos : 0 < st.max_c) :
    st.counts = word_count.map (fun x => (x.2 : Int)) ∧
    (∃ left right, st.int_to_token.get? st.max_p.1 = some left ∧
      st.int_to_token.get? st.max_p.2 = some right ∧
      codes.get? i = some (left, right, st.max_c)) ∧
    (st.max_c : Int) = freq st.words st.counts st.max_p ∧
    (∀ q, freq st.words st.counts q ≤ (st.max_c : Int)) ∧
    (i = 0 → st.words.map (fun w => w.map (tokOf st.int_to_token)) =
      word_count.map (fun x => tokenize_word x.1)) := by
  have hne := learnRun_ne_nil i word_count st hst hpos
  obtain ⟨h1, h2, h3⟩ := learnRun_learnInv i word_count st hne hw hst
  have hT' : pairTotal st.words st.counts < 2 ^ 32 := by
    have : (initialPairTotal word_count : Int) < 2 ^ 32 := by exact_mod_cast hT
    exact lt_of_le_of_lt h3 this
  obtain ⟨m1, m2⟩ := learnInv_max st h1 hT' hpos
  refine ⟨h2, learnRun_rule kNPairs i word_count st codes hi hst hk, m1, m2, ?_⟩
  intro h0
  subst h0
  have e : st = learnInit word_count := by
    have : Except.ok (learnInit word_count) = Except.ok st := hst
    cases this
    rfl
  rw [e]
  exact (learnInit_strings word_count).2

/-- C3 (witness): the corpus of scenario 1 and its first rule `(e, s, 9)`. -/
theorem selected_pair_is_most_frequent_witness :
    ∃ st codes,
      learnRun 0 (getvocabs (asc "low low lower newest newest widest")) = .ok st ∧
      _learnbpe 1 (getvocabs (asc "low low lower newest newest widest")) = .ok codes ∧
      0 < st.max_c ∧
      st.counts = (getvocabs (asc "low low lower newest newest widest")).map
        (fun x => (x.2 : Int)) ∧
      (∃ left right, st.int_to_token.get? st.max_p.1 = some left ∧
        st.int_to_token.get? st.max_p.2 = some right ∧
        codes.get? 0 = some (left, right, st.max_c)) ∧
      (st.max_c : Int) = freq st.words st.counts st.max_p ∧
      (∀ q, freq st.words st.counts q ≤ (st.max_c : Int)) ∧
      (0 = 0 → st.words.map (fun w => w.map (tokOf st.int_to_token)) =
        (getvocabs (asc "low low lower newest newest widest")).map
          (fun x => tokenize_word x.1)) :=
  ⟨learnInit (getvocabs (asc "low low lower newest newest widest")), _, rfl, rfl, by decide,
    selected_pair_is_most_frequent 1 0 (getvocabs (asc "low low lower newest newest widest"))
      _ _ (by decide) (by decide) (by decide) rfl rfl (by decide)⟩

/-- C3 (counterexample): for the words `abc`, `abd`, `abe` with the weights
`2^31 - 1`, `2^31 - 1`, `2` the first rule is `(b, c</w>, 2147483647)`, while the
pair `(a, b)` (the ids `0` and `1`) has the weighted frequency `2^32`: its
32-bit count is `0`. -/
theorem selected_pair_not_most_frequent :
    _learnbpe 1 wcOverflow = .ok [(asc "b", asc "c</w>", 2147483647)] ∧
    (learnInit wcOverflow).int_to_token.get? 0 = some (asc "a") ∧
    (learnInit wcOverflow).int_to_token.get? 1 = some (asc "b") ∧
    (learnInit wcOverflow).counts = wcOverflow.map (fun x => (x.2 : Int)) ∧
    freq (learnInit wcOverflow).words (learnInit wcOverflow).counts (0, 1) = 4294967296 ∧
    ccCount (learnInit wcOverflow).idx.contiguous_counts (0, 1) = 0 := by
  decide

/-! ## The shape of the initial tokenization -/

theorem newChar_zero : newChar 0 = true := by decide

theorem withEnd_cons (p q : Str) (rest : List Str) :
    withEnd (p :: q :: rest) = p :: withEnd (q :: rest) := rfl

/-- From a position other than the first, in a word without NUL byte, the loop
extends the current token by continuation bytes and starts a new token at every
other byte. -/
theorem tokenizeLoop_shape (rest : Str) :
    ∀ (cur : Str) (out : List Str), 0 ∉ rest →
      ∃ x more, tokenizeLoop rest cur false out = out ++ withEnd ((cur ++ x) :: more) ∧
        x ++ more.flatten = rest ∧ (∀ c ∈ x, newChar c = false) ∧
        (∀ p ∈ more, ∃ c t, p = c :: t ∧ newChar c = true ∧ ∀ d ∈ t, newChar d = false) := by
  induction rest with
  | nil =>
    intro cur out _
    exact ⟨[], [], by simp [tokenizeLoop, withEnd], rfl, by simp, by simp⟩
  | cons c rest ih =>
    intro cur out h0
    have hc : c ≠ 0 := by
      intro e
      subst e
      exact h0 (by simp)
    have hr : 0 ∉ rest := fun h => h0 (List.mem_cons_of_mem _ h)
    unfold tokenizeLoop
    rw [if_neg hc]
    by_cases hn : newChar c = true
    · rw [if_pos (by simp [hn])]
      obtain ⟨x, more, e1, e2, e3, e4⟩ := ih [c] (out ++ [cur]) hr
      refine ⟨[], (c :: x) :: more, ?_, ?_, by simp, ?_⟩
      · rw [e1]
        simp [withEnd_cons]
      · simp [e2]
      · intro p hp
        rcases List.mem_cons.1 hp with hp | hp
        · exact ⟨c, x, hp, hn, e3⟩
        · exact e4 p hp
    · rw [if_neg (by simp [hn])]
      obtain ⟨x, more, e1, e2, e3, e4⟩ := ih (cur ++ [c]) out hr
      refine ⟨c :: x, more, ?_, ?_, ?_, e4⟩
      · rw [e1]
        simp
      · simp [e2]
      · intro d hd
        rcases List.mem_cons.1 hd with hd | hd
        · subst hd
          simpa using hn
        · exact e3 d hd

/-- The tokens of a non-empty word without NUL byte are the pieces of the word
cut before every byte, other than the first, that is not a continuation byte,
with `</w>` appended to the last piece. -/
theorem tokenize_word_shape (word : Str) (hne : word ≠ []) (h0 : 0 ∉ word) :
    ∃ pieces, pieces.flatten = word ∧
      (∀ p ∈ pieces, p ≠ [] ∧ ∀ c ∈ p.tail, newChar c = false) ∧
      (∀ p ∈ pieces.tail, ∀ c, p.head? = some c → newChar c = true) ∧
      tokenize_word word = withEnd pieces := by
  cases word with
  | nil => exact absurd rfl hne
  | cons c rest =>
    have hc : c ≠ 0 := by
      intro e
      subst e
      exact h0 (by simp)
    have hr : 0 ∉ rest := fun h => h0 (List.mem_cons_of_mem _ h)
    obtain ⟨x, more, e1, e2, e3, e4⟩ := tokenizeLoop_shape rest [c] [] hr
    refine ⟨(c :: x) :: more, by simp [e2], ?_, ?_, ?_⟩
    · intro p hp
      rcases List.mem_cons.1 hp with hp | hp
      · subst hp
        exact ⟨by simp, by simpa using e3⟩
      · obtain ⟨d, t, e, _, ht⟩ := e4 p hp
        subst e
        exact ⟨by simp, by simpa using ht⟩
    · intro p hp d hd
      simp only [List.tail_cons] at hp
      obtain ⟨d', t, e, hn, _⟩ := e4 p hp
      subst e
      simp only [List.head?_cons, Option.some.injEq] at hd
      subst hd
      exact hn
    · unfold tokenize_word tokenizeLoop
      rw [if_neg hc, if_neg (by simp)]
      simpa using e1

/-- Continuation bytes extend the current token. -/
theorem tokenizeLoop_cont (cs : Str) (hcs : ∀ c ∈ cs, newChar c = false) :
    ∀ (rest cur : Str) (out : List Str),
      tokenizeLoop (cs ++ rest) cur false out = tokenizeLoop rest (cur ++ cs) false out := by
  induction cs with
  | nil => intro rest cur out; simp
  | cons c cs ih =>
    intro rest cur out
    have hn : newChar c = false := hcs c (by simp)
    have hc : c ≠ 0 := by
      intro e
      subst e
      rw [newChar_zero] at hn
      exact Bool.noConfusion hn
    rw [List.cons_append, tokenizeLoop, if_neg hc, if_neg (by simp [hn]),
      ih (fun d hd => hcs d (List.mem_cons_of_mem _ hd))]
    simp

/-- A word of two code points, the second of three bytes, gives two symbols. -/
theorem tokenize_word_two (p1 : Str) (b0 b1 b2 : Nat) (hne : p1 ≠ []) (h0 : 0 ∉ p1 ++ [b0, b1, b2])
    (hp : ∀ c ∈ p1.tail, newChar c = false) (hb0 : newChar b0 = true)
    (hb1 : newChar b1 = false) (hb2 : newChar b2 = false) :
    tokenize_word (p1 ++ [b0, b1, b2]) = [p1, [b0, b1, b2] ++ kEndWord] := by
  cases p1 with
  | nil => exact absurd rfl hne
  | cons c t =>
    have hc : c ≠ 0 := by
      intro e
      subst e
      exact h0 (by simp)
    have hb : b0 ≠ 0 := by
      intro e
      subst e
      exact h0 (by simp)
    simp only [List.tail_cons] at hp
    unfold tokenize_word
    rw [List.cons_append, tokenizeLoop, if_neg hc, if_neg (by simp), tokenizeLoop_cont t hp,
      tokenizeLoop, if_neg hb, if_pos (by simp [hb0])]
    have := tokenizeLoop_cont [b1, b2] (by
      intro d hd
      simp only [List.mem_cons, List.mem_singleton, List.not_mem_nil, or_false] at hd
      rcases hd with hd | hd <;> subst hd <;> assumption) [] [b0] ([] ++ [[] ++ [c] ++ t])
    simp only [List.append_nil] at this
    rw [this]
    simp [tokenizeLoop]

/-- Every key of the folded map is found in it when the value is a function of
the key. -/
theorem foldl_insert_find {α κ ν : Type} [DecidableEq κ] (key : α → κ) (f : κ → ν)
    (l : List α) :
    ∀ (m : Map κ ν) (k : κ), (Map.find? m k = some (f k) ∨ ∃ a ∈ l, key a = k) →
      Map.find? (l.foldl (fun acc a => Map.insert acc (key a) (f (key a))) m) k = some (f k) := by
  induction l with
  | nil =>
    intro m k h
    rcases h with h | ⟨a, ha, _⟩
    · exact h
    · simp at ha
  | cons a rest ih =>
    intro m k h
    simp only [List.foldl_cons]
    apply ih
    by_cases e : key a = k
    · left
      rw [mapFind_insert, if_pos e, e]
    · rcases h with h | ⟨b, hb, hk⟩
      · left
        rw [mapFind_insert, if_neg e]
        exact h
      · rcases List.mem_cons.1 hb with hb | hb
        · subst hb
          exact absurd hk e
        · right
          exact ⟨b, hb, hk⟩

theorem tokenize_str_find (word_count : wMapCounts) (x : Str × Nat) (hx : x ∈ word_count) :
    Map.find? (tokenize_str word_count) x.1 = some (tokenize_word x.1) := by
  unfold tokenize_str
  exact foldl_insert_find (fun x => x.1) tokenize_word word_count [] x.1 (Or.inr ⟨x, hx, rfl⟩)

/-- C11 (as amended): let `x` be an entry of a word-count map whose word is not
empty and holds no NUL byte.  There are pieces that concatenate to the word,
none empty, every piece but the first beginning with a byte that is not a
continuation byte, and no piece holding such a byte after its first one (the
word is cut exactly before every byte at a position above `0` whose top two bits
are not `10`), such that the symbols of the word are the pieces with `</w>`
appended to the last one only, in `tokenize_str` and, through the symbol table,
in `tokenize`; the symbols concatenate to the word followed by `</w>`; and a
word made of one code point followed by a code point of three bytes gives
exactly two symbols, the second being the three bytes followed by `</w>`. -/
theorem initial_tokenization (word_count : wMapCounts) (x : Str × Nat)
    (hx : x ∈ word_count) (hne : x.1 ≠ []) (h0 : 0 ∉ x.1) :
    ∃ pieces, pieces.flatten = x.1 ∧
      (∀ p ∈ pieces, p ≠ [] ∧ ∀ c ∈ p.tail, newChar c = false) ∧
      (∀ p ∈ pieces.tail, ∀ c, p.head? = some c → newChar c = true) ∧
      Map.find? (tokenize_str word_count) x.1 = some (withEnd pieces) ∧
      (∃ i, word_count.get? i = some x ∧
        ((learnInit word_count).words.get? i).map
            (List.map (tokOf (learnInit word_count).int_to_token)) =
          some (withEnd pieces)) ∧
      (withEnd pieces).flatten = x.1 ++ kEndWord ∧
      (∀ p1 b0 b1 b2, x.1 = p1 ++ [b0, b1, b2] → p1 ≠ [] →
        (∀ c ∈ p1.tail, newChar c = false) → newChar b0 = true → newChar b1 = false →
        newChar b2 = false → withEnd pieces = [p1, [b0, b1, b2] ++ kEndWord]) := by
  obtain ⟨pieces, e1, e2, e3, e4⟩ := tokenize_word_shape x.1 hne h0
  refine ⟨pieces, e1, e2, e3, ?_, ?_, ?_, ?_⟩
  · rw [← e4]
    exact tokenize_str_find word_count x hx
  · obtain ⟨i, hi⟩ := List.get?_of_mem hx
    refine ⟨i, hi, ?_⟩
    have := congrArg (fun l => l.get? i) (learnInit_strings word_count).2
    simp only [List.get?_eq_getElem?, List.getElem?_map] at this hi ⊢
    rw [this, hi, ← e4]
    rfl
  · rw [← e4]
    exact tokenize_word_join x.1
  · intro p1 b0 b1 b2 hw hp1 hp hb0 hb1 hb2
    rw [← e4, hw]
    exact tokenize_word_two p1 b0 b1 b2 hp1 (by rw [← hw]; exact h0) hp hb0 hb1 hb2

/-- C11 (witness): the word `a€` (the bytes `61 e2 82 ac`) in a map of two
words. -/
theorem initial_tokenization_witness :
    ∃ pieces, pieces.flatten = [0x61, 0xe2, 0x82, 0xac] ∧
      (∀ p ∈ pieces, p ≠ [] ∧ ∀ c ∈ p.tail, newChar c = false) ∧
      (∀ p ∈ pieces.tail, ∀ c, p.head? = some c → newChar c = true) ∧
      Map.find? (tokenize_str [(asc "low", 2), ([0x61, 0xe2, 0x82, 0xac], 1)])
          [0x61, 0xe2, 0x82, 0xac] = some (withEnd pieces) ∧
      (∃ i, [(asc "low", 2), (([0x61, 0xe2, 0x82, 0xac] : Str), 1)].get? i =
          some ([0x61, 0xe2, 0x82, 0xac], 1) ∧
        ((learnInit [(asc "low", 2), ([0x61, 0xe2, 0x82, 0xac], 1)]).words.get? i).map
            (List.map (tokOf
              (learnInit [(asc "low", 2), ([0x61, 0xe2, 0x82, 0xac], 1)]).int_to_token)) =
          some (withEnd pieces)) ∧
      (withEnd pieces).flatten = [0x61, 0xe2, 0x82, 0xac] ++ kEndWord ∧
      (∀ p1 b0 b1 b2, [0x61, 0xe2, 0x82, 0xac] = p1 ++ [b0, b1, b2] → p1 ≠ [] →
        (∀ c ∈ p1.tail, newChar c = false) → newChar b0 = true → newChar b1 = false →
        newChar b2 = false → withEnd pieces = [p1, [b0, b1, b2] ++ kEndWord]) :=
  initial_tokenization [(asc "low", 2), ([0x61, 0xe2, 0x82, 0xac], 1)]
    ([0x61, 0xe2, 0x82, 0xac], 1) (by decide) (by decide) (by decide)

/-- C11 (counterexample): the word `a`, NUL, `b` is not cut before `b`, a byte at
position `2` whose top two bits are `01`; the loop `while (word[pos])` ends at
the NUL byte and the word is a single symbol. -/
theorem initial_tokenization_stops_at_nul :
    tokenize_word [97, 0, 98] = [[97, 0, 98, 60, 47, 119, 62]] ∧
    newChar 98 = true ∧
    (learnInit [([97, 0, 98], 1)]).words = [[0]] ∧
    (learnInit [([97, 0, 98], 1)]).int_to_token = [[97, 0, 98, 60, 47, 119, 62]] ∧
    tokenize_str [([97, 0, 98], 1)] = [([97, 0, 98], [[97, 0, 98, 60, 47, 119, 62]])] := by
  decide

/-! ## Word counting -/

theorem runsOf_cons (cur : Str) (c : Nat) (rest : Str) :
    runsOf cur (c :: rest) =
      if c = 32 ∨ c = 10 then (if cur = [] then [] else [cur]) ++ runsOf [] rest
      else runsOf (cur ++ [c]) rest := rfl

theorem deal_with_char_sep (cur : Str) (m : wMapCounts) (c : Nat) (hc : c = 32 ∨ c = 10) :
    deal_with_char (cur, m) c = if cur = [] then (cur, m) else ([], bump m cur) := by
  unfold deal_with_char
  rw [if_pos hc]
  by_cases h : cur = []
  · subst h
    simp
  · have hl : ¬ cur.length = 0 := by
      intro e
      exact h (List.length_eq_zero.1 e)
    simp only [hl, h, if_false]
    unfold bump
    cases Map.find? m cur <;> rfl

theorem deal_with_char_other (cur : Str) (m : wMapCounts) (c : Nat) (hc : ¬ (c = 32 ∨ c = 10)) :
    deal_with_char (cur, m) c = (cur ++ [c], m) := by
  unfold deal_with_char
  rw [if_neg hc]

/-- The scan of the padded text counts the runs of the text one after the
other. -/
theorem readString_runs (text : Str) :
    ∀ (cur : Str) (m : wMapCounts),
      (text ++ [10]).foldl deal_with_char (cur, m) = ([], (runsOf cur text).foldl bump m) := by
  induction text with
  | nil =>
    intro cur m
    simp only [List.nil_append, List.foldl_cons, List.foldl_nil]
    rw [deal_with_char_sep cur m 10 (Or.inr rfl)]
    by_cases h : cur = []
    · subst h
      simp [runsOf]
    · simp [runsOf, h]
  | cons c rest ih =>
    intro cur m
    simp only [List.cons_append, List.foldl_cons]
    rw [runsOf_cons]
    by_cases hc : c = 32 ∨ c = 10
    · rw [deal_with_char_sep cur m c hc, if_pos hc]
      by_cases h : cur = []
      · subst h
        simp only [if_true, List.nil_append]
        exact ih [] m
      · simp only [h, if_false, List.singleton_append, List.foldl_cons]
        exact ih [] (bump m cur)
    · rw [deal_with_char_other cur m c hc, if_neg hc]
      exact ih (cur ++ [c]) m

theorem getvocabs_eq (text : Str) : getvocabs text = (runsOf [] text).foldl bump [] := by
  unfold getvocabs readString readStringState
  rw [padText_eq, readString_runs]

theorem find_bump (m : wMapCounts) (a w : Str) :
    Map.find? (bump m a) w =
      if a = w then some (((Map.find? m w).getD 0 + 1) % 2 ^ 32) else Map.find? m w := by
  unfold bump
  rw [mapFind_insert]
  by_cases h : a = w
  · subst h
    simp
  · simp [h]

theorem find_foldl_bump (ws : List Str) :
    ∀ (m : wMapCounts) (w : Str),
      Map.find? (ws.foldl bump m) w =
        if w ∈ ws then some (((Map.find? m w).getD 0 + ws.count w) % 2 ^ 32)
        else Map.find? m w := by
  induction ws with
  | nil => intro m w; simp
  | cons a rest ih =>
    intro m w
    simp only [List.foldl_cons]
    rw [ih (bump m a) w, find_bump]
    by_cases h : a = w
    · subst h
      simp only [if_true, Option.getD_some, List.mem_cons, true_or, List.count_cons_self]
      by_cases hr : a ∈ rest
      · simp only [hr, if_true, Option.some.injEq]
        omega
      · simp only [hr, if_false, List.count_eq_zero_of_not_mem hr, Option.some.injEq]
    · have hw : w ≠ a := fun e => h e.symm
      simp only [h, if_false, List.mem_cons, hw, false_or]
      rw [List.count_cons_of_ne hw]

theorem keys_insert {κ ν : Type} [DecidableEq κ] (m : Map κ ν) (k : κ) (v : ν) :
    (Map.insert m k v).map Prod.fst =
      if k ∈ m.map Prod.fst then m.map Prod.fst else m.map Prod.fst ++ [k] := by
  induction m with
  | nil => simp [Map.insert]
  | cons x rest ih =>
    obtain ⟨k', v'⟩ := x
    by_cases h : k' = k
    · subst h
      simp [Map.insert]
    · have h2 : ¬ k = k' := fun e => h e.symm
      simp only [Map.insert, h, if_false, List.map_cons, ih, List.mem_cons, h2, false_or]
      split <;> simp

theorem keys_insert_nodup {κ ν : Type} [DecidableEq κ] (m : Map κ ν) (k : κ) (v : ν)
    (h : (m.map Prod.fst).Nodup) : ((Map.insert m k v).map Prod.fst).Nodup := by
  rw [keys_insert]
  split
  · exact h
  · rename_i hk
    exact List.Nodup.append h (by simp) (by
      intro x hx hx2
      simp only [List.mem_singleton] at hx2
      subst hx2
      exact hk hx)

theorem keys_foldl_bump (ws : List Str) :
    ∀ (m : wMapCounts), (m.map Prod.fst).Nodup → ((ws.foldl bump m).map Prod.fst).Nodup := by
  induction ws with
  | nil => intro m h; exact h
  | cons a rest ih =>
    intro m h
    simp only [List.foldl_cons]
    exact ih _ (keys_insert_nodup m a _ h)

theorem runsOf_length (text : Str) : ∀ (cur : Str), (runsOf cur text).length ≤ text.length + 1 := by
  induction text with
  | nil => intro cur; simp only [runsOf]; split <;> simp
  | cons c rest ih =>
    intro cur
    rw [runsOf_cons]
    split
    · have := ih []
      split <;> simp <;> omega
    · have := ih (cur ++ [c])
      simp only [List.length_cons]
      omega

theorem runsOf_mem (text : Str) :
    ∀ (cur : Str), 32 ∉ cur → 10 ∉ cur →
      ∀ w ∈ runsOf cur text, w ≠ [] ∧ 32 ∉ w ∧ 10 ∉ w := by
  induction text with
  | nil =>
    intro cur h1 h2 w hw
    simp only [runsOf] at hw
    split at hw
    · simp at hw
    · rename_i hne
      simp only [List.mem_singleton] at hw
      subst hw
      exact ⟨hne, h1, h2⟩
  | cons c rest ih =>
    intro cur h1 h2 w hw
    rw [runsOf_cons] at hw
    split at hw
    · rcases List.mem_append.1 hw with hw | hw
      · split at hw
        · simp at hw
        · rename_i hne
          simp only [List.mem_singleton] at hw
          subst hw
          exact ⟨hne, h1, h2⟩
      · exact ih [] (by simp) (by simp) w hw
    · rename_i hc
      refine ih (cur ++ [c]) ?_ ?_ w hw
      · simp only [List.mem_append, List.mem_singleton, not_or]
        exact ⟨h1, fun e => hc (Or.inl e.symm)⟩
      · simp only [List.mem_append, List.mem_singleton, not_or]
        exact ⟨h2, fun e => hc (Or.inr e.symm)⟩

/-- C12: for a text shorter than `2^31` bytes (the scan indexes it with an
`int`), `getvocabs` returns a mapping without repeated key whose keys are
exactly the maximal runs of bytes other than space and newline of the text, a
final run without separator after it included, each with its number of
occurrences; the runs are not empty and hold the bytes of the text as they
are. -/
theorem word_counting (text : Str) (hlen : text.length < 2 ^ 31) :
    ((getvocabs text).map Prod.fst).Nodup ∧
    (∀ w ∈ runsOf [] text, w ≠ [] ∧ 32 ∉ w ∧ 10 ∉ w) ∧
    ∀ w, Map.find? (getvocabs text) w =
      if w ∈ runsOf [] text then some ((runsOf [] text).count w) else none := by
  rw [getvocabs_eq]
  refine ⟨keys_foldl_bump _ [] List.nodup_nil, runsOf_mem text [] (by simp) (by simp), ?_⟩
  intro w
  rw [find_foldl_bump]
  have h1 := runsOf_length text []
  have h2 : (runsOf [] text).count w ≤ (runsOf [] text).length := List.count_le_length _ _
  have h3 : (runsOf [] text).count w < 2 ^ 32 := by omega
  simp only [Map.find?, Option.getD_none, Nat.zero_add, Nat.mod_eq_of_lt h3]

/-- C12 (witness): a text with repeated words, doubled separators and a final
word without separator. -/
theorem word_counting_witness :
    ((getvocabs (asc "low  low\n\nlower low")).map Prod.fst).Nodup ∧
    (∀ w ∈ runsOf [] (asc "low  low\n\nlower low"), w ≠ [] ∧ 32 ∉ w ∧ 10 ∉ w) ∧
    ∀ w, Map.find? (getvocabs (asc "low  low\n\nlower low")) w =
      if w ∈ runsOf [] (asc "low  low\n\nlower low") then
        some ((runsOf [] (asc "low  low\n\nlower low")).count w)
      else none :=
  word_counting (asc "low  low\n\nlower low") (by decide)

/-! ## Reading the codes file -/

theorem splitLoop_cons (sep : Nat) (cur : Str) (c : Nat) (rest : Str) :
    splitLoop sep cur (c :: rest) =
      if c = sep then (if cur = [] then [] else [cur]) ++ splitLoop sep [] rest
      else splitLoop sep (cur ++ [c]) rest := rfl

theorem splitLoop_append (sep : Nat) (x : Str) (hx : sep ∉ x) :
    ∀ (cur rest : Str), splitLoop sep cur (x ++ rest) = splitLoop sep (cur ++ x) rest := by
  induction x with
  | nil => intro cur rest; simp
  | cons c x ih =>
    intro cur rest
    have hc : ¬ c = sep := fun e => hx (by simp [e])
    rw [List.cons_append, splitLoop_cons, if_neg hc, ih (fun h => hx (List.mem_cons_of_mem _ h))]
    simp

theorem split_ruleLine (r : Str × Str × Str)
    (h : r.1 ≠ [] ∧ r.2.1 ≠ [] ∧ r.2.2 ≠ [] ∧ 32 ∉ r.1 ∧ 32 ∉ r.2.1 ∧ 32 ∉ r.2.2) :
    split (ruleLine r) 32 = [r.1, r.2.1, r.2.2] := by
  obtain ⟨h1, h2, h3, h4, h5, h6⟩ := h
  have e : ruleLine r = r.1 ++ (32 :: (r.2.1 ++ (32 :: (r.2.2 ++ [])))) := by
    simp [ruleLine]
  unfold split
  rw [e, splitLoop_append 32 r.1 h4, splitLoop_cons, if_pos rfl, List.nil_append, if_neg h1,
    splitLoop_append 32 r.2.1 h5, splitLoop_cons, if_pos rfl, List.nil_append, if_neg h2,
    splitLoop_append 32 r.2.2 h6]
  simp [splitLoop, h3]

theorem linePair_ruleLine (r : Str × Str × Str)
    (h : r.1 ≠ [] ∧ r.2.1 ≠ [] ∧ r.2.2 ≠ [] ∧ 32 ∉ r.1 ∧ 32 ∉ r.2.1 ∧ 32 ∉ r.2.2) :
    linePair (ruleLine r) = (r.1, r.2.1) ∧ lineCat (ruleLine r) = r.1 ++ r.2.1 := by
  unfold linePair lineCat
  rw [split_ruleLine r h]
  exact ⟨rfl, rfl⟩

theorem mapFind_none_iff {κ ν : Type} [DecidableEq κ] (m : Map κ ν) (k : κ) :
    Map.find? m k = none ↔ k ∉ m.map Prod.fst := by
  induction m with
  | nil => simp [Map.find?]
  | cons x rest ih =>
    obtain ⟨k', v'⟩ := x
    by_cases h : k' = k
    · subst h
      simp [Map.find?]
    · have h2 : ¬ k = k' := fun e => h e.symm
      simp [Map.find?, h, h2, ih]

theorem mapInsert_new {κ ν : Type} [DecidableEq κ] (m : Map κ ν) (k : κ) (v : ν)
    (h : Map.find? m k = none) : Map.insert m k v = m ++ [(k, v)] := by
  induction m with
  | nil => rfl
  | cons x rest ih =>
    obtain ⟨k', v'⟩ := x
    by_cases hk : k' = k
    · subst hk
      simp [Map.find?] at h
    · simp only [Map.find?, hk, if_false] at h
      simp [Map.insert, hk, ih h]

theorem mapFind_of_mem {κ ν : Type} [DecidableEq κ] (m : Map κ ν) (k : κ) (v : ν)
    (hnd : (m.map Prod.fst).Nodup) (h : (k, v) ∈ m) : Map.find? m k = some v := by
  induction m with
  | nil => simp at h
  | cons x rest ih =>
    obtain ⟨k', v'⟩ := x
    simp only [List.map_cons, List.nodup_cons] at hnd
    rcases List.mem_cons.1 h with h | h
    · cases h
      simp [Map.find?]
    · have hk : ¬ k' = k := by
        intro e
        subst e
        exact hnd.1 (List.mem_map.2 ⟨(k', v), h, rfl⟩)
      simp only [Map.find?, hk, if_false]
      exact ih hnd.2 h

theorem readCodesStep_ok (st : codesMap × reverseCodesMap) (line : Str)
    (h3 : (split line 32).length = 3) (hp : Map.find? st.1 (linePair line) = none)
    (hc : Map.find? st.2 (lineCat line) = none) :
    readCodesStep st line =
      .ok (st.1 ++ [(linePair line, st.1.length % 2 ^ 32)],
        st.2 ++ [(lineCat line, linePair line)]) := by
  unfold readCodesStep
  simp only [h3, ne_eq, not_true_eq_false, if_false]
  have hp' : Map.find? st.1 ((split line 32).getD 0 [], (split line 32).getD 1 []) = none := hp
  have hc' : Map.find? st.2 ((split line 32).getD 0 [] ++ (split line 32).getD 1 []) = none := hc
  rw [hp', hc']
  simp only [Option.isSome_none, Bool.false_eq_true, if_false]
  rw [mapInsert_new _ _ _ hp', mapInsert_new _ _ _ hc']
  rfl

theorem readCodesStep_error (st : codesMap × reverseCodesMap) (line : Str)
    (h : (split line 32).length ≠ 3 ∨ Map.find? st.1 (linePair line) ≠ none ∨
      Map.find? st.2 (lineCat line) ≠ none) :
    readCodesStep st line = .error Err.assertion := by
  unfold readCodesStep
  simp only
  by_cases h3 : (split line 32).length ≠ 3
  · rw [if_pos h3]
  · rw [if_neg h3]
    by_cases hp : (Map.find? st.1 ((split line 32).getD 0 [], (split line 32).getD 1 [])).isSome
    · rw [if_pos hp]
    · rw [if_neg hp]
      by_cases hc : (Map.find? st.2 ((split line 32).getD 0 [] ++ (split line 32).getD 1 [])).isSome
      · rw [if_pos hc]
      · exfalso
        rcases h with h | h | h
        · exact h3 h
        · exact h (Option.not_isSome_iff_eq_none.1 hp)
        · exact h (Option.not_isSome_iff_eq_none.1 hc)

/-- The loop of `readCodes` on the lines of rules with pairwise distinct pairs
and concatenations, none of them a key yet: every rule is appended to both maps,
with the size of `codes` as its rank. -/
theorem readCodesLoop_rules (rules : List (Str × Str × Str)) :
    ∀ (st : codesMap × reverseCodesMap),
      (∀ r ∈ rules, r.1 ≠ [] ∧ r.2.1 ≠ [] ∧ r.2.2 ≠ [] ∧ 32 ∉ r.1 ∧ 32 ∉ r.2.1 ∧ 32 ∉ r.2.2) →
      (rules.map (fun r => (r.1, r.2.1))).Nodup →
      (rules.map (fun r => r.1 ++ r.2.1)).Nodup →
      (∀ r ∈ rules, Map.find? st.1 (r.1, r.2.1) = none) →
      (∀ r ∈ rules, Map.find? st.2 (r.1 ++ r.2.1) = none) →
      readCodesLoop (rules.map ruleLine) st =
        .ok (st.1 ++ (rules.enumFrom st.1.length).map (fun x => ((x.2.1, x.2.2.1), x.1 % 2 ^ 32)),
          st.2 ++ rules.map (fun r => (r.1 ++ r.2.1, (r.1, r.2.1)))) := by
  induction rules with
  | nil => intro st _ _ _ _ _; simp [readCodesLoop]
  | cons r rest ih =>
    intro st hwf hp hc hfp hfc
    obtain ⟨e1, e2⟩ := linePair_ruleLine r (hwf r (by simp))
    simp only [List.map_cons, List.nodup_cons] at hp hc
    simp only [List.map_cons, readCodesLoop]
    rw [readCodesStep_ok st (ruleLine r) (by rw [split_ruleLine r (hwf r (by simp))]; rfl)
      (by rw [e1]; exact hfp r (by simp)) (by rw [e2]; exact hfc r (by simp))]
    simp only
    rw [ih _ (fun x hx => hwf x (List.mem_cons_of_mem _ hx)) hp.2 hc.2 ?_ ?_]
    · simp only [e1, e2, List.length_append, List.length_singleton, List.enumFrom_cons,
        List.map_cons, List.append_assoc, List.singleton_append]
    · intro x hx
      simp only
      rw [mapFind_none_iff]
      simp only [List.map_append, List.map_cons, List.map_nil, List.mem_append,
        List.mem_singleton, not_or]
      refine ⟨(mapFind_none_iff _ _).1 (hfp x (List.mem_cons_of_mem _ hx)), ?_⟩
      rw [e1]
      intro e
      exact hp.1 (List.mem_map.2 ⟨x, hx, e⟩)
    · intro x hx
      simp only
      rw [mapFind_none_iff]
      simp only [List.map_append, List.map_cons, List.map_nil, List.mem_append,
        List.mem_singleton, not_or]
      refine ⟨(mapFind_none_iff _ _).1 (hfc x (List.mem_cons_of_mem _ hx)), ?_⟩
      rw [e2]
      intro e
      exact hc.1 (List.mem_map.2 ⟨x, hx, e⟩)

/-- The maps read from the lines of rules with pairwise distinct pairs and
concatenations. -/
theorem readCodesLoop_finds (rules : List (Str × Str × Str))
    (hwf : ∀ r ∈ rules, r.1 ≠ [] ∧ r.2.1 ≠ [] ∧ r.2.2 ≠ [] ∧ 32 ∉ r.1 ∧ 32 ∉ r.2.1 ∧ 32 ∉ r.2.2)
    (hp : (rules.map (fun r => (r.1, r.2.1))).Nodup)
    (hc : (rules.map (fun r => r.1 ++ r.2.1)).Nodup) :
    ∃ codes rev, readCodesLoop (rules.map ruleLine) ([], []) = .ok (codes, rev) ∧
      (∀ i r, rules.get? i = some r →
        Map.find? codes (r.1, r.2.1) = some (i % 2 ^ 32) ∧
        Map.find? rev (r.1 ++ r.2.1) = some (r.1, r.2.1)) ∧
      (∀ p, (Map.find? codes p).isSome → ∃ r ∈ rules, p = (r.1, r.2.1)) ∧
      (∀ s, (Map.find? rev s).isSome → ∃ r ∈ rules, s = r.1 ++ r.2.1) := by
  refine ⟨_, _, readCodesLoop_rules rules ([], []) hwf hp hc (by simp [Map.find?])
    (by simp [Map.find?]), ?_, ?_, ?_⟩
  · intro i r hi
    simp only [List.nil_append, List.length_nil]
    constructor
    · apply mapFind_of_mem
      · simp only [List.map_map]
        have : (Prod.fst ∘ fun (x : Nat × Str × Str × Str) => ((x.2.1, x.2.2.1), x.1 % 2 ^ 32)) =
            (fun r => (r.1, r.2.1)) ∘ Prod.snd := rfl
        rw [this, ← List.map_map, List.enumFrom_map_snd]
        exact hp
      · apply List.mem_map.2
        refine ⟨(i, r), ?_, rfl⟩
        rw [List.mk_mem_enumFrom_iff_le_and_getElem?_sub]
        simp only [Nat.zero_le, Nat.sub_zero, true_and]
        rw [← List.get?_eq_getElem?]
        exact hi
    · apply mapFind_of_mem
      · simp only [List.map_map]
        exact hc
      · exact List.mem_map.2 ⟨r, List.get?_mem hi, rfl⟩
  · intro p h
    simp only [List.nil_append, List.length_nil] at h
    obtain ⟨v, hv⟩ := Option.isSome_iff_exists.1 h
    obtain ⟨x, hx, e⟩ := List.mem_map.1 (mapFind_mem _ _ _ hv)
    refine ⟨x.2, ?_, ?_⟩
    · have := List.mem_map_of_mem Prod.snd hx
      rw [List.enumFrom_map_snd] at this
      exact this
    · simp only [Prod.mk.injEq] at e
      exact e.1.symm
  · intro s h
    simp only [List.nil_append] at h
    obtain ⟨v, hv⟩ := Option.isSome_iff_exists.1 h
    obtain ⟨x, hx, e⟩ := List.mem_map.1 (mapFind_mem _ _ _ hv)
    refine ⟨x, hx, ?_⟩
    simp only [Prod.mk.injEq] at e
    exact e.1.symm

/-- The loop of `readCodes` fails, on an assertion, exactly when some line has
not three fields or repeats the pair or the concatenation of a key or of an
earlier line; otherwise it returns. -/
theorem readCodesLoop_error_iff (lines : List Str) :
    ∀ (st : codesMap × reverseCodesMap),
      (readCodesLoop lines st = .error Err.assertion ↔
        ∃ i line, lines.get? i = some line ∧
          ((split line 32).length ≠ 3 ∨
            linePair line ∈ st.1.map Prod.fst ++ (lines.take i).map linePair ∨
            lineCat line ∈ st.2.map Prod.fst ++ (lines.take i).map lineCat)) ∧
      ((∃ r, readCodesLoop lines st = .ok r) ∨ readCodesLoop lines st = .error Err.assertion) := by
  induction lines with
  | nil =>
    intro st
    refine ⟨⟨?_, ?_⟩, Or.inl ⟨st, rfl⟩⟩
    · intro h
      simp [readCodesLoop] at h
    · rintro ⟨i, line, h, _⟩
      simp at h
  | cons line rest ih =>
    intro st
    by_cases hbad : (split line 32).length ≠ 3 ∨ Map.find? st.1 (linePair line) ≠ none ∨
        Map.find? st.2 (lineCat line) ≠ none
    · have e : readCodesLoop (line :: rest) st = .error Err.assertion := by
        simp only [readCodesLoop]
        rw [readCodesStep_error st line hbad]
      refine ⟨⟨fun _ => ⟨0, line, rfl, ?_⟩, fun _ => e⟩, Or.inr e⟩
      rcases hbad with h | h | h
      · exact Or.inl h
      · right; left
        simp only [List.take_zero, List.map_nil, List.append_nil]
        by_contra hn
        exact h ((mapFind_none_iff _ _).2 hn)
      · right; right
        simp only [List.take_zero, List.map_nil, List.append_nil]
        by_contra hn
        exact h ((mapFind_none_iff _ _).2 hn)
    · simp only [not_or, not_not] at hbad
      obtain ⟨h3, hp, hc⟩ := hbad
      have e : readCodesLoop (line :: rest) st =
          readCodesLoop rest (st.1 ++ [(linePair line, st.1.length % 2 ^ 32)],
            st.2 ++ [(lineCat line, linePair line)]) := by
        simp only [readCodesLoop]
        rw [readCodesStep_ok st line h3 hp hc]
      obtain ⟨i1, i2⟩ := ih (st.1 ++ [(linePair line, st.1.length % 2 ^ 32)],
        st.2 ++ [(lineCat line, linePair line)])
      rw [e]
      refine ⟨?_, i2⟩
      rw [i1]
      simp only [List.map_append, List.map_cons, List.map_nil, List.append_assoc,
        List.singleton_append]
      constructor
      · rintro ⟨i, l, hi, hb⟩
        exact ⟨i + 1, l, hi, by simpa using hb⟩
      · rintro ⟨i, l, hi, hb⟩
        cases i with
        | zero =>
          simp only [List.get?_cons_zero, Option.some.injEq] at hi
          subst hi
          simp only [List.take_zero, List.map_nil, List.append_nil] at hb
          rcases hb with hb | hb | hb
          · exact absurd h3 hb
          · exact absurd hp ((mapFind_none_iff _ _).not.2 (not_not.2 hb))
          · exact absurd hc ((mapFind_none_iff _ _).not.2 (not_not.2 hb))
        | succ j =>
          exact ⟨j, l, hi, by simpa using hb⟩

theorem getlines_cons (cur : Str) (c : Nat) (rest : Str) :
    getlines cur (c :: rest) =
      if c = 10 then cur :: getlines [] rest else getlines (cur ++ [c]) rest := rfl

theorem getlines_append (x : Str) (hx : 10 ∉ x) :
    ∀ (cur rest : Str), getlines cur (x ++ 10 :: rest) = (cur ++ x) :: getlines [] rest := by
  induction x with
  | nil => intro cur rest; simp [getlines_cons]
  | cons c x ih =>
    intro cur rest
    have hc : ¬ c = 10 := fun e => hx (by simp [e])
    rw [List.cons_append, getlines_cons, if_neg hc, ih (fun h => hx (List.mem_cons_of_mem _ h))]
    simp

theorem getlines_rulesFile (rules : List (Str × Str × Str))
    (h : ∀ r ∈ rules, 10 ∉ ruleLine r) :
    getlines [] (rulesFile rules) = rules.map ruleLine := by
  unfold rulesFile
  induction rules with
  | nil => rfl
  | cons r rest ih =>
    simp only [List.map_cons, List.flatten_cons, List.append_assoc, List.singleton_append]
    rw [getlines_append _ (h r (by simp)), ih (fun x hx => h x (List.mem_cons_of_mem _ hx))]
    simp

/-- C13 (as amended): for a codes file of at most `2^32` lines `left␠right␠count`
(three non-empty fields without space), with pairwise distinct pairs and
pairwise distinct concatenations, `readCodes` returns a codes map that sends the
pair of line `i`, counted from `0`, to the rank `i`, and a reversed map that
sends `left ++ right` to `(left, right)`; the maps have no other key. -/
theorem readCodes_parses (file : Str) (rules : List (Str × Str × Str))
    (hlines : getlines [] file = rules.map ruleLine)
    (hwf : ∀ r ∈ rules, r.1 ≠ [] ∧ r.2.1 ≠ [] ∧ r.2.2 ≠ [] ∧ 32 ∉ r.1 ∧ 32 ∉ r.2.1 ∧ 32 ∉ r.2.2)
    (hp : (rules.map (fun r => (r.1, r.2.1))).Nodup)
    (hc : (rules.map (fun r => r.1 ++ r.2.1)).Nodup)
    (hn : rules.length ≤ 2 ^ 32) :
    ∃ codes rev, readCodes file = .ok (codes, rev) ∧
      (∀ i r, rules.get? i = some r →
        Map.find? codes (r.1, r.2.1) = some i ∧
        Map.find? rev (r.1 ++ r.2.1) = some (r.1, r.2.1)) ∧
      (∀ p, (Map.find? codes p).isSome → ∃ r ∈ rules, p = (r.1, r.2.1)) ∧
      (∀ s, (Map.find? rev s).isSome → ∃ r ∈ rules, s = r.1 ++ r.2.1) := by
  obtain ⟨codes, rev, h1, h2, h3, h4⟩ := readCodesLoop_finds rules hwf hp hc
  refine ⟨codes, rev, by unfold readCodes; rw [hlines]; exact h1, ?_, h3, h4⟩
  intro i r hi
  obtain ⟨g1, g2⟩ := h2 i r hi
  refine ⟨?_, g2⟩
  rw [g1]
  have hlt : i < rules.length := by
    rw [List.get?_eq_getElem?] at hi
    by_contra hge
    rw [List.getElem?_eq_none (by omega)] at hi
    exact Option.noConfusion hi
  rw [Nat.mod_eq_of_lt (by omega)]

/-- C13 (witness): a codes file of three rules. -/
theorem readCodes_parses_witness :
    ∃ codes rev, readCodes (asc "e s 9\nes t</w> 9\nl o 7\n") = .ok (codes, rev) ∧
      (∀ i r, [(asc "e", asc "s", asc "9"), (asc "es", asc "t</w>", asc "9"),
          (asc "l", asc "o", asc "7")].get? i = some r →
        Map.find? codes (r.1, r.2.1) = some i ∧
        Map.find? rev (r.1 ++ r.2.1) = some (r.1, r.2.1)) ∧
      (∀ p, (Map.find? codes p).isSome →
        ∃ r ∈ [(asc "e", asc "s", asc "9"), (asc "es", asc "t</w>", asc "9"),
          (asc "l", asc "o", asc "7")], p = (r.1, r.2.1)) ∧
      (∀ s, (Map.find? rev s).isSome →
        ∃ r ∈ [(asc "e", asc "s", asc "9"), (asc "es", asc "t</w>", asc "9"),
          (asc "l", asc "o", asc "7")], s = r.1 ++ r.2.1) :=
  readCodes_parses (asc "e s 9\nes t</w> 9\nl o 7\n")
    [(asc "e", asc "s", asc "9"), (asc "es", asc "t</w>", asc "9"), (asc "l", asc "o", asc "7")]
    (by rfl) (by decide) (by decide) (by decide) (by decide)

theorem manyRules_mem (n : Nat) (r : Str × Str × Str) (h : r ∈ manyRules n) :
    ∃ i, i < n ∧ r = ((Nat.digits 2 (i + 1)).map (fun d => d + 97), [98], [49]) := by
  unfold manyRules at h
  obtain ⟨i, hi, e⟩ := List.mem_map.1 h
  exact ⟨i, List.mem_range.1 hi, e.symm⟩

theorem manyRules_fields (n : Nat) :
    ∀ r ∈ manyRules n,
      (r.1 ≠ [] ∧ r.2.1 ≠ [] ∧ r.2.2 ≠ [] ∧ 32 ∉ r.1 ∧ 32 ∉ r.2.1 ∧ 32 ∉ r.2.2) ∧
      10 ∉ ruleLine r := by
  intro r hr
  obtain ⟨i, _, e⟩ := manyRules_mem n r hr
  subst e
  have hne : (Nat.digits 2 (i + 1)).map (fun d => d + 97) ≠ [] := by
    intro e
    have := List.map_eq_nil_iff.1 e
    exact (Nat.digits_ne_nil_iff_ne_zero.2 (Nat.succ_ne_zero i)) this
  have hno : ∀ c, c < 97 → c ∉ (Nat.digits 2 (i + 1)).map (fun d => d + 97) := by
    intro c hc hm
    obtain ⟨d, _, e⟩ := List.mem_map.1 hm
    omega
  refine ⟨⟨hne, by simp, by simp, hno 32 (by omega), by simp, by simp⟩, ?_⟩
  unfold ruleLine
  simp only [List.mem_append, List.mem_singleton, not_or]
  exact ⟨⟨⟨⟨hno 10 (by omega), by omega⟩, by omega⟩, by omega⟩, by omega⟩

theorem manyRules_nodup (n : Nat) :
    ((manyRules n).map (fun r => (r.1, r.2.1))).Nodup ∧
    ((manyRules n).map (fun r => r.1 ++ r.2.1)).Nodup := by
  have hinj : Function.Injective (fun i : Nat => (Nat.digits 2 (i + 1)).map (fun d => d + 97)) := by
    intro i j e
    have h1 : Function.Injective (fun d : Nat => d + 97) := fun a b h => Nat.add_right_cancel h
    have h2 := List.map_injective_iff.2 h1 e
    have h3 := Nat.digits.injective 2 h2
    omega
  unfold manyRules
  simp only [List.map_map]
  constructor
  · apply List.Nodup.map _ (List.nodup_range n)
    intro i j e
    simp only [Function.comp, Prod.mk.injEq, and_true] at e
    exact hinj e
  · apply List.Nodup.map _ (List.nodup_range n)
    intro i j e
    simp only [Function.comp] at e
    exact hinj (List.append_cancel_right e)

theorem manyRules_get (n : Nat) :
    (manyRules (n + 1)).get? n =
      some ((Nat.digits 2 (n + 1)).map (fun d => d + 97), [98], [49]) := by
  unfold manyRules
  rw [List.get?_eq_getElem?, List.getElem?_map, List.getElem?_range (Nat.lt_succ_self n)]
  rfl

/-- A codes file of `n + 1` well-formed lines with distinct pairs and
concatenations, whose last pair gets the rank `n % 2^32`. -/
theorem manyRules_read (n : Nat) :
    ∃ codes rev, readCodes (rulesFile (manyRules (n + 1))) = .ok (codes, rev) ∧
      Map.find? codes ((Nat.digits 2 (n + 1)).map (fun d => d + 97), [98]) =
        some (n % 2 ^ 32) := by
  obtain ⟨codes, rev, h1, h2, _, _⟩ := readCodesLoop_finds (manyRules (n + 1))
    (fun r hr => (manyRules_fields _ r hr).1) (manyRules_nodup _).1 (manyRules_nodup _).2
  refine ⟨codes, rev, ?_, (h2 n _ (manyRules_get n)).1⟩
  unfold readCodes
  rw [getlines_rulesFile _ (fun r hr => (manyRules_fields _ r hr).2)]
  exact h1

/-- C13 (counterexample): a codes file of `2^32 + 1` lines `left␠b␠1`, three
non-empty fields each, with pairwise distinct pairs and concatenations (the left
parts spell `1, 2, ...` in binary).  `readCodes` returns, and the pair of line
`2^32` has the rank `0`: `codes.size()` is converted to `uint32_t`. -/
theorem readCodes_rank_wraps :
    getlines [] (rulesFile (manyRules (2 ^ 32 + 1))) = (manyRules (2 ^ 32 + 1)).map ruleLine ∧
    (∀ r ∈ manyRules (2 ^ 32 + 1),
      r.1 ≠ [] ∧ r.2.1 ≠ [] ∧ r.2.2 ≠ [] ∧ 32 ∉ r.1 ∧ 32 ∉ r.2.1 ∧ 32 ∉ r.2.2) ∧
    ((manyRules (2 ^ 32 + 1)).map (fun r => (r.1, r.2.1))).Nodup ∧
    ((manyRules (2 ^ 32 + 1)).map (fun r => r.1 ++ r.2.1)).Nodup ∧
    (manyRules (2 ^ 32 + 1)).get? (2 ^ 32) =
      some ((Nat.digits 2 (2 ^ 32 + 1)).map (fun d => d + 97), [98], [49]) ∧
    ∃ codes rev, readCodes (rulesFile (manyRules (2 ^ 32 + 1))) = .ok (codes, rev) ∧
      Map.find? codes ((Nat.digits 2 (2 ^ 32 + 1)).map (fun d => d + 97), [98]) = some 0 := by
  refine ⟨getlines_rulesFile _ (fun r hr => (manyRules_fields _ r hr).2),
    fun r hr => (manyRules_fields _ r hr).1, (manyRules_nodup _).1, (manyRules_nodup _).2,
    manyRules_get (2 ^ 32), ?_⟩
  obtain ⟨codes, rev, h1, h2⟩ := manyRules_read (2 ^ 32)
  rw [Nat.mod_self] at h2
  exact ⟨codes, rev, h1, h2⟩

/-! ## The worker pool of `_buildbpes` -/

theorem foldl_insert_keys {α κ ν : Type} [DecidableEq κ] (key : α → κ) (val : α → ν)
    (l : List α) :
    ∀ (m : Map κ ν) (k : κ),
      Map.find? (l.foldl (fun acc a => Map.insert acc (key a) (val a)) m) k ≠ none ↔
        (Map.find? m k ≠ none ∨ k ∈ l.map key) := by
  induction l with
  | nil => intro m k; simp
  | cons a rest ih =>
    intro m k
    simp only [List.foldl_cons, List.map_cons, List.mem_cons]
    rw [ih, mapFind_insert]
    by_cases e : key a = k
    · simp [e]
    · have e2 : ¬ k = key a := fun h => e h.symm
      simp [e, e2]

theorem workerRun_ok (fuel : Nat) (codes : codesMap) (rev : reverseCodesMap)
    (vocab : wMapCounts) (items : List (Str × List Str)) :
    ∀ (bpe : Map Str Str),
      (∀ x ∈ items, ∃ out, process_bpe fuel x.2 codes rev vocab = .ok out) →
      ∃ m, workerRun fuel codes rev vocab items bpe = .ok m ∧
        ∀ w, Map.find? m w ≠ none ↔ (Map.find? bpe w ≠ none ∨ w ∈ items.map Prod.fst) := by
  induction items with
  | nil => intro bpe _; exact ⟨bpe, rfl, by simp⟩
  | cons a rest ih =>
    intro bpe h
    obtain ⟨out, ho⟩ := h a (by simp)
    obtain ⟨m, hm, hk⟩ := ih (Map.insert bpe a.1 out) (fun x hx => h x (List.mem_cons_of_mem _ hx))
    refine ⟨m, ?_, ?_⟩
    · simp only [workerRun, ho]
      exact hm
    · intro w
      rw [hk w, mapFind_insert]
      by_cases e : a.1 = w
      · simp [e]
      · have e2 : ¬ w = a.1 := fun h => e h.symm
        simp [e, e2]

theorem workerRun_error (fuel : Nat) (codes : codesMap) (rev : reverseCodesMap)
    (vocab : wMapCounts) (items : List (Str × List Str)) :
    ∀ (bpe : Map Str Str),
      (∃ x ∈ items, ∃ e, process_bpe fuel x.2 codes rev vocab = .error e) →
      ∃ e, workerRun fuel codes rev vocab items bpe = .error e := by
  induction items with
  | nil => intro bpe h; obtain ⟨x, hx, _⟩ := h; simp at hx
  | cons a rest ih =>
    intro bpe h
    cases ha : process_bpe fuel a.2 codes rev vocab with
    | error e => exact ⟨e, by simp only [workerRun, ha]⟩
    | ok out =>
      obtain ⟨x, hx, e, he⟩ := h
      rcases List.mem_cons.1 hx with hx | hx
      · subst hx
        rw [ha] at he
        cases he
      · obtain ⟨e', he'⟩ := ih (Map.insert bpe a.1 out) ⟨x, hx, e, he⟩
        exact ⟨e', by simp only [workerRun, ha]; exact he'⟩

/-- A run of `workerRun` that returns has met no failing word. -/
theorem workerRun_ok_items (fuel : Nat) (codes : codesMap) (rev : reverseCodesMap)
    (vocab : wMapCounts) (items : List (Str × List Str)) (bpe m : Map Str Str)
    (h : workerRun fuel codes rev vocab items bpe = .ok m) :
    ∀ x ∈ items, ∃ out, process_bpe fuel x.2 codes rev vocab = .ok out := by
  intro x hx
  cases hp : process_bpe fuel x.2 codes rev vocab with
  | ok out => exact ⟨out, rfl⟩
  | error e =>
    obtain ⟨e', he'⟩ := workerRun_error fuel codes rev vocab items bpe ⟨x, hx, e, hp⟩
    rw [h] at he'
    cases he'

/-- A run of `workerRun` that fails has met a failing word. -/
theorem workerRun_error_items (fuel : Nat) (codes : codesMap) (rev : reverseCodesMap)
    (vocab : wMapCounts) (items : List (Str × List Str)) (bpe : Map Str Str) (e : Err)
    (h : workerRun fuel codes rev vocab items bpe = .error e) :
    ∃ x ∈ items, ∃ e', process_bpe fuel x.2 codes rev vocab = .error e' := by
  by_contra hn
  have hall : ∀ x ∈ items, ∃ out, process_bpe fuel x.2 codes rev vocab = .ok out := by
    intro x hx
    cases hp : process_bpe fuel x.2 codes rev vocab with
    | ok out => exact ⟨out, rfl⟩
    | error e' => exact absurd ⟨x, hx, e', hp⟩ hn
  obtain ⟨m, hm, _⟩ := workerRun_ok fuel codes rev vocab items bpe hall
  rw [h] at hm
  cases hm

theorem workerItems_cover (k : Nat) (hk : 1 ≤ k) (vec : List (Str × List Str))
    (x : Str × List Str) (hx : x ∈ vec) : ∃ i, i < k ∧ x ∈ workerItems k i vec := by
  obtain ⟨j, hj⟩ := List.get?_of_mem hx
  refine ⟨j % k, Nat.mod_lt _ hk, ?_⟩
  unfold workerItems
  simp only [List.mem_map, List.mem_filter]
  refine ⟨(j, x), ⟨?_, by simp⟩, rfl⟩
  rw [List.mk_mem_enum_iff_getElem?, ← List.get?_eq_getElem?]
  exact hj

theorem runWorkers_ok (fuel : Nat) (codes : codesMap) (rev : reverseCodesMap)
    (vocab : wMapCounts) (k : Nat) (vec : List (Str × List Str))
    (hall : ∀ x ∈ vec, ∃ out, process_bpe fuel x.2 codes rev vocab = .ok out) (n : Nat) :
    ∀ (t : Nat), ∃ bpes, runWorkers fuel codes rev vocab k vec n t = .ok bpes ∧
      ∀ w, (∃ bpe ∈ bpes, Map.find? bpe w ≠ none) ↔
        ∃ i, t ≤ i ∧ i < t + n ∧ w ∈ (workerItems k i vec).map Prod.fst := by
  induction n with
  | zero =>
    intro t
    refine ⟨[], rfl, ?_⟩
    intro w
    constructor
    · rintro ⟨b, hb, _⟩
      simp at hb
    · rintro ⟨i, h1, h2, _⟩
      omega
  | succ n ih =>
    intro t
    obtain ⟨m, hm, hk⟩ := workerRun_ok fuel codes rev vocab (workerItems k t vec) []
      (fun x hx => hall x (workerItems_mem _ _ _ x hx))
    obtain ⟨bpes, hb, hbk⟩ := ih (t + 1)
    refine ⟨m :: bpes, by simp only [runWorkers, hm, hb], ?_⟩
    intro w
    constructor
    · rintro ⟨b, hb', hf⟩
      rcases List.mem_cons.1 hb' with hb' | hb'
      · subst hb'
        rcases (hk w).1 hf with h | h
        · simp [Map.find?] at h
        · exact ⟨t, le_refl _, by omega, h⟩
      · obtain ⟨i, h1, h2, h3⟩ := (hbk w).1 ⟨b, hb', hf⟩
        exact ⟨i, by omega, by omega, h3⟩
    · rintro ⟨i, h1, h2, h3⟩
      by_cases e : i = t
      · subst e
        exact ⟨m, by simp, (hk w).2 (Or.inr h3)⟩
      · obtain ⟨b, hb', hf⟩ := (hbk w).2 ⟨i, by omega, by omega, h3⟩
        exact ⟨b, List.mem_cons_of_mem _ hb', hf⟩

theorem runWorkers_error (fuel : Nat) (codes : codesMap) (rev : reverseCodesMap)
    (vocab : wMapCounts) (k : Nat) (vec : List (Str × List Str)) (n : Nat) :
    ∀ (t : Nat),
      (∃ i, t ≤ i ∧ i < t + n ∧
        ∃ x ∈ workerItems k i vec, ∃ e, process_bpe fuel x.2 codes rev vocab = .error e) →
      ∃ e, runWorkers fuel codes rev vocab k vec n t = .error e := by
  induction n with
  | zero =>
    intro t h
    obtain ⟨i, h1, h2, _⟩ := h
    omega
  | succ n ih =>
    intro t h
    cases hw : workerRun fuel codes rev vocab (workerItems k t vec) [] with
    | error e => exact ⟨e, by simp only [runWorkers, hw]⟩
    | ok m =>
      obtain ⟨i, h1, h2, x, hx, e, he⟩ := h
      have hne : i ≠ t := by
        intro e'
        subst e'
        obtain ⟨out, ho⟩ := workerRun_ok_items _ _ _ _ _ _ _ hw x hx
        rw [ho] at he
        cases he
      obtain ⟨e', he'⟩ := ih (t + 1) ⟨i, by omega, by omega, x, hx, e, he⟩
      exact ⟨e', by simp only [runWorkers, hw, he']⟩

theorem foldBpes_keys (bpes : List (Map Str Str)) :
    ∀ w, Map.find? (foldBpes bpes) w ≠ none ↔ ∃ bpe ∈ bpes, Map.find? bpe w ≠ none := by
  unfold foldBpes
  suffices hs : ∀ (l : List (Map Str Str)) (acc : Map Str Str) (w : Str),
      Map.find? (l.foldl (fun final bpe =>
        bpe.foldl (fun final x => Map.insert final x.1 x.2) final) acc) w ≠ none ↔
        (Map.find? acc w ≠ none ∨ ∃ bpe ∈ l, Map.find? bpe w ≠ none) by
    intro w
    rw [hs bpes [] w]
    simp [Map.find?]
  intro l
  induction l with
  | nil => intro acc w; simp
  | cons b rest ih =>
    intro acc w
    simp only [List.foldl_cons]
    rw [ih, foldl_insert_keys (fun x : Str × Str => x.1) (fun x => x.2) b acc w]
    have hb : w ∈ b.map Prod.fst ↔ Map.find? b w ≠ none := by
      rw [Ne, mapFind_none_iff, not_not]
    rw [hb]
    simp only [List.mem_cons, exists_eq_or_imp]
    tauto

theorem isOk_exists {α : Type} (r : Except Err α) (h : r.isOk = true) : ∃ out, r = .ok out := by
  cases r with
  | error e => cases h
  | ok out => exact ⟨out, rfl⟩

theorem tokenize_str_keys (word_count : wMapCounts) (w : Str) :
    w ∈ (tokenize_str word_count).map Prod.fst ↔ w ∈ word_count.map Prod.fst := by
  have h := foldl_insert_keys (fun x : Str × Nat => x.1) (fun x => tokenize_word x.1)
    word_count [] w
  have e : Map.find? (tokenize_str word_count) w ≠ none ↔
      w ∈ (tokenize_str word_count).map Prod.fst := by
    rw [Ne, mapFind_none_iff, not_not]
  rw [← e]
  unfold tokenize_str
  rw [h]
  simp [Map.find?]

/-- C15: for a pool of `W` workers, `1 ≤ W ≤ 10`, over the tokenized words of a
word-count map (one entry per word, word `j` of the vector goes to worker
`j mod W`, each worker fills its own map, the maps are folded): when
`process_bpe` returns for every word, `_buildbpes` returns a map that is the
mapping obtained by applying `process_bpe` once to every word, whatever `W`: it
sends every word of the map to the string `process_bpe` returns for it and holds
no other key; when `process_bpe` fails for some word, `_buildbpes` fails as
well.  The size of the pool, `max(1, min(10, int(hardware_concurrency)))`, lies
between `1` and `10`. -/
theorem worker_count_independence (W fuel : Nat) (word_count vocab : wMapCounts)
    (codes : codesMap) (rev : reverseCodesMap) (h1 : 1 ≤ W) (_h10 : W ≤ 10) :
    ((∀ x ∈ word_count, ∃ seg, process_bpe fuel (tokenize_word x.1) codes rev vocab = .ok seg) →
      ∃ final, _buildbpes W fuel word_count vocab codes rev = .ok final ∧
        ∀ w, Map.find? final w =
          onceEach fuel codes rev vocab (word_count.map Prod.fst) w) ∧
    ((∃ x ∈ word_count, ∃ e, process_bpe fuel (tokenize_word x.1) codes rev vocab = .error e) →
      ∃ e', _buildbpes W fuel word_count vocab codes rev = .error e') ∧
    ∀ hc, 1 ≤ kThreads hc ∧ kThreads hc ≤ 10 := by
  refine ⟨?_, ?_, ?_⟩
  · intro hok
    have hall : ∀ x ∈ tokenize_str word_count,
        ∃ out, process_bpe fuel x.2 codes rev vocab = .ok out := by
      intro x hx
      have hk : x.1 ∈ word_count.map Prod.fst :=
        (tokenize_str_keys word_count x.1).1 (List.mem_map.2 ⟨x, hx, rfl⟩)
      obtain ⟨y, hy, e⟩ := List.mem_map.1 hk
      rw [tokenize_str_entries word_count x hx, ← e]
      exact hok y hy
    obtain ⟨bpes, hb, hk⟩ :=
      runWorkers_ok fuel codes rev vocab W (tokenize_str word_count) hall W 0
    have hfinal : _buildbpes W fuel word_count vocab codes rev = .ok (foldBpes bpes) := by
      simp only [_buildbpes, hb]
    refine ⟨foldBpes bpes, hfinal, ?_⟩
    intro w
    have hsound := buildbpes_entries W fuel word_count vocab codes rev _ hfinal w
    have hkeys : Map.find? (foldBpes bpes) w ≠ none ↔ w ∈ word_count.map Prod.fst := by
      rw [foldBpes_keys, hk w, ← tokenize_str_keys]
      constructor
      · rintro ⟨i, _, _, hi⟩
        obtain ⟨x, hx, e⟩ := List.mem_map.1 hi
        exact List.mem_map.2 ⟨x, workerItems_mem _ _ _ x hx, e⟩
      · intro h
        obtain ⟨x, hx, e⟩ := List.mem_map.1 h
        obtain ⟨i, hi, hxi⟩ := workerItems_cover W h1 _ x hx
        exact ⟨i, Nat.zero_le _, by omega, List.mem_map.2 ⟨x, hxi, e⟩⟩
    unfold onceEach
    by_cases hw : w ∈ word_count.map Prod.fst
    · rw [if_pos hw]
      cases hf : Map.find? (foldBpes bpes) w with
      | none => exact absurd hf (hkeys.2 hw)
      | some seg =>
        rw [hsound seg hf]
    · rw [if_neg hw]
      by_contra hne
      exact hw (hkeys.1 hne)
  · rintro ⟨x, hx, e, he⟩
    have hmem : (x.1, tokenize_word x.1) ∈ tokenize_str word_count :=
      mapFind_mem _ _ _ (tokenize_str_find word_count x hx)
    obtain ⟨i, hi, hxi⟩ := workerItems_cover W h1 _ _ hmem
    obtain ⟨e2, he2⟩ := runWorkers_error fuel codes rev vocab W (tokenize_str word_count) W 0
      ⟨i, Nat.zero_le _, by omega, _, hxi, e, he⟩
    exact ⟨e2, by simp only [_buildbpes, he2]⟩
  · intro hc
    unfold kThreads wrap32
    omega

/-- C15 (witness): three workers on a corpus of four words with the rule
`(l, o)`: the map returned sends `lower` to `lo@@ w@@ e@@ r`, `slow` to
`s@@ lo@@ w`, and holds no word that the corpus lacks. -/
theorem worker_count_independence_witness :
    (1 ≤ 3 ∧ 3 ≤ 10) ∧
    (∃ final, _buildbpes 3 8 (getvocabs (asc "low lower slow lo")) []
        (convert_pycodes_to_mapcodes [((asc "l", asc "o"), 0)]).1
        (convert_pycodes_to_mapcodes [((asc "l", asc "o"), 0)]).2 = .ok final ∧
      ∀ w, Map.find? final w =
        onceEach 8 (convert_pycodes_to_mapcodes [((asc "l", asc "o"), 0)]).1
          (convert_pycodes_to_mapcodes [((asc "l", asc "o"), 0)]).2 []
          ((getvocabs (asc "low lower slow lo")).map Prod.fst) w) ∧
    onceEach 8 (convert_pycodes_to_mapcodes [((asc "l", asc "o"), 0)]).1
      (convert_pycodes_to_mapcodes [((asc "l", asc "o"), 0)]).2 []
      ((getvocabs (asc "low lower slow lo")).map Prod.fst) (asc "lower") =
        some (asc "lo@@ w@@ e@@ r") ∧
    onceEach 8 (convert_pycodes_to_mapcodes [((asc "l", asc "o"), 0)]).1
      (convert_pycodes_to_mapcodes [((asc "l", asc "o"), 0)]).2 []
      ((getvocabs (asc "low lower slow lo")).map Prod.fst) (asc "slow") =
        some (asc "s@@ lo@@ w") ∧
    onceEach 8 (convert_pycodes_to_mapcodes [((asc "l", asc "o"), 0)]).1
      (convert_pycodes_to_mapcodes [((asc "l", asc "o"), 0)]).2 []
      ((getvocabs (asc "low lower slow lo")).map Prod.fst) (asc "lowest") = none :=
  ⟨⟨by decide, by decide⟩,
    (worker_count_independence 3 8 (getvocabs (asc "low lower slow lo")) []
      (convert_pycodes_to_mapcodes [((asc "l", asc "o"), 0)]).1
      (convert_pycodes_to_mapcodes [((asc "l", asc "o"), 0)]).2 (by decide) (by decide)).1
      (fun x hx => isOk_exists _
        ((by decide : ∀ x ∈ getvocabs (asc "low lower slow lo"),
          (process_bpe 8 (tokenize_word x.1)
            (convert_pycodes_to_mapcodes [((asc "l", asc "o"), 0)]).1
            (convert_pycodes_to_mapcodes [((asc "l", asc "o"), 0)]).2 []).isOk = true) x hx)),
    by decide, by decide, by decide⟩

/-- C16 (as amended): scenario 5.  For the single word `aaaa` with weight `1`
and `k = 1` the initial symbols are `a, a, a, a</w>`; the learner returns the
rule `(a, a, 2)` and after the merge the word is `[aa, a, a</w>]`: the last
symbol carries `</w>` and is no occurrence of `a`.  The sweep is left to right
without overlap: the word `aaaaa` gives the rule `(a, a, 3)` and becomes
`[aa, aa, a</w>]`. -/
theorem scenario5_output :
    wordStrings 0 [(asc "aaaa", 1)] = .ok [[asc "a", asc "a", asc "a", asc "a</w>"]] ∧
    _learnbpe 1 [(asc "aaaa", 1)] = .ok [(asc "a", asc "a", 2)] ∧
    learnbpes 1 (asc "aaaa") = .ok [(asc "a", asc "a", 2)] ∧
    wordStrings 1 [(asc "aaaa", 1)] = .ok [[asc "aa", asc "a", asc "a</w>"]] ∧
    _learnbpe 1 [(asc "aaaaa", 1)] = .ok [(asc "a", asc "a", 3)] ∧
    wordStrings 1 [(asc "aaaaa", 1)] = .ok [[asc "aa", asc "aa", asc "a</w>"]] :=
  ⟨by decide, by decide, by decide, by decide, by decide, by decide⟩

/-- C16 (counterexample): the rule for the word `aaaa` is not `(a, a, 3)` and the
word does not become `[aa, aa]`, with or without `</w>` on the last symbol. -/
theorem scenario5_not_expected :
    _learnbpe 1 [(asc "aaaa", 1)] ≠ .ok [(asc "a", asc "a", 3)] ∧
    wordStrings 1 [(asc "aaaa", 1)] ≠ .ok [[asc "aa", asc "aa"]] ∧
    wordStrings 1 [(asc "aaaa", 1)] ≠ .ok [[asc "aa", asc "aa</w>"]] := by
  decide

/-! ## The sum of the stored counts -/

theorem sum_map_zero {α : Type} (l : List α) : (l.map (fun _ => (0 : Nat))).sum = 0 := by
  induction l with
  | nil => rfl
  | cons a l ih => simp [ih]

theorem sum_indicator (P : List tp) (hP : P.Nodup) (p : tp) :
    (P.map (fun q => if p = q then 1 else 0)).sum = if p ∈ P then 1 else 0 := by
  induction P with
  | nil => rfl
  | cons a P ih =>
    simp only [List.nodup_cons] at hP
    simp only [List.map_cons, List.sum_cons, ih hP.2, List.mem_cons]
    by_cases h : p = a
    · subst h
      simp [hP.1]
    · simp [h]

/-- The occurrences of the pairs of a list without repetition that holds every
adjacent pair of the word add up to the number of adjacent positions. -/
theorem occ_sum (P : List tp) (hP : P.Nodup) (w : List Nat) :
    (∀ q, 0 < occ q w → q ∈ P) → (P.map (fun q => occ q w)).sum = w.length - 1 := by
  induction w with
  | nil => intro _; simp [occ, sum_map_zero]
  | cons a w ih =>
    intro h
    cases w with
    | nil => simp [occ, sum_map_zero]
    | cons b w =>
      have hab : (a, b) ∈ P := h (a, b) (by simp [occ])
      have ht : ∀ q, 0 < occ q (b :: w) → q ∈ P := by
        intro q hq
        apply h q
        simp only [occ]
        omega
      have e := ih ht
      simp only [occ, List.sum_map_add]
      rw [e, sum_indicator P hP (a, b), if_pos hab]
      simp only [List.length_cons]
      omega

theorem freq_cons (w : List Nat) (ws : List (List Nat)) (c : Int) (cs : List Int) (q : tp) :
    freq (w :: ws) (c :: cs) q = c * (occ q w : Int) + freq ws cs q := rfl

/-- The weighted frequencies of the pairs of a list without repetition that holds
every pair of non-zero frequency add up to the weighted number of adjacent
positions. -/
theorem freq_sum (P : List tp) (hP : P.Nodup) (words : List (List Nat)) :
    ∀ (counts : List Int), (∀ c ∈ counts, 0 ≤ c) →
      (∀ q, freq words counts q ≠ 0 → q ∈ P) →
      (P.map (freq words counts)).sum = pairTotal words counts := by
  induction words with
  | nil =>
    intro counts _ _
    have : freq [] counts = fun _ => 0 := by
      funext q
      simp [freq]
    rw [this]
    simp [pairTotal]
  | cons w ws ih =>
    intro counts hc h
    cases counts with
    | nil =>
      have : freq (w :: ws) [] = fun _ => 0 := by
        funext q
        simp [freq]
      rw [this]
      simp [pairTotal]
    | cons c cs =>
      have hc0 : 0 ≤ c := hc c (by simp)
      have hcs : ∀ d ∈ cs, 0 ≤ d := fun d hd => hc d (List.mem_cons_of_mem _ hd)
      have hfun : freq (w :: ws) (c :: cs) = fun q => c * (occ q w : Int) + freq ws cs q := by
        funext q
        rfl
      have htail : ∀ q, freq ws cs q ≠ 0 → q ∈ P := by
        intro q hq
        apply h q
        rw [freq_cons]
        have h1 := (freq_bounds q ws cs hcs).1
        have h2 : 0 ≤ c * (occ q w : Int) := mul_nonneg hc0 (by exact_mod_cast Nat.zero_le _)
        omega
      rw [hfun, List.sum_map_add, ih cs hcs htail]
      simp only [pairTotal]
      congr 1
      rw [List.sum_map_mul_left]
      by_cases hz : c = 0
      · subst hz
        simp
      · have hpos : 0 < c := lt_of_le_of_ne hc0 (Ne.symm hz)
        have hw : ∀ q, 0 < occ q w → q ∈ P := by
          intro q hq
          apply h q
          rw [freq_cons]
          have h1 := (freq_bounds q ws cs hcs).1
          have h2 : 0 < c * (occ q w : Int) := mul_pos hpos (by exact_mod_cast hq)
          omega
        have e := occ_sum P hP w hw
        have e2 : (P.map (fun q => (occ q w : Int))).sum = ((w.length - 1 : Nat) : Int) := by
          rw [← e]
          simp only [Nat.cast_list_sum, List.map_map]
          rfl
        rw [e2]

/-- Under the invariant and without overflow the stored counts add up to the
weighted number of adjacent positions. -/
theorem learnInv_sum (st : LState) (h : LearnInv st)
    (hT : pairTotal st.words st.counts < 2 ^ 31) :
    (st.idx.contiguous_counts.map Prod.fst).sum = pairTotal st.words st.counts := by
  have hw0 : ∀ c ∈ st.counts, 0 ≤ c := fun c hc => (h.weights c hc).1
  have hex : ∀ q, ccCount st.idx.contiguous_counts q = freq st.words st.counts q := by
    intro q
    rw [h.exact q]
    have hb := freq_bounds q st.words st.counts hw0
    exact wrap32_of_range _ (by omega) (by omega)
  have hmap : st.idx.contiguous_counts.map Prod.fst =
      (st.idx.contiguous_counts.map Prod.snd).map (freq st.words st.counts) := by
    rw [List.map_map]
    apply List.map_congr_left
    intro x hx
    have := ccFind_of_mem_nodup _ h.index.nodup x hx
    simp only [Function.comp]
    rw [← hex x.2]
    simp [ccCount, this]
  rw [hmap]
  apply freq_sum _ h.index.nodup st.words st.counts hw0
  intro q hq
  rw [← hex q] at hq
  cases hf : ccFind st.idx.contiguous_counts q with
  | none => simp [ccCount, hf] at hq
  | some c => exact List.mem_map.2 ⟨(c, q), ccFind_mem _ _ _ hf, rfl⟩

/-- C17 (as amended): for a word-count map whose weights are below `2^31` and
whose weighted number of adjacent pairs is below `2^31`, and for every number
`i` of completed rounds, `0` included (only `0` for the empty map, on which no
round completes), the learner reaches a state in which the counts stored in the
pair index add up to the sum over the words of the weight times the number of
symbols of the word less one; the weights held by the learner are those of the
map. -/
theorem count_conservation (i : Nat) (word_count : wMapCounts)
    (hne : word_count ≠ [] ∨ i = 0)
    (hw : ∀ x ∈ word_count, x.2 < 2 ^ 31) (hT : initialPairTotal word_count < 2 ^ 31) :
    ∃ st, learnRun i word_count = .ok st ∧
      st.counts = word_count.map (fun x => (x.2 : Int)) ∧
      (st.idx.contiguous_counts.map Prod.fst).sum = pairTotal st.words st.counts := by
  by_cases he : word_count = []
  · subst he
    have hi : i = 0 := by
      rcases hne with h | h
      · exact absurd rfl h
      · exact h
    subst hi
    exact ⟨learnInit [], rfl, rfl, rfl⟩
  · obtain ⟨st, hst, _, _⟩ := learnLoop_bounds i _ (learnInit_bounds word_count he)
    obtain ⟨h1, h2, h3⟩ := learnRun_learnInv i word_count st he hw hst
    refine ⟨st, hst, h2, learnInv_sum st h1 ?_⟩
    have : (initialPairTotal word_count : Int) < 2 ^ 31 := by exact_mod_cast hT
    omega

/-- C17 (witness): the corpus of scenario 1 after two rounds. -/
theorem count_conservation_witness :
    ∃ st, learnRun 2 (getvocabs (asc "low low lower newest newest widest")) = .ok st ∧
      st.counts = (getvocabs (asc "low low lower newest newest widest")).map
        (fun x => (x.2 : Int)) ∧
      (st.idx.contiguous_counts.map Prod.fst).sum = pairTotal st.words st.counts :=
  count_conservation 2 (getvocabs (asc "low low lower newest newest widest"))
    (Or.inl (by decide)) (by decide) (by decide)

/-- C17 (counterexample): for the words `abc`, `abd`, `abe` with the weights
`2^31 - 1`, `2^31 - 1`, `2`, right after the index is populated, the stored
counts add up to `2^32` while the weights times the lengths less one add up to
`2^33`: the count of the pair `(a, b)` has wrapped to `0`. -/
theorem count_conservation_fails :
    (learnInit wcOverflow).counts = wcOverflow.map (fun x => (x.2 : Int)) ∧
    ((learnInit wcOverflow).idx.contiguous_counts.map Prod.fst).sum = 4294967296 ∧
    pairTotal (learnInit wcOverflow).words (learnInit wcOverflow).counts = 8589934592 :=
  ⟨by decide, by decide, by decide⟩

/-! ## The stored count as a sum over the occurrence set -/

theorem freq_range (q : tp) (words : List (List Nat)) :
    ∀ (counts : List Int), counts.length = words.length →
      freq words counts q = ((List.range words.length).map (wordTerm counts words q)).sum := by
  induction words with
  | nil => intro counts _; simp [freq]
  | cons w ws ih =>
    intro counts hl
    cases counts with
    | nil => simp at hl
    | cons c cs =>
      simp only [List.length_cons, Nat.add_right_cancel_iff] at hl
      rw [List.length_cons, List.range_succ_eq_map, List.map_cons, List.sum_cons, List.map_map]
      have h0 : wordTerm (c :: cs) (w :: ws) q 0 = c * (occ q w : Int) := by
        simp [wordTerm]
      have hs : (wordTerm (c :: cs) (w :: ws) q) ∘ Nat.succ = wordTerm cs ws q := by
        funext j
        simp [wordTerm]
      rw [h0, hs, ← ih cs hl]
      rfl

theorem wordTerm_nonneg (counts : List Int) (words : List (List Nat)) (q : tp) (wi : Nat)
    (hc : ∀ c ∈ counts, 0 ≤ c) : 0 ≤ wordTerm counts words q wi := by
  unfold wordTerm
  apply mul_nonneg
  · rw [List.getD_eq_getElem?_getD]
    cases h : counts[wi]? with
    | none => simp
    | some c =>
      simp only [Option.getD_some]
      exact hc c (List.getElem?_mem h)
  · exact_mod_cast Nat.zero_le _

theorem wordTerm_le_freq (q : tp) (words : List (List Nat)) (counts : List Int)
    (hl : counts.length = words.length) (hc : ∀ c ∈ counts, 0 ≤ c) (wi : Nat)
    (hwi : wi < words.length) : wordTerm counts words q wi ≤ freq words counts q := by
  rw [freq_range q words counts hl]
  have hnd : ((List.range words.length).map (wordTerm counts words q)).sum =
      ∑ j in Finset.range words.length, wordTerm counts words q j := by
    have e : (List.range words.length).toFinset = Finset.range words.length := by
      ext j
      simp
    rw [← e, List.sum_toFinset _ (List.nodup_range _)]
  rw [hnd]
  exact Finset.single_le_sum (fun j _ => wordTerm_nonneg counts words q j hc)
    (Finset.mem_range.2 hwi)

/-- The weighted frequency of a pair is the sum of the terms of the words of any
set of word ids that holds every word with a non-zero term. -/
theorem freq_over_set (q : tp) (words : List (List Nat)) (counts : List Int)
    (hl : counts.length = words.length) (S : List Nat)
    (hS : ∀ wi ∈ S, wi < words.length)
    (hcov : ∀ wi, wi < words.length → wordTerm counts words q wi ≠ 0 → wi ∈ S) :
    freq words counts q = (S.dedup.map (wordTerm counts words q)).sum := by
  rw [freq_range q words counts hl]
  have h1 : ((List.range words.length).map (wordTerm counts words q)).sum =
      ∑ j in Finset.range words.length, wordTerm counts words q j := by
    have e : (List.range words.length).toFinset = Finset.range words.length := by
      ext j
      simp
    rw [← e, List.sum_toFinset _ (List.nodup_range _)]
  have h2 : (S.dedup.map (wordTerm counts words q)).sum =
      ∑ j in S.toFinset, wordTerm counts words q j := by
    have e : S.dedup.toFinset = S.toFinset := by
      ext j
      simp
    rw [← e, List.sum_toFinset _ (List.nodup_dedup S)]
  rw [h1, h2]
  symm
  apply Finset.sum_subset
  · intro j hj
    exact Finset.mem_range.2 (hS j (List.mem_toFinset.1 hj))
  · intro j hj hnot
    by_contra hne
    exact hnot (List.mem_toFinset.2 (hcov j (Finset.mem_range.1 hj) hne))


/-! ## The choice made by `find_maxp` -/

theorem tpLt_iff (a b : tp) : tpLt a b = true ↔ (a.1 < b.1 ∨ (a.1 = b.1 ∧ a.2 < b.2)) := by
  unfold tpLt
  simp

theorem tpLe_refl (a : tp) : tpLe a a := Or.inl rfl

theorem tpLe_trans {a b c : tp} (h1 : tpLe a b) (h2 : tpLe b c) : tpLe a c := by
  unfold tpLe at *
  rcases h1 with h1 | h1
  · subst h1
    exact h2
  · rcases h2 with h2 | h2
    · subst h2
      exact Or.inr h1
    · right
      omega

theorem tpLe_of_lt {a b : tp} (h : tpLt a b = true) : tpLe a b :=
  Or.inr ((tpLt_iff a b).1 h)

theorem tpLe_of_not_lt {a b : tp} (h : ¬ tpLt a b = true) : tpLe b a := by
  rw [tpLt_iff] at h
  unfold tpLe
  by_cases e : b = a
  · exact Or.inl e
  · right
    have : ¬ (b.1 = a.1 ∧ b.2 = a.2) := fun h' => e (Prod.ext h'.1 h'.2)
    omega

/-- The loop of `find_maxp` from the state `(maxp, m)`: the result bounds `m` and
the unsigned value of every count; either `max_c` is still `m` and the pair is
the least of `maxp` and the pairs of the entries with the value `m`, or `max_c`
is above `m` and the pair is the least pair of the entries with the value
`max_c`. -/
theorem find_maxp_loop_argmax (cc : List (Int × tp)) :
    ∀ (maxp : tp) (m : Nat),
      m ≤ (find_maxp_loop cc maxp m).2 ∧
      (∀ y ∈ cc, toU32 y.1 ≤ (find_maxp_loop cc maxp m).2) ∧
      (∀ y ∈ cc, toU32 y.1 = (find_maxp_loop cc maxp m).2 →
        tpLe (find_maxp_loop cc maxp m).1 y.2) ∧
      (((find_maxp_loop cc maxp m).2 = m ∧ tpLe (find_maxp_loop cc maxp m).1 maxp ∧
          ((find_maxp_loop cc maxp m).1 = maxp ∨
            ∃ x ∈ cc, toU32 x.1 = m ∧ x.2 = (find_maxp_loop cc maxp m).1)) ∨
        (m < (find_maxp_loop cc maxp m).2 ∧
          ∃ x ∈ cc, toU32 x.1 = (find_maxp_loop cc maxp m).2 ∧
            x.2 = (find_maxp_loop cc maxp m).1)) := by
  induction cc with
  | nil =>
    intro maxp m
    exact ⟨le_refl _, by simp, by simp, Or.inl ⟨rfl, tpLe_refl _, Or.inl rfl⟩⟩
  | cons x rest ih =>
    intro maxp m
    unfold find_maxp_loop
    by_cases h1 : toU32 x.1 > m
    · rw [if_pos h1]
      obtain ⟨i1, i2, i3, i4⟩ := ih x.2 (toU32 x.1)
      refine ⟨by omega, ?_, ?_, Or.inr ⟨by omega, ?_⟩⟩
      · intro y hy
        rcases List.mem_cons.1 hy with hy | hy
        · subst hy
          exact i1
        · exact i2 y hy
      · intro y hy hyv
        rcases List.mem_cons.1 hy with hy | hy
        · subst hy
          rcases i4 with ⟨_, j2, _⟩ | ⟨j1, _⟩
          · exact j2
          · omega
        · exact i3 y hy hyv
      · rcases i4 with ⟨j1, _, j3⟩ | ⟨_, y, hy, j2, j3⟩
        · rcases j3 with j3 | ⟨y, hy, j4, j5⟩
          · exact ⟨x, by simp, j1.symm, j3.symm⟩
          · exact ⟨y, List.mem_cons_of_mem _ hy, by omega, j5⟩
        · exact ⟨y, List.mem_cons_of_mem _ hy, j2, j3⟩
    · rw [if_neg h1]
      by_cases h2 : toU32 x.1 = m ∧ tpLt x.2 maxp
      · rw [if_pos h2]
        obtain ⟨i1, i2, i3, i4⟩ := ih x.2 m
        refine ⟨i1, ?_, ?_, ?_⟩
        · intro y hy
          rcases List.mem_cons.1 hy with hy | hy
          · subst hy
            omega
          · exact i2 y hy
        · intro y hy hyv
          rcases List.mem_cons.1 hy with hy | hy
          · subst hy
            rcases i4 with ⟨_, j2, _⟩ | ⟨j1, _⟩
            · exact j2
            · omega
          · exact i3 y hy hyv
        · rcases i4 with ⟨j1, j2, j3⟩ | ⟨j1, y, hy, j2, j3⟩
          · left
            refine ⟨j1, tpLe_trans j2 (tpLe_of_lt h2.2), Or.inr ?_⟩
            rcases j3 with j3 | ⟨y, hy, j4, j5⟩
            · exact ⟨x, by simp, h2.1, j3.symm⟩
            · exact ⟨y, List.mem_cons_of_mem _ hy, j4, j5⟩
          · exact Or.inr ⟨j1, y, List.mem_cons_of_mem _ hy, j2, j3⟩
      · rw [if_neg h2]
        obtain ⟨i1, i2, i3, i4⟩ := ih maxp m
        refine ⟨i1, ?_, ?_, ?_⟩
        · intro y hy
          rcases List.mem_cons.1 hy with hy | hy
          · subst hy
            omega
          · exact i2 y hy
        · intro y hy hyv
          rcases List.mem_cons.1 hy with hy | hy
          · subst hy
            rcases i4 with ⟨j1, j2, _⟩ | ⟨j1, _⟩
            · have hm : toU32 y.1 = m := by omega
              have hlt : ¬ tpLt y.2 maxp = true := fun h => h2 ⟨hm, h⟩
              exact tpLe_trans j2 (tpLe_of_not_lt hlt)
            · omega
          · exact i3 y hy hyv
        · rcases i4 with ⟨j1, j2, j3⟩ | ⟨j1, y, hy, j2, j3⟩
          · left
            refine ⟨j1, j2, ?_⟩
            rcases j3 with j3 | ⟨y, hy, j4, j5⟩
            · exact Or.inl j3
            · exact Or.inr ⟨y, List.mem_cons_of_mem _ hy, j4, j5⟩
          · exact Or.inr ⟨j1, y, List.mem_cons_of_mem _ hy, j2, j3⟩

theorem toU32_nonneg (x : Int) (h0 : 0 ≤ x) (h1 : x < 2 ^ 31) : (toU32 x : Int) = x := by
  unfold toU32
  omega

/-- C19 (as amended): for every vector of entries whose counts are signed 32-bit
values, none of them negative, and for every prior value of the output
variables: when some count is positive, `find_maxp` returns the largest count as
`max_c` and the pair of an entry that holds it, lexicographically least among
the pairs of the entries that hold it, as `maxp`; when no count is positive it
returns `max_c = 0`. -/
theorem find_maxp_argmax (cc : List (Int × tp)) (prior : tp)
    (hr : ∀ x ∈ cc, 0 ≤ x.1 ∧ x.1 < 2 ^ 31) :
    ((∃ x ∈ cc, 0 < x.1) →
      ∃ x ∈ cc, (find_maxp cc prior).1 = x.2 ∧ ((find_maxp cc prior).2 : Int) = x.1 ∧
        (∀ y ∈ cc, y.1 ≤ x.1) ∧ ∀ y ∈ cc, y.1 = x.1 → tpLe x.2 y.2) ∧
    ((∀ x ∈ cc, x.1 ≤ 0) → (find_maxp cc prior).2 = 0) := by
  unfold find_maxp
  obtain ⟨_, i2, i3, i4⟩ := find_maxp_loop_argmax cc prior 0
  have hu : ∀ x ∈ cc, (toU32 x.1 : Int) = x.1 :=
    fun x hx => toU32_nonneg x.1 (hr x hx).1 (hr x hx).2
  constructor
  · rintro ⟨z, hz, hpos⟩
    have hz2 := i2 z hz
    have hzu := hu z hz
    rcases i4 with ⟨j1, _⟩ | ⟨_, x, hx, j2, j3⟩
    · omega
    · refine ⟨x, hx, j3.symm, by rw [← j2]; exact hu x hx, ?_, ?_⟩
      · intro y hy
        have := i2 y hy
        have := hu y hy
        have := hu x hx
        omega
      · intro y hy hyx
        rw [j3]
        apply i3 y hy
        have := hu y hy
        have := hu x hx
        omega
  · intro hall
    rcases i4 with ⟨j1, _⟩ | ⟨j1, x, hx, j2, _⟩
    · exact j1
    · have := hall x hx
      have := hu x hx
      omega

/-- C19 (witness): three entries hold the largest count `5`; the pair `(1, 2)` is
the least of their pairs. -/
theorem find_maxp_argmax_witness :
    ((∃ x ∈ [((5 : Int), ((2, 1) : tp)), (3, (0, 0)), (5, (1, 7)), (0, (0, 1)), (5, (1, 2))],
        0 < x.1) →
      ∃ x ∈ [((5 : Int), ((2, 1) : tp)), (3, (0, 0)), (5, (1, 7)), (0, (0, 1)), (5, (1, 2))],
        (find_maxp [(5, (2, 1)), (3, (0, 0)), (5, (1, 7)), (0, (0, 1)), (5, (1, 2))] (9, 9)).1
          = x.2 ∧
        ((find_maxp [(5, (2, 1)), (3, (0, 0)), (5, (1, 7)), (0, (0, 1)), (5, (1, 2))]
          (9, 9)).2 : Int) = x.1 ∧
        (∀ y ∈ [((5 : Int), ((2, 1) : tp)), (3, (0, 0)), (5, (1, 7)), (0, (0, 1)), (5, (1, 2))],
          y.1 ≤ x.1) ∧
        ∀ y ∈ [((5 : Int), ((2, 1) : tp)), (3, (0, 0)), (5, (1, 7)), (0, (0, 1)), (5, (1, 2))],
          y.1 = x.1 → tpLe x.2 y.2) ∧
    ((∀ x ∈ [((5 : Int), ((2, 1) : tp)), (3, (0, 0)), (5, (1, 7)), (0, (0, 1)), (5, (1, 2))],
        x.1 ≤ 0) →
      (find_maxp [(5, (2, 1)), (3, (0, 0)), (5, (1, 7)), (0, (0, 1)), (5, (1, 2))] (9, 9)).2
        = 0) :=
  find_maxp_argmax [(5, (2, 1)), (3, (0, 0)), (5, (1, 7)), (0, (0, 1)), (5, (1, 2))] (9, 9)
    (by decide)

/-- C19 (counterexample): with the entries `(-1, (0, 0))` and `(5, (1, 1))`, both
counts signed 32-bit values and one of them positive, `find_maxp` returns
`max_c = 4294967295` and `maxp = (0, 0)`: the comparison `x.first > max_c` is
unsigned.  With the single entry `(-1, (0, 0))`, no count is positive and
`max_c` is not `0`. -/
theorem find_maxp_negative_count :
    find_maxp [(-1, (0, 0)), (5, (1, 1))] (9, 9) = ((0, 0), 4294967295) ∧
    find_maxp [(-1, (0, 0))] (9, 9) = ((0, 0), 4294967295) :=
  ⟨by decide, by decide⟩

/-! ## The lengths of the words -/

theorem shrinks_refl (ws : List (List Nat)) : Shrinks ws ws :=
  ⟨rfl, fun _ w h => ⟨w, h, le_refl _, fun h1 => h1⟩⟩

theorem shrinks_trans {a b c : List (List Nat)} (h1 : Shrinks a b) (h2 : Shrinks b c) :
    Shrinks a c := by
  refine ⟨by rw [h2.1, h1.1], ?_⟩
  intro j w hw
  obtain ⟨w1, e1, l1, p1⟩ := h1.2 j w hw
  obtain ⟨w2, e2, l2, p2⟩ := h2.2 j w1 e1
  exact ⟨w2, e2, le_trans l2 l1, fun h => p2 (p1 h)⟩

theorem sweepWord_length (max_p : tp) (new_token_id : Nat) (c : Int) (wi : Nat)
    (w : List Nat) (idx : PairIndex) :
    (sweepWord max_p new_token_id c wi w idx).1.length ≤ w.length ∧
    (1 ≤ w.length → 1 ≤ (sweepWord max_p new_token_id c wi w idx).1.length) := by
  cases w with
  | nil => simp [sweepWord]
  | cons x rest =>
    simp only [sweepWord]
    obtain ⟨h1, h2⟩ := sweepLoop_length max_p new_token_id c wi rest [] x x idx
    simp only [List.length_nil, List.length_cons] at h1 ⊢
    exact ⟨by omega, fun _ => h2⟩

theorem shrinks_set (ws : List (List Nat)) (wi : Nat) (w v : List Nat)
    (hw : ws.get? wi = some w) (h1 : v.length ≤ w.length) (h2 : 1 ≤ w.length → 1 ≤ v.length) :
    Shrinks ws (ws.set wi v) := by
  refine ⟨by simp, ?_⟩
  intro j u hu
  by_cases e : j = wi
  · subst e
    rw [hw] at hu
    cases hu
    have hlt : j < ws.length := by
      rw [List.get?_eq_getElem?] at hw
      by_contra hge
      rw [List.getElem?_eq_none (by omega)] at hw
      exact Option.noConfusion hw
    refine ⟨v, ?_, h1, h2⟩
    rw [List.get?_eq_getElem?, List.getElem?_set_self hlt]
  · refine ⟨u, ?_, le_refl _, fun h => h⟩
    rw [List.get?_eq_getElem?, List.getElem?_set_ne (fun h => e h.symm), ← List.get?_eq_getElem?]
    exact hu

theorem sweepWords_shrinks (max_p : tp) (new_token_id : Nat) (counts : List Int)
    (wis : List Nat) :
    ∀ (st st' : List (List Nat) × PairIndex),
      sweepWords max_p new_token_id counts wis st = .ok st' → Shrinks st.1 st'.1 := by
  induction wis with
  | nil =>
    intro st st' h
    simp [sweepWords] at h
    subst h
    exact shrinks_refl _
  | cons wi rest ih =>
    intro st st' h
    obtain ⟨w, c, hw, _, hr⟩ := sweepWords_cons_inv _ _ _ _ _ _ _ h
    obtain ⟨l1, l2⟩ := sweepWord_length max_p new_token_id c wi w st.2
    exact shrinks_trans (shrinks_set st.1 wi w _ hw l1 l2) (ih _ _ hr)

theorem learnStep_shrinks (st st' : LState) (h : learnStep st = .ok st') :
    Shrinks st.words st'.words := by
  obtain ⟨_, _, r, _, _, hr, _, _, hw, _⟩ := learnStep_inv st st' h
  rw [hw]
  exact sweepWords_shrinks _ _ _ _ _ _ hr

theorem learnLoop_shrinks (n : Nat) :
    ∀ (st st' : LState), learnLoop n st = .ok st' → Shrinks st.words st'.words := by
  induction n with
  | zero =>
    intro st st' h
    simp [learnLoop] at h
    subst h
    exact shrinks_refl _
  | succ n ih =>
    intro st st' h
    unfold learnLoop at h
    split at h
    · simp at h
    · rename_i st1 h1
      exact shrinks_trans (learnStep_shrinks _ _ h1) (ih _ _ h)

/-- C20: let `x` be the word of rank `j` of a word-count map and `i` a number of
rounds.  The learner completes `i` and `i + 1` rounds; the symbol sequence of
the word after round `i` (the state after `i + 1` rounds) is at most as long as
before it (the state after `i` rounds), and both hold at least one symbol. -/
theorem word_length_monotone (i j : Nat) (word_count : wMapCounts) (x : Str × Nat)
    (hx : word_count.get? j = some x) :
    ∃ st st' w w', learnRun i word_count = .ok st ∧ learnRun (i + 1) word_count = .ok st' ∧
      st.words.get? j = some w ∧ st'.words.get? j = some w' ∧
      w'.length ≤ w.length ∧ 1 ≤ w'.length ∧ 1 ≤ w.length := by
  have hne : word_count ≠ [] := by
    intro e
    subst e
    simp at hx
  obtain ⟨st, hst, hb, _⟩ := learnLoop_bounds i _ (learnInit_bounds word_count hne)
  obtain ⟨st', l, r, hs, _, _⟩ := learnStep_bounds st hb
  have hst' : learnRun (i + 1) word_count = .ok st' := by
    unfold learnRun
    rw [learnLoop_add, hst]
    simp only [learnLoop, hs]
  obtain ⟨_, _, k3, _, k5⟩ := tokenize_inv word_count
    { token_to_int := [], int_to_token := [], words := [], counts := [] }
    (by intro t i h; simp [Map.find?] at h) (by simp) (by simp) rfl
  simp only [List.length_nil, Nat.zero_add] at k5
  have hj : j < (learnInit word_count).words.length := by
    have : j < word_count.length := by
      rw [List.get?_eq_getElem?] at hx
      by_contra hge
      rw [List.getElem?_eq_none (by omega)] at hx
      exact Option.noConfusion hx
    show j < (tokenize word_count _).words.length
    rw [k5]
    exact this
  have h0 : (learnInit word_count).words.get? j =
      some ((learnInit word_count).words.get ⟨j, hj⟩) := List.get?_eq_get hj
  have hpos0 : 1 ≤ ((learnInit word_count).words.get ⟨j, hj⟩).length := by
    have hmem : (learnInit word_count).words.get ⟨j, hj⟩ ∈ (learnInit word_count).words :=
      List.get_mem _ _ _
    have := k3 _ hmem
    exact List.length_pos.2 this
  obtain ⟨w, e1, _, p1⟩ := (learnLoop_shrinks i _ _ hst).2 j _ h0
  obtain ⟨w', e2, l2, p2⟩ := (learnStep_shrinks _ _ hs).2 j w e1
  exact ⟨st, st', w, w', hst, hst', e1, e2, l2, p2 (p1 hpos0), p1 hpos0⟩

/-- C20 (witness): the word `newest` of the corpus of scenario 1 in round `1`. -/
theorem word_length_monotone_witness :
    ∃ st st' w w',
      learnRun 1 (getvocabs (asc "low low lower newest newest widest")) = .ok st ∧
      learnRun (1 + 1) (getvocabs (asc "low low lower newest newest widest")) = .ok st' ∧
      st.words.get? 2 = some w ∧ st'.words.get? 2 = some w' ∧
      w'.length ≤ w.length ∧ 1 ≤ w'.length ∧ 1 ≤ w.length :=
  word_length_monotone 1 2 (getvocabs (asc "low low lower newest newest widest"))
    (asc "newest", 2) (by decide)

/-! ## The occurrence sets hold no word twice -/

theorem setInsert_nodup (s : List Nat) (x : Nat) (h : s.Nodup) : (setInsert s x).Nodup := by
  unfold setInsert
  split
  · exact h
  · rename_i hx
    exact List.Nodup.append h (by simp) (by
      intro y hy hy2
      simp only [List.mem_singleton] at hy2
      subst hy2
      exact hx hy)

theorem setErase_nodup (s : List Nat) (x : Nat) (h : s.Nodup) : (setErase s x).Nodup := by
  unfold setErase
  exact List.Nodup.filter _ h

theorem change_count_nodup (idx : PairIndex) (pair : tp) (v : Int) (wi : Nat)
    (h : WhereNodup idx) : WhereNodup (change_count idx pair v wi) := by
  intro q
  rw [change_count_where]
  split
  · apply setInsert_nodup
    split
    · exact h pair
    · exact List.nodup_nil
  · exact h q

theorem updateBefore_nodup (idx : PairIndex) (pre : List Nat) (first new_token_id : Nat)
    (c : Int) (wi : Nat) (h : WhereNodup idx) :
    WhereNodup (updateBefore idx pre first new_token_id c wi) := by
  cases pre with
  | nil => exact h
  | cons b pre' => exact change_count_nodup _ _ _ _ (change_count_nodup _ _ _ _ h)

theorem updateAfter_nodup (idx : PairIndex) (rest : List Nat) (second new_token_id : Nat)
    (c : Int) (wi : Nat) (h : WhereNodup idx) :
    WhereNodup (updateAfter idx rest second new_token_id c wi) := by
  cases rest with
  | nil => exact h
  | cons a rest' => exact change_count_nodup _ _ _ _ (change_count_nodup _ _ _ _ h)

theorem sweepLoop_nodup (max_p : tp) (new_token_id : Nat) (c : Int) (wi : Nat)
    (rest : List Nat) :
    ∀ (pre : List Nat) (a cur : Nat) (idx : PairIndex), WhereNodup idx →
      WhereNodup (sweepLoop max_p new_token_id c wi pre a rest cur idx).2 := by
  induction rest with
  | nil => intro pre a cur idx h; exact h
  | cons x rest ih =>
    intro pre a cur idx h
    simp only [sweepLoop]
    split
    · exact ih _ _ _ _ (updateAfter_nodup _ _ _ _ _ _ (updateBefore_nodup _ _ _ _ _ _ h))
    · exact ih _ _ _ _ h

theorem sweepWord_nodup (max_p : tp) (new_token_id : Nat) (c : Int) (wi : Nat)
    (w : List Nat) (idx : PairIndex) (h : WhereNodup idx) :
    WhereNodup (sweepWord max_p new_token_id c wi w idx).2 := by
  cases w with
  | nil => exact h
  | cons x rest => exact sweepLoop_nodup max_p new_token_id c wi rest [] x x idx h

theorem sweepWords_nodup (max_p : tp) (new_token_id : Nat) (counts : List Int)
    (wis : List Nat) :
    ∀ (st st' : List (List Nat) × PairIndex), WhereNodup st.2 →
      sweepWords max_p new_token_id counts wis st = .ok st' → WhereNodup st'.2 := by
  induction wis with
  | nil =>
    intro st st' h hs
    simp [sweepWords] at hs
    subst hs
    exact h
  | cons wi rest ih =>
    intro st st' h hs
    obtain ⟨w, c, _, _, hr⟩ := sweepWords_cons_inv _ _ _ _ _ _ _ hs
    exact ih _ _ (sweepWord_nodup max_p new_token_id c wi w st.2 h) hr

theorem count_pair_nodup (wi count : Nat) (p : tp) (idx : PairIndex) (h : WhereNodup idx) :
    WhereNodup (count_pair wi count p idx) := by
  intro q
  rw [count_pair_where]
  have hS : (if (ccFind idx.contiguous_counts p).isNone
      then setInsert (whereGet idx.where_to_update p) 0
      else whereGet idx.where_to_update p).Nodup := by
    split
    · exact setInsert_nodup _ _ (h p)
    · exact h p
  split
  · split
    · exact setInsert_nodup _ _ hS
    · exact setErase_nodup _ _ hS
  · exact h q

theorem count_in_word_loop_nodup (wi count : Nat) (rest : List Nat) :
    ∀ (prev : Nat) (idx : PairIndex), WhereNodup idx →
      WhereNodup (count_in_word_loop wi count rest prev idx) := by
  induction rest with
  | nil => intro prev idx h; exact h
  | cons t rest ih =>
    intro prev idx h
    exact ih t _ (count_pair_nodup wi count _ idx h)

theorem count_in_word_nodup (word : List Nat) (wi count : Nat) (idx : PairIndex)
    (h : WhereNodup idx) : WhereNodup (count_in_word word wi count idx) := by
  cases word with
  | nil => exact h
  | cons t rest => exact count_in_word_loop_nodup wi count rest t idx h

theorem countAll_nodup (counts : List Int) (words : List (List Nat)) :
    ∀ (wi : Nat) (idx : PairIndex), WhereNodup idx →
      WhereNodup (countAll counts words wi idx) := by
  induction words with
  | nil => intro wi idx h; exact h
  | cons w rest ih =>
    intro wi idx h
    exact ih (wi + 1) _ (count_in_word_nodup w wi _ idx h)

theorem learnInit_nodup (word_count : wMapCounts) : WhereNodup (learnInit word_count).idx := by
  unfold learnInit
  simp only
  apply countAll_nodup
  intro p
  simp [whereGet, Map.find?]

theorem learnStep_nodup (st st' : LState) (h : WhereNodup st.idx)
    (hs : learnStep st = .ok st') : WhereNodup st'.idx := by
  obtain ⟨_, _, r, _, _, hr, _, _, _, _, _, hwh, _⟩ := learnStep_inv st st' hs
  intro p
  rw [hwh]
  exact sweepWords_nodup _ _ _ _ _ _ h hr p

theorem learnLoop_nodup (n : Nat) :
    ∀ (st st' : LState), WhereNodup st.idx → learnLoop n st = .ok st' → WhereNodup st'.idx := by
  induction n with
  | zero =>
    intro st st' h hs
    simp [learnLoop] at hs
    subst hs
    exact h
  | succ n ih =>
    intro st st' h hs
    unfold learnLoop at hs
    split at hs
    · simp at hs
    · rename_i st1 h1
      exact ih _ _ (learnStep_nodup _ _ h h1) hs

/-- C18 (as amended): for a word-count map whose weights lie between `1` and
`2^31 - 1` and whose weighted number of adjacent pairs is below `2^31`, and for
every number `i` of completed rounds, `0` (right after the index is populated)
included (only `0` for the empty map, on which no round completes), the learner
reaches a state in which, for every pair `p` of symbol ids, the occurrence set
of `p` holds no word id twice and the count stored for `p` (`0` without a
record) is the sum over the word ids in that set of the weight of the word times
the number of adjacent occurrences of `p` in its symbol sequence; and every pair
adjacent in the sequence of a word has a record with a positive count and has
the id of the word in its occurrence set. -/
theorem pair_index_exact (i : Nat) (word_count : wMapCounts)
    (hne0 : word_count ≠ [] ∨ i = 0)
    (hw : ∀ x ∈ word_count, 1 ≤ x.2 ∧ x.2 < 2 ^ 31)
    (hT : initialPairTotal word_count < 2 ^ 31) :
    ∃ st, learnRun i word_count = .ok st ∧
      st.counts = word_count.map (fun x => (x.2 : Int)) ∧
      (∀ p, (whereGet st.idx.where_to_update p).Nodup ∧
        ccCount st.idx.contiguous_counts p =
          ((whereGet st.idx.where_to_update p).map (wordTerm st.counts st.words p)).sum) ∧
      ∀ wi w p, st.words.get? wi = some w → 0 < occ p w →
        ccFind st.idx.contiguous_counts p ≠ none ∧
        0 < ccCount st.idx.contiguous_counts p ∧
        wi ∈ whereGet st.idx.where_to_update p := by
  by_cases hne : word_count = []
  · subst hne
    have hi : i = 0 := by
      rcases hne0 with h | h
      · exact absurd rfl h
      · exact h
    subst hi
    refine ⟨learnInit [], rfl, rfl, fun p => ⟨List.nodup_nil, rfl⟩, ?_⟩
    intro wi w p hwi
    have hnone : (learnInit []).words.get? wi = none := rfl
    rw [hnone] at hwi
    exact Option.noConfusion hwi
  obtain ⟨st, hst, _, _⟩ := learnLoop_bounds i _ (learnInit_bounds word_count hne)
  obtain ⟨h1, h2, h3⟩ := learnRun_learnInv i word_count st hne (fun x hx => (hw x hx).2) hst
  have hT' : pairTotal st.words st.counts < 2 ^ 31 := by
    have : (initialPairTotal word_count : Int) < 2 ^ 31 := by exact_mod_cast hT
    omega
  have hw0 : ∀ c ∈ st.counts, 0 ≤ c := fun c hc => (h1.weights c hc).1
  have hpos : ∀ c ∈ st.counts, 0 < c := by
    intro c hc
    rw [h2] at hc
    obtain ⟨x, hx, e⟩ := List.mem_map.1 hc
    have := (hw x hx).1
    rw [← e]
    exact_mod_cast this
  have hex : ∀ q, ccCount st.idx.contiguous_counts q = freq st.words st.counts q := by
    intro q
    rw [h1.exact q]
    have hb := freq_bounds q st.words st.counts hw0
    exact wrap32_of_range _ (by omega) (by omega)
  have hterm : ∀ wi w c p, st.words.get? wi = some w → st.counts.get? wi = some c →
      wordTerm st.counts st.words p wi = c * (occ p w : Int) := by
    intro wi w c p hwi hci
    unfold wordTerm
    rw [List.get?_eq_getElem?] at hwi hci
    rw [List.getD_eq_getElem?_getD, List.getD_eq_getElem?_getD, hwi, hci]
    rfl
  have hget : ∀ wi, wi < st.words.length →
      ∃ w c, st.words.get? wi = some w ∧ st.counts.get? wi = some c ∧ 0 < c := by
    intro wi hwi
    have hci : wi < st.counts.length := by rw [h1.bounds.len]; exact hwi
    refine ⟨st.words.get ⟨wi, hwi⟩, st.counts.get ⟨wi, hci⟩, List.get?_eq_get hwi,
      List.get?_eq_get hci, hpos _ (List.get_mem _ _ _)⟩
  refine ⟨st, hst, h2, ?_, ?_⟩
  · intro p
    have hnd : (whereGet st.idx.where_to_update p).Nodup :=
      learnLoop_nodup i _ _ (learnInit_nodup word_count) hst p
    refine ⟨hnd, ?_⟩
    rw [hex p, ← List.Nodup.dedup hnd]
    apply freq_over_set p st.words st.counts h1.bounds.len _ (h1.bounds.wh p)
    intro wi hwi hterm0
    obtain ⟨w, c, e1, e2, hc⟩ := hget wi hwi
    rw [hterm wi w c p e1 e2] at hterm0
    have hocc : 0 < occ p w := by
      rcases Nat.eq_zero_or_pos (occ p w) with h0 | h0
      · rw [h0] at hterm0
        simp at hterm0
      · exact h0
    exact (h1.index.covered wi w c e1 e2 hc p hocc).2
  · intro wi w p hwi hocc
    have hlt : wi < st.words.length := by
      rw [List.get?_eq_getElem?] at hwi
      by_contra hge
      rw [List.getElem?_eq_none (by omega)] at hwi
      exact Option.noConfusion hwi
    obtain ⟨w', c, e1, e2, hc⟩ := hget wi hlt
    rw [hwi] at e1
    cases e1
    obtain ⟨c1, c2⟩ := h1.index.covered wi w c hwi e2 hc p hocc
    refine ⟨c1, ?_, c2⟩
    rw [hex p]
    have hle := wordTerm_le_freq p st.words st.counts h1.bounds.len hw0 wi hlt
    rw [hterm wi w c p hwi e2] at hle
    have : 0 < c * (occ p w : Int) := mul_pos hc (by exact_mod_cast hocc)
    omega

/-- C18 (witness): the corpus of scenario 1 after two rounds. -/
theorem pair_index_exact_witness :
    ∃ st, learnRun 2 (getvocabs (asc "low low lower newest newest widest")) = .ok st ∧
      st.counts = (getvocabs (asc "low low lower newest newest widest")).map
        (fun x => (x.2 : Int)) ∧
      (∀ p, (whereGet st.idx.where_to_update p).Nodup ∧
        ccCount st.idx.contiguous_counts p =
          ((whereGet st.idx.where_to_update p).map (wordTerm st.counts st.words p)).sum) ∧
      ∀ wi w p, st.words.get? wi = some w → 0 < occ p w →
        ccFind st.idx.contiguous_counts p ≠ none ∧
        0 < ccCount st.idx.contiguous_counts p ∧
        wi ∈ whereGet st.idx.where_to_update p :=
  pair_index_exact 2 (getvocabs (asc "low low lower newest newest widest"))
    (Or.inl (by decide)) (by decide) (by decide)

/-- C18 (counterexample): for the words `abc`, `abd`, `abe` with the weights
`2^31 - 1`, `2^31 - 1`, `2`, right after the index is populated, the pair
`(a, b)` (the ids `0` and `1`) is adjacent in the word `0`, its stored count is
`0`, and the sum over its occurrence set is `2^32`.  For the word `ab` with the
weight `0` the pair `(a, b</w>)` is adjacent in the word `0`, its stored count
is `0` and its occurrence set is empty. -/
theorem pair_index_exact_fails :
    (learnInit wcOverflow).counts = wcOverflow.map (fun x => (x.2 : Int)) ∧
    (learnInit wcOverflow).words.get? 0 = some [0, 1, 2] ∧
    ccCount (learnInit wcOverflow).idx.contiguous_counts (0, 1) = 0 ∧
    ((whereGet (learnInit wcOverflow).idx.where_to_update (0, 1)).map
      (wordTerm (learnInit wcOverflow).counts (learnInit wcOverflow).words (0, 1))).sum =
        4294967296 ∧
    (learnInit [(asc "ab", 0)]).words.get? 0 = some [0, 1] ∧
    ccCount (learnInit [(asc "ab", 0)]).idx.contiguous_counts (0, 1) = 0 ∧
    whereGet (learnInit [(asc "ab", 0)]).idx.where_to_update (0, 1) = [] :=
  ⟨by decide, by decide, by decide, by decide, by decide, by decide, by decide⟩

/-! ## Replacing a pair, left to right and without overlap -/

theorem two_step_induction {α : Type} (P : List α → Prop) (h0 : P []) (h1 : ∀ a, P [a])
    (h2 : ∀ a b rest, P rest → P (b :: rest) → P (a :: b :: rest)) : ∀ l, P l := by
  have h : ∀ l, P l ∧ ∀ a, P (a :: l) := by
    intro l
    induction l with
    | nil => exact ⟨h0, h1⟩
    | cons b rest ih => exact ⟨ih.2 b, fun a => h2 a b rest ih.1 (ih.2 b)⟩
  exact fun l => (h l).1

theorem adj_cons_cons {α : Type} (a b : α) (rest : List α) :
    adj (a :: b :: rest) = (a, b) :: adj (b :: rest) := rfl

theorem adj_singleton {α : Type} (a : α) : adj [a] = [] := rfl

theorem adj_nil {α : Type} : adj ([] : List α) = [] := rfl

theorem replacePairs_cons_cons {α : Type} [DecidableEq α] (p : α × α) (n a b : α)
    (rest : List α) :
    replacePairs p n (a :: b :: rest) =
      if (a, b) = p then n :: replacePairs p n rest else a :: replacePairs p n (b :: rest) := by
  rw [replacePairs]

theorem replacePairs_singleton {α : Type} [DecidableEq α] (p : α × α) (n a : α) :
    replacePairs p n [a] = [a] := by
  rw [replacePairs]
  intro a b rest h
  cases h

theorem replacePairs_nil {α : Type} [DecidableEq α] (p : α × α) (n : α) :
    replacePairs p n [] = [] := by
  rw [replacePairs]
  intro a b rest h
  cases h

/-- The first symbol after the replacement is the first symbol of the sequence
or the new symbol. -/
theorem replacePairs_head {α : Type} [DecidableEq α] (p : α × α) (n b : α) (rest : List α) :
    ∃ t, replacePairs p n (b :: rest) = b :: t ∨ replacePairs p n (b :: rest) = n :: t := by
  cases rest with
  | nil => exact ⟨[], Or.inl (replacePairs_singleton p n b)⟩
  | cons c rest =>
    rw [replacePairs_cons_cons]
    split
    · exact ⟨_, Or.inr rfl⟩
    · exact ⟨_, Or.inl rfl⟩

theorem replacePairs_length_le {α : Type} [DecidableEq α] (p : α × α) (n : α) :
    ∀ l, (replacePairs p n l).length ≤ l.length := by
  refine two_step_induction _ ?_ ?_ ?_
  · rw [replacePairs_nil]
  · intro a
    rw [replacePairs_singleton]
  · intro a b rest i1 i2
    rw [replacePairs_cons_cons]
    split
    · simp only [List.length_cons]
      omega
    · simp only [List.length_cons] at i2 ⊢
      omega

theorem replacePairs_length_lt {α : Type} [DecidableEq α] (p : α × α) (n : α) :
    ∀ l, p ∈ adj l → (replacePairs p n l).length < l.length := by
  refine two_step_induction _ ?_ ?_ ?_
  · intro h
    simp [adj_nil] at h
  · intro a h
    simp [adj_singleton] at h
  · intro a b rest _ i2 h
    rw [replacePairs_cons_cons]
    split
    · have := replacePairs_length_le p n rest
      simp only [List.length_cons]
      omega
    · rename_i hne
      rw [adj_cons_cons] at h
      rcases List.mem_cons.1 h with h | h
      · exact absurd h.symm hne
      · have := i2 h
        simp only [List.length_cons] at this ⊢
        omega

theorem replacePairs_ne_nil {α : Type} [DecidableEq α] (p : α × α) (n : α) (l : List α)
    (h : l ≠ []) : replacePairs p n l ≠ [] := by
  cases l with
  | nil => exact absurd rfl h
  | cons b rest =>
    obtain ⟨t, e | e⟩ := replacePairs_head p n b rest <;> rw [e] <;> simp

/-- A sequence without occurrence of the pair is left as it is. -/
theorem replacePairs_of_not_mem {α : Type} [DecidableEq α] (p : α × α) (n : α) :
    ∀ l, p ∉ adj l → replacePairs p n l = l := by
  refine two_step_induction _ ?_ ?_ ?_
  · intro _
    rw [replacePairs_nil]
  · intro a _
    rw [replacePairs_singleton]
  · intro a b rest _ i2 h
    rw [adj_cons_cons] at h
    simp only [List.mem_cons, not_or] at h
    rw [replacePairs_cons_cons, if_neg (fun e => h.1 e.symm), i2 h.2]

/-- After the replacement the pair occurs no more, when the new symbol is
neither of its two symbols. -/
theorem not_mem_adj_replacePairs {α : Type} [DecidableEq α] (p : α × α) (n : α)
    (h1 : n ≠ p.1) (h2 : n ≠ p.2) : ∀ l, p ∉ adj (replacePairs p n l) := by
  refine two_step_induction _ ?_ ?_ ?_
  · rw [replacePairs_nil]
    simp [adj_nil]
  · intro a
    rw [replacePairs_singleton]
    simp [adj_singleton]
  · intro a b rest i1 i2
    rw [replacePairs_cons_cons]
    split
    · cases hr : replacePairs p n rest with
      | nil => simp [adj_singleton]
      | cons c t =>
        rw [adj_cons_cons, ← hr]
        intro h
        rcases List.mem_cons.1 h with h | h
        · exact h1 (by rw [h])
        · exact i1 h
    · rename_i hne
      obtain ⟨t, e | e⟩ := replacePairs_head p n b rest
      · rw [e, adj_cons_cons, ← e]
        intro h
        rcases List.mem_cons.1 h with h | h
        · exact hne h.symm
        · exact i2 h
      · rw [e, adj_cons_cons, ← e]
        intro h
        rcases List.mem_cons.1 h with h | h
        · exact h2 (by rw [h])
        · exact i2 h

/-! ## The merge loop of the applier -/

theorem mergePass_true (l r : Str) (s : List Str) :
    mergePass l r s true = mergePass l r s.tail false := by
  cases s with
  | nil => simp [mergePass]
  | cons a rest =>
    cases rest with
    | nil => simp [mergePass]
    | cons b rest => simp [mergePass]

/-- The rewriting loop replaces the occurrences of the pair left to right and
without overlap. -/
theorem mergePass_eq_replacePairs (l r : Str) :
    ∀ s, mergePass l r s false = replacePairs (l, r) (l ++ r) s := by
  refine two_step_induction _ ?_ ?_ ?_
  · rw [replacePairs_nil]
    simp [mergePass]
  · intro a
    rw [replacePairs_singleton]
    simp [mergePass]
  · intro a b rest i1 i2
    rw [replacePairs_cons_cons]
    unfold mergePass
    by_cases h : a = l ∧ b = r
    · obtain ⟨rfl, rfl⟩ := h
      simp only [Bool.not_false, Bool.true_and, decide_True, if_true]
      rw [mergePass_true, List.tail_cons, i1]
    · have h2 : ¬ (a, b) = (l, r) := by
        intro e
        exact h (Prod.mk.inj e)
      rw [if_neg h2]
      split
      · rename_i h3
        simp at h3
        exact absurd h3 h
      · simp only [Bool.false_eq_true, if_false]
        rw [i2]

/-- The search loop: the pair found is a key of rank below `2^31`, adjacent in
the sequence unless it is the pair on entry, and no adjacent key of rank below
`2^31` nor the pair on entry has a smaller rank; nothing is found only when
nothing was there on entry and no adjacent pair is a key of rank below `2^31`. -/
theorem bestPairLoop_spec (codes : codesMap) :
    ∀ (s : List Str) (i : Nat) (best : Option (Nat × tps × Nat)),
      (∀ j p rb, best = some (j, p, rb) → Map.find? codes p = some rb ∧ rb < 2 ^ 31) →
      (bestPairLoop codes s i best = none →
        best = none ∧ ∀ q ∈ adj s, ∀ r, Map.find? codes q = some r → 2 ^ 31 ≤ r) ∧
      (∀ j p rb, bestPairLoop codes s i best = some (j, p, rb) →
        Map.find? codes p = some rb ∧ rb < 2 ^ 31 ∧
        (p ∈ adj s ∨ best = some (j, p, rb)) ∧
        (∀ q ∈ adj s, ∀ r, Map.find? codes q = some r → r < 2 ^ 31 → rb ≤ r) ∧
        (∀ j1 p1 rb1, best = some (j1, p1, rb1) → rb ≤ rb1)) := by
  intro s
  induction s with
  | nil =>
    intro i best hb
    simp only [bestPairLoop]
    refine ⟨fun h => ⟨h, by simp [adj_nil]⟩, ?_⟩
    intro j p rb h
    obtain ⟨h1, h2⟩ := hb j p rb h
    refine ⟨h1, h2, Or.inr h, by simp [adj_nil], ?_⟩
    intro j1 p1 rb1 e
    rw [h] at e
    cases e
    exact le_refl _
  | cons a rest ih =>
    cases rest with
    | nil =>
      intro i best hb
      simp only [bestPairLoop]
      refine ⟨fun h => ⟨h, by simp [adj_singleton]⟩, ?_⟩
      intro j p rb h
      obtain ⟨h1, h2⟩ := hb j p rb h
      refine ⟨h1, h2, Or.inr h, by simp [adj_singleton], ?_⟩
      intro j1 p1 rb1 e
      rw [h] at e
      cases e
      exact le_refl _
    | cons b rest =>
      intro i best hb
      rw [bestPairLoop]
      rw [adj_cons_cons]
      cases hf : Map.find? codes (a, b) with
      | none =>
        simp only []
        obtain ⟨k1, k2⟩ := ih (i + 1) best hb
        constructor
        · intro h
          obtain ⟨e, hall⟩ := k1 h
          refine ⟨e, ?_⟩
          intro q hq r hr
          rcases List.mem_cons.1 hq with hq | hq
          · rw [hq, hf] at hr
            cases hr
          · exact hall q hq r hr
        · intro j p rb h
          obtain ⟨h1, h2, h3, h4, h5⟩ := k2 j p rb h
          refine ⟨h1, h2, ?_, ?_, h5⟩
          · rcases h3 with h3 | h3
            · exact Or.inl (List.mem_cons_of_mem _ h3)
            · exact Or.inr h3
          · intro q hq r hr hlt
            rcases List.mem_cons.1 hq with hq | hq
            · rw [hq, hf] at hr
              cases hr
            · exact h4 q hq r hr hlt
      | some rk =>
        simp only []
        by_cases hlt : rk < 2 ^ 31
        · rw [if_pos hlt]
          cases best with
          | none =>
            simp only []
            obtain ⟨k1, k2⟩ := ih (i + 1) (some (i, (a, b), rk)) (by
              intro j p rb e
              cases e
              exact ⟨hf, hlt⟩)
            constructor
            · intro h
              exact absurd (k1 h).1 (by simp)
            · intro j p rb h
              obtain ⟨h1, h2, h3, h4, h5⟩ := k2 j p rb h
              refine ⟨h1, h2, ?_, ?_, ?_⟩
              · rcases h3 with h3 | h3
                · exact Or.inl (List.mem_cons_of_mem _ h3)
                · cases h3
                  exact Or.inl (List.mem_cons_self _ _)
              · intro q hq r hr hl
                rcases List.mem_cons.1 hq with hq | hq
                · rw [hq, hf] at hr
                  cases hr
                  exact h5 i (a, b) rk rfl
                · exact h4 q hq r hr hl
              · intro j1 p1 rb1 e
                cases e
          | some bst =>
            obtain ⟨j0, p0, rb0⟩ := bst
            simp only []
            obtain ⟨g1, g2⟩ := hb j0 p0 rb0 rfl
            by_cases hgt : rb0 > rk
            · rw [if_pos hgt]
              obtain ⟨k1, k2⟩ := ih (i + 1) (some (i, (a, b), rk)) (by
                intro j p rb e
                cases e
                exact ⟨hf, hlt⟩)
              constructor
              · intro h
                exact absurd (k1 h).1 (by simp)
              · intro j p rb h
                obtain ⟨h1, h2, h3, h4, h5⟩ := k2 j p rb h
                have hle := h5 i (a, b) rk rfl
                refine ⟨h1, h2, ?_, ?_, ?_⟩
                · rcases h3 with h3 | h3
                  · exact Or.inl (List.mem_cons_of_mem _ h3)
                  · cases h3
                    exact Or.inl (List.mem_cons_self _ _)
                · intro q hq r hr hl
                  rcases List.mem_cons.1 hq with hq | hq
                  · rw [hq, hf] at hr
                    cases hr
                    exact hle
                  · exact h4 q hq r hr hl
                · intro j1 p1 rb1 e
                  cases e
                  omega
            · rw [if_neg hgt]
              obtain ⟨k1, k2⟩ := ih (i + 1) (some (j0, p0, rb0)) hb
              constructor
              · intro h
                exact absurd (k1 h).1 (by simp)
              · intro j p rb h
                obtain ⟨h1, h2, h3, h4, h5⟩ := k2 j p rb h
                have hle := h5 j0 p0 rb0 rfl
                refine ⟨h1, h2, ?_, ?_, h5⟩
                · rcases h3 with h3 | h3
                  · exact Or.inl (List.mem_cons_of_mem _ h3)
                  · exact Or.inr h3
                · intro q hq r hr hl
                  rcases List.mem_cons.1 hq with hq | hq
                  · rw [hq, hf] at hr
                    cases hr
                    omega
                  · exact h4 q hq r hr hl
        · rw [if_neg hlt]
          obtain ⟨k1, k2⟩ := ih (i + 1) best hb
          constructor
          · intro h
            obtain ⟨e, hall⟩ := k1 h
            refine ⟨e, ?_⟩
            intro q hq r hr
            rcases List.mem_cons.1 hq with hq | hq
            · rw [hq, hf] at hr
              cases hr
              omega
            · exact hall q hq r hr
          · intro j p rb h
            obtain ⟨h1, h2, h3, h4, h5⟩ := k2 j p rb h
            refine ⟨h1, h2, ?_, ?_, h5⟩
            · rcases h3 with h3 | h3
              · exact Or.inl (List.mem_cons_of_mem _ h3)
              · exact Or.inr h3
            · intro q hq r hr hl
              rcases List.mem_cons.1 hq with hq | hq
              · rw [hq, hf] at hr
                cases hr
                exact absurd hl hlt
              · exact h4 q hq r hr hl

/-- The search of one round, started as the loop starts it. -/
theorem bestPair_spec (codes : codesMap) (s : List Str) :
    (bestPairLoop codes s 0 none = none →
      ∀ q ∈ adj s, ∀ r, Map.find? codes q = some r → 2 ^ 31 ≤ r) ∧
    (∀ j p rb, bestPairLoop codes s 0 none = some (j, p, rb) →
      Map.find? codes p = some rb ∧ rb < 2 ^ 31 ∧ p ∈ adj s ∧
      ∀ q ∈ adj s, ∀ r, Map.find? codes q = some r → r < 2 ^ 31 → rb ≤ r) := by
  obtain ⟨k1, k2⟩ := bestPairLoop_spec codes s 0 none (by
    intro j p rb e
    cases e)
  refine ⟨fun h => (k1 h).2, ?_⟩
  intro j p rb h
  obtain ⟨h1, h2, h3, h4, _⟩ := k2 j p rb h
  refine ⟨h1, h2, ?_, h4⟩
  rcases h3 with h3 | h3
  · exact h3
  · cases h3

theorem adj_eq_nil_of_length_le {α : Type} (s : List α) (h : s.length ≤ 1) : adj s = [] := by
  cases s with
  | nil => rfl
  | cons a rest =>
    cases rest with
    | nil => rfl
    | cons b rest =>
      simp only [List.length_cons] at h
      omega

/-- One round of the loop: with a pair found, the loop goes on with the
rewritten sequence. -/
theorem mergeLoop_round (codes : codesMap) (s : List Str) (j : Nat) (l r : Str) (rk : Nat)
    (h : bestPairLoop codes s 0 none = some (j, (l, r), rk)) (fuel : Nat) :
    mergeLoop codes (fuel + 1) s = mergeLoop codes fuel (mergePass l r s false) := by
  have hlen : s.length > 1 := by
    by_contra hle
    have e := adj_eq_nil_of_length_le s (by omega)
    have := ((bestPair_spec codes s).2 j (l, r) rk h).2.2.1
    rw [e] at this
    simp at this
  rw [mergeLoop]
  rw [if_pos hlen, h]

/-- The loop stops on a sequence in which nothing is found. -/
theorem mergeLoop_stop (codes : codesMap) (s : List Str)
    (h : bestPairLoop codes s 0 none = none) (fuel : Nat) :
    mergeLoop codes fuel s = .ok s := by
  rw [mergeLoop]
  split
  · rw [h]
  · rfl

theorem bestPairLoop_short (codes : codesMap) (s : List Str) (h : s.length ≤ 1) :
    bestPairLoop codes s 0 none = none := by
  cases s with
  | nil => simp [bestPairLoop]
  | cons a rest =>
    cases rest with
    | nil => simp [bestPairLoop]
    | cons b rest =>
      simp only [List.length_cons] at h
      omega

/-- The loop returns with as much fuel as the sequence has symbols but one, and
what it returns has nothing more to find. -/
theorem mergeLoop_returns (codes : codesMap) :
    ∀ (fuel : Nat) (s : List Str), s.length ≤ fuel + 1 →
      ∃ out, mergeLoop codes fuel s = .ok out ∧ bestPairLoop codes out 0 none = none ∧
        out.length ≤ s.length ∧ (s ≠ [] → out ≠ []) := by
  intro fuel
  induction fuel with
  | zero =>
    intro s hs
    have hb := bestPairLoop_short codes s (by omega)
    exact ⟨s, mergeLoop_stop codes s hb 0, hb, le_refl _, fun h => h⟩
  | succ f ih =>
    intro s hs
    cases hb : bestPairLoop codes s 0 none with
    | none => exact ⟨s, mergeLoop_stop codes s hb _, hb, le_refl _, fun h => h⟩
    | some x =>
      obtain ⟨j, ⟨l, r⟩, rk⟩ := x
      rw [mergeLoop_round codes s j l r rk hb f]
      have hmem := ((bestPair_spec codes s).2 j (l, r) rk hb).2.2.1
      have hlt := replacePairs_length_lt (l, r) (l ++ r) s hmem
      rw [← mergePass_eq_replacePairs] at hlt
      obtain ⟨out, h1, h2, h3, h4⟩ := ih (mergePass l r s false) (by omega)
      refine ⟨out, h1, h2, by omega, ?_⟩
      intro hne
      apply h4
      rw [mergePass_eq_replacePairs]
      exact replacePairs_ne_nil _ _ _ hne

/-- More fuel than needed does not change the result. -/
theorem mergeLoop_fuel (codes : codesMap) :
    ∀ (fuel : Nat) (s out : List Str), mergeLoop codes fuel s = .ok out →
      ∀ more, mergeLoop codes (fuel + more) s = .ok out := by
  intro fuel
  induction fuel with
  | zero =>
    intro s out h more
    cases hb : bestPairLoop codes s 0 none with
    | none =>
      rw [mergeLoop_stop codes s hb] at h ⊢
      exact h
    | some x =>
      exfalso
      obtain ⟨j, ⟨l, r⟩, rk⟩ := x
      have hmem := ((bestPair_spec codes s).2 j (l, r) rk hb).2.2.1
      have hlen : s.length > 1 := by
        by_contra hle
        rw [adj_eq_nil_of_length_le s (by omega)] at hmem
        simp at hmem
      rw [mergeLoop, if_pos hlen, hb] at h
      simp at h
  | succ f ih =>
    intro s out h more
    cases hb : bestPairLoop codes s 0 none with
    | none =>
      rw [mergeLoop_stop codes s hb] at h ⊢
      exact h
    | some x =>
      obtain ⟨j, ⟨l, r⟩, rk⟩ := x
      rw [mergeLoop_round codes s j l r rk hb f] at h
      have e : f + 1 + more = (f + more) + 1 := by omega
      rw [e, mergeLoop_round codes s j l r rk hb (f + more)]
      exact ih _ _ h more

/-- C22 (as amended): for a codes map whose ranks are below `2^31` and every
symbol sequence: the merge loop of `process_bpe` returns, and no adjacent pair of
what it returns is a key of the codes; on a sequence without adjacent key the
loop stops at once; on a sequence with an adjacent key the loop does a round, and
the pair `(l, r)` merged in this round (every occurrence of it, left to right
without overlap) is adjacent in the sequence, is a key, and has the smallest rank
of all the adjacent pairs that are keys. -/
theorem greedy_lowest_rank (codes : codesMap)
    (hrank : ∀ x ∈ codes, x.2 < 2 ^ 31) (s : List Str) :
    (∃ out, mergeLoop codes s.length s = .ok out ∧
      ∀ q ∈ adj out, Map.find? codes q = none) ∧
    ((∀ q ∈ adj s, Map.find? codes q = none) → ∀ fuel, mergeLoop codes fuel s = .ok s) ∧
    ((∃ q ∈ adj s, Map.find? codes q ≠ none) →
      ∃ l r rk, (l, r) ∈ adj s ∧ Map.find? codes (l, r) = some rk ∧
        (∀ q ∈ adj s, ∀ r1, Map.find? codes q = some r1 → rk ≤ r1) ∧
        mergePass l r s false = replacePairs (l, r) (l ++ r) s ∧
        ∀ fuel, mergeLoop codes (fuel + 1) s = mergeLoop codes fuel (mergePass l r s false)) := by
  have hr : ∀ q r, Map.find? codes q = some r → r < 2 ^ 31 :=
    fun q r h => hrank (q, r) (mapFind_mem codes q r h)
  have hnone : ∀ t : List Str, bestPairLoop codes t 0 none = none →
      ∀ q ∈ adj t, Map.find? codes q = none := by
    intro t ht q hq
    cases hf : Map.find? codes q with
    | none => rfl
    | some r1 =>
      have h1 := (bestPair_spec codes t).1 ht q hq r1 hf
      have h2 := hr q r1 hf
      omega
  refine ⟨?_, ?_, ?_⟩
  · obtain ⟨out, h1, h2, _⟩ := mergeLoop_returns codes s.length s (by omega)
    exact ⟨out, h1, hnone out h2⟩
  · intro hall fuel
    apply mergeLoop_stop
    cases hb : bestPairLoop codes s 0 none with
    | none => rfl
    | some x =>
      obtain ⟨j, p, rk⟩ := x
      obtain ⟨h1, _, h3, _⟩ := (bestPair_spec codes s).2 j p rk hb
      rw [hall p h3] at h1
      cases h1
  · rintro ⟨q, hq, hk⟩
    cases hb : bestPairLoop codes s 0 none with
    | none => exact absurd (hnone s hb q hq) hk
    | some x =>
      obtain ⟨j, ⟨l, r⟩, rk⟩ := x
      obtain ⟨h1, _, h3, h4⟩ := (bestPair_spec codes s).2 j (l, r) rk hb
      refine ⟨l, r, rk, h3, h1, ?_, mergePass_eq_replacePairs l r s,
        mergeLoop_round codes s j l r rk hb⟩
      intro q1 hq1 r1 hf1
      exact h4 q1 hq1 r1 hf1 (hr q1 r1 hf1)

/-- C22 (witness): the codes of scenario 2 on the symbols of `low`. -/
theorem greedy_lowest_rank_witness :
    (∃ out, mergeLoop codesLow [asc "l", asc "o", asc "w</w>"].length
        [asc "l", asc "o", asc "w</w>"] = .ok out ∧
      ∀ q ∈ adj out, Map.find? codesLow q = none) ∧
    ((∀ q ∈ adj [asc "l", asc "o", asc "w</w>"], Map.find? codesLow q = none) →
      ∀ fuel, mergeLoop codesLow fuel [asc "l", asc "o", asc "w</w>"] =
        .ok [asc "l", asc "o", asc "w</w>"]) ∧
    ((∃ q ∈ adj [asc "l", asc "o", asc "w</w>"], Map.find? codesLow q ≠ none) →
      ∃ l r rk, (l, r) ∈ adj [asc "l", asc "o", asc "w</w>"] ∧
        Map.find? codesLow (l, r) = some rk ∧
        (∀ q ∈ adj [asc "l", asc "o", asc "w</w>"], ∀ r1,
          Map.find? codesLow q = some r1 → rk ≤ r1) ∧
        mergePass l r [asc "l", asc "o", asc "w</w>"] false =
          replacePairs (l, r) (l ++ r) [asc "l", asc "o", asc "w</w>"] ∧
        ∀ fuel, mergeLoop codesLow (fuel + 1) [asc "l", asc "o", asc "w</w>"] =
          mergeLoop codesLow fuel (mergePass l r [asc "l", asc "o", asc "w</w>"] false)) :=
  greedy_lowest_rank codesLow (by decide) [asc "l", asc "o", asc "w</w>"]

/-- C22 (counterexample): the pair `(a, b)` is a key of the codes, with the rank
`2^31`, and adjacent in the sequence `a b` of length two; the loop ends on this
sequence without merging. -/
theorem greedy_ignores_high_rank :
    Map.find? [((asc "a", asc "b"), 2 ^ 31)] (asc "a", asc "b") = some (2 ^ 31) ∧
    (asc "a", asc "b") ∈ adj [asc "a", asc "b"] ∧
    [asc "a", asc "b"].length = 2 ∧
    mergeLoop [((asc "a", asc "b"), 2 ^ 31)] [asc "a", asc "b"].length [asc "a", asc "b"] =
      .ok [asc "a", asc "b"] ∧
    process_bpe 0 [asc "a", asc "b</w>"] [((asc "a", asc "b</w>"), 2 ^ 31)] [] [] =
      .ok (asc "a@@ b") :=
  ⟨by decide, by decide, by decide, by decide, by decide⟩

/-- C24: for every codes map and symbol sequence, the merge loop of
`process_bpe` returns after at most as many rounds as the sequence has symbols
but one (the fuel counts the rounds, and more fuel does not change the result),
with a sequence of the same concatenation; and every round in which a pair
`(l, r)` is found rewrites the sequence by replacing the occurrences of the pair
left to right without overlap, which keeps the concatenation (no symbol is
merged twice or lost) and makes the sequence strictly shorter. -/
theorem merge_loop_terminates (codes : codesMap) (s : List Str) :
    (∃ out, mergeLoop codes (s.length - 1) s = .ok out ∧
      (∀ more, mergeLoop codes (s.length - 1 + more) s = .ok out) ∧
      out.flatten = s.flatten ∧ out.length ≤ s.length) ∧
    ∀ j l r rk, bestPairLoop codes s 0 none = some (j, (l, r), rk) →
      (l, r) ∈ adj s ∧
      mergePass l r s false = replacePairs (l, r) (l ++ r) s ∧
      (mergePass l r s false).flatten = s.flatten ∧
      (mergePass l r s false).length < s.length ∧
      ∀ fuel, mergeLoop codes (fuel + 1) s = mergeLoop codes fuel (mergePass l r s false) := by
  constructor
  · obtain ⟨out, h1, _, h3, _⟩ := mergeLoop_returns codes (s.length - 1) s (by omega)
    exact ⟨out, h1, mergeLoop_fuel codes _ s out h1, mergeLoop_join codes _ s out h1, h3⟩
  · intro j l r rk hb
    have hmem := ((bestPair_spec codes s).2 j (l, r) rk hb).2.2.1
    have hlt := replacePairs_length_lt (l, r) (l ++ r) s hmem
    rw [← mergePass_eq_replacePairs] at hlt
    refine ⟨hmem, mergePass_eq_replacePairs l r s, ?_, hlt, mergeLoop_round codes s j l r rk hb⟩
    rw [mergePass_join]
    simp

/-- C24 (example): the symbols of `aaaa` under the codes `a a`, `aa aa`: two
rounds, the first merges the positions `0, 1` and `2, 3`. -/
theorem merge_loop_terminates_example :
    mergeLoop [((asc "a", asc "a"), 0), ((asc "aa", asc "aa"), 1)] 2
        [asc "a", asc "a", asc "a", asc "a</w>"] =
      .ok [asc "aa", asc "a", asc "a</w>"] ∧
    mergePass (asc "a") (asc "a") [asc "a", asc "a", asc "a", asc "a", asc "a"] false =
      [asc "aa", asc "aa", asc "a"] :=
  ⟨by decide, by decide⟩

/-! ## The rewriting of the words by a round of the learner -/

theorem replacePairs_cons_of_ne {α : Type} [DecidableEq α] (p : α × α) (n b : α)
    (h : b ≠ p.1) (rest : List α) :
    replacePairs p n (b :: rest) = b :: replacePairs p n rest := by
  cases rest with
  | nil => rw [replacePairs_singleton, replacePairs_nil]
  | cons c rest =>
    rw [replacePairs_cons_cons, if_neg]
    intro e
    exact h (by rw [← e])

/-- Replacing twice is replacing once, when the new symbol is neither symbol of
the pair. -/
theorem replacePairs_idem {α : Type} [DecidableEq α] (p : α × α) (n : α)
    (h1 : n ≠ p.1) (h2 : n ≠ p.2) (l : List α) :
    replacePairs p n (replacePairs p n l) = replacePairs p n l :=
  replacePairs_of_not_mem p n _ (not_mem_adj_replacePairs p n h1 h2 l)

/-- The loop over one word replaces the pair left to right without overlap: the
new symbol, being fresh, never starts an occurrence. -/
theorem sweepLoop_words (max_p : tp) (new_token_id : Nat) (c : Int) (wi : Nat)
    (hn : new_token_id ≠ max_p.1) (rest : List Nat) :
    ∀ (pre : List Nat) (a : Nat) (idx : PairIndex),
      (sweepLoop max_p new_token_id c wi pre a rest a idx).1 =
        pre.reverse ++ replacePairs max_p new_token_id (a :: rest) := by
  induction rest with
  | nil =>
    intro pre a idx
    rw [replacePairs_singleton]
    simp [sweepLoop]
  | cons x rest ih =>
    intro pre a idx
    simp only [sweepLoop]
    rw [replacePairs_cons_cons]
    split
    · rw [ih, replacePairs_cons_of_ne max_p new_token_id new_token_id hn]
    · rw [ih]
      simp

theorem sweepWord_words (max_p : tp) (new_token_id : Nat) (c : Int) (wi : Nat)
    (hn : new_token_id ≠ max_p.1) (w : List Nat) (idx : PairIndex) :
    (sweepWord max_p new_token_id c wi w idx).1 = replacePairs max_p new_token_id w := by
  cases w with
  | nil =>
    rw [replacePairs_nil]
    rfl
  | cons x rest =>
    simp only [sweepWord]
    rw [sweepLoop_words max_p new_token_id c wi hn rest [] x idx]
    simp

/-- The words after the loop over an occurrence set: the words of the set are
rewritten, the others are as before. -/
theorem sweepWords_words (max_p : tp) (new_token_id : Nat) (counts : List Int)
    (h1 : new_token_id ≠ max_p.1) (h2 : new_token_id ≠ max_p.2) (wis : List Nat) :
    ∀ (st st' : List (List Nat) × PairIndex),
      sweepWords max_p new_token_id counts wis st = .ok st' →
      ∀ j w, st.1.get? j = some w →
        st'.1.get? j = some (if j ∈ wis then replacePairs max_p new_token_id w else w) := by
  induction wis with
  | nil =>
    intro st st' h j w hw
    simp [sweepWords] at h
    subst h
    simpa using hw
  | cons wi rest ih =>
    intro st st' h j w hw
    obtain ⟨v, c, hv, _, hr⟩ := sweepWords_cons_inv _ _ _ _ _ _ _ h
    rw [sweepWord_words max_p new_token_id c wi h1 v st.2] at hr
    by_cases e : j = wi
    · subst e
      rw [hw] at hv
      cases hv
      have hlt : j < st.1.length := by
        rw [List.get?_eq_getElem?] at hw
        by_contra hge
        rw [List.getElem?_eq_none (by omega)] at hw
        exact Option.noConfusion hw
      have hset : (st.1.set j (replacePairs max_p new_token_id w)).get? j =
          some (replacePairs max_p new_token_id w) := by
        rw [List.get?_eq_getElem?, List.getElem?_set_self hlt]
      rw [ih _ _ hr j _ hset]
      simp only [List.mem_cons, true_or, if_true]
      split
      · rw [replacePairs_idem max_p new_token_id h1 h2]
      · rfl
    · have hset : (st.1.set wi (replacePairs max_p new_token_id v)).get? j = some w := by
        rw [List.get?_eq_getElem?, List.getElem?_set_ne (fun h => e h.symm),
          ← List.get?_eq_getElem?]
        exact hw
      rw [ih _ _ hr j _ hset]
      simp only [List.mem_cons, e, false_or]

/-- C21 (example): five copies of `a` under `(a, a)`. -/
theorem replacePairs_run_example :
    replacePairs (7, 7) 9 [1, 7, 7, 7, 7, 7, 2] = [1, 9, 9, 7, 2] := by
  decide

/-! ## The counts of the rules, one after the other -/

theorem occ_tail_le (q : tp) (b : Nat) (rest : List Nat) : occ q rest ≤ occ q (b :: rest) := by
  rw [occ_cons]
  omega

theorem afterPair_le_one (y : Nat) (R : List Nat) (q : tp) : afterPair y R q ≤ 1 := by
  cases R with
  | nil => simp [afterPair]
  | cons z R =>
    simp only [afterPair]
    split <;> omega

theorem afterPair_of_fst_ne (y : Nat) (R : List Nat) (q : tp) (h : q.1 ≠ y) :
    afterPair y R q = 0 := by
  cases R with
  | nil => rfl
  | cons z R =>
    simp only [afterPair]
    rw [if_neg]
    intro e
    exact h (by rw [← e])

theorem afterPair_of_snd_ne (y z : Nat) (R : List Nat) (q : tp) (h : q.2 ≠ z) :
    afterPair y (z :: R) q = 0 := by
  simp only [afterPair]
  rw [if_neg]
  intro e
  exact h (by rw [← e])

/-- A pair without the new symbol does not occur more often after the
replacement. -/
theorem occ_replacePairs_le (p q : tp) (n : Nat) (h1 : q.1 ≠ n) (h2 : q.2 ≠ n) :
    ∀ w, occ q (replacePairs p n w) ≤ occ q w := by
  refine two_step_induction _ ?_ ?_ ?_
  · rw [replacePairs_nil]
  · intro a
    rw [replacePairs_singleton]
  · intro a b rest i1 i2
    rw [replacePairs_cons_cons]
    split
    · rw [occ_cons q n, afterPair_of_fst_ne n _ q h1]
      have := occ_tail_le q b rest
      have := occ_tail_le q a (b :: rest)
      omega
    · rw [occ_cons q a (replacePairs p n (b :: rest)), occ_cons q a (b :: rest)]
      have hle : afterPair a (replacePairs p n (b :: rest)) q ≤ afterPair a (b :: rest) q := by
        obtain ⟨t, e | e⟩ := replacePairs_head p n b rest
        · rw [e]
          simp [afterPair]
        · rw [e, afterPair_of_snd_ne a n t q h2]
          exact Nat.zero_le _
      omega

/-- The new symbol occurs at most as often as the pair did. -/
theorem count_replacePairs_le (p : tp) (n : Nat) :
    ∀ w : List Nat, n ∉ w → (replacePairs p n w).count n ≤ occ p w := by
  refine two_step_induction _ ?_ ?_ ?_
  · intro _
    rw [replacePairs_nil]
    simp
  · intro a h
    rw [replacePairs_singleton]
    have : a ≠ n := by
      intro e
      subst e
      exact h (by simp)
    simp [List.count_cons, this]
  · intro a b rest i1 i2 h
    have ha : a ≠ n := by
      intro e
      subst e
      exact h (by simp)
    have hr : n ∉ rest := fun hm => h (by simp [hm])
    have hbr : n ∉ b :: rest := fun hm => h (List.mem_cons_of_mem _ hm)
    rw [replacePairs_cons_cons]
    split
    · rename_i hp
      rw [List.count_cons_self]
      have e : occ p (a :: b :: rest) = 1 + occ p (b :: rest) := by
        simp only [occ]
        rw [if_pos hp]
      have := i1 hr
      have := occ_tail_le p b rest
      omega
    · rw [List.count_cons_of_ne (Ne.symm ha)]
      have := i2 hbr
      have := occ_tail_le p a (b :: rest)
      omega

theorem occ_le_count_fst (q : tp) (n : Nat) (h : q.1 = n) :
    ∀ l : List Nat, occ q l ≤ l.count n := by
  intro l
  induction l with
  | nil => simp [occ]
  | cons y R ih =>
    rw [occ_cons]
    by_cases e : y = n
    · subst e
      rw [List.count_cons_self]
      have := afterPair_le_one y R q
      omega
    · rw [afterPair_of_fst_ne y R q (by rw [h]; exact fun e2 => e e2.symm)]
      rw [List.count_cons_of_ne (Ne.symm e)]
      omega

theorem occ_le_count_snd (q : tp) (n : Nat) (h : q.2 = n) :
    ∀ l : List Nat, occ q l ≤ l.tail.count n := by
  intro l
  induction l with
  | nil => simp [occ]
  | cons y R ih =>
    rw [occ_cons, List.tail_cons]
    cases R with
    | nil => simp [afterPair, occ]
    | cons z R =>
      simp only [List.tail_cons] at ih
      by_cases e : z = n
      · subst e
        rw [List.count_cons_self]
        have := afterPair_le_one y (z :: R) q
        omega
      · rw [afterPair_of_snd_ne y z R q (by rw [h]; exact fun e2 => e e2.symm)]
        rw [List.count_cons_of_ne (Ne.symm e)]
        omega

theorem occ_le_count (q : tp) (n : Nat) (h : q.1 = n ∨ q.2 = n) (l : List Nat) :
    occ q l ≤ l.count n := by
  rcases h with h | h
  · exact occ_le_count_fst q n h l
  · exact le_trans (occ_le_count_snd q n h l) (List.Sublist.count_le (List.tail_sublist l) n)

/-- The weighted frequency of `q2` in `words2` is at most that of `q` in `words`
when every word holds `q2` at most as often as the word at its place holds
`q`. -/
theorem freq_le_of_pointwise (q q2 : tp) :
    ∀ (words words2 : List (List Nat)) (counts : List Int),
      words2.length = words.length → (∀ c ∈ counts, 0 ≤ c) →
      (∀ j w w2, words.get? j = some w → words2.get? j = some w2 → occ q2 w2 ≤ occ q w) →
      freq words2 counts q2 ≤ freq words counts q := by
  intro words
  induction words with
  | nil =>
    intro words2 counts hl _ _
    have : words2 = [] := List.length_eq_zero.1 hl
    subst this
    simp [freq]
  | cons w ws ih =>
    intro words2 counts hl hc hp
    cases words2 with
    | nil => simp at hl
    | cons w2 ws2 =>
      cases counts with
      | nil => simp [freq]
      | cons c cs =>
        rw [freq_cons, freq_cons]
        have h0 : occ q2 w2 ≤ occ q w := hp 0 w w2 rfl rfl
        have hc0 : 0 ≤ c := hc c (by simp)
        have h1 : c * (occ q2 w2 : Int) ≤ c * (occ q w : Int) :=
          mul_le_mul_of_nonneg_left (by exact_mod_cast h0) hc0
        have h2 := ih ws2 cs (by simpa using hl) (fun d hd => hc d (List.mem_cons_of_mem _ hd))
          (fun j u u2 hu hu2 => hp (j + 1) u u2 hu hu2)
        omega

/-- After a round, the weighted frequency of a pair is at most its frequency
before the round or, when the pair holds the new symbol, at most the frequency
of the pair selected. -/
theorem learnStep_freq_le (st st' : LState) (h : LearnInv st) (hs : learnStep st = .ok st')
    (q : tp) :
    freq st'.words st'.counts q ≤ freq st.words st.counts q ∨
    freq st'.words st'.counts q ≤ freq st.words st.counts st.max_p := by
  obtain ⟨_, _, r, _, _, hr, _, _, hw, hc, _⟩ := learnStep_inv st st' hs
  have n1 : st.int_to_token.length ≠ st.max_p.1 := by
    have := h.bounds.maxp.1
    omega
  have n2 : st.int_to_token.length ≠ st.max_p.2 := by
    have := h.bounds.maxp.2
    omega
  have hlen : st'.words.length = st.words.length := by
    obtain ⟨st2, _, _, hs2, _, _, _, _, _, hl, _⟩ := learnStep_bounds st h.bounds
    rw [hs] at hs2
    cases hs2
    exact hl
  have hfresh : ∀ j w, st.words.get? j = some w → st.int_to_token.length ∉ w := by
    intro j w hj hm
    have hmem : w ∈ st.words := by
      rw [List.get?_eq_getElem?] at hj
      exact List.getElem?_mem hj
    have := h.bounds.words w hmem _ hm
    omega
  have hword : ∀ j w w2, st.words.get? j = some w → st'.words.get? j = some w2 →
      w2 = replacePairs st.max_p st.int_to_token.length w ∨ w2 = w := by
    intro j w w2 hj hj2
    have := sweepWords_words st.max_p st.int_to_token.length st.counts n1 n2 _ _ _ hr j w hj
    rw [← hw, hj2] at this
    simp only [Option.some.injEq] at this
    rw [this]
    split
    · exact Or.inl rfl
    · exact Or.inr rfl
  rw [hc]
  by_cases hq : q.1 = st.int_to_token.length ∨ q.2 = st.int_to_token.length
  · right
    apply freq_le_of_pointwise st.max_p q st.words st'.words st.counts hlen
      (fun c hc' => (h.weights c hc').1)
    intro j w w2 hj hj2
    have hf := hfresh j w hj
    rcases hword j w w2 hj hj2 with e | e
    · rw [e]
      exact le_trans (occ_le_count q _ hq _) (count_replacePairs_le st.max_p _ w hf)
    · rw [e]
      have := occ_le_count q _ hq w
      rw [List.count_eq_zero_of_not_mem hf] at this
      omega
  · left
    simp only [not_or] at hq
    apply freq_le_of_pointwise q q st.words st'.words st.counts hlen
      (fun c hc' => (h.weights c hc').1)
    intro j w w2 hj hj2
    rcases hword j w w2 hj hj2 with e | e
    · rw [e]
      exact occ_replacePairs_le st.max_p q _ hq.1 hq.2 w
    · rw [e]

/-- Without overflow the count found after a round is at most the count found
before it. -/
theorem learnStep_max_le (st st' : LState) (h : LearnInv st)
    (hT : pairTotal st.words st.counts < 2 ^ 32) (hs : learnStep st = .ok st') :
    st'.max_c ≤ st.max_c := by
  obtain ⟨h', hle⟩ := learnStep_learnInv st st' h hs
  rcases Nat.eq_zero_or_pos st'.max_c with h0 | hpos
  · omega
  · obtain ⟨m1, _⟩ := learnInv_max st' h' (lt_of_le_of_lt hle hT) hpos
    have hb := learnInv_le st h hT
    have : (st'.max_c : Int) ≤ (st.max_c : Int) := by
      rw [m1]
      rcases learnStep_freq_le st st' h hs st'.max_p with e | e
      · exact le_trans e (hb _)
      · exact le_trans e (hb _)
    exact_mod_cast this

/-- C25 (as amended): for a non-empty word-count map whose weights are below
`2^31` and whose weighted number of adjacent pairs (weight times symbols less
one, summed over the words) is below `2^32`, and for every `k`, the learner
returns a merge list in which the count of the rule of rank `i + 1` is at most
the count of the rule of rank `i`, for every `i + 1 < k`. -/
theorem counts_non_increasing (k i : Nat) (word_count : wMapCounts) (hne : word_count ≠ [])
    (hw : ∀ x ∈ word_count, x.2 < 2 ^ 31) (hT : initialPairTotal word_count < 2 ^ 32)
    (hi : i + 1 < k) :
    ∃ codes l1 r1 c1 l2 r2 c2, _learnbpe k word_count = .ok codes ∧ codes.length = k ∧
      codes.get? i = some (l1, r1, c1) ∧ codes.get? (i + 1) = some (l2, r2, c2) ∧
      c2 ≤ c1 := by
  obtain ⟨stk, hstk, _, hlk⟩ := learnLoop_bounds k _ (learnInit_bounds word_count hne)
  have hk : _learnbpe k word_count = .ok stk.codes := by
    unfold _learnbpe learnRun
    rw [hstk]
  obtain ⟨st, hst, hb, _⟩ := learnLoop_bounds i _ (learnInit_bounds word_count hne)
  obtain ⟨st', _, _, hs, _⟩ := learnStep_bounds st hb
  have hst' : learnRun (i + 1) word_count = .ok st' := by
    unfold learnRun
    rw [learnLoop_add, hst]
    simp only [learnLoop, hs]
  obtain ⟨h1, _, h3⟩ := learnRun_learnInv i word_count st hne hw hst
  have hT' : pairTotal st.words st.counts < 2 ^ 32 := by
    have : (initialPairTotal word_count : Int) < 2 ^ 32 := by exact_mod_cast hT
    exact lt_of_le_of_lt h3 this
  obtain ⟨l1, r1, _, _, e1⟩ := learnRun_rule k i word_count st stk.codes (by omega) hst hk
  obtain ⟨l2, r2, _, _, e2⟩ := learnRun_rule k (i + 1) word_count st' stk.codes hi hst' hk
  refine ⟨stk.codes, l1, r1, st.max_c, l2, r2, st'.max_c, hk, ?_, e1, e2,
    learnStep_max_le st st' h1 hT' hs⟩
  rw [hlk]
  show (0 : Nat) + k = k
  omega

/-- C25 (witness): the corpus of scenario 1, `k = 3`, the rules of rank `0` and
`1`. -/
theorem counts_non_increasing_witness :
    ∃ codes l1 r1 c1 l2 r2 c2,
      _learnbpe 3 (getvocabs (asc "low low lower newest newest widest")) = .ok codes ∧
      codes.length = 3 ∧
      codes.get? 0 = some (l1, r1, c1) ∧ codes.get? (0 + 1) = some (l2, r2, c2) ∧
      c2 ≤ c1 :=
  counts_non_increasing 3 0 (getvocabs (asc "low low lower newest newest widest"))
    (by decide) (by decide) (by decide) (by decide)

/-- C25 (counterexample): for the words `abc`, `abd`, `abe` with the weights
`2^31 - 1`, `2^31 - 1`, `2`, all below `2^31`, and `k = 2` the count of the rule
of rank `1` is larger than the count of the rule of rank `0`. -/
theorem counts_increase :
    (∀ x ∈ wcOverflow, x.2 < 2 ^ 31) ∧
    _learnbpe 2 wcOverflow =
      .ok [(asc "b", asc "c</w>", 2147483647), (asc "a", asc "b", 2147483649)] ∧
    (2147483647 : Nat) < 2147483649 :=
  ⟨by decide, by decide, by decide⟩

/-! ## Sequences of replacements -/

theorem applyRules_cons {α : Type} [DecidableEq α] (x : (α × α) × α)
    (rules : List ((α × α) × α)) (w : List α) :
    applyRules (x :: rules) w = applyRules rules (replacePairs x.1 x.2 w) := rfl

theorem applyRules_empty {α : Type} [DecidableEq α] (rules : List ((α × α) × α)) :
    applyRules rules ([] : List α) = [] := by
  induction rules with
  | nil => rfl
  | cons x rules ih => rw [applyRules_cons, replacePairs_nil, ih]

theorem intern_mem (tab : Map Str Nat × List Str) (t s : Str) (h : s ∈ (intern tab t).1.2) :
    s ∈ tab.2 ∨ s = t := by
  unfold intern at h
  simp only at h
  split at h
  · exact Or.inl h
  · simp only [List.mem_append, List.mem_singleton] at h
    exact h

theorem internAll_mem (toks : List Str) :
    ∀ (tab : Map Str Nat × List Str) (cw : List Nat) (s : Str),
      s ∈ (internAll toks tab cw).1.2 → s ∈ tab.2 ∨ s ∈ toks := by
  induction toks with
  | nil =>
    intro tab cw s h
    exact Or.inl h
  | cons t rest ih =>
    intro tab cw s h
    simp only [internAll] at h
    rcases ih _ _ s h with h1 | h1
    · rcases intern_mem tab t s h1 with h2 | h2
      · exact Or.inl h2
      · exact Or.inr (by rw [h2]; exact List.mem_cons_self _ _)
    · exact Or.inr (List.mem_cons_of_mem _ h1)

theorem tokenize_mem (word_count : wMapCounts) :
    ∀ (t : Tokenized) (s : Str), s ∈ (tokenize word_count t).int_to_token →
      s ∈ t.int_to_token ∨ ∃ x ∈ word_count, s ∈ tokenize_word x.1 := by
  induction word_count with
  | nil =>
    intro t s h
    exact Or.inl h
  | cons x rest ih =>
    intro t s h
    simp only [tokenize] at h
    rcases ih _ s h with h1 | ⟨y, hy, h1⟩
    · simp only at h1
      rcases internAll_mem _ _ _ s h1 with h2 | h2
      · exact Or.inl h2
      · exact Or.inr ⟨x, List.mem_cons_self _ _, h2⟩
    · exact Or.inr ⟨y, List.mem_cons_of_mem _ hy, h1⟩

theorem decimalLoop_ok (fuel : Nat) :
    ∀ (n : Nat) (acc : Str), (∀ c ∈ acc, 48 ≤ c) →
      (∀ c ∈ decimalLoop fuel n acc, 48 ≤ c) ∧
      (acc ≠ [] ∨ 0 < fuel → decimalLoop fuel n acc ≠ []) := by
  induction fuel with
  | zero =>
    intro n acc h
    refine ⟨h, ?_⟩
    intro h2
    rcases h2 with h2 | h2
    · exact h2
    · omega
  | succ f ih =>
    intro n acc h
    unfold decimalLoop
    split
    · refine ⟨?_, fun _ => by simp⟩
      intro c hc
      rcases List.mem_cons.1 hc with e | e
      · omega
      · exact h c e
    · obtain ⟨i1, i2⟩ := ih (n / 10) ((n % 10 + 48) :: acc) (by
        intro c hc
        rcases List.mem_cons.1 hc with e | e
        · omega
        · exact h c e)
      exact ⟨i1, fun _ => i2 (Or.inl (by simp))⟩

theorem decimal_ok (n : Nat) : decimal n ≠ [] ∧ 32 ∉ decimal n ∧ 10 ∉ decimal n := by
  unfold decimal
  obtain ⟨h1, h2⟩ := decimalLoop_ok (n + 1) n [] (by simp)
  refine ⟨h2 (Or.inr (by omega)), ?_, ?_⟩
  · intro h
    have := h1 32 h
    omega
  · intro h
    have := h1 10 h
    omega

/-- A property of strings kept by concatenation holds for every string of the
symbol table after a round when it holds before. -/
theorem learnLoop_table (P : Str → Prop) (hP : ∀ a b, P a → P b → P (a ++ b)) (n : Nat) :
    ∀ (st st' : LState), learnLoop n st = .ok st' → (∀ s ∈ st.int_to_token, P s) →
      ∀ s ∈ st'.int_to_token, P s := by
  induction n with
  | zero =>
    intro st st' h hs
    simp [learnLoop] at h
    subst h
    exact hs
  | succ n ih =>
    intro st st' h hs
    unfold learnLoop at h
    split at h
    · simp at h
    · rename_i st1 h1
      apply ih st1 st' h
      obtain ⟨left, right, _, hl, hr, _, _, htab, _⟩ := learnStep_inv st st1 h1
      intro s hmem
      rw [htab] at hmem
      rcases List.mem_append.1 hmem with hmem | hmem
      · exact hs s hmem
      · simp only [List.mem_singleton] at hmem
        rw [hmem]
        rw [List.get?_eq_getElem?] at hl hr
        exact hP _ _ (hs _ (List.getElem?_mem hl)) (hs _ (List.getElem?_mem hr))

theorem tokenize_word_bytes (word s : Str) (hs : s ∈ tokenize_word word) :
    ∀ c ∈ s, c ∈ word ∨ c ∈ kEndWord := by
  intro c hc
  have : c ∈ (tokenize_word word).flatten := List.mem_flatten.2 ⟨s, hs, hc⟩
  rw [tokenize_word_join] at this
  exact List.mem_append.1 this

/-- A list with a repeated image holds an element whose image occurs before it. -/
theorem exists_dup_take {α β : Type} (f : α → β) :
    ∀ l : List α, ¬ (l.map f).Nodup →
      ∃ j x, l.get? j = some x ∧ f x ∈ (l.take j).map f := by
  intro l
  induction l using List.reverseRecOn with
  | nil =>
    intro h
    exact absurd List.nodup_nil h
  | append_singleton init a ih =>
    intro h
    by_cases hn : (init.map f).Nodup
    · have hmem : f a ∈ init.map f := by
        by_contra hna
        apply h
        rw [List.map_append, List.map_singleton]
        apply List.Nodup.append hn (List.nodup_singleton _)
        intro x hx1 hx2
        rw [List.mem_singleton] at hx2
        subst hx2
        exact hna hx1
      refine ⟨init.length, a, ?_, ?_⟩
      · rw [List.get?_eq_getElem?, List.getElem?_append_right (le_refl _)]
        simp
      · rw [List.take_left]
        exact hmem
    · obtain ⟨j, x, hj, hx⟩ := ih hn
      have hlt : j < init.length := by
        rw [List.get?_eq_getElem?] at hj
        by_contra hge
        rw [List.getElem?_eq_none (by omega)] at hj
        exact Option.noConfusion hj
      refine ⟨j, x, ?_, ?_⟩
      · rw [List.get?_eq_getElem?, List.getElem?_append_left hlt, ← List.get?_eq_getElem?]
        exact hj
      · rw [List.take_append_of_le_length (by omega)]
        exact hx

/-- The codes file of a merge list whose fields are plain is read without error
only when no two rules have the same concatenation; the maps read then hold the
rules: the reversed map sends the concatenation of a rule to its pair and has no
other key, and every key of the codes map is the pair of a rule. -/
theorem codesFile_maps (codes : List triplet) (cm : codesMap) (rev : reverseCodesMap)
    (hfields : ∀ r ∈ codes, (r.1 ≠ [] ∧ 32 ∉ r.1 ∧ 10 ∉ r.1) ∧
      (r.2.1 ≠ [] ∧ 32 ∉ r.2.1 ∧ 10 ∉ r.2.1))
    (hread : readCodes (codesFile codes) = .ok (cm, rev)) :
    (∀ r ∈ codes, Map.find? rev (r.1 ++ r.2.1) = some (r.1, r.2.1)) ∧
    (∀ p, (Map.find? cm p).isSome → ∃ r ∈ codes, p = (r.1, r.2.1)) ∧
    (∀ s, (Map.find? rev s).isSome → ∃ r ∈ codes, s = r.1 ++ r.2.1) := by
  have hwf : ∀ r ∈ codes.map (fun r => (r.1, r.2.1, decimal r.2.2)),
      r.1 ≠ [] ∧ r.2.1 ≠ [] ∧ r.2.2 ≠ [] ∧ 32 ∉ r.1 ∧ 32 ∉ r.2.1 ∧ 32 ∉ r.2.2 := by
    intro r hr
    obtain ⟨r0, hr0, e⟩ := List.mem_map.1 hr
    obtain ⟨f1, f2⟩ := hfields r0 hr0
    obtain ⟨d1, d2, _⟩ := decimal_ok r0.2.2
    rw [← e]
    exact ⟨f1.1, f2.1, d1, f1.2.1, f2.2.1, d2⟩
  have hnl : ∀ r ∈ codes.map (fun r => (r.1, r.2.1, decimal r.2.2)), 10 ∉ ruleLine r := by
    intro r hr
    obtain ⟨r0, hr0, e⟩ := List.mem_map.1 hr
    obtain ⟨f1, f2⟩ := hfields r0 hr0
    obtain ⟨_, _, d3⟩ := decimal_ok r0.2.2
    rw [← e]
    unfold ruleLine
    simp only [List.mem_append, List.mem_singleton, not_or]
    exact ⟨⟨⟨⟨f1.2.2, by decide⟩, f2.2.2⟩, by decide⟩, d3⟩
  have hlines : getlines [] (codesFile codes) =
      (codes.map (fun r => (r.1, r.2.1, decimal r.2.2))).map ruleLine := by
    unfold codesFile
    exact getlines_rulesFile _ hnl
  have hcat : (codes.map (fun r => r.1 ++ r.2.1)).Nodup := by
    by_contra hnd
    have hnd2 : ¬ ((codes.map (fun r => (r.1, r.2.1, decimal r.2.2))).map
        (fun r => r.1 ++ r.2.1)).Nodup := by
      rw [List.map_map]
      exact hnd
    obtain ⟨j, x, hj, hx⟩ := exists_dup_take _ _ hnd2
    have hfail : readCodes (codesFile codes) = .error Err.assertion := by
      unfold readCodes
      apply (readCodesLoop_error_iff (getlines [] (codesFile codes)) ([], [])).1.2
      refine ⟨j, ruleLine x, ?_, Or.inr (Or.inr ?_)⟩
      · rw [hlines, List.get?_eq_getElem?, List.getElem?_map, ← List.get?_eq_getElem?, hj]
        rfl
      · rw [List.map_nil, List.nil_append, hlines, ← List.map_take, List.map_map]
        rw [(linePair_ruleLine x (hwf x (List.getElem?_mem (by rw [← List.get?_eq_getElem?]; exact hj)))).2]
        obtain ⟨y, hy, e⟩ := List.mem_map.1 hx
        refine List.mem_map.2 ⟨y, hy, ?_⟩
        simp only [Function.comp]
        rw [(linePair_ruleLine y (hwf y (List.mem_of_mem_take hy))).2]
        exact e
    rw [hfail] at hread
    cases hread
  have hpair : (codes.map (fun r => (r.1, r.2.1))).Nodup := by
    have e : codes.map (fun r => r.1 ++ r.2.1) =
        (codes.map (fun r => (r.1, r.2.1))).map (fun p => p.1 ++ p.2) := by
      rw [List.map_map]
      rfl
    rw [e] at hcat
    exact List.Nodup.of_map _ hcat
  obtain ⟨cm2, rev2, h1, h2, h3, h4⟩ := readCodesLoop_finds
    (codes.map (fun r => (r.1, r.2.1, decimal r.2.2))) hwf
    (by rw [List.map_map]; exact hpair) (by rw [List.map_map]; exact hcat)
  have heq : (cm2, rev2) = (cm, rev) := by
    unfold readCodes at hread
    rw [hlines, h1] at hread
    cases hread
    rfl
  cases heq
  refine ⟨?_, ?_, ?_⟩
  · intro r hr
    obtain ⟨i, hi⟩ := List.get?_of_mem hr
    exact (h2 i (r.1, r.2.1, decimal r.2.2) (by
      rw [List.get?_eq_getElem?, List.getElem?_map, ← List.get?_eq_getElem?, hi]
      rfl)).2
  · intro p hp
    obtain ⟨r, hr, e⟩ := h3 p hp
    obtain ⟨r0, hr0, e0⟩ := List.mem_map.1 hr
    exact ⟨r0, hr0, by rw [e, ← e0]⟩
  · intro s hs
    obtain ⟨r, hr, e⟩ := h4 s hs
    obtain ⟨r0, hr0, e0⟩ := List.mem_map.1 hr
    exact ⟨r0, hr0, by rw [e, ← e0]⟩

/-! ## The rules and the symbol table of the learner, for any weights -/

/-- After any number of rounds the two strings of every rule are strings of the
symbol table, and every string of the table is a string of the table on entry
or the concatenation of a rule. -/
theorem learnLoop_rules (T0 : List Str) (n : Nat) :
    ∀ (st st' : LState), learnLoop n st = .ok st' →
      ((∀ r ∈ st.codes, r.1 ∈ st.int_to_token ∧ r.2.1 ∈ st.int_to_token) ∧
        ∀ s ∈ st.int_to_token, s ∈ T0 ∨ ∃ r ∈ st.codes, s = r.1 ++ r.2.1) →
      ((∀ r ∈ st'.codes, r.1 ∈ st'.int_to_token ∧ r.2.1 ∈ st'.int_to_token) ∧
        ∀ s ∈ st'.int_to_token, s ∈ T0 ∨ ∃ r ∈ st'.codes, s = r.1 ++ r.2.1) := by
  induction n with
  | zero =>
    intro st st' h hs
    simp [learnLoop] at h
    subst h
    exact hs
  | succ n ih =>
    intro st st' h hs
    unfold learnLoop at h
    split at h
    · simp at h
    · rename_i st1 h1
      apply ih st1 st' h
      obtain ⟨left, right, _, hl, hr, _, hcodes, htab, _⟩ := learnStep_inv st st1 h1
      rw [List.get?_eq_getElem?] at hl hr
      have ml := List.getElem?_mem hl
      have mr := List.getElem?_mem hr
      rw [hcodes, htab]
      constructor
      · intro r hmem
        rcases List.mem_append.1 hmem with hmem | hmem
        · obtain ⟨a, b⟩ := hs.1 r hmem
          exact ⟨List.mem_append_left _ a, List.mem_append_left _ b⟩
        · simp only [List.mem_singleton] at hmem
          rw [hmem]
          exact ⟨List.mem_append_left _ ml, List.mem_append_left _ mr⟩
      · intro s hmem
        rcases List.mem_append.1 hmem with hmem | hmem
        · rcases hs.2 s hmem with h0 | ⟨r, hr2, e⟩
          · exact Or.inl h0
          · exact Or.inr ⟨r, List.mem_append_left _ hr2, e⟩
        · simp only [List.mem_singleton] at hmem
          exact Or.inr ⟨(left, right, st.max_c), List.mem_append_right _ (by simp), hmem⟩

/-- From a state of the loop of the tokenization whose current token is empty
at the first position, before a lead byte, and one lead byte followed by
continuation bytes at the other positions, every token added is the string of a
symbol. -/
theorem tokenizeLoop_tok (rest : Str) :
    ∀ (cur : Str) (pos0 : Bool) (out : List Str),
      (pos0 = true → cur = [] ∧ rest ≠ [] ∧ newChar (rest.headD 0) = true) →
      (pos0 = false → ∃ c t, cur = c :: t ∧ newChar c = true ∧ ∀ d ∈ t, newChar d = false) →
      ∀ s ∈ tokenizeLoop rest cur pos0 out, s ∈ out ∨ TokStr s := by
  induction rest with
  | nil =>
    intro cur pos0 out h1 h2 s hs
    cases pos0 with
    | true => exact absurd rfl (h1 rfl).2.1
    | false =>
      obtain ⟨c, t, e, hc, ht⟩ := h2 rfl
      simp only [tokenizeLoop, List.mem_append, List.mem_singleton] at hs
      rcases hs with hs | hs
      · exact Or.inl hs
      · refine Or.inr (Or.inl ⟨c, t, hc, ht, Or.inr ?_⟩)
        rw [hs, e]
  | cons c rest ih =>
    intro cur pos0 out h1 h2 s hs
    unfold tokenizeLoop at hs
    split at hs
    · rename_i hc0
      simp only [List.mem_append, List.mem_singleton] at hs
      rcases hs with hs | hs
      · exact Or.inl hs
      · refine Or.inr (Or.inr ⟨?_, ?_⟩)
        · rw [hs, hc0]
          simp
        · cases pos0 with
          | true =>
            obtain ⟨e, _, _⟩ := h1 rfl
            refine ⟨0, rest ++ kEndWord, ?_, by decide⟩
            rw [hs, e, hc0]
            rfl
          | false =>
            obtain ⟨c1, t1, e, hc1, _⟩ := h2 rfl
            refine ⟨c1, t1 ++ (c :: rest) ++ kEndWord, ?_, hc1⟩
            rw [hs, e]
            simp
    · split at hs
      · rename_i hc0 hnew
        simp only [Bool.and_eq_true, Bool.not_eq_true'] at hnew
        obtain ⟨hn, hp⟩ := hnew
        subst hp
        obtain ⟨c1, t1, e, hc1, ht1⟩ := h2 rfl
        rcases ih [c] false (out ++ [cur]) (fun h => Bool.noConfusion h)
          (fun _ => ⟨c, [], rfl, hn, by simp⟩) s hs with h | h
        · rcases List.mem_append.1 h with h | h
          · exact Or.inl h
          · simp only [List.mem_singleton] at h
            refine Or.inr (Or.inl ⟨c1, t1, hc1, ht1, Or.inl ?_⟩)
            rw [h, e]
        · exact Or.inr h
      · rename_i hc0 hnew
        apply ih (cur ++ [c]) false out (fun h => Bool.noConfusion h) _ s hs
        intro _
        cases pos0 with
        | true =>
          obtain ⟨e, _, hh⟩ := h1 rfl
          refine ⟨c, [], by rw [e]; rfl, ?_, by simp⟩
          simpa using hh
        | false =>
          obtain ⟨c1, t1, e, hc1, ht1⟩ := h2 rfl
          refine ⟨c1, t1 ++ [c], by rw [e]; rfl, hc1, ?_⟩
          intro d hd
          rcases List.mem_append.1 hd with hd | hd
          · exact ht1 d hd
          · simp only [List.mem_singleton] at hd
            subst hd
            simpa using hnew

/-- Every token of a word that is not empty and does not start with a
continuation byte is the string of a symbol. -/
theorem tokenize_word_tok (word : Str) (hw : WordStart word) :
    ∀ s ∈ tokenize_word word, TokStr s := by
  intro s hs
  unfold tokenize_word at hs
  rcases tokenizeLoop_tok word [] true [] (fun _ => ⟨rfl, hw.1, hw.2⟩)
    (fun h => Bool.noConfusion h) s hs with h | h
  · simp at h
  · exact h

/-- The string of a symbol is not empty and starts with a lead byte. -/
theorem tokStr_head (s : Str) (h : TokStr s) : s ≠ [] ∧ newChar (s.headD 0) = true := by
  rcases h with ⟨c, t, hc, _, e | e⟩ | ⟨_, c, t, e, hc⟩
  · rw [e]
    exact ⟨List.cons_ne_nil _ _, hc⟩
  · rw [e]
    exact ⟨List.cons_ne_nil _ _, hc⟩
  · rw [e]
    exact ⟨List.cons_ne_nil _ _, hc⟩

/-- The strings of the symbol table on entry to the main loop are tokens of the
words. -/
theorem learnInit_table_tok (word_count : wMapCounts)
    (hw : ∀ x ∈ word_count, WordStart x.1) :
    ∀ s ∈ (learnInit word_count).int_to_token,
      TokStr s ∧ ∃ x ∈ word_count, s ∈ tokenize_word x.1 := by
  intro s hs
  have : s ∈ (tokenize word_count
      { token_to_int := [], int_to_token := [], words := [], counts := [] }).int_to_token := hs
  rcases tokenize_mem word_count _ s this with h | ⟨x, hx, h⟩
  · simp at h
  · exact ⟨tokenize_word_tok x.1 (hw x hx) s h, x, hx, h⟩

/-- The strings of the symbol table after any number of rounds, for words that
are not empty, do not start with a continuation byte and hold neither space nor
newline: they are not empty, start with a lead byte and hold neither space nor
newline. -/
theorem learnRun_table_lead (k : Nat) (word_count : wMapCounts) (st : LState)
    (hw : ∀ x ∈ word_count, WordStart x.1)
    (hsp : ∀ x ∈ word_count, 32 ∉ x.1 ∧ 10 ∉ x.1)
    (hst : learnRun k word_count = .ok st) :
    ∀ s ∈ st.int_to_token,
      (s ≠ [] ∧ newChar (s.headD 0) = true) ∧ 32 ∉ s ∧ 10 ∉ s := by
  apply learnLoop_table
    (fun s => (s ≠ [] ∧ newChar (s.headD 0) = true) ∧ 32 ∉ s ∧ 10 ∉ s) _ k _ st hst
  · intro s hs
    obtain ⟨ht, x, hx, h⟩ := learnInit_table_tok word_count hw s hs
    refine ⟨tokStr_head s ht, ?_, ?_⟩
    · intro h32
      rcases tokenize_word_bytes x.1 s h 32 h32 with h1 | h1
      · exact (hsp x hx).1 h1
      · revert h1
        decide
    · intro h10
      rcases tokenize_word_bytes x.1 s h 10 h10 with h1 | h1
      · exact (hsp x hx).2 h1
      · revert h1
        decide
  · intro a b ha hb
    refine ⟨⟨?_, ?_⟩, ?_, ?_⟩
    · intro e
      exact ha.1.1 (List.append_eq_nil.1 e).1
    · cases a with
      | nil => exact absurd rfl ha.1.1
      | cons c t => exact ha.1.2
    · intro h
      rcases List.mem_append.1 h with h | h
      · exact ha.2.1 h
      · exact hb.2.1 h
    · intro h
      rcases List.mem_append.1 h with h | h
      · exact ha.2.2 h
      · exact hb.2.2 h

/-! ## Safe calls of `decompose` -/

theorem countLead_append (a b : Str) : countLead (a ++ b) = countLead a + countLead b := by
  unfold countLead
  rw [List.filter_append, List.length_append]

theorem countLead_cont (t : Str) (h : ∀ d ∈ t, newChar d = false) : countLead t = 0 := by
  induction t with
  | nil => rfl
  | cons d t ih =>
    unfold countLead
    rw [List.filter_cons_of_neg (by simp [h d (List.mem_cons_self _ _)])]
    exact ih (fun x hx => h x (List.mem_cons_of_mem _ hx))

theorem cont_of_countLead (t : Str) (h : countLead t = 0) : ∀ d ∈ t, newChar d = false := by
  induction t with
  | nil =>
    intro d hd
    simp at hd
  | cons c t ih =>
    intro d hd
    by_cases hc : newChar c = true
    · unfold countLead at h
      rw [List.filter_cons_of_pos hc] at h
      simp at h
    · have h2 : countLead t = 0 := by
        unfold countLead at h
        rw [List.filter_cons_of_neg hc] at h
        exact h
      rcases List.mem_cons.1 hd with hd | hd
      · rw [hd]
        simpa using hc
      · exact ih h2 d hd

theorem countLead_char (c : Nat) (t : Str) (hc : newChar c = true)
    (ht : ∀ d ∈ t, newChar d = false) : countLead (c :: t) = 1 := by
  have e : c :: t = [c] ++ t := rfl
  rw [e, countLead_append, countLead_cont t ht]
  unfold countLead
  rw [List.filter_cons_of_pos hc]
  rfl

theorem countLead_pos (s : Str) (h : s ≠ [] ∧ newChar (s.headD 0) = true) :
    1 ≤ countLead s := by
  cases s with
  | nil => exact absurd rfl h.1
  | cons c t =>
    have e : c :: t = [c] ++ t := rfl
    rw [e, countLead_append]
    have hc : newChar c = true := h.2
    have : countLead [c] = 1 := by
      unfold countLead
      rw [List.filter_cons_of_pos hc]
      rfl
    omega

theorem stripEnd_end (p : Str) : stripEnd (p ++ kEndWord) = p := by
  unfold stripEnd
  have hl : (p ++ kEndWord).length = p.length + 4 := by
    rw [List.length_append]
    rfl
  rw [if_neg (by rw [hl]; unfold kEndWordLength; omega), hl]
  unfold kEndWordLength
  rw [Nat.add_sub_cancel, List.take_left]

theorem stripEnd_short (s : Str) (h : s.length < 4) : stripEnd s = s := by
  unfold stripEnd kEndWordLength
  rw [if_pos h]

theorem keepOr_safe (vocab : wMapCounts) (q t : Str) (k : Except Err (List Str)) :
    (k ≠ .error Err.assertion → keepOr vocab q t k ≠ .error Err.assertion) ∧
    ((∃ out, k = .ok out) → ∃ out, keepOr vocab q t k = .ok out) := by
  unfold keepOr
  constructor
  · intro h
    split
    · intro e
      cases e
    · exact h
  · intro h
    split
    · exact ⟨[t], rfl⟩
    · exact h

theorem decompose_some (rev : reverseCodesMap) (vocab : wMapCounts) (f : Nat) (s l r : Str)
    (isFinal : Bool) (h : Map.find? rev s = some (l, r)) :
    decompose (f + 1) s rev vocab isFinal =
      match keepOr vocab (l ++ kTokenDelim) l (decompose f l rev vocab false) with
      | .error e => .error e
      | .ok p1 =>
        match keepOr vocab (probe isFinal r) r (decompose f r rev vocab isFinal) with
        | .error e => .error e
        | .ok p2 => .ok (p1 ++ p2) := by
  rw [decompose, h]

/-- A symbol that the reversed map does not hold and that has one lead byte,
after the removal of its last four bytes when it is final, is safe. -/
theorem decomposeSafe_base (rev : reverseCodesMap) (vocab : wMapCounts) (isFinal : Bool)
    (s : Str) (hnone : Map.find? rev s = none)
    (hcount : countLead (if isFinal then stripEnd s else s) = 1) :
    DecomposeSafe rev vocab isFinal s := by
  have hne : s ≠ [] := by
    intro e
    subst e
    cases isFinal
    · simp [countLead] at hcount
    · simp [countLead, stripEnd] at hcount
  have hstep : ∀ f, decompose (f + 1) s rev vocab isFinal = .ok [s] := by
    intro f
    rw [decompose, hnone]
    simp only
    rw [if_pos hcount]
  constructor
  · intro f
    cases f with
    | zero =>
      rw [decompose]
      intro e
      cases e
    | succ f =>
      rw [hstep]
      intro e
      cases e
  · intro f hf
    cases f with
    | zero =>
      exfalso
      apply hne
      exact List.length_eq_zero.1 (by omega)
    | succ f => exact ⟨[s], hstep f⟩

/-- The concatenation of a pair that the reversed map sends back to the pair is
safe when the left part is safe as a symbol that is not final and the right
part is safe. -/
theorem decomposeSafe_merge (rev : reverseCodesMap) (vocab : wMapCounts) (isFinal : Bool)
    (l r : Str) (hfind : Map.find? rev (l ++ r) = some (l, r)) (hl : l ≠ []) (hr : r ≠ [])
    (h1 : DecomposeSafe rev vocab false l) (h2 : DecomposeSafe rev vocab isFinal r) :
    DecomposeSafe rev vocab isFinal (l ++ r) := by
  constructor
  · intro f
    cases f with
    | zero =>
      rw [decompose]
      intro e
      cases e
    | succ f =>
      rw [decompose_some rev vocab f _ l r isFinal hfind]
      have k1 := (keepOr_safe vocab (l ++ kTokenDelim) l (decompose f l rev vocab false)).1
        (h1.1 f)
      have k2 := (keepOr_safe vocab (probe isFinal r) r (decompose f r rev vocab isFinal)).1
        (h2.1 f)
      cases e1 : keepOr vocab (l ++ kTokenDelim) l (decompose f l rev vocab false) with
      | error e =>
        simp only
        intro h
        apply k1
        rw [e1]
        exact h
      | ok p1 =>
        simp only
        cases e2 : keepOr vocab (probe isFinal r) r (decompose f r rev vocab isFinal) with
        | error e =>
          simp only
          intro h
          apply k2
          rw [e2]
          exact h
        | ok p2 =>
          simp only
          intro h
          cases h
  · intro f hf
    have hll : 0 < l.length := List.length_pos.2 hl
    have hrl : 0 < r.length := List.length_pos.2 hr
    rw [List.length_append] at hf
    cases f with
    | zero => omega
    | succ f =>
      rw [decompose_some rev vocab f _ l r isFinal hfind]
      obtain ⟨p1, e1⟩ := (keepOr_safe vocab (l ++ kTokenDelim) l
        (decompose f l rev vocab false)).2 (h1.2 f (by omega))
      obtain ⟨p2, e2⟩ := (keepOr_safe vocab (probe isFinal r) r
        (decompose f r rev vocab isFinal)).2 (h2.2 f (by omega))
      rw [e1]
      simp only
      rw [e2]
      exact ⟨p1 ++ p2, rfl⟩

/-- A replacement of a pair by its concatenation keeps a list of symbols safe
when the reversed map sends the concatenation back to the pair. -/
theorem safeList_replacePairs (rev : reverseCodesMap) (vocab : wMapCounts) (l r : Str)
    (hfind : Map.find? rev (l ++ r) = some (l, r)) (hl : l ≠ []) (hr : r ≠ []) :
    ∀ w : List Str, SafeList rev vocab w → SafeList rev vocab (replacePairs (l, r) (l ++ r) w) := by
  refine two_step_induction _ ?_ ?_ ?_
  · intro h
    rw [replacePairs_nil]
    exact h
  · intro a h
    rw [replacePairs_singleton]
    exact h
  · intro a b rest ih1 ih2 h
    rw [replacePairs_cons_cons]
    obtain ⟨ha, hb, hrest⟩ := h
    split
    · rename_i hab
      simp only [Prod.mk.injEq] at hab
      obtain ⟨ea, eb⟩ := hab
      subst ea
      subst eb
      refine ⟨?_, ih1 hrest⟩
      have hflag : (replacePairs (a, b) (a ++ b) rest).isEmpty = rest.isEmpty := by
        cases rest with
        | nil =>
          rw [replacePairs_nil]
        | cons x xs =>
          have := replacePairs_ne_nil (a, b) (a ++ b) (x :: xs) (List.cons_ne_nil _ _)
          cases hq : replacePairs (a, b) (a ++ b) (x :: xs) with
          | nil => exact absurd hq this
          | cons y ys => rfl
      rw [hflag]
      exact decomposeSafe_merge rev vocab _ a b hfind hl hr ha hb
    · have hne := replacePairs_ne_nil (l, r) (l ++ r) (b :: rest) (List.cons_ne_nil _ _)
      have hsafe := ih2 ⟨hb, hrest⟩
      cases hq : replacePairs (l, r) (l ++ r) (b :: rest) with
      | nil => exact absurd hq hne
      | cons y ys =>
        rw [hq] at hsafe
        exact ⟨ha, hsafe⟩

/-- The merge loop keeps a list of symbols safe when the reversed map sends the
concatenation of every pair of the codes map back to the pair. -/
theorem safeList_mergeLoop (cm : codesMap) (rev : reverseCodesMap) (vocab : wMapCounts)
    (hcm : ∀ p, (Map.find? cm p).isSome →
      Map.find? rev (p.1 ++ p.2) = some p ∧ p.1 ≠ [] ∧ p.2 ≠ []) :
    ∀ (fuel : Nat) (s out : List Str), mergeLoop cm fuel s = .ok out →
      SafeList rev vocab s → SafeList rev vocab out := by
  intro fuel
  induction fuel with
  | zero =>
    intro s out h hs
    unfold mergeLoop at h
    split at h
    · split at h
      · cases h
        exact hs
      · simp at h
    · cases h
      exact hs
  | succ f ih =>
    intro s out h hs
    cases hb : bestPairLoop cm s 0 none with
    | none =>
      rw [mergeLoop_stop cm s hb] at h
      cases h
      exact hs
    | some x =>
      obtain ⟨j, ⟨l, r⟩, rk⟩ := x
      rw [mergeLoop_round cm s j l r rk hb f] at h
      obtain ⟨hfind, _, _, _⟩ := (bestPair_spec cm s).2 j (l, r) rk hb
      obtain ⟨h1, h2, h3⟩ := hcm (l, r) (by rw [hfind]; rfl)
      apply ih _ out h
      rw [mergePass_eq_replacePairs]
      exact safeList_replacePairs rev vocab l r h1 h2 h3 s hs

/-- On a safe list of symbols `limitVocab` never fails an assertion, and it
returns when the depth allowed is at least the length of every symbol. -/
theorem safeList_limitVocab (rev : reverseCodesMap) (vocab : wMapCounts) :
    ∀ s : List Str, SafeList rev vocab s →
      (∀ fuel, limitVocab fuel rev vocab s ≠ .error Err.assertion) ∧
      (∀ fuel, (∀ a ∈ s, a.length ≤ fuel) → ∃ out, limitVocab fuel rev vocab s = .ok out) := by
  intro s
  induction s with
  | nil =>
    intro _
    constructor
    · intro fuel
      rw [limitVocab]
      intro e
      cases e
    · intro fuel _
      exact ⟨[], by rw [limitVocab]⟩
  | cons a rest ih =>
    intro h
    obtain ⟨ha, hrest⟩ := h
    obtain ⟨i1, i2⟩ := ih hrest
    constructor
    · intro fuel
      rw [limitVocab]
      have k1 := (keepOr_safe vocab (probe rest.isEmpty a) a
        (decompose fuel a rev vocab rest.isEmpty)).1 (ha.1 fuel)
      cases e1 : keepOr vocab (probe rest.isEmpty a) a
          (decompose fuel a rev vocab rest.isEmpty) with
      | error e =>
        simp only
        intro h
        apply k1
        rw [e1]
        exact h
      | ok p =>
        simp only
        cases e2 : limitVocab fuel rev vocab rest with
        | error e =>
          simp only
          intro h
          apply i1 fuel
          rw [e2]
          exact h
        | ok ps =>
          simp only
          intro h
          cases h
    · intro fuel hf
      rw [limitVocab]
      obtain ⟨p, e1⟩ := (keepOr_safe vocab (probe rest.isEmpty a) a
        (decompose fuel a rev vocab rest.isEmpty)).2
        (ha.2 fuel (hf a (List.mem_cons_self _ _)))
      obtain ⟨ps, e2⟩ := i2 fuel (fun x hx => hf x (List.mem_cons_of_mem _ hx))
      rw [e1]
      simp only
      rw [e2]
      exact ⟨p ++ ps, rfl⟩

/-! ## The symbols of the word to segment are safe -/

theorem getLast?_append_cons (X : Str) (y : Nat) (Y : Str) :
    (X ++ y :: Y).getLast? = (y :: Y).getLast? := by
  induction X with
  | nil => rfl
  | cons x X ih =>
    cases X with
    | nil => rfl
    | cons x2 X =>
      rw [List.cons_append, List.cons_append, List.getLast?_cons_cons, ← List.cons_append]
      exact ih

theorem getLast?_endWord (p : Str) : (p ++ kEndWord).getLast? = some 62 := by
  have e : p ++ kEndWord = (p ++ [60, 47, 119]) ++ [62] := by
    rw [List.append_assoc]
    rfl
  rw [e, getLast?_append_cons]
  rfl

/-- A string that ends a string ending in `</w>` and is not empty has a last
byte that is a lead byte. -/
theorem suffix_last_lead (X Y p : Str) (hY : Y ≠ []) (e : X ++ Y = p ++ kEndWord) :
    ∃ y ∈ Y, newChar y = true := by
  cases Y with
  | nil => exact absurd rfl hY
  | cons y Y =>
    have h1 := getLast?_endWord p
    rw [← e, getLast?_append_cons] at h1
    exact ⟨62, List.mem_of_mem_getLast? h1, by decide⟩

theorem length_le_flatten (L : List Str) : ∀ a ∈ L, a.length ≤ L.flatten.length := by
  induction L with
  | nil =>
    intro a ha
    simp at ha
  | cons b L ih =>
    intro a ha
    rw [List.flatten_cons, List.length_append]
    rcases List.mem_cons.1 ha with ha | ha
    · rw [ha]
      omega
    · have := ih a ha
      omega

/-- The pieces of a word without NUL byte that is not empty and does not start
with a continuation byte: one lead byte followed by continuation bytes each. -/
theorem word_pieces (word : Str) (hw : WordStart word) (h0 : 0 ∉ word) :
    ∃ pieces, tokenize_word word = withEnd pieces ∧ pieces ≠ [] ∧
      ∀ p ∈ pieces, ∃ c t, newChar c = true ∧ (∀ d ∈ t, newChar d = false) ∧
        p = c :: t ∧ 0 ∉ p := by
  obtain ⟨hne, hh⟩ := hw
  obtain ⟨pieces, e1, e2, e3, e4⟩ := tokenize_word_shape word hne h0
  refine ⟨pieces, e4, ?_, ?_⟩
  · intro e
    rw [e] at e1
    exact hne e1.symm
  · intro p hp
    obtain ⟨pne, pt⟩ := e2 p hp
    have hp0 : 0 ∉ p := by
      intro hz
      apply h0
      rw [← e1]
      exact List.mem_flatten.2 ⟨p, hp, hz⟩
    cases p with
    | nil => exact absurd rfl pne
    | cons c t =>
      refine ⟨c, t, ?_, by simpa using pt, rfl, hp0⟩
      cases pieces with
      | nil => simp at hp
      | cons p0 rest =>
        rcases List.mem_cons.1 hp with hp | hp
        · subst hp
          simp only [List.flatten_cons, List.cons_append] at e1
          rw [← e1] at hh
          exact hh
        · exact e3 (c :: t) hp c rfl

/-- A symbol of one lead byte followed by continuation bytes is safe as a symbol
that is not final, when the two parts of every entry of the reversed map start
with a lead byte. -/
theorem piece_safe (rev : reverseCodesMap) (vocab : wMapCounts) (T : List Str)
    (h1 : ∀ s l r, Map.find? rev s = some (l, r) → s = l ++ r ∧ l ∈ T ∧ r ∈ T)
    (h2 : ∀ s ∈ T, s ≠ [] ∧ newChar (s.headD 0) = true)
    (c : Nat) (t : Str) (hc : newChar c = true) (ht : ∀ d ∈ t, newChar d = false) :
    DecomposeSafe rev vocab false (c :: t) := by
  cases hf : Map.find? rev (c :: t) with
  | none =>
    apply decomposeSafe_base rev vocab false _ hf
    exact countLead_char c t hc ht
  | some x =>
    obtain ⟨l, r⟩ := x
    obtain ⟨e, hl, hr⟩ := h1 _ l r hf
    have k0 := countLead_char c t hc ht
    rw [e, countLead_append] at k0
    have k1 := countLead_pos l (h2 l hl)
    have k2 := countLead_pos r (h2 r hr)
    omega

/-- A string of the table that is a stretch of the last symbol `c t </w>` of
the word to segment is safe, as a final symbol when it ends the symbol and as a
symbol that is not final otherwise. -/
theorem stretch_safe (rev : reverseCodesMap) (vocab : wMapCounts) (T : List Str)
    (h1 : ∀ s l r, Map.find? rev s = some (l, r) → s = l ++ r ∧ l ∈ T ∧ r ∈ T)
    (h2 : ∀ s ∈ T, s ≠ [] ∧ newChar (s.headD 0) = true)
    (h3 : ∀ s ∈ T, Map.find? rev s = none → TokStr s)
    (c : Nat) (t : Str) (hc : newChar c = true) (ht : ∀ d ∈ t, newChar d = false)
    (h0 : 0 ∉ c :: t) :
    ∀ (n : Nat) (s : Str), s.length ≤ n → s ∈ T →
      ∀ A B : Str, A ++ s ++ B = c :: t ++ kEndWord → DecomposeSafe rev vocab B.isEmpty s := by
  intro n
  induction n with
  | zero =>
    intro s hlen hs
    exact absurd (List.length_eq_zero.1 (by omega)) (h2 s hs).1
  | succ n ih =>
    intro s hlen hs A B e
    cases hf : Map.find? rev s with
    | some x =>
      obtain ⟨l, r⟩ := x
      obtain ⟨es, hl, hr⟩ := h1 _ l r hf
      subst es
      have hl0 := (h2 l hl).1
      have hr0 := (h2 r hr).1
      have hll : 0 < l.length := List.length_pos.2 hl0
      have hrl : 0 < r.length := List.length_pos.2 hr0
      rw [List.length_append] at hlen
      have dl := ih l (by omega) hl A (r ++ B) (by
        rw [← e]
        simp only [List.append_assoc])
      have dr := ih r (by omega) hr (A ++ l) B (by
        rw [← e]
        simp only [List.append_assoc])
      have hfl : (r ++ B).isEmpty = false := by
        cases r with
        | nil => exact absurd rfl hr0
        | cons y ys => rfl
      rw [hfl] at dl
      exact decomposeSafe_merge rev vocab _ l r hf hl0 hr0 dl dr
    | none =>
      apply decomposeSafe_base rev vocab _ s hf
      rcases h3 s hs hf with ⟨c2, t2, hc2, ht2, e2⟩ | ⟨hz, _⟩
      · cases B with
        | nil =>
          simp only [List.isEmpty_nil, if_true]
          rw [List.append_nil] at e
          rcases e2 with e2 | e2
          · cases t2 with
            | nil =>
              rw [e2, stripEnd_short _ (by simp)]
              exact countLead_char c2 [] hc2 (by simp)
            | cons d t3 =>
              exfalso
              have h62 := getLast?_endWord (c :: t)
              rw [← e, e2, getLast?_append_cons, List.getLast?_cons_cons] at h62
              have hm := List.mem_of_mem_getLast? h62
              have := ht2 62 hm
              revert this
              decide
          · rw [e2, stripEnd_end]
            exact countLead_char c2 t2 hc2 ht2
        | cons b B2 =>
          simp only [List.isEmpty_cons, Bool.false_eq_true, if_false]
          rcases e2 with e2 | e2
          · rw [e2]
            exact countLead_char c2 t2 hc2 ht2
          · exfalso
            have hk := congrArg countLead e
            rw [countLead_append, countLead_append, e2, countLead_append, countLead_append,
              countLead_char c2 t2 hc2 ht2, countLead_char c t hc ht] at hk
            have h4 : countLead kEndWord = 4 := by decide
            rw [h4] at hk
            have hB : countLead (b :: B2) = 0 := by omega
            obtain ⟨y, hy, hny⟩ := suffix_last_lead (A ++ s) (b :: B2) (c :: t)
              (List.cons_ne_nil _ _) e
            rw [cont_of_countLead _ hB y hy] at hny
            cases hny
      · exfalso
        have hm : (0 : Nat) ∈ A ++ s ++ B :=
          List.mem_append_left _ (List.mem_append_right _ hz)
        rw [e] at hm
        rcases List.mem_append.1 hm with hm | hm
        · exact h0 hm
        · revert hm
          decide

/-- The last symbol `c t </w>` of the word to segment is safe as a final
symbol. -/
theorem lastPiece_safe (rev : reverseCodesMap) (vocab : wMapCounts) (T : List Str)
    (h1 : ∀ s l r, Map.find? rev s = some (l, r) → s = l ++ r ∧ l ∈ T ∧ r ∈ T)
    (h2 : ∀ s ∈ T, s ≠ [] ∧ newChar (s.headD 0) = true)
    (h3 : ∀ s ∈ T, Map.find? rev s = none → TokStr s)
    (c : Nat) (t : Str) (hc : newChar c = true) (ht : ∀ d ∈ t, newChar d = false)
    (h0 : 0 ∉ c :: t) :
    DecomposeSafe rev vocab true (c :: t ++ kEndWord) := by
  cases hf : Map.find? rev (c :: t ++ kEndWord) with
  | none =>
    apply decomposeSafe_base rev vocab true _ hf
    simp only [if_true]
    rw [stripEnd_end]
    exact countLead_char c t hc ht
  | some x =>
    obtain ⟨l, r⟩ := x
    obtain ⟨e, hl, hr⟩ := h1 _ l r hf
    have hl0 := (h2 l hl).1
    have hr0 := (h2 r hr).1
    have dl := stretch_safe rev vocab T h1 h2 h3 c t hc ht h0 l.length l (le_refl _) hl [] r
      (by rw [e]; rfl)
    have dr := stretch_safe rev vocab T h1 h2 h3 c t hc ht h0 r.length r (le_refl _) hr l []
      (by rw [e, List.append_nil])
    have hfl : r.isEmpty = false := by
      cases r with
      | nil => exact absurd rfl hr0
      | cons y ys => rfl
    rw [hfl] at dl
    rw [e] at hf ⊢
    exact decomposeSafe_merge rev vocab true l r hf hl0 hr0 dl dr

/-- The initial tokenization of the word to segment is a safe list. -/
theorem safeList_withEnd (rev : reverseCodesMap) (vocab : wMapCounts) (T : List Str)
    (h1 : ∀ s l r, Map.find? rev s = some (l, r) → s = l ++ r ∧ l ∈ T ∧ r ∈ T)
    (h2 : ∀ s ∈ T, s ≠ [] ∧ newChar (s.headD 0) = true)
    (h3 : ∀ s ∈ T, Map.find? rev s = none → TokStr s) :
    ∀ pieces : List Str,
      (∀ p ∈ pieces, ∃ c t, newChar c = true ∧ (∀ d ∈ t, newChar d = false) ∧
        p = c :: t ∧ 0 ∉ p) →
      SafeList rev vocab (withEnd pieces) := by
  intro pieces
  induction pieces with
  | nil =>
    intro _
    exact True.intro
  | cons p rest ih =>
    intro hp
    obtain ⟨c, t, hc, ht, e, hz⟩ := hp p (List.mem_cons_self _ _)
    cases rest with
    | nil =>
      subst e
      exact ⟨lastPiece_safe rev vocab T h1 h2 h3 c t hc ht hz, True.intro⟩
    | cons q rest =>
      rw [withEnd_cons]
      have hrest := ih (fun x hx => hp x (List.mem_cons_of_mem _ hx))
      have hne : (withEnd (q :: rest)).isEmpty = false := by
        cases rest with
        | nil => rfl
        | cons q2 rest => rfl
      refine ⟨?_, hrest⟩
      rw [hne, e]
      exact piece_safe rev vocab T h1 h2 c t hc ht

/-! ## Decomposition safety -/

/-- Decomposition safety for words without NUL byte.  For a merge list learned
with any `k` from a word-count map whose words are not empty, do not start with
a continuation byte and hold neither space nor newline, for the codes map and
the reversed map that `readCodes` reads from the codes file of the list, for
every vocabulary, and for every word to segment that is not empty, does not
start with a continuation byte and holds no NUL byte: the merge loop returns,
`limitVocab` with its recursive `decompose` never fails the assertion on the
merged symbols, whatever the depth allowed, and returns as soon as the depth
allowed is the length of the word plus four; for a vocabulary that is not empty
this is the result of the first two parts of `process_bpe`, which never fail
the assertion either. -/
theorem decomposition_safe (k : Nat) (word_count : wMapCounts) (codes : List triplet)
    (cm : codesMap) (rev : reverseCodesMap) (vocab : wMapCounts) (word : Str)
    (hw : ∀ x ∈ word_count, WordStart x.1)
    (hsp : ∀ x ∈ word_count, 32 ∉ x.1 ∧ 10 ∉ x.1)
    (hk : _learnbpe k word_count = .ok codes)
    (hread : readCodes (codesFile codes) = .ok (cm, rev))
    (hword : WordStart word) (h0 : 0 ∉ word) :
    ∃ merged, mergeLoop cm (tokenize_word word).length (tokenize_word word) = .ok merged ∧
      (∀ fuel, limitVocab fuel rev vocab merged ≠ .error Err.assertion) ∧
      (∀ fuel, bpeSymbols fuel (tokenize_word word) cm rev vocab ≠ .error Err.assertion) ∧
      ∀ fuel, word.length + 4 ≤ fuel →
        ∃ out, limitVocab fuel rev vocab merged = .ok out ∧
          (vocab ≠ [] → bpeSymbols fuel (tokenize_word word) cm rev vocab = .ok out) := by
  have hst : ∃ st, learnRun k word_count = .ok st ∧ st.codes = codes := by
    unfold _learnbpe at hk
    split at hk
    · cases hk
    · rename_i st hst
      cases hk
      exact ⟨st, hst, rfl⟩
  obtain ⟨st, hst, hcodes⟩ := hst
  subst hcodes
  have hT := learnRun_table_lead k word_count st hw hsp hst
  obtain ⟨hR1, hR2⟩ := learnLoop_rules (learnInit word_count).int_to_token k
    (learnInit word_count) st hst
    ⟨fun r hr => absurd hr (List.not_mem_nil r), fun s hs => Or.inl hs⟩
  have hfields : ∀ r ∈ st.codes, (r.1 ≠ [] ∧ 32 ∉ r.1 ∧ 10 ∉ r.1) ∧
      (r.2.1 ≠ [] ∧ 32 ∉ r.2.1 ∧ 10 ∉ r.2.1) := by
    intro r hr
    obtain ⟨m1, m2⟩ := hR1 r hr
    obtain ⟨⟨a1, _⟩, a2, a3⟩ := hT _ m1
    obtain ⟨⟨b1, _⟩, b2, b3⟩ := hT _ m2
    exact ⟨⟨a1, a2, a3⟩, b1, b2, b3⟩
  obtain ⟨hrev, hcmk, hrevk⟩ := codesFile_maps st.codes cm rev hfields hread
  have h1 : ∀ s l r, Map.find? rev s = some (l, r) →
      s = l ++ r ∧ l ∈ st.int_to_token ∧ r ∈ st.int_to_token := by
    intro s l r hf
    obtain ⟨rule, hrule, e⟩ := hrevk s (by rw [hf]; rfl)
    have h := hrev rule hrule
    rw [← e, hf] at h
    simp only [Option.some.injEq, Prod.mk.injEq] at h
    obtain ⟨m1, m2⟩ := hR1 rule hrule
    rw [h.1, h.2]
    exact ⟨e, m1, m2⟩
  have h2 : ∀ s ∈ st.int_to_token, s ≠ [] ∧ newChar (s.headD 0) = true :=
    fun s hs => (hT s hs).1
  have h3 : ∀ s ∈ st.int_to_token, Map.find? rev s = none → TokStr s := by
    intro s hs hnone
    rcases hR2 s hs with hs0 | ⟨rule, hrule, e⟩
    · exact (learnInit_table_tok word_count hw s hs0).1
    · have h := hrev rule hrule
      rw [← e, hnone] at h
      cases h
  have hcm : ∀ p, (Map.find? cm p).isSome →
      Map.find? rev (p.1 ++ p.2) = some p ∧ p.1 ≠ [] ∧ p.2 ≠ [] := by
    intro p hp
    obtain ⟨rule, hrule, e⟩ := hcmk p hp
    obtain ⟨f1, f2⟩ := hfields rule hrule
    rw [e]
    exact ⟨hrev rule hrule, f1.1, f2.1⟩
  obtain ⟨pieces, etok, _, hpieces⟩ := word_pieces word hword h0
  have hsafe0 : SafeList rev vocab (tokenize_word word) := by
    rw [etok]
    exact safeList_withEnd rev vocab st.int_to_token h1 h2 h3 pieces hpieces
  obtain ⟨merged, hm, _, _, _⟩ := mergeLoop_returns cm (tokenize_word word).length
    (tokenize_word word) (by omega)
  have hsafe := safeList_mergeLoop cm rev vocab hcm _ _ _ hm hsafe0
  obtain ⟨s1, s2⟩ := safeList_limitVocab rev vocab merged hsafe
  have hlen : ∀ a ∈ merged, a.length ≤ word.length + 4 := by
    intro a ha
    have := length_le_flatten merged a ha
    rw [mergeLoop_join cm _ _ _ hm, tokenize_word_join, List.length_append] at this
    exact this
  refine ⟨merged, hm, s1, ?_, ?_⟩
  · intro fuel
    unfold bpeSymbols
    rw [hm]
    simp only
    split
    · exact s1 fuel
    · intro e
      cases e
  · intro fuel hf
    obtain ⟨out, hout⟩ := s2 fuel (fun a ha => le_trans (hlen a ha) hf)
    refine ⟨out, hout, ?_⟩
    intro hv
    unfold bpeSymbols
    rw [hm]
    simp only
    rw [if_pos (List.length_pos.2 hv)]
    exact hout

/-- An instance: the corpus of the single word `low` with its two rules, the
vocabulary of scenario 3, and the word `lowest`. -/
theorem decomposition_safe_example :
    ∃ merged, mergeLoop codesLow (tokenize_word (asc "lowest")).length
        (tokenize_word (asc "lowest")) = .ok merged ∧
      (∀ fuel, limitVocab fuel reversedLow vocabLow merged ≠ .error Err.assertion) ∧
      (∀ fuel, bpeSymbols fuel (tokenize_word (asc "lowest")) codesLow reversedLow
        vocabLow ≠ .error Err.assertion) ∧
      ∀ fuel, (asc "lowest").length + 4 ≤ fuel →
        ∃ out, limitVocab fuel reversedLow vocabLow merged = .ok out ∧
          (vocabLow ≠ [] → bpeSymbols fuel (tokenize_word (asc "lowest")) codesLow
            reversedLow vocabLow = .ok out) :=
  decomposition_safe 2 (getvocabs (asc "low")) rulesLow codesLow reversedLow vocabLow
    (asc "lowest") (by decide) (by decide) (by decide) (by rfl) (by decide) (by decide)

/-- C23 (the failing input): the learner returns the rules `(l, o)`,
`(lo, w</w>)` for the corpus of the single word `low` and `k = 2`, and
`readCodes` reads the codes and reversed maps of scenario 3 from their codes
file.  The word of the three bytes `a`, NUL, `b`, each a code point of its own,
becomes the single symbol `a NUL b </w>`, because the tokenization stops at the
NUL byte; the reversed map does not hold that symbol, and without its last four
bytes it has three bytes that are not continuation bytes.  With the vocabulary
of scenario 3, which is not empty, `assert(count == 1)` of `decompose` fails at
every depth allowed, and `process_bpe` does not return. -/
theorem decomposition_fails :
    _learnbpe 2 (getvocabs (asc "low")) = .ok rulesLow ∧
    readCodes (codesFile rulesLow) = .ok (codesLow, reversedLow) ∧
    tokenize_word [97, 0, 98] = [[97, 0, 98, 60, 47, 119, 62]] ∧
    Map.find? reversedLow [97, 0, 98, 60, 47, 119, 62] = none ∧
    Map.contains vocabLow (stripEnd [97, 0, 98, 60, 47, 119, 62]) = false ∧
    countLead (stripEnd [97, 0, 98, 60, 47, 119, 62]) = 3 ∧
    (∀ fuel, bpeSymbols (fuel + 1) (tokenize_word [97, 0, 98]) codesLow reversedLow
      vocabLow = .error Err.assertion) ∧
    ∀ fuel, process_bpe (fuel + 1) (tokenize_word [97, 0, 98]) codesLow reversedLow
      vocabLow = .error Err.assertion :=
  ⟨by decide, by rfl, by decide, by decide, by decide, by decide, fun _ => rfl, fun _ => rfl⟩

end PyBPE
